import Mathlib

/-!
Lua lexer and parser: a shallow embedding of `Benchmark.cpp`.

The tokenizer `Lexer` and the recursive-descent parser `Parse` of the C++ source are
rendered here as Lean functions.

Conventions of the embedding.

* The source buffer is a list of `Char`, one element per `char` of the C++ buffer.  Every
  branch of the lexer compares a byte with an ASCII constant or tests `(unsigned char)c <= 0x20`,
  so an element above `0x7F` takes the branches of a high byte.
* A `string_view` made by `sv(data + start, length)` is kept as the viewed characters together with
  the offset `start`.  `std::string::data()` is followed by a terminating NUL, which is
  why `slice` reads from the buffer extended by one NUL.
* `int` cursors, lines and counters are natural numbers: the embedding covers buffers and
  token vectors of fewer than `2^31` elements.
* Every `while` of the source is an application of `loop`, which runs a step function a bounded
  number of times and answers `Fault.fuel` when the bound is used up.  That fault therefore
  stands for a loop that does not stop within its bound; the totality theorems show that it
  never happens.
* The named child slots `unordered_map<string, vector<AST>>` are an association list in order of
  first insertion.
-/

namespace LuaParser

/-! ## Types -/

/-- Token kinds, in the order of `enum class TokenType`. -/
inductive TokenType
  | LEFT_PAREN | RIGHT_PAREN | LEFT_BRACE | RIGHT_BRACE | LEFT_BRACKET | RIGHT_BRACKET
  | COMMA | DOT | SEMICOLON | COLON | PLUS | MINUS | STAR | SLASH | PERCENT | CARET | HASH
  | DOT_DOT | DOT_DOT_DOT | EQUAL | EQUAL_EQUAL | BANG_EQUAL | LESS | LESS_EQUAL | GREATER
  | GREATER_EQUAL | IDENTIFIER | NUMBER | STRING
  | AND | BREAK | DO | ELSE | ELSEIF | END | FALSE_ | FOR | FUNCTION | GOTO | IF | IN | LOCAL
  | NIL | NOT | OR | REPEAT | RETURN | THEN | TRUE_ | UNTIL | WHILE
  | END_OF_FILE
  deriving DecidableEq, Repr

/-- The `struct Token`: `text` holds the viewed characters, `start` the offset of the view in
the source buffer (`0` for the empty default view). -/
structure Token where
  type : TokenType
  text : String
  line : Nat
  start : Nat
  deriving DecidableEq, Repr

/-- What can go wrong in the embedding, and never does in the source: a loop or a recursion that
uses up its bound (`fuel`), and a read of the token vector outside its range (`range`). -/
inductive Fault
  | fuel
  | range
  deriving DecidableEq, Repr

/-- The result of a computation that may meet a `Fault`. -/
abbrev Res (α : Type) : Type := Except Fault α

/-- One round of a `while`: go round again with a new state, or leave the loop with one. -/
inductive Step (σ : Type)
  | next (s : σ)
  | done (s : σ)

/-- A `while` loop with a bound on the number of rounds: `Fault.fuel` when the bound is used
up, and the fault of a round when a round has one. -/
def loop {σ : Type} : Nat → (σ → Res (Step σ)) → σ → Res σ
  | 0, _, _ => Except.error Fault.fuel
  | n + 1, f, s =>
    match f s with
    | Except.error e => Except.error e
    | Except.ok (Step.done s') => Except.ok s'
    | Except.ok (Step.next s') => loop n f s'

/-! ## Helpers -/

def NUL : Char := Char.ofNat 0
def NL : Char := Char.ofNat 10
def DQUOTE : Char := Char.ofNat 34
def SQUOTE : Char := Char.ofNat 39
def BACKSLASH : Char := Char.ofNat 92
def LBRACE : Char := Char.ofNat 123
def RBRACE : Char := Char.ofNat 125

def is_alpha (c : Char) : Bool :=
  c == '_' || (decide ('a' ≤ c) && decide (c ≤ 'z')) || (decide ('A' ≤ c) && decide (c ≤ 'Z'))

def is_digit (c : Char) : Bool := decide ('0' ≤ c) && decide (c ≤ '9')

def is_alnum (c : Char) : Bool := is_alpha c || is_digit c

/-- The C library `isxdigit` in the "C" locale. -/
def isxdigit (c : Char) : Bool :=
  is_digit c || (decide ('a' ≤ c) && decide (c ≤ 'f')) || (decide ('A' ≤ c) && decide (c ≤ 'F'))

def keywordTypeFast (w : String) : TokenType :=
  match w.data with
  | [] => TokenType.IDENTIFIER
  | c :: _ =>
    if c == 'a' then
      if w == "and" then TokenType.AND else TokenType.IDENTIFIER
    else if c == 'b' then
      if w == "break" then TokenType.BREAK else TokenType.IDENTIFIER
    else if c == 'd' then
      if w == "do" then TokenType.DO else TokenType.IDENTIFIER
    else if c == 'e' then
      if w == "else" then TokenType.ELSE
      else if w == "elseif" then TokenType.ELSEIF
      else if w == "end" then TokenType.END
      else TokenType.IDENTIFIER
    else if c == 'f' then
      if w == "false" then TokenType.FALSE_
      else if w == "for" then TokenType.FOR
      else if w == "function" then TokenType.FUNCTION
      else TokenType.IDENTIFIER
    else if c == 'g' then
      if w == "goto" then TokenType.GOTO else TokenType.IDENTIFIER
    else if c == 'i' then
      if w == "if" then TokenType.IF
      else if w == "in" then TokenType.IN
      else TokenType.IDENTIFIER
    else if c == 'l' then
      if w == "local" then TokenType.LOCAL else TokenType.IDENTIFIER
    else if c == 'n' then
      if w == "nil" then TokenType.NIL
      else if w == "not" then TokenType.NOT
      else TokenType.IDENTIFIER
    else if c == 'o' then
      if w == "or" then TokenType.OR else TokenType.IDENTIFIER
    else if c == 'r' then
      if w == "repeat" then TokenType.REPEAT
      else if w == "return" then TokenType.RETURN
      else TokenType.IDENTIFIER
    else if c == 't' then
      if w == "then" then TokenType.THEN
      else if w == "true" then TokenType.TRUE_
      else TokenType.IDENTIFIER
    else if c == 'u' then
      if w == "until" then TokenType.UNTIL else TokenType.IDENTIFIER
    else if c == 'w' then
      if w == "while" then TokenType.WHILE else TokenType.IDENTIFIER
    else TokenType.IDENTIFIER

/-! ## Lexer -/

/-- The characters of `sv(data + start, length)`; the buffer is followed by its terminating
NUL. -/
def slice (data : List Char) (start length : Nat) : String :=
  String.mk (((data ++ [NUL]).drop start).take length)

/-- The lambda `peek` of `Lexer`: the character at `idx + off`, NUL past the end. -/
def peek (data : List Char) (idx : Nat) (off : Nat) : Char :=
  if idx + off < data.length then data.getD (idx + off) NUL else NUL

/-- The variables of `Lexer` that change: the cursor, the line counter, the tokens so far. -/
structure LexState where
  idx : Nat
  line : Nat
  tokens : List Token

/-- The lambda `pushTok` of `Lexer`. -/
def pushTok (data : List Char) (st : LexState) (ttype : TokenType) (start length : Nat) :
    LexState :=
  { st with tokens := st.tokens ++ [Token.mk ttype (slice data start length) st.line start] }

/-- One round of the loop `while (idx < Len && p(data[idx])) ++idx;`. -/
def scanStep (data : List Char) (p : Char → Bool) (i : Nat) : Res (Step Nat) :=
  if i < data.length && p (data.getD i NUL) then pure (Step.next (i + 1))
  else pure (Step.done i)

/-- The loop `while (idx < Len && p(data[idx])) ++idx;`, giving the final `idx`. -/
def scanWhile (data : List Char) (p : Char → Bool) (idx : Nat) : Res Nat :=
  loop (data.length + 1) (scanStep data p) idx

/-- One round of the loop `while (check < Len && data[check] == '=') { ++eqs; ++check; }` on
the pair `(check, eqs)`. -/
def equalsStep (data : List Char) (s : Nat × Nat) : Res (Step (Nat × Nat)) :=
  if s.1 < data.length && data.getD s.1 NUL == '=' then pure (Step.next (s.1 + 1, s.2 + 1))
  else pure (Step.done s)

/-- The loop `while (check < Len && data[check] == '=') { ++eqs; ++check; }` on the pair
`(check, eqs)`. -/
def countEquals (data : List Char) (check eqs : Nat) : Res (Nat × Nat) :=
  loop (data.length + 1) (equalsStep data) (check, eqs)

/-- The state of the scan of a long bracket body: the lexer state and the flag `closed`. -/
structure LongState where
  st : LexState
  closed : Bool

/-- One round of the loop `while (idx < Len)` inside `case '['`. -/
def longBracketStep (data : List Char) (isComment : Bool) (start eqs : Nat) (s : LongState) :
    Res (Step LongState) :=
  if s.st.idx < data.length then
    let tail : LongState :=
      { s with st := { s.st with
          line := if data.getD s.st.idx NUL == NL then s.st.line + 1 else s.st.line,
          idx := s.st.idx + 1 } }
    if data.getD s.st.idx NUL == ']' then do
      let (closing, eqCount) ← countEquals data (s.st.idx + 1) 0
      if closing < data.length && data.getD closing NUL == ']' && eqCount == eqs then
        let st1 := if !isComment then pushTok data s.st TokenType.STRING start (s.st.idx - start)
                   else s.st
        pure (Step.done { st := { st1 with idx := closing + 1 }, closed := true })
      else pure (Step.next tail)
    else pure (Step.next tail)
  else pure (Step.done s)

/-- The statements after the loop of a long bracket: `if (!closed) { if (!isComment)
pushTok(TokenType::STRING, start, idx - start); }`. -/
def longBracketEnd (data : List Char) (isComment : Bool) (start : Nat) (s : LongState) :
    LexState :=
  if !s.closed then
    if !isComment then pushTok data s.st TokenType.STRING start (s.st.idx - start) else s.st
  else s.st

/-- The body of `case '['`. -/
def lexBracket (data : List Char) (st : LexState) : Res LexState :=
  let plain : Res LexState :=
    pure { pushTok data st TokenType.LEFT_BRACKET st.idx 1 with idx := st.idx + 1 }
  if peek data st.idx 1 == '[' || peek data st.idx 1 == '=' then do
    let (check, eqs) ← countEquals data (st.idx + 1) 0
    if check < data.length && data.getD check NUL == '[' then
      let isComment : Bool :=
        decide (st.idx ≥ 2) && data.getD (st.idx - 2) NUL == '-' &&
          data.getD (st.idx - 1) NUL == '-'
      let s ← loop (data.length + 1) (longBracketStep data isComment (check + 1) eqs)
        { st := { st with idx := check + 1 }, closed := false }
      pure (longBracketEnd data isComment (check + 1) s)
    else plain
  else plain

/-- The body of `case '<'`, also entered by fall-through from `case '~'`. -/
def lexLess (data : List Char) (st : LexState) : LexState :=
  if peek data st.idx 1 == '=' then
    { pushTok data st TokenType.LESS_EQUAL st.idx 2 with idx := st.idx + 2 }
  else
    { pushTok data st TokenType.LESS st.idx 1 with idx := st.idx + 1 }

/-- One round of the loop `while (idx < Len && data[idx] != q)` of a quoted string. -/
def quotedStep (data : List Char) (q : Char) (s : LexState) : Res (Step LexState) :=
  if s.idx < data.length && data.getD s.idx NUL != q then
    let line := if data.getD s.idx NUL == NL then s.line + 1 else s.line
    if data.getD s.idx NUL == BACKSLASH && decide (s.idx + 1 < data.length) then
      pure (Step.next { s with line := line, idx := s.idx + 2 })
    else pure (Step.next { s with line := line, idx := s.idx + 1 })
  else pure (Step.done s)

/-- The statements after the loop of a quoted string, with `start` the offset after the opening
quote: `pushTok(TokenType::STRING, start, idx - start); if (idx < Len && data[idx] == q)
++idx;`. -/
def quotedEnd (data : List Char) (q : Char) (start : Nat) (s : LexState) : LexState :=
  let s1 := pushTok data s TokenType.STRING start (s.idx - start)
  if s1.idx < data.length && data.getD s1.idx NUL == q then { s1 with idx := s1.idx + 1 }
  else s1

/-- The body of `case '"'` and `case '\''` with `q` the opening quote. -/
def lexQuoted (data : List Char) (st : LexState) (q : Char) : Res LexState := do
  let s ← loop (data.length + 1) (quotedStep data q) { st with idx := st.idx + 1 }
  pure (quotedEnd data q (st.idx + 1) s)

/-- The statement `if (peek() == '+' || peek() == '-') ++idx;` of the number rule. -/
def skipSign (data : List Char) (i : Nat) : Nat :=
  if peek data i 0 == '+' || peek data i 0 == '-' then i + 1 else i

/-- The exponent of a hexadecimal number: `if (idx < Len && (data[idx] == 'p' || data[idx] ==
'P')) { ++idx; if (peek() == '+' || peek() == '-') ++idx; while (idx < Len &&
is_digit(data[idx])) ++idx; }`. -/
def hexExponent (data : List Char) (i : Nat) : Res Nat :=
  if i < data.length && (data.getD i NUL == 'p' || data.getD i NUL == 'P') then
    scanWhile data is_digit (skipSign data (i + 1))
  else pure i

/-- The exponent of a decimal number: `if (peek() == 'e' || peek() == 'E') { ++idx; if (peek()
== '+' || peek() == '-') ++idx; while (idx < Len && is_digit(data[idx])) ++idx; }`. -/
def decExponent (data : List Char) (i : Nat) : Res Nat :=
  if peek data i 0 == 'e' || peek data i 0 == 'E' then
    scanWhile data is_digit (skipSign data (i + 1))
  else pure i

/-- The fraction of a decimal number: `if (peek() == '.') { ++idx; while (idx < Len &&
is_digit(data[idx])) ++idx; }`. -/
def lexFraction (data : List Char) (i : Nat) : Res Nat :=
  if peek data i 0 == '.' then scanWhile data is_digit (i + 1) else pure i

/-- The number rule of `Lexer`, entered with `c = data[idx]`. -/
def lexNumber (data : List Char) (st : LexState) (c : Char) : Res LexState := do
  let last ←
    (if c == '0' && (peek data st.idx 1 == 'x' || peek data st.idx 1 == 'X') then do
      let i ← scanWhile data (fun d => isxdigit d || d == '.') (st.idx + 2)
      hexExponent data i
    else do
      let i ← scanWhile data is_digit st.idx
      let j ← lexFraction data i
      decExponent data j : Res Nat)
  pure { pushTok data st TokenType.NUMBER st.idx (last - st.idx) with idx := last }

/-- One round of the main loop `while (idx < Len)` of `Lexer`. -/
def lexStep (data : List Char) (st : LexState) : Res (Step LexState) :=
  if st.idx < data.length then
    let c := data.getD st.idx NUL
    let one (t : TokenType) : Res (Step LexState) :=
      Except.ok (Step.next { pushTok data st t st.idx 1 with idx := st.idx + 1 })
    if c == NL then Except.ok (Step.next { st with line := st.line + 1, idx := st.idx + 1 })
    else if c.toNat ≤ 0x20 then Except.ok (Step.next { st with idx := st.idx + 1 })
    else if c == '(' then one TokenType.LEFT_PAREN
    else if c == ')' then one TokenType.RIGHT_PAREN
    else if c == LBRACE then one TokenType.LEFT_BRACE
    else if c == RBRACE then one TokenType.RIGHT_BRACE
    else if c == '[' then (lexBracket data st).map Step.next
    else if c == ']' then one TokenType.RIGHT_BRACKET
    else if c == ',' then one TokenType.COMMA
    else if c == ';' then one TokenType.SEMICOLON
    else if c == '+' then one TokenType.PLUS
    else if c == '*' then one TokenType.STAR
    else if c == '/' then one TokenType.SLASH
    else if c == ':' then one TokenType.COLON
    else if c == '%' then one TokenType.PERCENT
    else if c == '^' then one TokenType.CARET
    else if c == '#' then one TokenType.HASH
    else if c == '.' then
      if peek data st.idx 1 == '.' && peek data st.idx 2 == '.' then
        Except.ok (Step.next { pushTok data st TokenType.DOT_DOT_DOT st.idx 3 with idx := st.idx + 3 })
      else if peek data st.idx 1 == '.' then
        Except.ok (Step.next { pushTok data st TokenType.DOT_DOT st.idx 2 with idx := st.idx + 2 })
      else one TokenType.DOT
    else if c == '-' then
      if peek data st.idx 1 == '-' then
        if peek data (st.idx + 2) 0 == '[' then Except.ok (Step.next { st with idx := st.idx + 2 })
        else
          (scanWhile data (fun d => d != NL) (st.idx + 2)).map
            (fun i => Step.next { st with idx := i })
      else one TokenType.MINUS
    else if c == '=' then
      if peek data st.idx 1 == '=' then
        Except.ok (Step.next { pushTok data st TokenType.EQUAL_EQUAL st.idx 2 with idx := st.idx + 2 })
      else one TokenType.EQUAL
    else if c == '~' then
      if peek data st.idx 1 == '=' then
        -- no `continue` here: control falls through into `case '<'`
        Except.ok (Step.next
          (lexLess data { pushTok data st TokenType.BANG_EQUAL st.idx 2 with idx := st.idx + 2 }))
      else Except.ok (Step.next { st with idx := st.idx + 1 })
    else if c == '<' then Except.ok (Step.next (lexLess data st))
    else if c == '>' then
      if peek data st.idx 1 == '=' then
        Except.ok (Step.next
          { pushTok data st TokenType.GREATER_EQUAL st.idx 2 with idx := st.idx + 2 })
      else one TokenType.GREATER
    else if c == DQUOTE || c == SQUOTE then (lexQuoted data st c).map Step.next
    else if is_digit c || (c == '.' && is_digit (peek data st.idx 1)) then
      (lexNumber data st c).map Step.next
    else if is_alpha c then
      (scanWhile data is_alnum (st.idx + 1)).map
        (fun i =>
          Step.next
            { pushTok data st (keywordTypeFast (slice data st.idx (i - st.idx))) st.idx
                (i - st.idx) with idx := i })
    else Except.ok (Step.next { st with idx := st.idx + 1 })
  else Except.ok (Step.done st)

/-- The function `Lexer`: the tokens of `Code`, closed by the END_OF_FILE token. -/
def Lexer (Code : String) : Res (List Token) :=
  match loop (Code.data.length + 1) (lexStep Code.data) { idx := 0, line := 1, tokens := [] } with
  | Except.error e => Except.error e
  | Except.ok st => Except.ok (st.tokens ++ [Token.mk TokenType.END_OF_FILE "" st.line 0])

/-! ## Syntax tree -/

/-- Node kinds, in the order of `enum class ASTType`. -/
inductive ASTType
  | Chunk | Block | LocalStatement | AssignmentStatement | FunctionDeclaration
  | FunctionExpression | IfStatement | IfClause | ElseifClause | ElseClause | WhileStatement
  | RepeatStatement | ForNumericStatement | ForGenericStatement | ReturnStatement
  | BreakStatement | DoStatement | GotoStatement | LabelStatement | CallStatement
  | BinaryExpression | UnaryExpression | LogicalExpression | CallExpression | IndexExpression
  | MemberExpression | TableConstructorExpression | TableValue | TableKey | TableKeyString
  | Identifier | NumericLiteral | StringLiteral | BooleanLiteral | NilLiteral | VarargLiteral
  | VariableAttribute
  deriving DecidableEq, Repr

/-- The `struct AST`: kind, text, line and the named slots with their child nodes. -/
inductive AST
  | mk (type : ASTType) (text : String) (line : Nat) (children : List (String × List AST))

namespace AST

def type : AST → ASTType
  | mk t _ _ _ => t

def text : AST → String
  | mk _ s _ _ => s

def line : AST → Nat
  | mk _ _ l _ => l

def children : AST → List (String × List AST)
  | mk _ _ _ cs => cs

end AST

/-- The map operation `m[k].push_back(x)`: the slot is created when it is absent. -/
def slotPush (cs : List (String × List AST)) (k : String) (x : AST) :
    List (String × List AST) :=
  match cs with
  | [] => [(k, [x])]
  | (k', v) :: rest => if k' == k then (k', v ++ [x]) :: rest else (k', v) :: slotPush rest k x

/-- The map operation `m[k] = v`. -/
def slotSet (cs : List (String × List AST)) (k : String) (v : List AST) :
    List (String × List AST) :=
  match cs with
  | [] => [(k, v)]
  | (k', w) :: rest => if k' == k then (k', v) :: rest else (k', w) :: slotSet rest k v

/-- The statement `a.children[k].push_back(x)`. -/
def AST.push (a : AST) (k : String) (x : AST) : AST :=
  AST.mk a.type a.text a.line (slotPush a.children k x)

/-- The statement `a.children[k] = v`. -/
def AST.assign (a : AST) (k : String) (v : List AST) : AST :=
  AST.mk a.type a.text a.line (slotSet a.children k v)

/-- The statement `if (!v.empty()) a.children[k] = v`. -/
def AST.assignNonEmpty (a : AST) (k : String) (v : List AST) : AST :=
  if v.isEmpty then a else a.assign k v

/-- The children of slot `k`, `none` when the node has no such slot. -/
def AST.slot (a : AST) (k : String) : Option (List AST) :=
  (a.children.find? (fun p => p.1 == k)).map Prod.snd

def makeLeaf (t : ASTType) (txt : String) (line : Nat) : AST := AST.mk t txt line []

/-! ## Parser -/

def precedenceOf (t : Token) : Nat :=
  match t.type with
  | TokenType.OR => 1
  | TokenType.AND => 2
  | TokenType.LESS => 3
  | TokenType.LESS_EQUAL => 3
  | TokenType.GREATER => 3
  | TokenType.GREATER_EQUAL => 3
  | TokenType.EQUAL_EQUAL => 3
  | TokenType.BANG_EQUAL => 3
  | TokenType.DOT_DOT => 4
  | TokenType.PLUS => 5
  | TokenType.MINUS => 5
  | TokenType.STAR => 6
  | TokenType.SLASH => 6
  | TokenType.PERCENT => 6
  | TokenType.CARET => 8
  | _ => 0

def isRightAssociative (t : Token) : Bool :=
  t.type == TokenType.CARET || t.type == TokenType.DOT_DOT

/-- The read `Tokens[i]`; outside the range of the vector it is the fault `range`. -/
def tokAt (Tokens : List Token) (i : Nat) : Res Token :=
  match Tokens.get? i with
  | some t => Except.ok t
  | none => Except.error Fault.range

/-- The test `Index < (int)Tokens.size() && Tokens[Index].type == ty`. -/
def typeIs (Tokens : List Token) (Index : Nat) (ty : TokenType) : Res Bool :=
  if Index < Tokens.length then (tokAt Tokens Index).map (fun t => t.type == ty)
  else Except.ok false

/-- The statement `if (Index < (int)Tokens.size() && Tokens[Index].type == ty) ++Index;`. -/
def accept (Tokens : List Token) (Index : Nat) (ty : TokenType) : Res Nat :=
  (typeIs Tokens Index ty).map (fun b => if b then Index + 1 else Index)

/-- The test `Index < (int)Tokens.size() && Tokens[Index].type` is none of `stop`. -/
def typeIsNot (Tokens : List Token) (Index : Nat) (stop : List TokenType) : Res Bool :=
  if Index < Tokens.length then (tokAt Tokens Index).map (fun t => !stop.contains t.type)
  else Except.ok false

/-- The expression parser behind the forward declaration `parseExpressionForwardDecl`, on a
fixed token vector: from a cursor to a node and the cursor after it. -/
abbrev PE : Type := Nat → Res (AST × Nat)

/-- One round of the parameter loop `while (... != RIGHT_PAREN)` of a function, on the pair
`(params, Index)`; the loop is written out twice in the source, in `parsePrimary` and in
`Parse`. -/
def paramStep (Tokens : List Token) (s : List AST × Nat) : Res (Step (List AST × Nat)) := do
  if (← typeIsNot Tokens s.2 [TokenType.RIGHT_PAREN]) then
    let t ← tokAt Tokens s.2
    if t.type == TokenType.IDENTIFIER then
      let i ← accept Tokens (s.2 + 1) TokenType.COMMA
      pure (Step.next (s.1 ++ [makeLeaf ASTType.Identifier t.text t.line], i))
    else pure (Step.next (s.1, s.2 + 1))
  else pure (Step.done s)

/-- One round of the body loop of `case TokenType::FUNCTION` in `parsePrimary`. -/
def fnExprBodyStep (pe : PE) (Tokens : List Token) (s : List AST × Nat) :
    Res (Step (List AST × Nat)) := do
  if (← typeIsNot Tokens s.2 [TokenType.END]) then
    let t ← tokAt Tokens s.2
    if t.type == TokenType.RETURN then
      let (ev, i1) ← pe (s.2 + 1)
      let ret := (makeLeaf ASTType.ReturnStatement "return" t.line).push "values" ev
      let i2 ← accept Tokens i1 TokenType.SEMICOLON
      pure (Step.next (s.1 ++ [ret], i2))
    else
      let (ev, i1) ← pe s.2
      let i2 ← accept Tokens i1 TokenType.SEMICOLON
      pure (Step.next (s.1 ++ [ev], i2))
  else pure (Step.done s)

/-- One round of the element loop of `case TokenType::LEFT_BRACE` in `parsePrimary`. -/
def tableStep (pe : PE) (Tokens : List Token) (s : List AST × Nat) :
    Res (Step (List AST × Nat)) := do
  if (← typeIsNot Tokens s.2 [TokenType.RIGHT_BRACE]) then
    let (val, i1) ← pe s.2
    let tv := (makeLeaf ASTType.TableValue "" val.line).push "value" val
    if (← typeIs Tokens i1 TokenType.COMMA) then pure (Step.next (s.1 ++ [tv], i1 + 1))
    else pure (Step.done (s.1 ++ [tv], i1))
  else pure (Step.done s)

def parsePrimary (pe : PE) (Tokens : List Token) (Index : Nat) : Res (AST × Nat) :=
  if Index ≥ Tokens.length then pure (makeLeaf ASTType.Identifier "<?>" 0, Index)
  else do
    let tk ← tokAt Tokens Index
    match tk.type with
    | TokenType.NUMBER => pure (makeLeaf ASTType.NumericLiteral tk.text tk.line, Index + 1)
    | TokenType.STRING => pure (makeLeaf ASTType.StringLiteral tk.text tk.line, Index + 1)
    | TokenType.TRUE_ => pure (makeLeaf ASTType.BooleanLiteral tk.text tk.line, Index + 1)
    | TokenType.FALSE_ => pure (makeLeaf ASTType.BooleanLiteral tk.text tk.line, Index + 1)
    | TokenType.NIL => pure (makeLeaf ASTType.NilLiteral "nil" tk.line, Index + 1)
    | TokenType.IDENTIFIER => pure (makeLeaf ASTType.Identifier tk.text tk.line, Index + 1)
    | TokenType.DOT_DOT_DOT => pure (makeLeaf ASTType.VarargLiteral "..." tk.line, Index + 1)
    | TokenType.LEFT_PAREN =>
      let (inner, i1) ← pe (Index + 1)
      let i2 ← accept Tokens i1 TokenType.RIGHT_PAREN
      pure (inner, i2)
    | TokenType.LEFT_BRACE =>
      let (elements, i1) ← loop (Tokens.length + 1) (tableStep pe Tokens) ([], Index + 1)
      let i2 ← accept Tokens i1 TokenType.RIGHT_BRACE
      let table := (makeLeaf ASTType.TableConstructorExpression "" tk.line).assign "fields" elements
      pure (table, i2)
    | TokenType.FUNCTION =>
      if (← typeIs Tokens (Index + 1) TokenType.LEFT_PAREN) then
        let (params, i1) ← loop (Tokens.length + 1) (paramStep Tokens) ([], Index + 2)
        let i2 ← accept Tokens i1 TokenType.RIGHT_PAREN
        let (body, i3) ← loop (Tokens.length + 1) (fnExprBodyStep pe Tokens) ([], i2)
        let i4 ← accept Tokens i3 TokenType.END
        let blk := (makeLeaf ASTType.Block "body" tk.line).assign "statements" body
        let fn := ((makeLeaf ASTType.FunctionExpression "" tk.line).push "body" blk).assignNonEmpty
          "params" params
        pure (fn, i4)
      else pure (makeLeaf ASTType.FunctionExpression "" tk.line, Index + 1)
    | _ => pure (makeLeaf ASTType.Identifier "?" tk.line, Index + 1)

/-- One round of the argument loop of a call suffix in `parseSuffixed`. -/
def argStep (pe : PE) (Tokens : List Token) (s : List AST × Nat) :
    Res (Step (List AST × Nat)) := do
  if (← typeIsNot Tokens s.2 [TokenType.RIGHT_PAREN]) then
    let (a, i1) ← pe s.2
    if (← typeIs Tokens i1 TokenType.COMMA) then pure (Step.next (s.1 ++ [a], i1 + 1))
    else pure (Step.done (s.1 ++ [a], i1))
  else pure (Step.done s)

/-- One round of the suffix loop `while (Index < (int)Tokens.size())` of `parseSuffixed`, on
the pair `(expr, Index)`. -/
def suffixStep (pe : PE) (Tokens : List Token) (s : AST × Nat) : Res (Step (AST × Nat)) :=
  if s.2 < Tokens.length then do
    let t ← tokAt Tokens s.2
    if t.type == TokenType.DOT then
      if (← typeIs Tokens (s.2 + 1) TokenType.IDENTIFIER) then
        let m ← tokAt Tokens (s.2 + 1)
        let member := makeLeaf ASTType.Identifier m.text m.line
        let node := ((makeLeaf ASTType.MemberExpression "." t.line).push "object" s.1).push
          "property" member
        pure (Step.next (node, s.2 + 2))
      else pure (Step.done (s.1, s.2 + 1))
    else if t.type == TokenType.LEFT_BRACKET then
      let (key, i1) ← pe (s.2 + 1)
      let i2 ← accept Tokens i1 TokenType.RIGHT_BRACKET
      let node := ((makeLeaf ASTType.IndexExpression "[]" t.line).push "object" s.1).push
        "index" key
      pure (Step.next (node, i2))
    else if t.type == TokenType.LEFT_PAREN then
      let (args, i1) ← loop (Tokens.length + 1) (argStep pe Tokens) ([], s.2 + 1)
      let i2 ← accept Tokens i1 TokenType.RIGHT_PAREN
      let node := ((makeLeaf ASTType.CallExpression "call" t.line).push "callee" s.1).assignNonEmpty
        "arguments" args
      pure (Step.next (node, i2))
    else pure (Step.done s)
  else pure (Step.done s)

def parseSuffixed (pe : PE) (Tokens : List Token) (Index : Nat) : Res (AST × Nat) := do
  let r ← parsePrimary pe Tokens Index
  loop (Tokens.length + 1) (suffixStep pe Tokens) r

/-- One round of the operator loop `while (Index < (int)Tokens.size())` of `parseBinary`, on the
pair `(left, Index)`; `rhs i nextMin` is the recursive call `parseBinary(Tokens, i, nextMin)`. -/
def binaryStep (rhs : Nat → Nat → Res (AST × Nat)) (Tokens : List Token) (minPrec : Nat)
    (s : AST × Nat) : Res (Step (AST × Nat)) :=
  if s.2 < Tokens.length then do
    let op ← tokAt Tokens s.2
    let prec := precedenceOf op
    if prec == 0 || decide (prec < minPrec) then pure (Step.done s)
    else
      let nextMin := prec + (if isRightAssociative op then 0 else 1)
      let (right, i1) ← rhs (s.2 + 1) nextMin
      let bin := ((makeLeaf ASTType.BinaryExpression op.text op.line).push "left" s.1).push
        "right" right
      pure (Step.next (bin, i1))
  else pure (Step.done s)

/-- The function `parseBinary`; the first argument bounds the depth of the recursion. -/
def parseBinary : Nat → List Token → Nat → Nat → Res (AST × Nat)
  | 0, _, _, _ => Except.error Fault.fuel
  | fuel + 1, Tokens, Index, minPrec =>
    if Index ≥ Tokens.length then pure (makeLeaf ASTType.Identifier "<?>" 0, Index)
    else do
      let t ← tokAt Tokens Index
      if t.type == TokenType.MINUS || t.type == TokenType.NOT || t.type == TokenType.HASH then
        let (right, i1) ← parseBinary fuel Tokens (Index + 1) 9
        let un := (makeLeaf ASTType.UnaryExpression t.text t.line).push "argument" right
        pure (un, i1)
      else
        let r ← parseSuffixed (fun i => parseBinary fuel Tokens i 1) Tokens Index
        loop (Tokens.length + 1)
          (binaryStep (fun i nextMin => parseBinary fuel Tokens i nextMin) Tokens minPrec) r

/-- The function `parseExpressionForwardDecl`.  Every nested call of `parseBinary` starts at a
later token than the call around it, so a depth of `Tokens.size() + 1` is never used up. -/
def parseExpressionForwardDecl (Tokens : List Token) (Index : Nat) : Res (AST × Nat) :=
  parseBinary (Tokens.length + 1) Tokens Index 1

/-- One round of the loop `while (... == COMMA)` of `parseExpressionList`. -/
def exprListStep (Tokens : List Token) (s : List AST × Nat) : Res (Step (List AST × Nat)) := do
  if (← typeIs Tokens s.2 TokenType.COMMA) then
    let (e, i1) ← parseExpressionForwardDecl Tokens (s.2 + 1)
    pure (Step.next (s.1 ++ [e], i1))
  else pure (Step.done s)

def parseExpressionList (Tokens : List Token) (Index : Nat) : Res (List AST × Nat) :=
  if Index ≥ Tokens.length then pure ([], Index)
  else do
    let (e, i1) ← parseExpressionForwardDecl Tokens Index
    loop (Tokens.length + 1) (exprListStep Tokens) ([e], i1)

/-- One round of the variable loop `while (... == IDENTIFIER)` on the pair `(vars, Index)`;
the loop is written out twice in `Parse`, for `local` and for an assignment. -/
def varStep (Tokens : List Token) (s : List AST × Nat) : Res (Step (List AST × Nat)) := do
  if (← typeIs Tokens s.2 TokenType.IDENTIFIER) then
    let t ← tokAt Tokens s.2
    let vars := s.1 ++ [makeLeaf ASTType.Identifier t.text t.line]
    if (← typeIs Tokens (s.2 + 1) TokenType.COMMA) then pure (Step.next (vars, s.2 + 2))
    else pure (Step.done (vars, s.2 + 1))
  else pure (Step.done s)

/-- The statements `vector<AST> vals; if (Index < size && Tokens[Index].type == EQUAL) { ++Index;
vals = parseExpressionList(Tokens, Index); }` of `case TokenType::LOCAL`. -/
def localValues (Tokens : List Token) (Index : Nat) : Res (List AST × Nat) := do
  if (← typeIs Tokens Index TokenType.EQUAL) then parseExpressionList Tokens (Index + 1)
  else pure ([], Index)

/-- The body of `case TokenType::LOCAL` of `Parse`: the node pushed on the chunk and the cursor
after it. -/
def parseLocal (Tokens : List Token) (Index : Nat) : Res (AST × Nat) := do
  let t ← tokAt Tokens Index
  let (vars, i1) ← loop (Tokens.length + 1) (varStep Tokens) ([], Index + 1)
  let (vals, i2) ← localValues Tokens i1
  let node := ((makeLeaf ASTType.LocalStatement "local" t.line).assignNonEmpty "variables"
    vars).assignNonEmpty "values" vals
  pure (node, i2)

/-- The statements `vals` of a `return`: `if (Index < size && Tokens[Index].type != SEMICOLON)
vals = parseExpressionList(Tokens, Index);`. -/
def returnValues (Tokens : List Token) (Index : Nat) : Res (List AST × Nat) := do
  if (← typeIsNot Tokens Index [TokenType.SEMICOLON]) then parseExpressionList Tokens Index
  else pure ([], Index)

/-- The body of `case TokenType::RETURN` of `Parse`. -/
def parseReturn (Tokens : List Token) (Index : Nat) : Res (AST × Nat) := do
  let t ← tokAt Tokens Index
  let (vals, i1) ← returnValues Tokens (Index + 1)
  let node := (makeLeaf ASTType.ReturnStatement "return" t.line).assignNonEmpty "values" vals
  let i2 ← accept Tokens i1 TokenType.SEMICOLON
  pure (node, i2)

/-- One round of a block loop of `case TokenType::IF`, which stops in front of a token of one
of the kinds `stop` and ends with `if (Index >= (int)Tokens.size()) break;`. -/
def blockStep (Tokens : List Token) (stop : List TokenType) (s : List AST × Nat) :
    Res (Step (List AST × Nat)) := do
  if (← typeIsNot Tokens s.2 stop) then
    let (node, i1) ← parseExpressionForwardDecl Tokens s.2
    let i2 ← accept Tokens i1 TokenType.SEMICOLON
    if i2 ≥ Tokens.length then pure (Step.done (s.1 ++ [node], i2))
    else pure (Step.next (s.1 ++ [node], i2))
  else pure (Step.done s)

/-- One round of the loop `while (... == ELSEIF)` of `case TokenType::IF`, on the pair
`(clauses, Index)`. -/
def elseifStep (Tokens : List Token) (s : List AST × Nat) : Res (Step (List AST × Nat)) := do
  if (← typeIs Tokens s.2 TokenType.ELSEIF) then
    let t ← tokAt Tokens s.2
    let (elifCond, i1) ← parseExpressionForwardDecl Tokens (s.2 + 1)
    let i2 ← accept Tokens i1 TokenType.THEN
    let (elifBlock, i3) ← loop (Tokens.length + 1)
      (blockStep Tokens [TokenType.ELSE, TokenType.ELSEIF, TokenType.END]) ([], i2)
    let elifblk := (makeLeaf ASTType.Block "elseif" t.line).assignNonEmpty "statements" elifBlock
    let elifcl := ((makeLeaf ASTType.ElseifClause "elseif" t.line).push "condition"
      elifCond).push "body" elifblk
    pure (Step.next (s.1 ++ [elifcl], i3))
  else pure (Step.done s)

/-- The statement `if (Index < size && Tokens[Index].type == ELSE) { ... }` of
`case TokenType::IF`, on the pair `(clauses, Index)`. -/
def elseClause (Tokens : List Token) (clauses : List AST) (Index : Nat) :
    Res (List AST × Nat) := do
  if (← typeIs Tokens Index TokenType.ELSE) then
    let te ← tokAt Tokens Index
    let (elseBlock, i1) ← loop (Tokens.length + 1) (blockStep Tokens [TokenType.END])
      ([], Index + 1)
    let eb := (makeLeaf ASTType.Block "else" te.line).assignNonEmpty "statements" elseBlock
    let ech := (makeLeaf ASTType.ElseClause "else" te.line).push "body" eb
    pure (clauses ++ [ech], i1)
  else pure (clauses, Index)

/-- The body of `case TokenType::IF` of `Parse`. -/
def parseIf (Tokens : List Token) (Index : Nat) : Res (AST × Nat) := do
  let t ← tokAt Tokens Index
  let (cond, i1) ← parseExpressionForwardDecl Tokens (Index + 1)
  let i2 ← accept Tokens i1 TokenType.THEN
  let (thenBlock, i3) ← loop (Tokens.length + 1)
    (blockStep Tokens [TokenType.ELSE, TokenType.ELSEIF, TokenType.END]) ([], i2)
  let thenblk := (makeLeaf ASTType.Block "then" t.line).assignNonEmpty "statements" thenBlock
  let ifcl := ((makeLeaf ASTType.IfClause "if" t.line).push "condition" cond).push "body" thenblk
  let (clauses1, i4) ← loop (Tokens.length + 1) (elseifStep Tokens) ([ifcl], i3)
  let (clauses2, i5) ← elseClause Tokens clauses1 i4
  let i7 ← accept Tokens i5 TokenType.END
  let ifnode := (makeLeaf ASTType.IfStatement "if" t.line).assignNonEmpty "clauses" clauses2
  pure (ifnode, i7)

/-- One round of the body loop of `case TokenType::WHILE`. -/
def whileBodyStep (Tokens : List Token) (s : List AST × Nat) : Res (Step (List AST × Nat)) := do
  if (← typeIsNot Tokens s.2 [TokenType.END]) then
    let (node, i1) ← parseExpressionForwardDecl Tokens s.2
    let i2 ← accept Tokens i1 TokenType.SEMICOLON
    pure (Step.next (s.1 ++ [node], i2))
  else pure (Step.done s)

/-- The body of `case TokenType::WHILE` of `Parse`. -/
def parseWhile (Tokens : List Token) (Index : Nat) : Res (AST × Nat) := do
  let t ← tokAt Tokens Index
  let (cond, i1) ← parseExpressionForwardDecl Tokens (Index + 1)
  let i2 ← accept Tokens i1 TokenType.DO
  let (body, i3) ← loop (Tokens.length + 1) (whileBodyStep Tokens) ([], i2)
  let i4 ← accept Tokens i3 TokenType.END
  let wb := (makeLeaf ASTType.Block "while_body" t.line).assignNonEmpty "statements" body
  let w := ((makeLeaf ASTType.WhileStatement "while" t.line).push "condition" cond).push "body" wb
  pure (w, i4)

/-- One round of the body loop of `case TokenType::FUNCTION` of `Parse`. -/
def fnDeclBodyStep (Tokens : List Token) (s : List AST × Nat) :
    Res (Step (List AST × Nat)) := do
  if (← typeIsNot Tokens s.2 [TokenType.END]) then
    let t ← tokAt Tokens s.2
    if t.type == TokenType.RETURN then
      let (retvals, i1) ← returnValues Tokens (s.2 + 1)
      let rt := (makeLeaf ASTType.ReturnStatement "return" t.line).assignNonEmpty "values" retvals
      let i2 ← accept Tokens i1 TokenType.SEMICOLON
      pure (Step.next (s.1 ++ [rt], i2))
    else
      let (node, i1) ← parseExpressionForwardDecl Tokens s.2
      let i2 ← accept Tokens i1 TokenType.SEMICOLON
      pure (Step.next (s.1 ++ [node], i2))
  else pure (Step.done s)

/-- The name of a function declaration: `if (Index < size && Tokens[Index].type == IDENTIFIER)
{ funcName.assign(...); ++Index; } else funcName = "<anon>";`. -/
def functionName (Tokens : List Token) (Index : Nat) : Res (String × Nat) := do
  if (← typeIs Tokens Index TokenType.IDENTIFIER) then
    let n ← tokAt Tokens Index
    pure (n.text, Index + 1)
  else pure ("<anon>", Index)

/-- The parameters of a function declaration: `if (Index < size && Tokens[Index].type ==
LEFT_PAREN) { ++Index; while ...; if (... == RIGHT_PAREN) ++Index; }`. -/
def functionParams (Tokens : List Token) (Index : Nat) : Res (List AST × Nat) := do
  if (← typeIs Tokens Index TokenType.LEFT_PAREN) then
    let (ps, j) ← loop (Tokens.length + 1) (paramStep Tokens) ([], Index + 1)
    let j' ← accept Tokens j TokenType.RIGHT_PAREN
    pure (ps, j')
  else pure ([], Index)

/-- The body of `case TokenType::FUNCTION` of `Parse`. -/
def parseFunction (Tokens : List Token) (Index : Nat) : Res (AST × Nat) := do
  let t ← tokAt Tokens Index
  let (funcName, i1) ← functionName Tokens (Index + 1)
  let (params, i2) ← functionParams Tokens i1
  let (body, i3) ← loop (Tokens.length + 1) (fnDeclBodyStep Tokens) ([], i2)
  let i4 ← accept Tokens i3 TokenType.END
  let id := makeLeaf ASTType.Identifier funcName t.line
  let blk := (makeLeaf ASTType.Block "body" t.line).assignNonEmpty "statements" body
  let fd := (((makeLeaf ASTType.FunctionDeclaration "function" t.line).push "name" id).push
    "body" blk).assignNonEmpty "params" params
  pure (fd, i4)

/-- The statements of the source that wrap an expression as a statement:
`AST ch = makeLeaf(ASTType::Chunk, sv("expr"), expr.line); ch.children["statements"]...`. -/
def exprStatement (Tokens : List Token) (Index : Nat) : Res (AST × Nat) := do
  let (expr, i1) ← parseExpressionForwardDecl Tokens Index
  pure ((makeLeaf ASTType.Chunk "expr" expr.line).push "statements" expr, i1)

/-- The statement built in `default:` of `Parse` from the token `t = Tokens[Index]`, before
the closing `if (... == SEMICOLON) ++Index;`. -/
def defaultNode (Tokens : List Token) (Index : Nat) (t : Token) : Res (AST × Nat) :=
  if t.type == TokenType.IDENTIFIER then do
    let eq ← typeIs Tokens (Index + 1) TokenType.EQUAL
    let comma ← typeIs Tokens (Index + 1) TokenType.COMMA
    if eq || comma then
      let (vars, j1) ← loop (Tokens.length + 1) (varStep Tokens) ([], Index)
      if (← typeIs Tokens j1 TokenType.EQUAL) then
        let (vals, j2) ← parseExpressionList Tokens (j1 + 1)
        let asn := ((makeLeaf ASTType.AssignmentStatement "assign" t.line).assignNonEmpty
          "variables" vars).assignNonEmpty "values" vals
        pure (asn, j2)
      else exprStatement Tokens j1
    else if (← typeIs Tokens (Index + 1) TokenType.LEFT_PAREN) then
      let (call, j1) ← parseSuffixed (parseExpressionForwardDecl Tokens) Tokens Index
      pure ((makeLeaf ASTType.CallStatement "call_stmt" t.line).push "expression" call, j1)
    else exprStatement Tokens Index
  else exprStatement Tokens Index

/-- The body of `default:` of `Parse`. -/
def parseDefault (Tokens : List Token) (Index : Nat) : Res (AST × Nat) := do
  let t ← tokAt Tokens Index
  let (node, i1) ← defaultNode Tokens Index t
  let i2 ← accept Tokens i1 TokenType.SEMICOLON
  pure (node, i2)

/-- The variables of `Parse` that change. -/
structure ParseState where
  Running : Bool
  Index : Nat
  Chunk : List AST

/-- One round of the loop `while (Running && Index < (int)Tokens.size())` of `Parse`. -/
def parseStep (Tokens : List Token) (s : ParseState) : Res (Step ParseState) :=
  if s.Running && decide (s.Index < Tokens.length) then do
    let t ← tokAt Tokens s.Index
    let push (r : Res (AST × Nat)) : Res (Step ParseState) :=
      r.map (fun p => Step.next { s with Index := p.2, Chunk := s.Chunk ++ [p.1] })
    match t.type with
    | TokenType.END_OF_FILE => pure (Step.next { s with Running := false })
    | TokenType.SEMICOLON => pure (Step.next { s with Index := s.Index + 1 })
    | TokenType.LOCAL => push (parseLocal Tokens s.Index)
    | TokenType.RETURN => push (parseReturn Tokens s.Index)
    | TokenType.IF => push (parseIf Tokens s.Index)
    | TokenType.WHILE => push (parseWhile Tokens s.Index)
    | TokenType.FUNCTION => push (parseFunction Tokens s.Index)
    | _ => push (parseDefault Tokens s.Index)
  else pure (Step.done s)

/-- The function `Parse`: the chunk of the token vector. -/
def Parse (Tokens : List Token) : Res (List AST) :=
  (loop (Tokens.length + 1) (parseStep Tokens) { Running := true, Index := 0, Chunk := [] }).map
    (fun s => s.Chunk)

/-! ## Vocabulary of the statements -/

/-- An operand of the precedence claims: an identifier or a number token. -/
def isOperand (t : Token) : Prop := t.type = TokenType.IDENTIFIER ∨ t.type = TokenType.NUMBER

/-- The leaf that stands for an operand token: `NumericLiteral` for a number, `Identifier` for
an identifier, with the text and the line of the token. -/
def operandLeaf (t : Token) : AST :=
  AST.mk (if t.type = TokenType.NUMBER then ASTType.NumericLiteral else ASTType.Identifier)
    t.text t.line []

/-- A `BinaryExpression` node for the operator token `op` with one `left` and one `right`
child. -/
def binaryNode (op : Token) (l r : AST) : AST :=
  AST.mk ASTType.BinaryExpression op.text op.line [("left", [l]), ("right", [r])]

/-- A `UnaryExpression` node for the operator token `op` with one `argument` child. -/
def unaryNode (op : Token) (x : AST) : AST :=
  AST.mk ASTType.UnaryExpression op.text op.line [("argument", [x])]

/-- The threshold `prec + (isRightAssociative(op) ? 0 : 1)` that `parseBinary` passes on for
the right operand of `op`. -/
def nextMinOf (op : Token) : Nat := precedenceOf op + (if isRightAssociative op then 0 else 1)

/-- A token that does not continue a suffix chain. -/
def nonSuffix (u : Token) : Prop :=
  u.type ≠ TokenType.DOT ∧ u.type ≠ TokenType.LEFT_BRACKET ∧ u.type ≠ TokenType.LEFT_PAREN

/-- A round of the main loop that goes on, further in the buffer. -/
def LexAdv (st : LexState) (r : Res (Step LexState)) : Prop :=
  ∃ s', r = Except.ok (Step.next s') ∧ st.idx < s'.idx

/-- The computation `r` returns, and its result satisfies `P`. -/
def Holds {β : Type} (P : β → Prop) (r : Res β) : Prop := ∃ b, r = Except.ok b ∧ P b

/-- What a round of a cursor loop promises: the cursor stays within `n`, and moves on when the
loop goes round again. -/
def StepPost {α : Type} (n : Nat) (s : α × Nat) : Step (α × Nat) → Prop
  | Step.done s' => s.2 ≤ s'.2 ∧ s'.2 ≤ n
  | Step.next s' => s.2 < s'.2 ∧ s'.2 ≤ n

/-- The cursor of the result is at most `n` and past `i`, when `i` is before `n`. -/
def Fwd {α : Type} (n i : Nat) (p : α × Nat) : Prop := min (i + 1) n ≤ p.2 ∧ p.2 ≤ n

/-- The expression parser `pe` returns with a cursor moved on, from every cursor from `k`
on. -/
def PEok (pe : PE) (n k : Nat) : Prop := ∀ i, k ≤ i → i ≤ n → Holds (Fwd n i) (pe i)

/-- The cursor of the result lies between `i` and `n`. -/
def Within {α : Type} (n i : Nat) (p : α × Nat) : Prop := i ≤ p.2 ∧ p.2 ≤ n

/-- The state carried by a round's answer. -/
def Step.state {σ : Type} : Step σ → σ
  | Step.next s => s
  | Step.done s => s

/-- What a round of a loop with measure `μ` promises: `Post` when it leaves, `Inv` and a lower
measure when it goes on. -/
def RoundPost {σ : Type} (μ : σ → Nat) (Inv Post : σ → Prop) (s : σ) : Step σ → Prop
  | Step.done s' => Post s'
  | Step.next s' => Inv s' ∧ μ s' < μ s

/-- No token of the list has kind END_OF_FILE. -/
def NoEOF (ts : List Token) : Prop := ∀ t ∈ ts, t.type ≠ TokenType.END_OF_FILE

/-- A round of the main loop of `Lexer` whose answer carries no END_OF_FILE token. -/
def LexKeep (r : Res (Step LexState)) : Prop := ∀ b, r = Except.ok b → NoEOF b.state.tokens

/-- Whenever the computation `r` returns, its result satisfies `P`. -/
def Keeps {β : Type} (P : β → Prop) (r : Res β) : Prop := ∀ b, r = Except.ok b → P b

/-- The closing delimiter of level `n`: `]`, `n` times `=`, `]`. -/
def closer (n : Nat) : List Char := ']' :: (List.replicate n '=' ++ [']'])

/-- The opening delimiter of level `n`: `[`, `n` times `=`, `[`. -/
def opener (n : Nat) : List Char := '[' :: (List.replicate n '=' ++ ['['])

/-- The words that `keywordTypeFast` compares its argument with. -/
def reservedWords : List String :=
  ["and", "break", "do", "else", "elseif", "end", "false", "for", "function", "goto", "if",
   "in", "local", "nil", "not", "or", "repeat", "return", "then", "true", "until", "while"]

/-- The shape of the node of an `if` statement: an `IfStatement` whose slot `clauses` starts
with an `IfClause` that has one `condition` child and one `body` child, a `Block`. -/
def IfShape (node : AST) : Prop :=
  node.type = ASTType.IfStatement ∧
  ∃ cl clauses cond body, node.slot "clauses" = some (cl :: clauses) ∧
    cl.type = ASTType.IfClause ∧ cl.slot "condition" = some [cond] ∧
    cl.slot "body" = some [body] ∧ body.type = ASTType.Block

/-- No token of the list other than a STRING token has a newline in its text. -/
def TextOK (ts : List Token) : Prop :=
  ∀ t ∈ ts, t.type ≠ TokenType.STRING → NL ∉ t.text.data

/-- No position of the buffer from `a` up to `b` holds a newline. -/
def Clean (data : List Char) (a b : Nat) : Prop :=
  ∀ m, a ≤ m → m < b → data.getD m NUL ≠ NL

/-- A round of the main loop of `Lexer` whose answer keeps `TextOK`. -/
def LexText (r : Res (Step LexState)) : Prop := ∀ b, r = Except.ok b → TextOK b.state.tokens

/-- The program that `test` repeats fifty times: a newline, then the nine lines of the
function `foo`. -/
def benchmarkProgram : String :=
  "\nfunction foo(a,b)\n  local x = a + b * 123.456\n  if x > 100 then\n    return \"big\", x\n  else\n    return \"small\", x\n  end\nend\n"

/-- The fraction of a decimal literal: nothing, or `.` followed by digits. -/
def isFraction (fr : List Char) : Prop :=
  fr = [] ∨ ∃ ds, fr = '.' :: ds ∧ ∀ x ∈ ds, is_digit x = true

/-- The exponent of a decimal literal: nothing, or `e` or `E`, an optional sign, digits. -/
def isExponent (ex : List Char) : Prop :=
  ex = [] ∨ ∃ e sg ds, ex = e :: (sg ++ ds) ∧ (e = 'e' ∨ e = 'E') ∧
    (sg = [] ∨ sg = ['+'] ∨ sg = ['-']) ∧ ∀ x ∈ ds, is_digit x = true

/-- An IDENTIFIER token. -/
def isIdentTok (t : Token) : Bool := t.type == TokenType.IDENTIFIER

/-- A NUMBER or STRING token. -/
def isLiteralTok (t : Token) : Bool :=
  t.type == TokenType.NUMBER || t.type == TokenType.STRING

/-- A comma-separated list: one or more tokens that satisfy `p`, with one COMMA token between
neighbours. -/
def commaSeparated (p : Token → Bool) : List Token → Bool
  | [] => false
  | [t] => p t
  | t :: c :: rest => p t && (c.type == TokenType.COMMA && commaSeparated p rest)

/-- The items of a comma-separated list: every other token, from the first. -/
def items : List Token → List Token
  | [] => []
  | [t] => [t]
  | t :: _ :: rest => t :: items rest

/-- The `Identifier` leaf of an identifier token. -/
def identLeaf (t : Token) : AST := AST.mk ASTType.Identifier t.text t.line []

/-- The leaf of a literal token: `NumericLiteral` for a number, `StringLiteral` for a
string. -/
def literalLeaf (t : Token) : AST :=
  AST.mk (if t.type = TokenType.NUMBER then ASTType.NumericLiteral else ASTType.StringLiteral)
    t.text t.line []

/-- The nodes of a tree: `Inside n a` says that `n` is `a` or a node below `a`. -/
inductive Inside : AST → AST → Prop
  | self (a : AST) : Inside a a
  | child (n a c : AST) (k : String) (cs : List AST) :
      (k, cs) ∈ a.children → c ∈ cs → Inside n c → Inside n a

/-- No node of the tree is an `IfStatement`. -/
def NoIf (a : AST) : Prop := ∀ n, Inside n a → n.type ≠ ASTType.IfStatement

/-- No node of the trees of the list is an `IfStatement`. -/
def AllNoIf (l : List AST) : Prop := ∀ x ∈ l, NoIf x

/-- A clause with exactly one `condition` child and exactly one `body` child, a `Block`. -/
def isCondClause (ty : ASTType) (c : AST) : Prop :=
  c.type = ty ∧ ∃ cond body, c.children = [("condition", [cond]), ("body", [body])] ∧
    body.type = ASTType.Block

/-- An `ElseClause` with exactly one `body` child, a `Block`, and no other slot. -/
def isElseClause (c : AST) : Prop :=
  c.type = ASTType.ElseClause ∧ ∃ body, c.children = [("body", [body])] ∧
    body.type = ASTType.Block

/-- A clause sequence: one `IfClause`, then `ElseifClause` nodes, then at most one
`ElseClause`. -/
def ClausesOK (cl : List AST) : Prop :=
  ∃ ic elifs els, cl = ic :: (elifs ++ els) ∧ isCondClause ASTType.IfClause ic ∧
    (∀ e ∈ elifs, isCondClause ASTType.ElseifClause e) ∧
    (els = [] ∨ ∃ e, els = [e] ∧ isElseClause e)

/-- The clause sequence before the `else`: one `IfClause`, then `ElseifClause` nodes. -/
def CondClauses (cl : List AST) : Prop :=
  ∃ ic elifs, cl = ic :: elifs ∧ isCondClause ASTType.IfClause ic ∧
    ∀ e ∈ elifs, isCondClause ASTType.ElseifClause e

/-- The node of an `if` statement: its only slot is `clauses`, and it holds a clause
sequence. -/
def IfNodeOK (n : AST) : Prop := ∃ cl, n.children = [("clauses", cl)] ∧ ClausesOK cl

/-- A statement node of `Parse`: a tree without `IfStatement` nodes, or an `IfStatement` with
its clause sequence and no `IfStatement` below it. -/
def GoodStmt (n : AST) : Prop :=
  NoIf n ∨ (n.type = ASTType.IfStatement ∧ IfNodeOK n ∧
    ∀ k v c, (k, v) ∈ n.children → c ∈ v → NoIf c)

/-- The text of every NUMBER token of the list starts with a decimal digit. -/
def NumOK (ts : List Token) : Prop :=
  ∀ t ∈ ts, t.type = TokenType.NUMBER → ∃ d rest, t.text.data = d :: rest ∧ is_digit d = true

/-- A round of the main loop of `Lexer` whose answer keeps `NumOK`. -/
def LexNum (r : Res (Step LexState)) : Prop := ∀ b, r = Except.ok b → NumOK b.state.tokens

/-- The six statement kinds that the main loop of `Parse` builds. -/
def isStmtKind : ASTType → Bool
  | ASTType.LocalStatement => true
  | ASTType.AssignmentStatement => true
  | ASTType.IfStatement => true
  | ASTType.WhileStatement => true
  | ASTType.FunctionDeclaration => true
  | ASTType.CallStatement => true
  | _ => false

/-- No node of the tree has one of the six statement kinds. -/
def NoStmt (a : AST) : Prop := ∀ n, Inside n a → isStmtKind n.type = false

/-- No node of the trees of the list has one of the six statement kinds. -/
def AllNoStmt (l : List AST) : Prop := ∀ x ∈ l, NoStmt x

/-- The nodes strictly below a node: `Below n a` says that `n` is a child of `a` or a node
below a child of `a`. -/
def Below (n a : AST) : Prop := ∃ k v c, (k, v) ∈ a.children ∧ c ∈ v ∧ Inside n c

/-- No node strictly below `a` has one of the six statement kinds. -/
def StmtFree (a : AST) : Prop := ∀ k v c, (k, v) ∈ a.children → c ∈ v → NoStmt c

/-- A piece of the body of a quoted string: one plain character, or a backslash with the
character after it. -/
inductive Piece
  | plain (c : Char)
  | escaped (c : Char)

/-- The characters of a piece as they stand in the source. -/
def Piece.chars : Piece → List Char
  | Piece.plain c => [c]
  | Piece.escaped c => [BACKSLASH, c]

/-- The body made of a list of pieces. -/
def bodyOf : List Piece → List Char
  | [] => []
  | p :: ps => p.chars ++ bodyOf ps

/-- A plain character is neither the quote `q` nor a backslash; the character after a
backslash is free. -/
def Piece.ok (q : Char) : Piece → Prop
  | Piece.plain c => c ≠ q ∧ c ≠ BACKSLASH
  | Piece.escaped _ => True

/-- The number of newlines that stand as plain characters. -/
def plainNewlines : List Piece → Nat
  | [] => 0
  | Piece.plain c :: ps => (if c == NL then 1 else 0) + plainNewlines ps
  | Piece.escaped _ :: ps => plainNewlines ps

/-! ## Loops -/

@[simp] theorem res_bind_ok {α β : Type} (a : α) (f : α → Res β) :
    (Except.ok a >>= f) = f a := rfl

@[simp] theorem res_bind_error {α β : Type} (e : Fault) (f : α → Res β) :
    ((Except.error e : Res α) >>= f) = Except.error e := rfl

@[simp] theorem res_pure {α : Type} (a : α) : (pure a : Res α) = Except.ok a := rfl

@[simp] theorem res_map_ok {α β : Type} (a : α) (f : α → β) :
    Except.map f (Except.ok a : Res α) = Except.ok (f a) := rfl

@[simp] theorem res_fmap_ok {α β : Type} (a : α) (f : α → β) :
    (f <$> (Except.ok a : Res α)) = Except.ok (f a) := rfl

/-- A loop whose rounds keep `Inv`, either leave with `Post` or lower the measure `μ`, returns
with `Post` as soon as the bound exceeds the measure. -/
theorem loop_total {σ : Type} (f : σ → Res (Step σ)) (μ : σ → Nat) (Inv Post : σ → Prop)
    (hstep : ∀ s, Inv s →
      (∃ s', f s = Except.ok (Step.done s') ∧ Post s') ∨
      (∃ s', f s = Except.ok (Step.next s') ∧ Inv s' ∧ μ s' < μ s))
    (n : Nat) (s : σ) (hs : Inv s) (hn : μ s < n) :
    ∃ s', loop n f s = Except.ok s' ∧ Post s' := by
  induction n generalizing s with
  | zero => omega
  | succ n ih =>
    rcases hstep s hs with ⟨s', h, hp⟩ | ⟨s', h, hi, hm⟩
    · exact ⟨s', by simp [loop, h], hp⟩
    · obtain ⟨r, hr, hpost⟩ := ih s' hi (by omega)
      exact ⟨r, by simp [loop, h, hr], hpost⟩

/-- Partial correctness of a loop: an invariant kept by every round that goes on, and turned
into `Post` by the round that leaves, gives `Post` of the result. -/
theorem loop_inv {σ : Type} (f : σ → Res (Step σ)) (Inv Post : σ → Prop)
    (hnext : ∀ s r, Inv s → f s = Except.ok (Step.next r) → Inv r)
    (hdone : ∀ s r, Inv s → f s = Except.ok (Step.done r) → Post r)
    (n : Nat) (s r : σ) (hs : Inv s) (h : loop n f s = Except.ok r) : Post r := by
  induction n generalizing s with
  | zero => simp [loop] at h
  | succ n ih =>
    unfold loop at h
    split at h
    · simp at h
    · rename_i s' hf
      cases h
      exact hdone s r hs hf
    · rename_i s' hf
      exact ih s' (hnext s s' hs hf) h

theorem loop_next {σ : Type} (n : Nat) (f : σ → Res (Step σ)) (s s' : σ)
    (h : f s = Except.ok (Step.next s')) : loop (n + 1) f s = loop n f s' := by
  simp only [loop, h]

theorem loop_done {σ : Type} (n : Nat) (f : σ → Res (Step σ)) (s s' : σ)
    (h : f s = Except.ok (Step.done s')) : loop (n + 1) f s = Except.ok s' := by
  simp only [loop, h]

/-! ## Rules for computations that return -/

theorem holds_ok {β : Type} {P : β → Prop} {b : β} (h : P b) : Holds P (Except.ok b) :=
  ⟨b, rfl, h⟩

theorem holds_pure {β : Type} {P : β → Prop} {b : β} (h : P b) : Holds P (pure b : Res β) :=
  ⟨b, rfl, h⟩

theorem holds_bind {α β : Type} {Q : α → Prop} {P : β → Prop} {r : Res α} {f : α → Res β}
    (hr : Holds Q r) (hf : ∀ a, Q a → Holds P (f a)) : Holds P (r >>= f) := by
  obtain ⟨a, h, hq⟩ := hr
  rw [h]
  exact hf a hq

theorem holds_ite {β : Type} {P : β → Prop} {c : Prop} [Decidable c] {a b : Res β}
    (ha : c → Holds P a) (hb : ¬ c → Holds P b) : Holds P (if c then a else b) := by
  by_cases h : c
  · rw [if_pos h]; exact ha h
  · rw [if_neg h]; exact hb h

theorem holds_map {α β : Type} {P : β → Prop} {r : Res α} {g : α → β}
    (hr : Holds (fun a => P (g a)) r) : Holds P (r.map g) := by
  obtain ⟨a, h, hp⟩ := hr
  exact ⟨g a, by rw [h]; rfl, hp⟩

theorem holds_mono {β : Type} {P Q : β → Prop} {r : Res β} (hr : Holds Q r)
    (h : ∀ b, Q b → P b) : Holds P r := by
  obtain ⟨b, hb, hq⟩ := hr
  exact ⟨b, hb, h b hq⟩

theorem holds_loop {α : Type} (f : α × Nat → Res (Step (α × Nat))) (n lo : Nat)
    (hf : ∀ s, lo ≤ s.2 → s.2 ≤ n → Holds (StepPost n s) (f s))
    (s : α × Nat) (hlo : lo ≤ s.2) (hs : s.2 ≤ n) :
    Holds (fun r => s.2 ≤ r.2 ∧ r.2 ≤ n) (loop (n + 1) f s) := by
  refine loop_total f (fun r => n - r.2) (fun r => s.2 ≤ r.2 ∧ r.2 ≤ n)
    (fun r => s.2 ≤ r.2 ∧ r.2 ≤ n) ?_ (n + 1) s ⟨le_refl _, hs⟩ (by beta_reduce; omega)
  intro r hr
  obtain ⟨b, hb, hp⟩ := hf r (by omega) hr.2
  cases b with
  | done s' => exact Or.inl ⟨s', hb, by simp only [StepPost] at hp; omega⟩
  | next s' =>
    refine Or.inr ⟨s', hb, ?_, ?_⟩
    · simp only [StepPost] at hp; omega
    · simp only [StepPost] at hp; beta_reduce; omega

/-! ### Reads of the token vector -/

theorem holds_tokAt (Tokens : List Token) (i : Nat) (h : i < Tokens.length) :
    Holds (fun t => Tokens.get? i = some t) (tokAt Tokens i) := by
  unfold tokAt
  rw [List.get?_eq_get h]
  exact ⟨_, rfl, rfl⟩

theorem holds_typeIs (Tokens : List Token) (i : Nat) (ty : TokenType) :
    Holds (fun b => b = true → i < Tokens.length) (typeIs Tokens i ty) := by
  unfold typeIs
  refine holds_ite (fun h => holds_map ?_) (fun h => holds_ok (by simp))
  exact holds_mono (holds_tokAt Tokens i h) (fun _ _ _ => h)

theorem holds_typeIsNot (Tokens : List Token) (i : Nat) (stop : List TokenType) :
    Holds (fun b => b = true → i < Tokens.length) (typeIsNot Tokens i stop) := by
  unfold typeIsNot
  refine holds_ite (fun h => holds_map ?_) (fun h => holds_ok (by simp))
  exact holds_mono (holds_tokAt Tokens i h) (fun _ _ _ => h)

theorem holds_accept (Tokens : List Token) (i : Nat) (ty : TokenType) :
    Holds (fun j => i ≤ j ∧ j ≤ max i Tokens.length) (accept Tokens i ty) := by
  unfold accept
  refine holds_map (holds_mono (holds_typeIs Tokens i ty) ?_)
  intro b hb
  cases b with
  | false => exact ⟨le_refl _, le_max_left _ _⟩
  | true =>
    have := hb rfl
    show i ≤ i + 1 ∧ i + 1 ≤ max i Tokens.length
    omega

theorem holds_loop_of {σ : Type} (f : σ → Res (Step σ)) (μ : σ → Nat) (Inv Post : σ → Prop)
    (hf : ∀ s, Inv s → Holds (RoundPost μ Inv Post s) (f s))
    (n : Nat) (s : σ) (hs : Inv s) (hn : μ s < n) : Holds Post (loop n f s) := by
  refine loop_total f μ Inv Post ?_ n s hs hn
  intro r hr
  obtain ⟨b, hb, hp⟩ := hf r hr
  cases b with
  | done s' => exact Or.inl ⟨s', hb, hp⟩
  | next s' => exact Or.inr ⟨s', hb, hp⟩

theorem keeps_ok {β : Type} {P : β → Prop} {b : β} (h : P b) : Keeps P (Except.ok b) := by
  intro b' hb
  cases hb
  exact h

theorem keeps_pure {β : Type} {P : β → Prop} {b : β} (h : P b) : Keeps P (pure b : Res β) :=
  keeps_ok h

theorem keeps_bind {α β : Type} {Q : α → Prop} {P : β → Prop} {r : Res α} {f : α → Res β}
    (hr : Keeps Q r) (hf : ∀ a, Q a → Keeps P (f a)) : Keeps P (r >>= f) := by
  intro b hb
  cases r with
  | error e => cases hb
  | ok a => exact hf a (hr a rfl) b hb

theorem keeps_ite {β : Type} {P : β → Prop} {c : Prop} [Decidable c] {a b : Res β}
    (ha : c → Keeps P a) (hb : ¬ c → Keeps P b) : Keeps P (if c then a else b) := by
  by_cases h : c
  · rw [if_pos h]; exact ha h
  · rw [if_neg h]; exact hb h

theorem keeps_map {α β : Type} {P : β → Prop} {r : Res α} {g : α → β}
    (hr : Keeps (fun a => P (g a)) r) : Keeps P (r.map g) := by
  intro b hb
  cases r with
  | error e => cases hb
  | ok a =>
    cases hb
    exact hr a rfl

theorem keeps_true {β : Type} (r : Res β) : Keeps (fun _ => True) r := fun _ _ => trivial

theorem keeps_loop {σ : Type} (f : σ → Res (Step σ)) (Inv : σ → Prop)
    (hf : ∀ s, Inv s → Keeps (fun r => Inv r.state) (f s))
    (n : Nat) (s : σ) (hs : Inv s) : Keeps Inv (loop n f s) := by
  intro r hr
  exact loop_inv f Inv Inv (fun a b ha hab => hf a ha _ hab) (fun a b ha hab => hf a ha _ hab)
    n s r hs hr

/-! ## The lexer returns -/

/-- The result of `scanWhile`: the first position from `i` on that is past the end or fails
`p`. -/
theorem scanWhile_spec (data : List Char) (p : Char → Bool) (i : Nat) :
    ∃ j, scanWhile data p i = Except.ok j ∧ i ≤ j ∧
      (∀ m, i ≤ m → m < j → m < data.length ∧ p (data.getD m NUL) = true) ∧
      ¬ (j < data.length ∧ p (data.getD j NUL) = true) := by
  unfold scanWhile
  refine loop_total (scanStep data p) (fun k => data.length - k)
    (fun k => i ≤ k ∧ ∀ m, i ≤ m → m < k → m < data.length ∧ p (data.getD m NUL) = true)
    (fun k => i ≤ k ∧ (∀ m, i ≤ m → m < k → m < data.length ∧ p (data.getD m NUL) = true) ∧
      ¬ (k < data.length ∧ p (data.getD k NUL) = true))
    ?_ _ i ⟨le_refl _, fun m h1 h2 => by omega⟩ (by beta_reduce; omega)
  intro k hk
  by_cases h : (decide (k < data.length) && p (data.getD k NUL)) = true
  · right
    have h' := h
    simp only [Bool.and_eq_true, decide_eq_true_eq] at h'
    refine ⟨k + 1, by simp only [scanStep, h, if_true]; rfl, ⟨by omega, ?_⟩,
      by beta_reduce; omega⟩
    intro m h1 h2
    by_cases hm : m = k
    · subst hm; exact h'
    · exact hk.2 m h1 (by omega)
  · left
    refine ⟨k, by simp only [scanStep, h]; rfl, hk.1, hk.2, ?_⟩
    simpa only [Bool.and_eq_true, decide_eq_true_eq] using h

theorem holds_scanWhile (data : List Char) (p : Char → Bool) (i : Nat) :
    Holds (fun j => i ≤ j) (scanWhile data p i) := by
  obtain ⟨j, h, hle, _⟩ := scanWhile_spec data p i
  exact ⟨j, h, hle⟩

theorem holds_countEquals (data : List Char) (c e : Nat) :
    Holds (fun r => c ≤ r.1) (countEquals data c e) := by
  unfold countEquals
  refine holds_loop_of _ (fun s => data.length - s.1) (fun s => c ≤ s.1) (fun s => c ≤ s.1)
    ?_ (data.length + 1) (c, e) (le_refl _) (by dsimp only; omega)
  intro s hs
  unfold equalsStep
  refine holds_ite (fun h => holds_ok ?_) (fun _ => holds_ok hs)
  simp only [Bool.and_eq_true, decide_eq_true_eq] at h
  exact ⟨by dsimp only; omega, by dsimp only; omega⟩

theorem longBracketStep_adv (data : List Char) (isComment : Bool) (start eqs : Nat)
    (s : LongState) (hs : start ≤ s.st.idx) :
    Holds (RoundPost (fun r => data.length - r.st.idx) (fun r => start ≤ r.st.idx)
      (fun r => start ≤ r.st.idx) s) (longBracketStep data isComment start eqs s) := by
  unfold longBracketStep
  refine holds_ite (fun hlt => ?_) (fun _ => holds_pure hs)
  have htail : ∀ l, Holds (RoundPost (fun r => data.length - r.st.idx)
      (fun r => start ≤ r.st.idx) (fun r => start ≤ r.st.idx) s)
      (pure (Step.next { s with st := { s.st with line := l, idx := s.st.idx + 1 } })) :=
    fun l => holds_pure ⟨by dsimp only; omega, by dsimp only; omega⟩
  dsimp only
  refine holds_ite (fun _ => ?_) (fun _ => htail _)
  refine holds_bind (holds_countEquals data (s.st.idx + 1) 0) ?_
  rintro ⟨closing, eqCount⟩ hc
  dsimp only at hc ⊢
  refine holds_ite (fun _ => holds_pure ?_) (fun _ => htail _)
  show start ≤ closing + 1
  omega

theorem longBracketEnd_idx (data : List Char) (isComment : Bool) (start : Nat)
    (s : LongState) : (longBracketEnd data isComment start s).idx = s.st.idx := by
  unfold longBracketEnd
  split
  · split <;> rfl
  · rfl

theorem lexBracket_adv (data : List Char) (st : LexState) :
    Holds (fun st' => st.idx < st'.idx) (lexBracket data st) := by
  unfold lexBracket
  have hplain : Holds (fun st' => st.idx < st'.idx)
      (pure { pushTok data st TokenType.LEFT_BRACKET st.idx 1 with idx := st.idx + 1 }) :=
    holds_pure (by dsimp only; omega)
  dsimp only
  refine holds_ite (fun _ => ?_) (fun _ => hplain)
  refine holds_bind (holds_countEquals data (st.idx + 1) 0) ?_
  rintro ⟨check, eqs⟩ hc
  dsimp only at hc ⊢
  refine holds_ite (fun _ => ?_) (fun _ => hplain)
  refine holds_bind (holds_loop_of _ (fun r => data.length - r.st.idx)
    (fun r => check + 1 ≤ r.st.idx) (fun r => check + 1 ≤ r.st.idx)
    (fun s hs => longBracketStep_adv data _ (check + 1) eqs s hs) (data.length + 1) _
    (le_refl _) (by dsimp only; omega)) ?_
  intro s hs
  refine holds_pure ?_
  rw [longBracketEnd_idx]
  omega

theorem quotedStep_adv (data : List Char) (q : Char) (lo : Nat) (s : LexState)
    (hs : lo ≤ s.idx) :
    Holds (RoundPost (fun r => data.length - r.idx) (fun r => lo ≤ r.idx)
      (fun r => lo ≤ r.idx) s) (quotedStep data q s) := by
  unfold quotedStep
  refine holds_ite (fun h => ?_) (fun _ => holds_pure hs)
  simp only [Bool.and_eq_true, decide_eq_true_eq] at h
  dsimp only
  refine holds_ite (fun _ => holds_pure ?_) (fun _ => holds_pure ?_)
  · exact ⟨by dsimp only; omega, by dsimp only; omega⟩
  · exact ⟨by dsimp only; omega, by dsimp only; omega⟩

theorem quotedEnd_idx (data : List Char) (q : Char) (start : Nat) (s : LexState) :
    s.idx ≤ (quotedEnd data q start s).idx := by
  unfold quotedEnd
  dsimp only
  split
  · simp only [pushTok]; omega
  · simp only [pushTok]; omega

theorem lexQuoted_adv (data : List Char) (st : LexState) (q : Char) :
    Holds (fun st' => st.idx < st'.idx) (lexQuoted data st q) := by
  unfold lexQuoted
  refine holds_bind (holds_loop_of _ (fun r => data.length - r.idx)
    (fun r => st.idx + 1 ≤ r.idx) (fun r => st.idx + 1 ≤ r.idx)
    (fun s hs => quotedStep_adv data q (st.idx + 1) s hs) (data.length + 1) _ (le_refl _)
    (by dsimp only; omega)) ?_
  intro s hs
  refine holds_pure ?_
  have := quotedEnd_idx data q (st.idx + 1) s
  omega

theorem is_digit_dot : is_digit '.' = false := by decide

theorem skipSign_le (data : List Char) (i : Nat) : i ≤ skipSign data i := by
  unfold skipSign
  split <;> omega

theorem holds_hexExponent (data : List Char) (i : Nat) :
    Holds (fun j => i ≤ j) (hexExponent data i) := by
  unfold hexExponent
  refine holds_ite (fun _ => ?_) (fun _ => holds_pure (le_refl _))
  refine holds_mono (holds_scanWhile data is_digit _) ?_
  intro j hj
  have := skipSign_le data (i + 1)
  omega

theorem holds_decExponent (data : List Char) (i : Nat) :
    Holds (fun j => i ≤ j) (decExponent data i) := by
  unfold decExponent
  refine holds_ite (fun _ => ?_) (fun _ => holds_pure (le_refl _))
  refine holds_mono (holds_scanWhile data is_digit _) ?_
  intro j hj
  have := skipSign_le data (i + 1)
  omega

theorem holds_lexFraction (data : List Char) (i : Nat) :
    Holds (fun j => i ≤ j ∧ ((peek data i 0 == '.') = true → i < j)) (lexFraction data i) := by
  unfold lexFraction
  refine holds_ite (fun h => ?_) (fun h => holds_pure ⟨le_refl _, fun h' => absurd h' h⟩)
  refine holds_mono (holds_scanWhile data is_digit _) ?_
  intro j hj
  exact ⟨by omega, fun _ => by omega⟩

theorem lexNumber_adv (data : List Char) (st : LexState) (c : Char)
    (hidx : st.idx < data.length) (hc : c = data.getD st.idx NUL)
    (hd : is_digit c = true ∨ c = '.') :
    Holds (fun st' => st.idx < st'.idx) (lexNumber data st c) := by
  unfold lexNumber
  refine holds_bind (Q := fun last => st.idx < last) ?_ (fun last h => holds_pure h)
  refine holds_ite (fun _ => ?_) (fun _ => ?_)
  · refine holds_bind (holds_scanWhile data _ (st.idx + 2)) ?_
    intro i hi
    refine holds_mono (holds_hexExponent data i) ?_
    intro j hj
    omega
  · obtain ⟨i, hi, hle, hall, hstop⟩ := scanWhile_spec data is_digit st.idx
    refine holds_bind (Q := fun k => k = i) ⟨i, hi, rfl⟩ ?_
    intro k hk
    rw [hk]
    refine holds_bind (holds_lexFraction data i) ?_
    rintro j ⟨hj1, hj2⟩
    refine holds_mono (holds_decExponent data j) ?_
    intro k hk
    rcases hd with hd | hd
    · have hlt : st.idx < i := by
        by_contra hcon
        have : i = st.idx := by omega
        subst this
        exact hstop ⟨hidx, hc ▸ hd⟩
      omega
    · have hi0 : i = st.idx := by
        by_contra hcon
        have h := (hall st.idx (le_refl _) (by omega)).2
        rw [← hc, hd, is_digit_dot] at h
        cases h
      subst hi0
      have hp : (peek data st.idx 0 == '.') = true := by
        simp only [peek, Nat.add_zero, hidx, if_true, ← hc, hd, beq_self_eq_true]
      have := hj2 hp
      omega


theorem lexLess_adv (data : List Char) (st : LexState) : st.idx < (lexLess data st).idx := by
  unfold lexLess
  split <;> simp [pushTok]

theorem lexAdv_ite (st : LexState) {c : Prop} [Decidable c] {a b : Res (Step LexState)}
    (ha : c → LexAdv st a) (hb : ¬ c → LexAdv st b) : LexAdv st (if c then a else b) := by
  by_cases h : c
  · rw [if_pos h]; exact ha h
  · rw [if_neg h]; exact hb h

theorem lexAdv_next (st s' : LexState) (h : st.idx < s'.idx) :
    LexAdv st (Except.ok (Step.next s')) := ⟨s', rfl, h⟩

theorem lexAdv_map (st : LexState) (r : Res LexState)
    (h : Holds (fun s' => st.idx < s'.idx) r) : LexAdv st (r.map Step.next) := by
  obtain ⟨s', hr, hlt⟩ := h
  exact ⟨s', by rw [hr]; rfl, hlt⟩

theorem lexAdv_scan (st : LexState) (data : List Char) (p : Char → Bool) (k : Nat)
    (g : Nat → LexState) (hg : ∀ i, (g i).idx = i) (hk : st.idx < k) :
    LexAdv st ((scanWhile data p k).map (fun i => Step.next (g i))) := by
  obtain ⟨i, hr, hle⟩ := holds_scanWhile data p k
  exact ⟨g i, by rw [hr]; rfl, by rw [hg]; omega⟩

theorem lexStep_adv (data : List Char) (st : LexState) :
    (lexStep data st = Except.ok (Step.done st) ∧ data.length ≤ st.idx) ∨
    (∃ s', lexStep data st = Except.ok (Step.next s') ∧ st.idx < s'.idx ∧
      st.idx < data.length) := by
  by_cases h1 : st.idx < data.length
  · right
    suffices h : LexAdv st (lexStep data st) by
      obtain ⟨s', hs, hlt⟩ := h
      exact ⟨s', hs, hlt, h1⟩
    unfold lexStep
    rw [if_pos h1]
    dsimp only
    repeat' first
      | apply lexAdv_ite st <;> intro _
      | apply lexAdv_next
      | apply lexAdv_map
      | apply lexAdv_scan
    all_goals first
      | exact lexBracket_adv _ _
      | exact lexQuoted_adv _ _ _
      | exact lexLess_adv _ _
      | (intro i; rfl)
      | (simp only [pushTok]; omega)
      | (have hl := lexLess_adv data
            { pushTok data st TokenType.BANG_EQUAL st.idx 2 with idx := st.idx + 2 }
         simp only [pushTok] at hl ⊢
         omega)
      | (rename_i hnum
         simp only [Bool.or_eq_true, Bool.and_eq_true, beq_iff_eq] at hnum
         exact lexNumber_adv data st _ h1 rfl (by tauto))
  · left
    unfold lexStep
    rw [if_neg h1]
    exact ⟨rfl, by omega⟩

theorem holds_lexLoop (data : List Char) (st : LexState) :
    Holds (fun _ => True) (loop (data.length + 1) (lexStep data) st) := by
  refine holds_loop_of (lexStep data) (fun s => data.length - s.idx) (fun _ => True)
    (fun _ => True) ?_ (data.length + 1) st trivial (by dsimp only; omega)
  intro s _
  rcases lexStep_adv data s with ⟨h, _⟩ | ⟨s', h, hlt, hlen⟩
  · exact ⟨_, h, trivial⟩
  · exact ⟨_, h, trivial, by dsimp only; omega⟩

theorem Lexer_total (Code : String) : ∃ toks, Lexer Code = Except.ok toks := by
  unfold Lexer
  obtain ⟨r, hr, -⟩ := holds_lexLoop Code.data { idx := 0, line := 1, tokens := [] }
  rw [hr]
  exact ⟨_, rfl⟩

/-! ## No END_OF_FILE token before the last -/

theorem ne_eof_ite {c : Prop} [Decidable c] {a b : TokenType}
    (ha : a ≠ TokenType.END_OF_FILE) (hb : b ≠ TokenType.END_OF_FILE) :
    (if c then a else b) ≠ TokenType.END_OF_FILE := by
  by_cases h : c
  · rw [if_pos h]; exact ha
  · rw [if_neg h]; exact hb

theorem keywordTypeFast_ne_eof (w : String) : keywordTypeFast w ≠ TokenType.END_OF_FILE := by
  unfold keywordTypeFast
  split
  · decide
  · repeat' first
      | apply ne_eof_ite
      | decide

theorem pushTok_noEOF (data : List Char) (st : LexState) (ty : TokenType) (start length : Nat)
    (hty : ty ≠ TokenType.END_OF_FILE) (h : NoEOF st.tokens) :
    NoEOF (pushTok data st ty start length).tokens := by
  intro t ht
  simp only [pushTok, List.mem_append, List.mem_singleton] at ht
  rcases ht with ht | ht
  · exact h t ht
  · rw [ht]; exact hty

theorem longBracketStep_noEOF (data : List Char) (isComment : Bool) (start eqs : Nat)
    (s : LongState) (h : NoEOF s.st.tokens) :
    Keeps (fun r => NoEOF r.state.st.tokens) (longBracketStep data isComment start eqs s) := by
  unfold longBracketStep
  refine keeps_ite (fun _ => ?_) (fun _ => keeps_pure h)
  dsimp only
  refine keeps_ite (fun _ => ?_) (fun _ => keeps_pure h)
  refine keeps_bind (keeps_true _) ?_
  rintro ⟨closing, eqCount⟩ -
  dsimp only
  refine keeps_ite (fun _ => keeps_pure ?_) (fun _ => keeps_pure h)
  dsimp only [Step.state]
  split
  · exact pushTok_noEOF _ _ _ _ _ (by decide) h
  · exact h

theorem longBracketEnd_noEOF (data : List Char) (isComment : Bool) (start : Nat)
    (s : LongState) (h : NoEOF s.st.tokens) :
    NoEOF (longBracketEnd data isComment start s).tokens := by
  unfold longBracketEnd
  split
  · split
    · exact pushTok_noEOF _ _ _ _ _ (by decide) h
    · exact h
  · exact h

theorem lexBracket_noEOF (data : List Char) (st : LexState) (h : NoEOF st.tokens) :
    Keeps (fun st' => NoEOF st'.tokens) (lexBracket data st) := by
  unfold lexBracket
  have hplain : Keeps (fun st' => NoEOF st'.tokens)
      (pure { pushTok data st TokenType.LEFT_BRACKET st.idx 1 with idx := st.idx + 1 }) :=
    keeps_pure (pushTok_noEOF _ _ _ _ _ (by decide) h)
  dsimp only
  refine keeps_ite (fun _ => ?_) (fun _ => hplain)
  refine keeps_bind (keeps_true _) ?_
  rintro ⟨check, eqs⟩ -
  dsimp only
  refine keeps_ite (fun _ => ?_) (fun _ => hplain)
  refine keeps_bind (keeps_loop _ (fun r => NoEOF r.st.tokens)
    (fun s hs => longBracketStep_noEOF data _ (check + 1) eqs s hs) _ _ h) ?_
  intro s hs
  exact keeps_pure (longBracketEnd_noEOF _ _ _ _ hs)

theorem quotedStep_noEOF (data : List Char) (q : Char) (s : LexState) (h : NoEOF s.tokens) :
    Keeps (fun r => NoEOF r.state.tokens) (quotedStep data q s) := by
  unfold quotedStep
  refine keeps_ite (fun _ => ?_) (fun _ => keeps_pure h)
  dsimp only
  exact keeps_ite (fun _ => keeps_pure h) (fun _ => keeps_pure h)

theorem lexQuoted_noEOF (data : List Char) (st : LexState) (q : Char) (h : NoEOF st.tokens) :
    Keeps (fun st' => NoEOF st'.tokens) (lexQuoted data st q) := by
  unfold lexQuoted
  refine keeps_bind (keeps_loop _ (fun r => NoEOF r.tokens)
    (fun s hs => quotedStep_noEOF data q s hs) _ _ h) ?_
  intro s hs
  refine keeps_pure ?_
  unfold quotedEnd
  dsimp only
  split
  · exact pushTok_noEOF _ _ _ _ _ (by decide) hs
  · exact pushTok_noEOF _ _ _ _ _ (by decide) hs

theorem lexNumber_noEOF (data : List Char) (st : LexState) (c : Char) (h : NoEOF st.tokens) :
    Keeps (fun st' => NoEOF st'.tokens) (lexNumber data st c) := by
  unfold lexNumber
  refine keeps_bind (keeps_true _) ?_
  intro last _
  exact keeps_pure (pushTok_noEOF _ _ _ _ _ (by decide) h)

theorem lexLess_noEOF (data : List Char) (st : LexState) (h : NoEOF st.tokens) :
    NoEOF (lexLess data st).tokens := by
  unfold lexLess
  split
  · exact pushTok_noEOF _ _ _ _ _ (by decide) h
  · exact pushTok_noEOF _ _ _ _ _ (by decide) h

theorem lexKeep_ite {c : Prop} [Decidable c] {a b : Res (Step LexState)}
    (ha : c → LexKeep a) (hb : ¬ c → LexKeep b) : LexKeep (if c then a else b) :=
  keeps_ite ha hb

theorem lexKeep_next (s' : LexState) (h : NoEOF s'.tokens) :
    LexKeep (Except.ok (Step.next s')) := keeps_ok h

theorem lexKeep_map (r : Res LexState) (h : Keeps (fun s => NoEOF s.tokens) r) :
    LexKeep (r.map Step.next) := keeps_map h

theorem lexKeep_scan (data : List Char) (p : Char → Bool) (k : Nat) (g : Nat → LexState)
    (hg : ∀ i, NoEOF (g i).tokens) :
    LexKeep ((scanWhile data p k).map (fun i => Step.next (g i))) :=
  keeps_map (fun i _ => hg i)

theorem lexStep_noEOF (data : List Char) (st : LexState) (h : NoEOF st.tokens) :
    Keeps (fun r => NoEOF r.state.tokens) (lexStep data st) := by
  unfold lexStep
  refine keeps_ite (fun _ => ?_) (fun _ => keeps_pure h)
  dsimp only
  show LexKeep _
  repeat' first
    | apply lexKeep_ite <;> intro _
    | apply lexKeep_next
    | apply lexKeep_map
    | apply lexKeep_scan
  all_goals first
    | exact h
    | exact pushTok_noEOF _ _ _ _ _ (by decide) h
    | exact lexLess_noEOF _ _ h
    | exact lexLess_noEOF _ _ (pushTok_noEOF _ _ _ _ _ (by decide) h)
    | exact lexBracket_noEOF _ _ h
    | exact lexQuoted_noEOF _ _ _ h
    | exact lexNumber_noEOF _ _ _ h
    | (intro i; exact h)
    | (intro i; exact pushTok_noEOF _ _ _ _ _ (keywordTypeFast_ne_eof _) h)

theorem Lexer_noEOF (Code : String) (toks : List Token) (h : Lexer Code = Except.ok toks) :
    ∃ init line, toks = init ++ [Token.mk TokenType.END_OF_FILE "" line 0] ∧ NoEOF init := by
  unfold Lexer at h
  have hk := keeps_loop (lexStep Code.data) (fun s => NoEOF s.tokens)
    (fun s hs => lexStep_noEOF Code.data s hs) (Code.data.length + 1)
    { idx := 0, line := 1, tokens := [] } (fun t ht => by cases ht)
  cases hl : loop (Code.data.length + 1) (lexStep Code.data)
      { idx := 0, line := 1, tokens := [] } with
  | error e => rw [hl] at h; cases h
  | ok st =>
    rw [hl] at h
    cases h
    exact ⟨st.tokens, st.line, rfl, hk st hl⟩

/-! ## The parser returns -/

theorem paramStep_post (Tokens : List Token) (s : List AST × Nat) (hs : s.2 ≤ Tokens.length) :
    Holds (StepPost Tokens.length s) (paramStep Tokens s) := by
  unfold paramStep
  refine holds_bind (holds_typeIsNot Tokens s.2 _) ?_
  intro b hb
  refine holds_ite (fun h => ?_) (fun _ => holds_pure ⟨le_refl _, hs⟩)
  have hlt := hb h
  refine holds_bind (holds_tokAt Tokens s.2 hlt) ?_
  intro t _
  refine holds_ite (fun _ => ?_) (fun _ => holds_pure ⟨by simp, by simp; omega⟩)
  refine holds_bind (holds_accept Tokens (s.2 + 1) _) ?_
  intro j hj
  exact holds_pure ⟨by simp; omega, by simp; omega⟩

theorem fnExprBodyStep_post (pe : PE) (Tokens : List Token) (s : List AST × Nat)
    (hs : s.2 ≤ Tokens.length) (hpe : PEok pe Tokens.length s.2) :
    Holds (StepPost Tokens.length s) (fnExprBodyStep pe Tokens s) := by
  unfold fnExprBodyStep
  refine holds_bind (holds_typeIsNot Tokens s.2 _) ?_
  intro b hb
  refine holds_ite (fun h => ?_) (fun _ => holds_pure ⟨le_refl _, hs⟩)
  have hlt := hb h
  refine holds_bind (holds_tokAt Tokens s.2 hlt) ?_
  intro t _
  refine holds_ite (fun _ => ?_) (fun _ => ?_)
  · refine holds_bind (hpe (s.2 + 1) (by omega) (by omega)) ?_
    rintro ⟨ev, i1⟩ ⟨h1, h2⟩
    refine holds_bind (holds_accept Tokens i1 _) ?_
    intro j hj
    exact holds_pure ⟨by simp at h1 h2 ⊢; omega, by simp at h1 h2 ⊢; omega⟩
  · refine holds_bind (hpe s.2 (by omega) (by omega)) ?_
    rintro ⟨ev, i1⟩ ⟨h1, h2⟩
    refine holds_bind (holds_accept Tokens i1 _) ?_
    intro j hj
    exact holds_pure ⟨by simp at h1 h2 ⊢; omega, by simp at h1 h2 ⊢; omega⟩

theorem tableStep_post (pe : PE) (Tokens : List Token) (s : List AST × Nat)
    (hs : s.2 ≤ Tokens.length) (hpe : PEok pe Tokens.length s.2) :
    Holds (StepPost Tokens.length s) (tableStep pe Tokens s) := by
  unfold tableStep
  refine holds_bind (holds_typeIsNot Tokens s.2 _) ?_
  intro b hb
  refine holds_ite (fun h => ?_) (fun _ => holds_pure ⟨le_refl _, hs⟩)
  have hlt := hb h
  refine holds_bind (hpe s.2 (le_refl _) hs) ?_
  rintro ⟨val, i1⟩ ⟨h1, h2⟩
  refine holds_bind (holds_typeIs Tokens i1 _) ?_
  intro c hc
  dsimp only at h1 h2
  refine holds_ite (fun h' => ?_) (fun _ => ?_)
  · have := hc h'
    exact holds_pure ⟨by dsimp only; omega, by dsimp only; omega⟩
  · exact holds_pure ⟨by dsimp only; omega, by dsimp only; omega⟩

theorem argStep_post (pe : PE) (Tokens : List Token) (s : List AST × Nat)
    (hs : s.2 ≤ Tokens.length) (hpe : PEok pe Tokens.length s.2) :
    Holds (StepPost Tokens.length s) (argStep pe Tokens s) := by
  unfold argStep
  refine holds_bind (holds_typeIsNot Tokens s.2 _) ?_
  intro b hb
  refine holds_ite (fun h => ?_) (fun _ => holds_pure ⟨le_refl _, hs⟩)
  have hlt := hb h
  refine holds_bind (hpe s.2 (le_refl _) hs) ?_
  rintro ⟨val, i1⟩ ⟨h1, h2⟩
  refine holds_bind (holds_typeIs Tokens i1 _) ?_
  intro c hc
  dsimp only at h1 h2
  refine holds_ite (fun h' => ?_) (fun _ => ?_)
  · have := hc h'
    exact holds_pure ⟨by dsimp only; omega, by dsimp only; omega⟩
  · exact holds_pure ⟨by dsimp only; omega, by dsimp only; omega⟩

theorem parsePrimary_fwd (pe : PE) (Tokens : List Token) (Index : Nat)
    (hi : Index ≤ Tokens.length) (hpe : PEok pe Tokens.length (Index + 1)) :
    Holds (Fwd Tokens.length Index) (parsePrimary pe Tokens Index) := by
  unfold parsePrimary
  refine holds_ite (fun h => holds_pure ⟨by dsimp only; omega, by dsimp only; omega⟩)
    (fun h => ?_)
  have hlt : Index < Tokens.length := by omega
  have hone : ∀ a : AST, Holds (Fwd Tokens.length Index) (pure (a, Index + 1)) :=
    fun a => holds_pure ⟨by dsimp only; omega, by dsimp only; omega⟩
  refine holds_bind (holds_tokAt Tokens Index hlt) ?_
  intro tk _
  split
  any_goals exact hone _
  · -- `(` expression `)`
    refine holds_bind (hpe (Index + 1) (le_refl _) hlt) ?_
    rintro ⟨inner, i1⟩ ⟨h1, h2⟩
    dsimp only at h1 h2
    refine holds_bind (holds_accept Tokens i1 _) ?_
    intro j hj
    exact holds_pure ⟨by dsimp only; omega, by dsimp only; omega⟩
  · -- table constructor
    refine holds_bind (holds_loop (tableStep pe Tokens) Tokens.length (Index + 1)
      (fun s h1 h2 => tableStep_post pe Tokens s h2 (fun i hi1 hi2 => hpe i (by omega) hi2))
      ([], Index + 1) (le_refl _) hlt) ?_
    rintro ⟨elements, i1⟩ ⟨h1, h2⟩
    dsimp only at h1 h2
    refine holds_bind (holds_accept Tokens i1 _) ?_
    intro j hj
    exact holds_pure ⟨by dsimp only; omega, by dsimp only; omega⟩
  · -- function expression
    refine holds_bind (holds_typeIs Tokens (Index + 1) _) ?_
    intro b hb
    refine holds_ite (fun h' => ?_) (fun _ => hone _)
    have hlt2 := hb h'
    refine holds_bind (holds_loop (paramStep Tokens) Tokens.length (Index + 2)
      (fun s _ h2 => paramStep_post Tokens s h2) ([], Index + 2) (le_refl _) hlt2) ?_
    rintro ⟨params, i1⟩ ⟨h1, h2⟩
    dsimp only at h1 h2
    refine holds_bind (holds_accept Tokens i1 _) ?_
    intro i2 hi2
    refine holds_bind (holds_loop (fnExprBodyStep pe Tokens) Tokens.length i2
      (fun s h1 h2 => fnExprBodyStep_post pe Tokens s h2
        (fun i hi1 hi2 => hpe i (by omega) hi2)) ([], i2) (le_refl _) (by dsimp only; omega)) ?_
    rintro ⟨body, i3⟩ ⟨h3, h4⟩
    dsimp only at h3 h4
    refine holds_bind (holds_accept Tokens i3 _) ?_
    intro i4 hi4
    exact holds_pure ⟨by dsimp only; omega, by dsimp only; omega⟩

theorem suffixStep_post (pe : PE) (Tokens : List Token) (s : AST × Nat)
    (hs : s.2 ≤ Tokens.length) (hpe : PEok pe Tokens.length (s.2 + 1)) :
    Holds (StepPost Tokens.length s) (suffixStep pe Tokens s) := by
  unfold suffixStep
  refine holds_ite (fun hlt => ?_) (fun _ => holds_pure ⟨le_refl _, hs⟩)
  refine holds_bind (holds_tokAt Tokens s.2 hlt) ?_
  intro t _
  refine holds_ite (fun _ => ?_) (fun _ => holds_ite (fun _ => ?_) (fun _ => holds_ite
    (fun _ => ?_) (fun _ => holds_pure ⟨le_refl _, hs⟩)))
  · refine holds_bind (holds_typeIs Tokens (s.2 + 1) _) ?_
    intro b hb
    refine holds_ite (fun h' => ?_) (fun _ => holds_pure ⟨by dsimp only; omega, by dsimp only; omega⟩)
    have hlt2 := hb h'
    refine holds_bind (holds_tokAt Tokens (s.2 + 1) hlt2) ?_
    intro m _
    exact holds_pure ⟨by dsimp only; omega, by dsimp only; omega⟩
  · refine holds_bind (hpe (s.2 + 1) (le_refl _) hlt) ?_
    rintro ⟨key, i1⟩ ⟨h1, h2⟩
    dsimp only at h1 h2
    refine holds_bind (holds_accept Tokens i1 _) ?_
    intro j hj
    exact holds_pure ⟨by dsimp only; omega, by dsimp only; omega⟩
  · refine holds_bind (holds_loop (argStep pe Tokens) Tokens.length (s.2 + 1)
      (fun r h1 h2 => argStep_post pe Tokens r h2 (fun i hi1 hi2 => hpe i (by omega) hi2))
      ([], s.2 + 1) (le_refl _) hlt) ?_
    rintro ⟨args, i1⟩ ⟨h1, h2⟩
    dsimp only at h1 h2
    refine holds_bind (holds_accept Tokens i1 _) ?_
    intro j hj
    exact holds_pure ⟨by dsimp only; omega, by dsimp only; omega⟩

theorem parseSuffixed_fwd (pe : PE) (Tokens : List Token) (Index : Nat)
    (hi : Index ≤ Tokens.length) (hpe : PEok pe Tokens.length (Index + 1)) :
    Holds (Fwd Tokens.length Index) (parseSuffixed pe Tokens Index) := by
  unfold parseSuffixed
  refine holds_bind (parsePrimary_fwd pe Tokens Index hi hpe) ?_
  rintro ⟨a, i1⟩ ⟨h1, h2⟩
  dsimp only at h1 h2
  refine holds_mono (holds_loop (suffixStep pe Tokens) Tokens.length i1
    (fun r hr1 hr2 => suffixStep_post pe Tokens r hr2 (fun i hi1 hi2 => hpe i (by omega) hi2))
    (a, i1) (le_refl _) h2) ?_
  rintro ⟨b, j⟩ ⟨h3, h4⟩
  dsimp only at h3 h4
  exact ⟨by dsimp only; omega, h4⟩

theorem binaryStep_post (rhs : Nat → Nat → Res (AST × Nat)) (Tokens : List Token)
    (minPrec : Nat) (s : AST × Nat) (hs : s.2 ≤ Tokens.length)
    (hrhs : ∀ m, PEok (fun i => rhs i m) Tokens.length (s.2 + 1)) :
    Holds (StepPost Tokens.length s) (binaryStep rhs Tokens minPrec s) := by
  unfold binaryStep
  refine holds_ite (fun hlt => ?_) (fun _ => holds_pure ⟨le_refl _, hs⟩)
  refine holds_bind (holds_tokAt Tokens s.2 hlt) ?_
  intro op _
  dsimp only
  refine holds_ite (fun _ => holds_pure ⟨le_refl _, hs⟩) (fun _ => ?_)
  refine holds_bind (hrhs _ (s.2 + 1) (le_refl _) hlt) ?_
  rintro ⟨right, i1⟩ ⟨h1, h2⟩
  dsimp only at h1 h2
  exact holds_pure ⟨by dsimp only; omega, by dsimp only; omega⟩

theorem parseBinary_fwd (Tokens : List Token) (fuel : Nat) :
    ∀ Index minPrec, Index ≤ Tokens.length → Tokens.length < fuel + Index →
      Holds (Fwd Tokens.length Index) (parseBinary fuel Tokens Index minPrec) := by
  induction fuel with
  | zero => intro Index minPrec h1 h2; omega
  | succ fuel ih =>
    intro Index minPrec h1 h2
    unfold parseBinary
    refine holds_ite (fun h => holds_pure ⟨by dsimp only; omega, by dsimp only; omega⟩)
      (fun h => ?_)
    have hlt : Index < Tokens.length := by omega
    refine holds_bind (holds_tokAt Tokens Index hlt) ?_
    intro t _
    refine holds_ite (fun _ => ?_) (fun _ => ?_)
    · refine holds_bind (ih (Index + 1) 9 hlt (by omega)) ?_
      rintro ⟨right, i1⟩ ⟨h3, h4⟩
      dsimp only at h3 h4
      exact holds_pure ⟨by dsimp only; omega, by dsimp only; omega⟩
    · refine holds_bind (parseSuffixed_fwd _ Tokens Index h1
        (fun i hi1 hi2 => ih i 1 hi2 (by omega))) ?_
      rintro ⟨a, i1⟩ ⟨h3, h4⟩
      dsimp only at h3 h4
      refine holds_mono (holds_loop _ Tokens.length i1
        (fun r hr1 hr2 => binaryStep_post _ Tokens minPrec r hr2
          (fun m i hi1 hi2 => ih i m hi2 (by omega)))
        (a, i1) (le_refl _) h4) ?_
      rintro ⟨b, j⟩ ⟨h5, h6⟩
      dsimp only at h5 h6
      exact ⟨by dsimp only; omega, h6⟩

theorem parseExpression_fwd (Tokens : List Token) (Index : Nat) (hi : Index ≤ Tokens.length) :
    Holds (Fwd Tokens.length Index) (parseExpressionForwardDecl Tokens Index) :=
  parseBinary_fwd Tokens (Tokens.length + 1) Index 1 hi (by omega)

theorem parseExpression_PEok (Tokens : List Token) (k : Nat) :
    PEok (parseExpressionForwardDecl Tokens) Tokens.length k :=
  fun i _ hi => parseExpression_fwd Tokens i hi

theorem exprListStep_post (Tokens : List Token) (s : List AST × Nat)
    (hs : s.2 ≤ Tokens.length) :
    Holds (StepPost Tokens.length s) (exprListStep Tokens s) := by
  unfold exprListStep
  refine holds_bind (holds_typeIs Tokens s.2 _) ?_
  intro b hb
  refine holds_ite (fun h => ?_) (fun _ => holds_pure ⟨le_refl _, hs⟩)
  have hlt := hb h
  refine holds_bind (parseExpression_fwd Tokens (s.2 + 1) hlt) ?_
  rintro ⟨e, i1⟩ ⟨h1, h2⟩
  dsimp only at h1 h2
  exact holds_pure ⟨by dsimp only; omega, by dsimp only; omega⟩

theorem parseExpressionList_fwd (Tokens : List Token) (Index : Nat)
    (hi : Index ≤ Tokens.length) :
    Holds (Fwd Tokens.length Index) (parseExpressionList Tokens Index) := by
  unfold parseExpressionList
  refine holds_ite (fun h => holds_pure ⟨by dsimp only; omega, by dsimp only; omega⟩)
    (fun h => ?_)
  refine holds_bind (parseExpression_fwd Tokens Index hi) ?_
  rintro ⟨e, i1⟩ ⟨h1, h2⟩
  dsimp only at h1 h2
  refine holds_mono (holds_loop (exprListStep Tokens) Tokens.length i1
    (fun r _ hr2 => exprListStep_post Tokens r hr2) ([e], i1) (le_refl _) h2) ?_
  rintro ⟨b, j⟩ ⟨h3, h4⟩
  dsimp only at h3 h4
  exact ⟨by dsimp only; omega, h4⟩

theorem varStep_post (Tokens : List Token) (s : List AST × Nat) (hs : s.2 ≤ Tokens.length) :
    Holds (StepPost Tokens.length s) (varStep Tokens s) := by
  unfold varStep
  refine holds_bind (holds_typeIs Tokens s.2 _) ?_
  intro b hb
  refine holds_ite (fun h => ?_) (fun _ => holds_pure ⟨le_refl _, hs⟩)
  have hlt := hb h
  refine holds_bind (holds_tokAt Tokens s.2 hlt) ?_
  intro t _
  dsimp only
  refine holds_bind (holds_typeIs Tokens (s.2 + 1) _) ?_
  intro c hc
  refine holds_ite (fun h' => ?_) (fun _ => ?_)
  · have := hc h'
    exact holds_pure ⟨by dsimp only; omega, by dsimp only; omega⟩
  · exact holds_pure ⟨by dsimp only; omega, by dsimp only; omega⟩

theorem localValues_within (Tokens : List Token) (Index : Nat) (hi : Index ≤ Tokens.length) :
    Holds (Within Tokens.length Index) (localValues Tokens Index) := by
  unfold localValues
  refine holds_bind (holds_typeIs Tokens Index _) ?_
  intro b hb
  refine holds_ite (fun h => ?_) (fun _ => holds_pure ⟨le_refl _, hi⟩)
  have hlt := hb h
  refine holds_mono (parseExpressionList_fwd Tokens (Index + 1) hlt) ?_
  rintro ⟨vals, j⟩ ⟨h3, h4⟩
  dsimp only at h3 h4
  exact ⟨by dsimp only; omega, h4⟩

theorem parseLocal_fwd (Tokens : List Token) (Index : Nat) (hi : Index < Tokens.length) :
    Holds (Fwd Tokens.length Index) (parseLocal Tokens Index) := by
  unfold parseLocal
  refine holds_bind (holds_tokAt Tokens Index hi) ?_
  intro t _
  refine holds_bind (holds_loop (varStep Tokens) Tokens.length (Index + 1)
    (fun r _ hr2 => varStep_post Tokens r hr2) ([], Index + 1) (le_refl _) hi) ?_
  rintro ⟨vars, i1⟩ ⟨h1, h2⟩
  dsimp only at h1 h2
  refine holds_bind (localValues_within Tokens i1 h2) ?_
  rintro ⟨vals, i2⟩ ⟨h3, h4⟩
  dsimp only at h3 h4
  exact holds_pure ⟨by dsimp only; omega, by dsimp only; omega⟩

theorem returnValues_within (Tokens : List Token) (Index : Nat) (hi : Index ≤ Tokens.length) :
    Holds (Within Tokens.length Index) (returnValues Tokens Index) := by
  unfold returnValues
  refine holds_bind (holds_typeIsNot Tokens Index _) ?_
  intro b hb
  refine holds_ite (fun h => ?_) (fun _ => holds_pure ⟨le_refl _, hi⟩)
  refine holds_mono (parseExpressionList_fwd Tokens Index hi) ?_
  rintro ⟨vals, j⟩ ⟨h3, h4⟩
  dsimp only at h3 h4
  exact ⟨by dsimp only; omega, h4⟩

theorem parseReturn_fwd (Tokens : List Token) (Index : Nat) (hi : Index < Tokens.length) :
    Holds (Fwd Tokens.length Index) (parseReturn Tokens Index) := by
  unfold parseReturn
  refine holds_bind (holds_tokAt Tokens Index hi) ?_
  intro t _
  refine holds_bind (returnValues_within Tokens (Index + 1) hi) ?_
  rintro ⟨vals, i1⟩ ⟨h1, h2⟩
  dsimp only at h1 h2
  refine holds_bind (holds_accept Tokens i1 _) ?_
  intro j hj
  exact holds_pure ⟨by dsimp only; omega, by dsimp only; omega⟩

theorem blockStep_post (Tokens : List Token) (stop : List TokenType) (s : List AST × Nat)
    (hs : s.2 ≤ Tokens.length) :
    Holds (StepPost Tokens.length s) (blockStep Tokens stop s) := by
  unfold blockStep
  refine holds_bind (holds_typeIsNot Tokens s.2 _) ?_
  intro b hb
  refine holds_ite (fun h => ?_) (fun _ => holds_pure ⟨le_refl _, hs⟩)
  have hlt := hb h
  refine holds_bind (parseExpression_fwd Tokens s.2 hs) ?_
  rintro ⟨node, i1⟩ ⟨h1, h2⟩
  dsimp only at h1 h2
  refine holds_bind (holds_accept Tokens i1 _) ?_
  intro j hj
  refine holds_ite (fun _ => ?_) (fun _ => ?_)
  · exact holds_pure ⟨by dsimp only; omega, by dsimp only; omega⟩
  · exact holds_pure ⟨by dsimp only; omega, by dsimp only; omega⟩

theorem elseifStep_post (Tokens : List Token) (s : List AST × Nat)
    (hs : s.2 ≤ Tokens.length) :
    Holds (StepPost Tokens.length s) (elseifStep Tokens s) := by
  unfold elseifStep
  refine holds_bind (holds_typeIs Tokens s.2 _) ?_
  intro b hb
  refine holds_ite (fun h => ?_) (fun _ => holds_pure ⟨le_refl _, hs⟩)
  have hlt := hb h
  refine holds_bind (holds_tokAt Tokens s.2 hlt) ?_
  intro t _
  refine holds_bind (parseExpression_fwd Tokens (s.2 + 1) hlt) ?_
  rintro ⟨elifCond, i1⟩ ⟨h1, h2⟩
  dsimp only at h1 h2
  refine holds_bind (holds_accept Tokens i1 _) ?_
  intro i2 hi2
  refine holds_bind (holds_loop (blockStep Tokens _) Tokens.length i2
    (fun r _ hr2 => blockStep_post Tokens _ r hr2) ([], i2) (le_refl _)
    (by dsimp only; omega)) ?_
  rintro ⟨elifBlock, i3⟩ ⟨h3, h4⟩
  dsimp only at h3 h4
  exact holds_pure ⟨by dsimp only; omega, by dsimp only; omega⟩

theorem elseClause_within (Tokens : List Token) (clauses : List AST) (Index : Nat)
    (hi : Index ≤ Tokens.length) :
    Holds (Within Tokens.length Index) (elseClause Tokens clauses Index) := by
  unfold elseClause
  refine holds_bind (holds_typeIs Tokens Index _) ?_
  intro b hb
  refine holds_ite (fun h => ?_) (fun _ => holds_pure ⟨le_refl _, hi⟩)
  have hlt := hb h
  refine holds_bind (holds_tokAt Tokens Index hlt) ?_
  intro te _
  refine holds_bind (holds_loop (blockStep Tokens _) Tokens.length (Index + 1)
    (fun r _ hr2 => blockStep_post Tokens _ r hr2) ([], Index + 1) (le_refl _) hlt) ?_
  rintro ⟨elseBlock, i6⟩ ⟨h7, h8⟩
  dsimp only at h7 h8
  exact holds_pure ⟨by dsimp only; omega, by dsimp only; omega⟩

theorem parseIf_fwd (Tokens : List Token) (Index : Nat) (hi : Index < Tokens.length) :
    Holds (Fwd Tokens.length Index) (parseIf Tokens Index) := by
  unfold parseIf
  refine holds_bind (holds_tokAt Tokens Index hi) ?_
  intro t _
  refine holds_bind (parseExpression_fwd Tokens (Index + 1) hi) ?_
  rintro ⟨cond, i1⟩ ⟨h1, h2⟩
  dsimp only at h1 h2
  refine holds_bind (holds_accept Tokens i1 _) ?_
  intro i2 hi2
  refine holds_bind (holds_loop (blockStep Tokens _) Tokens.length i2
    (fun r _ hr2 => blockStep_post Tokens _ r hr2) ([], i2) (le_refl _)
    (by dsimp only; omega)) ?_
  rintro ⟨thenBlock, i3⟩ ⟨h3, h4⟩
  dsimp only at h3 h4
  refine holds_bind (holds_loop (elseifStep Tokens) Tokens.length i3
    (fun r _ hr2 => elseifStep_post Tokens r hr2) (_, i3) (le_refl _) h4) ?_
  rintro ⟨clauses1, i4⟩ ⟨h5, h6⟩
  dsimp only at h5 h6
  refine holds_bind (elseClause_within Tokens clauses1 i4 h6) ?_
  rintro ⟨clauses2, i5⟩ ⟨h7, h8⟩
  dsimp only at h7 h8
  refine holds_bind (holds_accept Tokens i5 _) ?_
  intro i7 hi7
  exact holds_pure ⟨by dsimp only; omega, by dsimp only; omega⟩

theorem whileBodyStep_post (Tokens : List Token) (s : List AST × Nat)
    (hs : s.2 ≤ Tokens.length) :
    Holds (StepPost Tokens.length s) (whileBodyStep Tokens s) := by
  unfold whileBodyStep
  refine holds_bind (holds_typeIsNot Tokens s.2 _) ?_
  intro b hb
  refine holds_ite (fun h => ?_) (fun _ => holds_pure ⟨le_refl _, hs⟩)
  have hlt := hb h
  refine holds_bind (parseExpression_fwd Tokens s.2 hs) ?_
  rintro ⟨node, i1⟩ ⟨h1, h2⟩
  dsimp only at h1 h2
  refine holds_bind (holds_accept Tokens i1 _) ?_
  intro j hj
  exact holds_pure ⟨by dsimp only; omega, by dsimp only; omega⟩

theorem parseWhile_fwd (Tokens : List Token) (Index : Nat) (hi : Index < Tokens.length) :
    Holds (Fwd Tokens.length Index) (parseWhile Tokens Index) := by
  unfold parseWhile
  refine holds_bind (holds_tokAt Tokens Index hi) ?_
  intro t _
  refine holds_bind (parseExpression_fwd Tokens (Index + 1) hi) ?_
  rintro ⟨cond, i1⟩ ⟨h1, h2⟩
  dsimp only at h1 h2
  refine holds_bind (holds_accept Tokens i1 _) ?_
  intro i2 hi2
  refine holds_bind (holds_loop (whileBodyStep Tokens) Tokens.length i2
    (fun r _ hr2 => whileBodyStep_post Tokens r hr2) ([], i2) (le_refl _)
    (by dsimp only; omega)) ?_
  rintro ⟨body, i3⟩ ⟨h3, h4⟩
  dsimp only at h3 h4
  refine holds_bind (holds_accept Tokens i3 _) ?_
  intro i4 hi4
  exact holds_pure ⟨by dsimp only; omega, by dsimp only; omega⟩

theorem fnDeclBodyStep_post (Tokens : List Token) (s : List AST × Nat)
    (hs : s.2 ≤ Tokens.length) :
    Holds (StepPost Tokens.length s) (fnDeclBodyStep Tokens s) := by
  unfold fnDeclBodyStep
  refine holds_bind (holds_typeIsNot Tokens s.2 _) ?_
  intro b hb
  refine holds_ite (fun h => ?_) (fun _ => holds_pure ⟨le_refl _, hs⟩)
  have hlt := hb h
  refine holds_bind (holds_tokAt Tokens s.2 hlt) ?_
  intro t _
  refine holds_ite (fun _ => ?_) (fun _ => ?_)
  · refine holds_bind (returnValues_within Tokens (s.2 + 1) hlt) ?_
    rintro ⟨retvals, i1⟩ ⟨h1, h2⟩
    dsimp only at h1 h2
    refine holds_bind (holds_accept Tokens i1 _) ?_
    intro j hj
    exact holds_pure ⟨by dsimp only; omega, by dsimp only; omega⟩
  · refine holds_bind (parseExpression_fwd Tokens s.2 hs) ?_
    rintro ⟨node, i1⟩ ⟨h1, h2⟩
    dsimp only at h1 h2
    refine holds_bind (holds_accept Tokens i1 _) ?_
    intro j hj
    exact holds_pure ⟨by dsimp only; omega, by dsimp only; omega⟩

theorem functionName_within (Tokens : List Token) (Index : Nat) (hi : Index ≤ Tokens.length) :
    Holds (Within Tokens.length Index) (functionName Tokens Index) := by
  unfold functionName
  refine holds_bind (holds_typeIs Tokens Index _) ?_
  intro b hb
  refine holds_ite (fun h => ?_) (fun _ => holds_pure ⟨le_refl _, hi⟩)
  have hlt := hb h
  refine holds_bind (holds_tokAt Tokens Index hlt) ?_
  intro n _
  exact holds_pure ⟨by dsimp only; omega, by dsimp only; omega⟩

theorem functionParams_within (Tokens : List Token) (Index : Nat)
    (hi : Index ≤ Tokens.length) :
    Holds (Within Tokens.length Index) (functionParams Tokens Index) := by
  unfold functionParams
  refine holds_bind (holds_typeIs Tokens Index _) ?_
  intro b hb
  refine holds_ite (fun h => ?_) (fun _ => holds_pure ⟨le_refl _, hi⟩)
  have hlt := hb h
  refine holds_bind (holds_loop (paramStep Tokens) Tokens.length (Index + 1)
    (fun r _ hr2 => paramStep_post Tokens r hr2) ([], Index + 1) (le_refl _) hlt) ?_
  rintro ⟨ps, j⟩ ⟨h3, h4⟩
  dsimp only at h3 h4
  refine holds_bind (holds_accept Tokens j _) ?_
  intro j' hj'
  exact holds_pure ⟨by dsimp only; omega, by dsimp only; omega⟩

theorem parseFunction_fwd (Tokens : List Token) (Index : Nat) (hi : Index < Tokens.length) :
    Holds (Fwd Tokens.length Index) (parseFunction Tokens Index) := by
  unfold parseFunction
  refine holds_bind (holds_tokAt Tokens Index hi) ?_
  intro t _
  refine holds_bind (functionName_within Tokens (Index + 1) hi) ?_
  rintro ⟨funcName, i1⟩ ⟨h1, h2⟩
  dsimp only at h1 h2
  refine holds_bind (functionParams_within Tokens i1 h2) ?_
  rintro ⟨params, i2⟩ ⟨h3, h4⟩
  dsimp only at h3 h4
  refine holds_bind (holds_loop (fnDeclBodyStep Tokens) Tokens.length i2
    (fun r _ hr2 => fnDeclBodyStep_post Tokens r hr2) ([], i2) (le_refl _) h4) ?_
  rintro ⟨body, i3⟩ ⟨h5, h6⟩
  dsimp only at h5 h6
  refine holds_bind (holds_accept Tokens i3 _) ?_
  intro i4 hi4
  exact holds_pure ⟨by dsimp only; omega, by dsimp only; omega⟩

theorem exprStatement_fwd (Tokens : List Token) (Index : Nat) (hi : Index ≤ Tokens.length) :
    Holds (Fwd Tokens.length Index) (exprStatement Tokens Index) := by
  unfold exprStatement
  refine holds_bind (parseExpression_fwd Tokens Index hi) ?_
  rintro ⟨expr, i1⟩ ⟨h1, h2⟩
  dsimp only at h1 h2
  exact holds_pure ⟨by dsimp only; omega, by dsimp only; omega⟩

theorem defaultNode_fwd (Tokens : List Token) (Index : Nat) (t : Token)
    (hi : Index < Tokens.length) :
    Holds (Fwd Tokens.length Index) (defaultNode Tokens Index t) := by
  unfold defaultNode
  have hexpr : Holds (Fwd Tokens.length Index) (exprStatement Tokens Index) :=
    exprStatement_fwd Tokens Index (by omega)
  refine holds_ite (fun _ => ?_) (fun _ => hexpr)
  refine holds_bind (holds_typeIs Tokens (Index + 1) _) ?_
  intro b1 _
  refine holds_bind (holds_typeIs Tokens (Index + 1) _) ?_
  intro b2 _
  refine holds_ite (fun _ => ?_) (fun _ => ?_)
  · refine holds_bind (holds_loop (varStep Tokens) Tokens.length Index
      (fun r _ hr2 => varStep_post Tokens r hr2) ([], Index) (le_refl _)
      (by dsimp only; omega)) ?_
    rintro ⟨vars, j1⟩ ⟨h1, h2⟩
    dsimp only at h1 h2
    refine holds_bind (holds_typeIs Tokens j1 _) ?_
    intro b3 hb3
    refine holds_ite (fun h => ?_) (fun _ => ?_)
    · have hlt := hb3 h
      refine holds_bind (parseExpressionList_fwd Tokens (j1 + 1) hlt) ?_
      rintro ⟨vals, j2⟩ ⟨h3, h4⟩
      dsimp only at h3 h4
      exact holds_pure ⟨by dsimp only; omega, by dsimp only; omega⟩
    · refine holds_mono (exprStatement_fwd Tokens j1 h2) ?_
      rintro ⟨e, j⟩ ⟨h3, h4⟩
      dsimp only at h3 h4
      exact ⟨by dsimp only; omega, h4⟩
  · refine holds_bind (holds_typeIs Tokens (Index + 1) _) ?_
    intro b3 _
    refine holds_ite (fun _ => ?_) (fun _ => hexpr)
    refine holds_bind (parseSuffixed_fwd _ Tokens Index (by omega)
      (parseExpression_PEok Tokens _)) ?_
    rintro ⟨call, j1⟩ ⟨h1, h2⟩
    dsimp only at h1 h2
    exact holds_pure ⟨by dsimp only; omega, by dsimp only; omega⟩

theorem parseDefault_fwd (Tokens : List Token) (Index : Nat) (hi : Index < Tokens.length) :
    Holds (Fwd Tokens.length Index) (parseDefault Tokens Index) := by
  unfold parseDefault
  refine holds_bind (holds_tokAt Tokens Index hi) ?_
  intro t _
  refine holds_bind (defaultNode_fwd Tokens Index t hi) ?_
  rintro ⟨node, i1⟩ ⟨h1, h2⟩
  dsimp only at h1 h2
  refine holds_bind (holds_accept Tokens i1 _) ?_
  intro j hj
  exact holds_pure ⟨by dsimp only; omega, by dsimp only; omega⟩

theorem parseStep_post (Tokens : List Token) (s : ParseState) (hs : s.Index ≤ Tokens.length) :
    (∃ s', parseStep Tokens s = Except.ok (Step.done s') ∧ s' = s) ∨
    (∃ s', parseStep Tokens s = Except.ok (Step.next s') ∧ s'.Index ≤ Tokens.length ∧
      s.Running = true ∧ s.Index < Tokens.length ∧
      (s'.Running = false ∨ s.Index < s'.Index)) := by
  unfold parseStep
  by_cases hc : (s.Running && decide (s.Index < Tokens.length)) = true
  · right
    rw [if_pos hc]
    simp only [Bool.and_eq_true, decide_eq_true_eq] at hc
    obtain ⟨hrun, hlt⟩ := hc
    suffices h : Holds (fun r => ∃ s', r = Step.next s' ∧ s'.Index ≤ Tokens.length ∧
        (s'.Running = false ∨ s.Index < s'.Index))
        (tokAt Tokens s.Index >>= fun t =>
          match t.type with
          | TokenType.END_OF_FILE => pure (Step.next { s with Running := false })
          | TokenType.SEMICOLON => pure (Step.next { s with Index := s.Index + 1 })
          | TokenType.LOCAL => (parseLocal Tokens s.Index).map
              (fun p => Step.next { s with Index := p.2, Chunk := s.Chunk ++ [p.1] })
          | TokenType.RETURN => (parseReturn Tokens s.Index).map
              (fun p => Step.next { s with Index := p.2, Chunk := s.Chunk ++ [p.1] })
          | TokenType.IF => (parseIf Tokens s.Index).map
              (fun p => Step.next { s with Index := p.2, Chunk := s.Chunk ++ [p.1] })
          | TokenType.WHILE => (parseWhile Tokens s.Index).map
              (fun p => Step.next { s with Index := p.2, Chunk := s.Chunk ++ [p.1] })
          | TokenType.FUNCTION => (parseFunction Tokens s.Index).map
              (fun p => Step.next { s with Index := p.2, Chunk := s.Chunk ++ [p.1] })
          | _ => (parseDefault Tokens s.Index).map
              (fun p => Step.next { s with Index := p.2, Chunk := s.Chunk ++ [p.1] })) by
      obtain ⟨r, hr, s', hs', h1, h2⟩ := h
      exact ⟨s', by rw [← hs']; exact hr, h1, hrun, hlt, h2⟩
    refine holds_bind (holds_tokAt Tokens s.Index hlt) ?_
    intro t _
    have key : ∀ r : Res (AST × Nat), Holds (Fwd Tokens.length s.Index) r →
        Holds (fun r => ∃ s', r = Step.next s' ∧ s'.Index ≤ Tokens.length ∧
          (s'.Running = false ∨ s.Index < s'.Index))
          (r.map (fun p => Step.next { s with Index := p.2, Chunk := s.Chunk ++ [p.1] })) := by
      intro r hr
      refine holds_map (holds_mono hr ?_)
      rintro ⟨a, j⟩ ⟨h1, h2⟩
      dsimp only at h1 h2
      exact ⟨_, rfl, h2, Or.inr (by dsimp only; omega)⟩
    split
    · exact holds_pure ⟨_, rfl, hs, Or.inl rfl⟩
    · exact holds_pure ⟨_, rfl, by dsimp only; omega, Or.inr (by dsimp only; omega)⟩
    · exact key _ (parseLocal_fwd Tokens s.Index hlt)
    · exact key _ (parseReturn_fwd Tokens s.Index hlt)
    · exact key _ (parseIf_fwd Tokens s.Index hlt)
    · exact key _ (parseWhile_fwd Tokens s.Index hlt)
    · exact key _ (parseFunction_fwd Tokens s.Index hlt)
    · exact key _ (parseDefault_fwd Tokens s.Index hlt)
  · left
    rw [if_neg hc]
    exact ⟨s, rfl, rfl⟩

theorem Parse_total (Tokens : List Token) : ∃ chunk, Parse Tokens = Except.ok chunk := by
  unfold Parse
  obtain ⟨r, hr, -⟩ := loop_total (parseStep Tokens)
    (fun s => if s.Running then Tokens.length - s.Index else 0)
    (fun s => s.Index ≤ Tokens.length) (fun _ => True)
    (by
      intro s hs
      rcases parseStep_post Tokens s hs with ⟨s', h, _⟩ | ⟨s', h, h1, h2, h3, h4⟩
      · exact Or.inl ⟨s', h, trivial⟩
      · refine Or.inr ⟨s', h, h1, ?_⟩
        beta_reduce
        rw [h2]
        rcases h4 with h4 | h4
        · rw [h4]; simp only [if_true]; simp; omega
        · split <;> simp only [if_true] <;> omega)
    (Tokens.length + 1) { Running := true, Index := 0, Chunk := [] }
    (Nat.zero_le _) (by beta_reduce; simp)
  exact ⟨r.Chunk, by rw [hr]; rfl⟩

/-! ## Operator chains -/

theorem tokAt_eq (Tokens : List Token) (i : Nat) (t : Token) (h : Tokens.get? i = some t) :
    tokAt Tokens i = Except.ok t := by
  simp only [tokAt, h]

theorem get_lt (Tokens : List Token) (i : Nat) (t : Token) (h : Tokens.get? i = some t) :
    i < Tokens.length := by
  by_contra hc
  rw [List.get?_eq_none.mpr (by omega)] at h
  cases h

theorem nonSuffix_of_prec (u : Token) (h : 0 < precedenceOf u) : nonSuffix u := by
  unfold precedenceOf at h
  unfold nonSuffix
  cases hu : u.type <;> simp [hu] at h ⊢

theorem nonSuffix_of_eof (u : Token) (h : u.type = TokenType.END_OF_FILE) : nonSuffix u := by
  simp [nonSuffix, h]

theorem prec_eof (u : Token) (h : u.type = TokenType.END_OF_FILE) : precedenceOf u = 0 := by
  simp [precedenceOf, h]

theorem parsePrimary_operand (pe : PE) (Tokens : List Token) (i : Nat) (t : Token)
    (h : Tokens.get? i = some t) (ht : isOperand t) :
    parsePrimary pe Tokens i = Except.ok (operandLeaf t, i + 1) := by
  have hlt := get_lt Tokens i t h
  unfold parsePrimary
  rw [if_neg (by omega), tokAt_eq Tokens i t h]
  rcases ht with ht | ht <;> simp [ht, operandLeaf, makeLeaf]

theorem suffixStep_stop (pe : PE) (Tokens : List Token) (x : AST) (i : Nat) (u : Token)
    (h : Tokens.get? i = some u) (hu : nonSuffix u) :
    suffixStep pe Tokens (x, i) = Except.ok (Step.done (x, i)) := by
  have hlt := get_lt Tokens i u h
  obtain ⟨h1, h2, h3⟩ := hu
  unfold suffixStep
  simp [hlt, tokAt_eq Tokens i u h, h1, h2, h3]

theorem parseSuffixed_operand (pe : PE) (Tokens : List Token) (i : Nat) (t u : Token)
    (h : Tokens.get? i = some t) (ht : isOperand t)
    (h' : Tokens.get? (i + 1) = some u) (hu : nonSuffix u) :
    parseSuffixed pe Tokens i = Except.ok (operandLeaf t, i + 1) := by
  unfold parseSuffixed
  rw [parsePrimary_operand pe Tokens i t h ht]
  exact loop_done _ _ _ _ (suffixStep_stop pe Tokens _ (i + 1) u h' hu)

theorem binaryStep_stop (rhs : Nat → Nat → Res (AST × Nat)) (Tokens : List Token)
    (minPrec : Nat) (x : AST) (i : Nat) (u : Token) (h : Tokens.get? i = some u)
    (hu : precedenceOf u = 0 ∨ precedenceOf u < minPrec) :
    binaryStep rhs Tokens minPrec (x, i) = Except.ok (Step.done (x, i)) := by
  have hlt := get_lt Tokens i u h
  unfold binaryStep
  simp only [hlt, if_true, tokAt_eq Tokens i u h, res_bind_ok]
  rw [if_pos]
  · rfl
  · simpa using hu

theorem binaryStep_op (rhs : Nat → Nat → Res (AST × Nat)) (Tokens : List Token)
    (minPrec : Nat) (x r : AST) (i j : Nat) (op : Token) (h : Tokens.get? i = some op)
    (h0 : 0 < precedenceOf op) (hmin : minPrec ≤ precedenceOf op)
    (hr : rhs (i + 1) (nextMinOf op) = Except.ok (r, j)) :
    binaryStep rhs Tokens minPrec (x, i) = Except.ok (Step.next (binaryNode op x r, j)) := by
  have hlt := get_lt Tokens i op h
  unfold binaryStep
  simp only [hlt, if_true, tokAt_eq Tokens i op h, res_bind_ok]
  rw [if_neg]
  · unfold nextMinOf at hr
    rw [hr]
    rfl
  · simp only [Bool.or_eq_true, beq_iff_eq, decide_eq_true_eq, not_or]
    omega

theorem parseBinary_operand (fuel : Nat) (Tokens : List Token) (i minPrec : Nat) (t u : Token)
    (h : Tokens.get? i = some t) (ht : isOperand t)
    (h' : Tokens.get? (i + 1) = some u) (hu : nonSuffix u) :
    parseBinary (fuel + 1) Tokens i minPrec =
      loop (Tokens.length + 1)
        (binaryStep (fun i nextMin => parseBinary fuel Tokens i nextMin) Tokens minPrec)
        (operandLeaf t, i + 1) := by
  have hlt := get_lt Tokens i t h
  rw [parseBinary]
  rw [if_neg (by omega), tokAt_eq Tokens i t h]
  simp only [res_bind_ok]
  rw [if_neg, parseSuffixed_operand _ Tokens i t u h ht h' hu]
  · rfl
  · rcases ht with ht | ht <;> simp [ht]

theorem parseBinary_operand_stop (fuel : Nat) (Tokens : List Token) (i minPrec : Nat)
    (t u : Token) (h : Tokens.get? i = some t) (ht : isOperand t)
    (h' : Tokens.get? (i + 1) = some u) (hu : nonSuffix u)
    (hp : precedenceOf u = 0 ∨ precedenceOf u < minPrec) :
    parseBinary (fuel + 1) Tokens i minPrec = Except.ok (operandLeaf t, i + 1) := by
  rw [parseBinary_operand fuel Tokens i minPrec t u h ht h' hu]
  exact loop_done _ _ _ _ (binaryStep_stop _ Tokens minPrec _ (i + 1) u h' hp)

/-- The tokens `a o1 b o2 c` followed by END_OF_FILE, where `o2` passes the threshold set by
`o1`: the second operator is grouped with the right operand of the first. -/
theorem chain_right (a o1 b o2 c e : Token) (ha : isOperand a) (hb : isOperand b)
    (hc : isOperand c) (h1 : 0 < precedenceOf o1) (h2 : 0 < precedenceOf o2)
    (hle : nextMinOf o1 ≤ precedenceOf o2) (he : e.type = TokenType.END_OF_FILE) :
    parseExpressionForwardDecl [a, o1, b, o2, c, e] 0 =
      Except.ok (binaryNode o1 (operandLeaf a) (binaryNode o2 (operandLeaf b) (operandLeaf c)),
        5) := by
  have hstop := prec_eof e he
  have hinner : parseBinary 5 [a, o1, b, o2, c, e] 4 (nextMinOf o2) =
      Except.ok (operandLeaf c, 5) :=
    parseBinary_operand_stop 4 [a, o1, b, o2, c, e] 4 _ c e rfl hc rfl (nonSuffix_of_eof e he)
      (Or.inl hstop)
  have hrhs : parseBinary 6 [a, o1, b, o2, c, e] 2 (nextMinOf o1) =
      Except.ok (binaryNode o2 (operandLeaf b) (operandLeaf c), 5) := by
    rw [parseBinary_operand 5 [a, o1, b, o2, c, e] 2 _ b o2 rfl hb rfl (nonSuffix_of_prec o2 h2)]
    rw [loop_next _ _ _ _
      (binaryStep_op _ [a, o1, b, o2, c, e] _ _ _ 3 5 o2 rfl h2 hle hinner)]
    exact loop_done _ _ _ _
      (binaryStep_stop _ [a, o1, b, o2, c, e] _ _ 5 e rfl (Or.inl hstop))
  have htop : parseBinary 7 [a, o1, b, o2, c, e] 0 1 =
      Except.ok (binaryNode o1 (operandLeaf a) (binaryNode o2 (operandLeaf b) (operandLeaf c)),
        5) := by
    rw [parseBinary_operand 6 [a, o1, b, o2, c, e] 0 _ a o1 rfl ha rfl (nonSuffix_of_prec o1 h1)]
    rw [loop_next _ _ _ _
      (binaryStep_op _ [a, o1, b, o2, c, e] _ _ _ 1 5 o1 rfl h1 (by omega) hrhs)]
    exact loop_done _ _ _ _
      (binaryStep_stop _ [a, o1, b, o2, c, e] _ _ 5 e rfl (Or.inl hstop))
  exact htop

/-- The tokens `a o1 b o2 c` followed by END_OF_FILE, where `o2` stays below the threshold set
by `o1`: the first operator is grouped first and becomes the left operand of the second. -/
theorem chain_left (a o1 b o2 c e : Token) (ha : isOperand a) (hb : isOperand b)
    (hc : isOperand c) (h1 : 0 < precedenceOf o1) (h2 : 0 < precedenceOf o2)
    (hlt : precedenceOf o2 < nextMinOf o1) (he : e.type = TokenType.END_OF_FILE) :
    parseExpressionForwardDecl [a, o1, b, o2, c, e] 0 =
      Except.ok (binaryNode o2 (binaryNode o1 (operandLeaf a) (operandLeaf b)) (operandLeaf c),
        5) := by
  have hstop := prec_eof e he
  have hfirst : parseBinary 6 [a, o1, b, o2, c, e] 2 (nextMinOf o1) =
      Except.ok (operandLeaf b, 3) :=
    parseBinary_operand_stop 5 [a, o1, b, o2, c, e] 2 _ b o2 rfl hb rfl
      (nonSuffix_of_prec o2 h2) (Or.inr hlt)
  have hsecond : parseBinary 6 [a, o1, b, o2, c, e] 4 (nextMinOf o2) =
      Except.ok (operandLeaf c, 5) :=
    parseBinary_operand_stop 5 [a, o1, b, o2, c, e] 4 _ c e rfl hc rfl (nonSuffix_of_eof e he)
      (Or.inl hstop)
  have htop : parseBinary 7 [a, o1, b, o2, c, e] 0 1 =
      Except.ok (binaryNode o2 (binaryNode o1 (operandLeaf a) (operandLeaf b)) (operandLeaf c),
        5) := by
    rw [parseBinary_operand 6 [a, o1, b, o2, c, e] 0 _ a o1 rfl ha rfl (nonSuffix_of_prec o1 h1)]
    rw [loop_next _ _ _ _
      (binaryStep_op _ [a, o1, b, o2, c, e] _ _ _ 1 3 o1 rfl h1 (by omega) hfirst)]
    show loop (5 + 1) _ _ = _
    rw [loop_next _ _ _ _
      (binaryStep_op _ [a, o1, b, o2, c, e] 1 _ _ 3 5 o2 rfl h2 (by omega) hsecond)]
    exact loop_done _ _ _ _
      (binaryStep_stop _ [a, o1, b, o2, c, e] _ _ 5 e rfl (Or.inl hstop))
  exact htop

/-! ## Strings without a closing quote -/

theorem getD_append_cons (pre rest : List Char) (c : Char) :
    (pre ++ c :: rest).getD pre.length NUL = c := by
  induction pre with
  | nil => rfl
  | cons x pre ih => simpa using ih

theorem lexStep_quote (data : List Char) (st : LexState) (q : Char)
    (hlt : st.idx < data.length) (hc : data.getD st.idx NUL = q)
    (hq : q = DQUOTE ∨ q = SQUOTE) :
    lexStep data st = (lexQuoted data st q).map Step.next := by
  unfold lexStep
  rw [if_pos hlt]
  dsimp only
  rw [hc]
  rcases hq with rfl | rfl <;> rfl

/-- The scan of a quoted string over characters that are neither the quote nor a backslash
runs to the end of the buffer and counts the newlines. -/
theorem quoted_scan (q : Char) (rest : List Char) :
    ∀ (pre : List Char) (line : Nat) (ts : List Token) (fuel : Nat),
      (∀ c ∈ rest, c ≠ q ∧ c ≠ BACKSLASH) → rest.length < fuel →
      loop fuel (quotedStep (pre ++ rest) q) { idx := pre.length, line := line, tokens := ts } =
        Except.ok { idx := (pre ++ rest).length, line := line + rest.count NL, tokens := ts } := by
  induction rest with
  | nil =>
    intro pre line ts fuel _ hf
    obtain ⟨n, rfl⟩ : ∃ n, fuel = n + 1 := ⟨fuel - 1, by simp at hf; omega⟩
    refine loop_done _ _ _ _ ?_
    simp [quotedStep]
  | cons c rest ih =>
    intro pre line ts fuel hall hf
    obtain ⟨n, rfl⟩ : ∃ n, fuel = n + 1 := ⟨fuel - 1, by simp at hf; omega⟩
    have hc := hall c (List.mem_cons_self _ _)
    have hget := getD_append_cons pre rest c
    have hstep : quotedStep (pre ++ c :: rest) q { idx := pre.length, line := line, tokens := ts }
        = Except.ok (Step.next
            { idx := pre.length + 1, line := (if c == NL then line + 1 else line),
              tokens := ts }) := by
      unfold quotedStep
      dsimp only
      rw [hget]
      have h1 : (decide (pre.length < (pre ++ c :: rest).length) && c != q) = true := by
        simp [hc.1]
      have h2 : (c == BACKSLASH && decide (pre.length + 1 < (pre ++ c :: rest).length)) = false := by
        simp [hc.2]
      rw [if_pos h1, h2]
      rfl
    rw [loop_next _ _ _ _ hstep]
    have := ih (pre ++ [c]) (if c == NL then line + 1 else line) ts n
      (fun x hx => hall x (List.mem_cons_of_mem _ hx)) (by simp at hf; omega)
    simp only [List.append_assoc, List.singleton_append, List.length_append, List.length_singleton]
      at this
    rw [this]
    have hcount : List.count NL (c :: rest) = rest.count NL + (if c == NL then 1 else 0) := by
      rw [List.count_cons]
    have hlen : pre.length + (c :: rest).length = (pre ++ c :: rest).length := by simp
    rw [hcount, hlen]
    by_cases hnl : (c == NL) = true
    · simp only [hnl, if_true]
      congr 2
      omega
    · simp only [hnl]
      rfl


theorem slice_body (pre body post : List Char) :
    slice (pre ++ body ++ post) pre.length body.length = String.mk body := by
  unfold slice
  simp [List.append_assoc, List.take_append_eq_append_take]

/-- The source `q ++ body` with `body` free of `q` and of backslashes: one STRING token with
the text `body`, then END_OF_FILE. -/
theorem Lexer_unterminated (q : Char) (body : List Char) (hq : q = DQUOTE ∨ q = SQUOTE)
    (hbody : ∀ c ∈ body, c ≠ q ∧ c ≠ BACKSLASH) :
    Lexer (String.mk (q :: body)) = Except.ok
      [Token.mk TokenType.STRING (String.mk body) (1 + body.count NL) 1,
       Token.mk TokenType.END_OF_FILE "" (1 + body.count NL) 0] := by
  have hscan := quoted_scan q body [q] 1 [] (body.length + 1 + 1) hbody (by omega)
  have hquoted : lexQuoted (q :: body) (LexState.mk 0 1 []) q =
      Except.ok (LexState.mk (body.length + 1) (1 + body.count NL)
        [Token.mk TokenType.STRING (String.mk body) (1 + body.count NL) 1]) := by
    unfold lexQuoted
    have h' : loop ((q :: body).length + 1) (quotedStep (q :: body) q)
        { idx := 0 + 1, line := 1, tokens := [] } =
        Except.ok (LexState.mk (body.length + 1) (1 + body.count NL) []) := by
      simpa using hscan
    rw [h']
    simp only [res_bind_ok, res_pure, quotedEnd, pushTok]
    have hs := slice_body [q] body []
    simp only [List.singleton_append, List.append_nil, List.length_singleton] at hs
    simp [hs]
  have hfirst : lexStep (q :: body) (LexState.mk 0 1 []) =
      Except.ok (Step.next (LexState.mk (body.length + 1) (1 + body.count NL)
        [Token.mk TokenType.STRING (String.mk body) (1 + body.count NL) 1])) := by
    rw [lexStep_quote (q :: body) (LexState.mk 0 1 []) q (by simp) rfl hq, hquoted]
    rfl
  have hlast : lexStep (q :: body) (LexState.mk (body.length + 1) (1 + body.count NL)
        [Token.mk TokenType.STRING (String.mk body) (1 + body.count NL) 1]) =
      Except.ok (Step.done (LexState.mk (body.length + 1) (1 + body.count NL)
        [Token.mk TokenType.STRING (String.mk body) (1 + body.count NL) 1])) := by
    unfold lexStep
    rw [if_neg (by simp)]
  unfold Lexer
  show (match loop (body.length + 1 + 1) (lexStep (q :: body)) _ with
    | Except.error e => Except.error e
    | Except.ok st => _) = _
  rw [loop_next _ _ _ _ hfirst, loop_done _ _ _ _ hlast]
  rfl

/-! ## Long brackets -/

theorem exists_run (R : List Char) :
    ∃ m R', R = List.replicate m '=' ++ R' ∧ R'.head? ≠ some '=' := by
  induction R with
  | nil => exact ⟨0, [], rfl, by simp⟩
  | cons x R ih =>
    by_cases hx : x = '='
    · obtain ⟨m, R', h1, h2⟩ := ih
      exact ⟨m + 1, R', by rw [hx, h1]; rfl, h2⟩
    · exact ⟨0, x :: R, rfl, by simpa using hx⟩

/-- The count of `=` from the end of `pre` on, over a run of `m` of them. -/
theorem equals_run (m : Nat) :
    ∀ (pre rest : List Char) (e fuel : Nat), rest.head? ≠ some '=' → m < fuel →
      loop fuel (equalsStep (pre ++ (List.replicate m '=' ++ rest))) (pre.length, e) =
        Except.ok (pre.length + m, e + m) := by
  induction m with
  | zero =>
    intro pre rest e fuel hrest hf
    obtain ⟨k, rfl⟩ : ∃ k, fuel = k + 1 := ⟨fuel - 1, by omega⟩
    refine loop_done _ _ _ _ ?_
    unfold equalsStep
    rw [if_neg]
    · rfl
    · cases rest with
      | nil => simp
      | cons y r =>
        have hy : y ≠ '=' := by simpa using hrest
        have := getD_append_cons pre r y
        simp only [List.replicate, List.nil_append]
        rw [this]
        simp [hy]
  | succ m ih =>
    intro pre rest e fuel hrest hf
    obtain ⟨k, rfl⟩ : ∃ k, fuel = k + 1 := ⟨fuel - 1, by omega⟩
    have hget := getD_append_cons pre (List.replicate m '=' ++ rest) '='
    have hstep : equalsStep (pre ++ (List.replicate (m + 1) '=' ++ rest)) (pre.length, e) =
        Except.ok (Step.next (pre.length + 1, e + 1)) := by
      unfold equalsStep
      rw [if_pos]
      · rfl
      · simp only [List.replicate_succ, List.cons_append]
        rw [hget]
        simp
    rw [loop_next _ _ _ _ hstep]
    have := ih (pre ++ ['=']) rest (e + 1) k hrest (by omega)
    simp only [List.append_assoc, List.singleton_append, List.length_append,
      List.length_singleton] at this
    simp only [List.replicate_succ, List.cons_append]
    rw [this]
    congr 2 <;> omega

theorem countEquals_run (pre rest : List Char) (m e : Nat) (hrest : rest.head? ≠ some '=') :
    countEquals (pre ++ (List.replicate m '=' ++ rest)) pre.length e =
      Except.ok (pre.length + m, e + m) := by
  unfold countEquals
  exact equals_run m pre rest e _ hrest (by simp; omega)


theorem long_step_skip (n start line : Nat) (ts : List Token) (pre rest : List Char) (c : Char)
    (hno : ¬ closer n <+: c :: rest) :
    longBracketStep (pre ++ c :: rest) false start n
        (LongState.mk (LexState.mk pre.length line ts) false) =
      Except.ok (Step.next (LongState.mk
        (LexState.mk (pre.length + 1) (if c == NL then line + 1 else line) ts) false)) := by
  have hget := getD_append_cons pre rest c
  have hlt : pre.length < (pre ++ c :: rest).length := by simp
  unfold longBracketStep
  dsimp only
  rw [if_pos hlt, hget]
  by_cases hc : c = ']'
  · subst hc
    obtain ⟨m, R', hR, hhead⟩ := exists_run rest
    have hdata : pre ++ ']' :: rest = (pre ++ [']']) ++ (List.replicate m '=' ++ R') := by
      rw [hR]; simp
    have hce : countEquals (pre ++ ']' :: rest) (pre.length + 1) 0 =
        Except.ok (pre.length + 1 + m, m) := by
      have := countEquals_run (pre ++ [']']) R' m 0 hhead
      rw [← hdata] at this
      simpa using this
    rw [if_pos (beq_self_eq_true _), hce]
    simp only [res_bind_ok]
    rw [if_neg]
    · rfl
    · intro hcond
      simp only [Bool.and_eq_true, decide_eq_true_eq, beq_iff_eq] at hcond
      obtain ⟨⟨hlen, hch⟩, hmn⟩ := hcond
      cases R' with
      | nil =>
        rw [hR] at hlen
        simp at hlen
        omega
      | cons y R'' =>
        have hy : (pre ++ ']' :: rest).getD (pre.length + 1 + m) NUL = y := by
          have := getD_append_cons (pre ++ ']' :: List.replicate m '=') R'' y
          have e1 : (pre ++ ']' :: List.replicate m '=') ++ y :: R'' = pre ++ ']' :: rest := by
            rw [hR]; simp
          have e2 : (pre ++ ']' :: List.replicate m '=').length = pre.length + 1 + m := by
            simp; omega
          rw [e1, e2] at this
          exact this
        rw [hy] at hch
        apply hno
        refine ⟨R'', ?_⟩
        rw [hR, hch, hmn]
        simp [closer]
  · rw [if_neg (by simpa using hc)]
    rfl

theorem long_step_close (n start line : Nat) (ts : List Token) (pre : List Char) :
    longBracketStep (pre ++ closer n) false start n
        (LongState.mk (LexState.mk pre.length line ts) false) =
      Except.ok (Step.done (LongState.mk
        (LexState.mk (pre.length + (n + 2)) line
          (ts ++ [Token.mk TokenType.STRING
            (slice (pre ++ closer n) start (pre.length - start)) line start])) true)) := by
  have hget : (pre ++ closer n).getD pre.length NUL = ']' :=
    getD_append_cons pre (List.replicate n '=' ++ [']']) ']'
  have hlt : pre.length < (pre ++ closer n).length := by simp [closer]
  have hdata : pre ++ closer n = (pre ++ [']']) ++ (List.replicate n '=' ++ [']']) := by
    simp [closer]
  have hce : countEquals (pre ++ closer n) (pre.length + 1) 0 =
      Except.ok (pre.length + 1 + n, n) := by
    have := countEquals_run (pre ++ [']']) [']'] n 0 (by simp)
    rw [← hdata] at this
    simpa using this
  have hlast : (pre ++ closer n).getD (pre.length + 1 + n) NUL = ']' := by
    have := getD_append_cons (pre ++ ']' :: List.replicate n '=') [] ']'
    have e1 : (pre ++ ']' :: List.replicate n '=') ++ [']'] = pre ++ closer n := by
      simp [closer]
    have e2 : (pre ++ ']' :: List.replicate n '=').length = pre.length + 1 + n := by
      simp; omega
    rw [e1, e2] at this
    exact this
  unfold longBracketStep
  dsimp only
  rw [if_pos hlt, hget, if_pos (beq_self_eq_true _), hce]
  simp only [res_bind_ok]
  rw [if_pos]
  · simp only [res_pure, pushTok, Bool.not_false, if_true]
    congr 4
    omega
  · simp only [Bool.and_eq_true, decide_eq_true_eq, beq_iff_eq]
    refine ⟨⟨?_, hlast⟩, trivial⟩
    simp [closer]
    omega

/-- The scan of a long bracket over a body in which the closing delimiter does not occur before
the end: it runs to the end of the buffer, counts the newlines and pushes the STRING token. -/
theorem long_scan (n start : Nat) (body : List Char) :
    ∀ (pre : List Char) (line : Nat) (ts : List Token) (fuel : Nat),
      (∀ k, k < body.length → ¬ closer n <+: (body ++ closer n).drop k) → body.length < fuel →
      loop fuel (longBracketStep (pre ++ (body ++ closer n)) false start n)
          (LongState.mk (LexState.mk pre.length line ts) false) =
        Except.ok (LongState.mk
          (LexState.mk (pre.length + body.length + (n + 2)) (line + body.count NL)
            (ts ++ [Token.mk TokenType.STRING
              (slice (pre ++ (body ++ closer n)) start (pre.length + body.length - start))
              (line + body.count NL) start])) true) := by
  induction body with
  | nil =>
    intro pre line ts fuel _ hf
    obtain ⟨k, rfl⟩ : ∃ k, fuel = k + 1 := ⟨fuel - 1, by simp at hf; omega⟩
    simp only [List.nil_append, List.length_nil, Nat.add_zero, List.count_nil]
    exact loop_done _ _ _ _ (long_step_close n start line ts pre)
  | cons c body ih =>
    intro pre line ts fuel hno hf
    obtain ⟨k, rfl⟩ : ∃ k, fuel = k + 1 := ⟨fuel - 1, by simp at hf; omega⟩
    have h0 : ¬ closer n <+: c :: (body ++ closer n) := by
      have := hno 0 (by simp)
      simpa using this
    have hstep := long_step_skip n start line ts pre (body ++ closer n) c h0
    simp only [List.cons_append]
    rw [loop_next _ _ _ _ hstep]
    have := ih (pre ++ [c]) (if c == NL then line + 1 else line) ts k
      (fun j hj => by
        have := hno (j + 1) (by simp; omega)
        simpa using this)
      (by simp at hf; omega)
    simp only [List.append_assoc, List.singleton_append, List.length_append,
      List.length_singleton] at this
    rw [this]
    have hcount : List.count NL (c :: body) = body.count NL + (if c == NL then 1 else 0) := by
      rw [List.count_cons]
    have hline : (if c == NL then line + 1 else line) + body.count NL =
        line + List.count NL (c :: body) := by
      rw [hcount]
      split <;> omega
    rw [hline]
    simp only [List.length_cons]
    have e1 : pre.length + 1 + body.length = pre.length + (body.length + 1) := by omega
    rw [e1]


theorem lexStep_bracket (data : List Char) (st : LexState)
    (hlt : st.idx < data.length) (hc : data.getD st.idx NUL = '[') :
    lexStep data st = (lexBracket data st).map Step.next := by
  unfold lexStep
  rw [if_pos hlt]
  dsimp only
  rw [hc]
  rfl

theorem opener_length (n : Nat) : (opener n).length = n + 2 := by
  simp [opener]

theorem closer_length (n : Nat) : (closer n).length = n + 2 := by
  simp [closer]

/-- The source `[`, `n` times `=`, `[`, `body`, `]`, `n` times `=`, `]`, where the closing
delimiter does not occur in `body ++ delimiter` before the end: one STRING token with the text
`body`, then END_OF_FILE. -/
theorem Lexer_long_bracket (n : Nat) (body : List Char)
    (hno : ∀ k, k < body.length → ¬ closer n <+: (body ++ closer n).drop k) :
    Lexer (String.mk (opener n ++ (body ++ closer n))) = Except.ok
      [Token.mk TokenType.STRING (String.mk body) (1 + body.count NL) (n + 2),
       Token.mk TokenType.END_OF_FILE "" (1 + body.count NL) 0] := by
  have hlen : (opener n ++ (body ++ closer n)).length = n + 2 + body.length + (n + 2) := by
    simp [opener_length, closer_length]; omega
  have hdata1 : opener n ++ (body ++ closer n) =
      ['['] ++ (List.replicate n '=' ++ '[' :: (body ++ closer n)) := by
    simp [opener]
  have hget0 : (opener n ++ (body ++ closer n)).getD 0 NUL = '[' := rfl
  have hpeek : (peek (opener n ++ (body ++ closer n)) 0 1 == '[' ||
      peek (opener n ++ (body ++ closer n)) 0 1 == '=') = true := by
    unfold peek
    rw [if_pos (by rw [hlen]; omega)]
    cases n with
    | zero => rfl
    | succ m => rfl
  have hce : countEquals (opener n ++ (body ++ closer n)) (0 + 1) 0 =
      Except.ok (n + 1, n) := by
    have := countEquals_run ['['] ('[' :: (body ++ closer n)) n 0 (by simp)
    rw [← hdata1] at this
    simpa [Nat.add_comm] using this
  have hget1 : (opener n ++ (body ++ closer n)).getD (n + 1) NUL = '[' := by
    have := getD_append_cons ('[' :: List.replicate n '=') (body ++ closer n) '['
    have e1 : ('[' :: List.replicate n '=') ++ '[' :: (body ++ closer n) =
        opener n ++ (body ++ closer n) := by simp [opener]
    have e2 : ('[' :: List.replicate n '=').length = n + 1 := by simp
    rw [e1, e2] at this
    exact this
  have hscan := long_scan n (n + 1 + 1) body (opener n) 1 [] (n + 2 + body.length + (n + 2) + 1)
    hno (by omega)
  have htext : slice (opener n ++ (body ++ closer n)) (n + 1 + 1)
      ((opener n).length + body.length - (n + 1 + 1)) = String.mk body := by
    have := slice_body (opener n) body (closer n)
    rw [List.append_assoc, opener_length] at this
    rw [opener_length]
    have e : n + 2 + body.length - (n + 1 + 1) = body.length := by omega
    rw [e]
    exact this
  rw [htext, opener_length] at hscan
  have hbracket : lexBracket (opener n ++ (body ++ closer n)) (LexState.mk 0 1 []) =
      Except.ok (LexState.mk (n + 2 + body.length + (n + 2)) (1 + body.count NL)
        [Token.mk TokenType.STRING (String.mk body) (1 + body.count NL) (n + 1 + 1)]) := by
    unfold lexBracket
    dsimp only
    rw [if_pos hpeek, hce]
    simp only [res_bind_ok]
    rw [if_pos (by
      simp only [Bool.and_eq_true, decide_eq_true_eq, beq_iff_eq]
      exact ⟨by rw [hlen]; omega, hget1⟩)]
    rw [hlen]
    have hc : (decide (0 ≥ 2) && (opener n ++ (body ++ closer n)).getD (0 - 2) NUL == '-' &&
        (opener n ++ (body ++ closer n)).getD (0 - 1) NUL == '-') = false := rfl
    rw [hc, hscan]
    rfl
  have hfirst : lexStep (opener n ++ (body ++ closer n)) (LexState.mk 0 1 []) =
      Except.ok (Step.next (LexState.mk (n + 2 + body.length + (n + 2)) (1 + body.count NL)
        [Token.mk TokenType.STRING (String.mk body) (1 + body.count NL) (n + 1 + 1)])) := by
    rw [lexStep_bracket _ (LexState.mk 0 1 []) (by rw [hlen]; dsimp only; omega) hget0,
      hbracket]
    rfl
  have hlast : lexStep (opener n ++ (body ++ closer n))
      (LexState.mk (n + 2 + body.length + (n + 2)) (1 + body.count NL)
        [Token.mk TokenType.STRING (String.mk body) (1 + body.count NL) (n + 1 + 1)]) =
      Except.ok (Step.done (LexState.mk (n + 2 + body.length + (n + 2)) (1 + body.count NL)
        [Token.mk TokenType.STRING (String.mk body) (1 + body.count NL) (n + 1 + 1)])) := by
    unfold lexStep
    rw [if_neg (by rw [hlen]; dsimp only; omega)]
  unfold Lexer
  dsimp only
  have hfuel : n + 2 + body.length + (n + 2) + 1 = (n + 2 + body.length + n + 1) + 1 + 1 := by
    omega
  rw [hlen, hfuel, loop_next _ _ _ _ hfirst, loop_done _ _ _ _ hlast]
  rfl


/-! ## Reads stay in range, cursors move on -/

theorem parsePrimary_end (pe : PE) (Tokens : List Token) (Index : Nat)
    (h : Tokens.length ≤ Index) :
    parsePrimary pe Tokens Index = Except.ok (makeLeaf ASTType.Identifier "<?>" 0, Index) := by
  unfold parsePrimary
  rw [if_pos h]
  rfl

theorem parseBinary_end (fuel : Nat) (Tokens : List Token) (Index minPrec : Nat)
    (h : Tokens.length ≤ Index) :
    parseBinary (fuel + 1) Tokens Index minPrec =
      Except.ok (makeLeaf ASTType.Identifier "<?>" 0, Index) := by
  rw [parseBinary, if_pos h]
  rfl

theorem suffixStep_end (pe : PE) (Tokens : List Token) (s : AST × Nat)
    (h : Tokens.length ≤ s.2) :
    suffixStep pe Tokens s = Except.ok (Step.done s) := by
  unfold suffixStep
  rw [if_neg (by omega)]
  rfl

theorem parseSuffixed_end (pe : PE) (Tokens : List Token) (Index : Nat)
    (h : Tokens.length ≤ Index) :
    parseSuffixed pe Tokens Index = Except.ok (makeLeaf ASTType.Identifier "<?>" 0, Index) := by
  unfold parseSuffixed
  rw [parsePrimary_end pe Tokens Index h]
  exact loop_done _ _ _ _ (suffixStep_end pe Tokens _ h)

theorem parseExpressionList_end (Tokens : List Token) (Index : Nat)
    (h : Tokens.length ≤ Index) :
    parseExpressionList Tokens Index = Except.ok ([], Index) := by
  unfold parseExpressionList
  rw [if_pos h]
  rfl

theorem char_le_iff (a b : Char) : a ≤ b ↔ a.toNat ≤ b.toNat := by
  rw [Char.le_def]
  rfl

theorem is_alpha_iff (c : Char) :
    is_alpha c = true ↔
      c.toNat = 95 ∨ (97 ≤ c.toNat ∧ c.toNat ≤ 122) ∨ (65 ≤ c.toNat ∧ c.toNat ≤ 90) := by
  unfold is_alpha
  simp only [Bool.or_eq_true, Bool.and_eq_true, decide_eq_true_eq, beq_iff_eq, char_le_iff]
  have h1 : ('a' : Char).toNat = 97 := rfl
  have h2 : ('z' : Char).toNat = 122 := rfl
  have h3 : ('A' : Char).toNat = 65 := rfl
  have h4 : ('Z' : Char).toNat = 90 := rfl
  rw [h1, h2, h3, h4]
  constructor
  · rintro ((h | h) | h)
    · left; rw [h]; rfl
    · right; left; exact h
    · right; right; exact h
  · rintro (h | h | h)
    · left; left
      apply Char.ext
      apply UInt32.ext
      exact h
    · left; right; exact h
    · right; exact h

theorem is_digit_iff (c : Char) : is_digit c = true ↔ 48 ≤ c.toNat ∧ c.toNat ≤ 57 := by
  unfold is_digit
  simp only [Bool.and_eq_true, decide_eq_true_eq, char_le_iff]
  have h1 : ('0' : Char).toNat = 48 := rfl
  have h2 : ('9' : Char).toNat = 57 := rfl
  rw [h1, h2]


theorem lexStep_alpha (data : List Char) (st : LexState)
    (hlt : st.idx < data.length) (ha : is_alpha (data.getD st.idx NUL) = true) :
    lexStep data st =
      (scanWhile data is_alnum (st.idx + 1)).map
        (fun i =>
          Step.next
            { pushTok data st (keywordTypeFast (slice data st.idx (i - st.idx))) st.idx
                (i - st.idx) with idx := i }) := by
  unfold lexStep
  rw [if_pos hlt]
  dsimp only
  generalize data.getD st.idx NUL = c at ha
  have hn := (is_alpha_iff c).mp ha
  have key : ∀ ch : Char, is_alpha ch = false → ¬ (c == ch) = true := by
    intro ch hch h
    rw [eq_of_beq h, hch] at ha
    cases ha
  have hdig : is_digit c = false := by
    cases hd : is_digit c with
    | false => rfl
    | true =>
      have := (is_digit_iff c).mp hd
      omega
  rw [if_neg (key NL (by decide)), if_neg (by omega),
    if_neg (key '(' (by decide)), if_neg (key ')' (by decide)),
    if_neg (key LBRACE (by decide)), if_neg (key RBRACE (by decide)),
    if_neg (key '[' (by decide)), if_neg (key ']' (by decide)),
    if_neg (key ',' (by decide)), if_neg (key ';' (by decide)),
    if_neg (key '+' (by decide)), if_neg (key '*' (by decide)),
    if_neg (key '/' (by decide)), if_neg (key ':' (by decide)),
    if_neg (key '%' (by decide)), if_neg (key '^' (by decide)),
    if_neg (key '#' (by decide)), if_neg (key '.' (by decide)),
    if_neg (key '-' (by decide)), if_neg (key '=' (by decide)),
    if_neg (key '~' (by decide)), if_neg (key '<' (by decide)),
    if_neg (key '>' (by decide)),
    if_neg (by
      simp only [Bool.or_eq_true, not_or]
      exact ⟨key DQUOTE (by decide), key SQUOTE (by decide)⟩),
    if_neg (by
      simp only [Bool.or_eq_true, Bool.and_eq_true, not_or, not_and, hdig]
      exact ⟨by simp, fun h => absurd h (key '.' (by decide))⟩),
    if_pos ha]

theorem lexStep_space (data : List Char) (st : LexState)
    (hlt : st.idx < data.length) (hnl : data.getD st.idx NUL ≠ NL)
    (hsp : (data.getD st.idx NUL).toNat ≤ 0x20) :
    lexStep data st = Except.ok (Step.next { st with idx := st.idx + 1 }) := by
  unfold lexStep
  rw [if_pos hlt]
  dsimp only
  rw [if_neg (by simpa using hnl), if_pos hsp]

theorem lexStep_end (data : List Char) (st : LexState) (h : data.length ≤ st.idx) :
    lexStep data st = Except.ok (Step.done st) := by
  unfold lexStep
  rw [if_neg (by omega)]

/-- The scan `while (idx < Len && p(data[idx])) ++idx;` stops at the first position from `i`
on that is past the end or fails `p`. -/
theorem scanWhile_stop (data : List Char) (p : Char → Bool) (i j : Nat) (hij : i ≤ j)
    (hall : ∀ m, i ≤ m → m < j → m < data.length ∧ p (data.getD m NUL) = true)
    (hstop : ¬ (j < data.length ∧ p (data.getD j NUL) = true)) :
    scanWhile data p i = Except.ok j := by
  obtain ⟨k, hk, hik, hkall, hkstop⟩ := scanWhile_spec data p i
  have : k = j := by
    rcases Nat.lt_trichotomy k j with h | h | h
    · exact absurd (hall k hik h) hkstop
    · exact h
    · exact absurd (hkall j hij h) hstop
  rw [hk, this]

theorem getD_append_at (pre l : List Char) (k : Nat) :
    (pre ++ l).getD (pre.length + k) NUL = l.getD k NUL := by
  induction pre with
  | nil => simp
  | cons x pre ih =>
    have : (x :: pre).length + k = (pre.length + k) + 1 := by simp; omega
    rw [this]
    simpa using ih

theorem getD_mem (l : List Char) (k : Nat) (hk : k < l.length) : l.getD k NUL ∈ l := by
  induction l generalizing k with
  | nil => simp at hk
  | cons x l ih =>
    cases k with
    | zero => simp
    | succ k =>
      have := ih k (by simpa using hk)
      simp only [List.getD_cons_succ]
      exact List.mem_cons_of_mem _ this

theorem slice_all (data : List Char) : slice data 0 data.length = String.mk data := by
  unfold slice
  simp

/-- A source that is one word, a letter or underscore followed by letters, digits and
underscores: one token, of the kind `keywordTypeFast` gives the word. -/
theorem Lexer_word (c : Char) (rest : List Char) (hc : is_alpha c = true)
    (hrest : ∀ x ∈ rest, is_alnum x = true) :
    Lexer (String.mk (c :: rest)) = Except.ok
      [Token.mk (keywordTypeFast (String.mk (c :: rest))) (String.mk (c :: rest)) 1 0,
       Token.mk TokenType.END_OF_FILE "" 1 0] := by
  have hscan : scanWhile (c :: rest) is_alnum (0 + 1) = Except.ok (c :: rest).length := by
    refine scanWhile_stop _ _ _ _ (by simp) ?_ (by simp)
    intro m h1 h2
    refine ⟨h2, ?_⟩
    obtain ⟨k, rfl⟩ : ∃ k, m = k + 1 := ⟨m - 1, by omega⟩
    have := getD_mem rest k (by simpa using h2)
    simp only [List.getD_cons_succ]
    exact hrest _ this
  have hfirst : lexStep (c :: rest) (LexState.mk 0 1 []) =
      Except.ok (Step.next (LexState.mk (c :: rest).length 1
        [Token.mk (keywordTypeFast (String.mk (c :: rest))) (String.mk (c :: rest)) 1 0])) := by
    rw [lexStep_alpha (c :: rest) (LexState.mk 0 1 []) (by simp) hc]
    dsimp only
    rw [hscan]
    simp only [res_map_ok, pushTok, Nat.sub_zero, slice_all, List.nil_append]
  have hlast := lexStep_end (c :: rest) (LexState.mk (c :: rest).length 1
    [Token.mk (keywordTypeFast (String.mk (c :: rest))) (String.mk (c :: rest)) 1 0])
    (le_refl _)
  unfold Lexer
  dsimp only
  have hfuel : (c :: rest).length + 1 = rest.length + 1 + 1 := by simp
  rw [hfuel, loop_next _ _ _ _ hfirst, loop_done _ _ _ _ hlast]
  rfl


theorem kw_ite_word {c : Prop} [Decidable c] {a b : TokenType} (hc : ¬ c)
    (hb : b = TokenType.IDENTIFIER) : (if c then a else b) = TokenType.IDENTIFIER := by
  rw [if_neg hc]; exact hb

theorem kw_ite_letter {c : Prop} [Decidable c] {a b : TokenType}
    (ha : a = TokenType.IDENTIFIER) (hb : b = TokenType.IDENTIFIER) :
    (if c then a else b) = TokenType.IDENTIFIER := by
  by_cases h : c
  · rw [if_pos h]; exact ha
  · rw [if_neg h]; exact hb

/-- A word that is none of the reserved words is classified as IDENTIFIER. -/
theorem keywordTypeFast_of_not_reserved (w : String) (h : w ∉ reservedWords) :
    keywordTypeFast w = TokenType.IDENTIFIER := by
  have key : ∀ k : String, k ∈ reservedWords → ¬ (w == k) = true := by
    intro k hk hw
    rw [eq_of_beq hw] at h
    exact h hk
  unfold keywordTypeFast
  split
  · rfl
  · repeat' first
      | exact rfl
      | refine kw_ite_word (key _ (by decide)) ?_
      | refine kw_ite_letter ?_ ?_

theorem reserved_shape : ∀ k ∈ reservedWords, ∃ c rest, k.data = c :: rest ∧
    is_alpha c = true ∧ ∀ x ∈ rest, is_alnum x = true := by
  have h : ∀ k ∈ reservedWords,
      (match k.data with
        | c :: rest => is_alpha c && rest.all is_alnum
        | [] => false) = true := by decide
  intro k hk
  have hk' := h k hk
  cases hd : k.data with
  | nil => rw [hd] at hk'; cases hk'
  | cons c rest =>
    rw [hd] at hk'
    simp only [Bool.and_eq_true, List.all_eq_true] at hk'
    exact ⟨c, rest, rfl, hk'.1, hk'.2⟩

/-! ## Long brackets followed by more source -/

theorem long_step_close_post (n start line : Nat) (ts : List Token) (pre post : List Char) :
    longBracketStep (pre ++ (closer n ++ post)) false start n
        (LongState.mk (LexState.mk pre.length line ts) false) =
      Except.ok (Step.done (LongState.mk
        (LexState.mk (pre.length + (n + 2)) line
          (ts ++ [Token.mk TokenType.STRING
            (slice (pre ++ (closer n ++ post)) start (pre.length - start)) line start]))
        true)) := by
  have hget : (pre ++ (closer n ++ post)).getD pre.length NUL = ']' :=
    getD_append_cons pre (List.replicate n '=' ++ [']'] ++ post) ']'
  have hlt : pre.length < (pre ++ (closer n ++ post)).length := by simp [closer]
  have hdata : pre ++ (closer n ++ post) =
      (pre ++ [']']) ++ (List.replicate n '=' ++ ']' :: post) := by
    simp [closer]
  have hce : countEquals (pre ++ (closer n ++ post)) (pre.length + 1) 0 =
      Except.ok (pre.length + 1 + n, n) := by
    have := countEquals_run (pre ++ [']']) (']' :: post) n 0 (by simp)
    rw [← hdata] at this
    simpa using this
  have hlast : (pre ++ (closer n ++ post)).getD (pre.length + 1 + n) NUL = ']' := by
    have := getD_append_cons (pre ++ ']' :: List.replicate n '=') post ']'
    have e1 : (pre ++ ']' :: List.replicate n '=') ++ ']' :: post =
        pre ++ (closer n ++ post) := by
      simp [closer]
    have e2 : (pre ++ ']' :: List.replicate n '=').length = pre.length + 1 + n := by
      simp; omega
    rw [e1, e2] at this
    exact this
  unfold longBracketStep
  dsimp only
  rw [if_pos hlt, hget, if_pos (beq_self_eq_true _), hce]
  simp only [res_bind_ok]
  rw [if_pos]
  · simp only [res_pure, pushTok, Bool.not_false, if_true]
    congr 4
    omega
  · simp only [Bool.and_eq_true, decide_eq_true_eq, beq_iff_eq]
    refine ⟨⟨?_, hlast⟩, trivial⟩
    simp [closer]
    omega

/-- The scan of a long bracket over a body in which the closing delimiter does not occur before
the end of the body, with more source after the delimiter: it stops after the delimiter, counts
the newlines of the body and pushes the STRING token. -/
theorem long_scan_post (n start : Nat) (post body : List Char) :
    ∀ (pre : List Char) (line : Nat) (ts : List Token) (fuel : Nat),
      (∀ k, k < body.length → ¬ closer n <+: (body ++ (closer n ++ post)).drop k) →
      body.length < fuel →
      loop fuel (longBracketStep (pre ++ (body ++ (closer n ++ post))) false start n)
          (LongState.mk (LexState.mk pre.length line ts) false) =
        Except.ok (LongState.mk
          (LexState.mk (pre.length + body.length + (n + 2)) (line + body.count NL)
            (ts ++ [Token.mk TokenType.STRING
              (slice (pre ++ (body ++ (closer n ++ post))) start
                (pre.length + body.length - start))
              (line + body.count NL) start])) true) := by
  induction body with
  | nil =>
    intro pre line ts fuel _ hf
    obtain ⟨k, rfl⟩ : ∃ k, fuel = k + 1 := ⟨fuel - 1, by simp at hf; omega⟩
    simp only [List.nil_append, List.length_nil, Nat.add_zero, List.count_nil]
    exact loop_done _ _ _ _ (long_step_close_post n start line ts pre post)
  | cons c body ih =>
    intro pre line ts fuel hno hf
    obtain ⟨k, rfl⟩ : ∃ k, fuel = k + 1 := ⟨fuel - 1, by simp at hf; omega⟩
    have h0 : ¬ closer n <+: c :: (body ++ (closer n ++ post)) := by
      have := hno 0 (by simp)
      simpa using this
    have hstep := long_step_skip n start line ts pre (body ++ (closer n ++ post)) c h0
    simp only [List.cons_append]
    rw [loop_next _ _ _ _ hstep]
    have := ih (pre ++ [c]) (if c == NL then line + 1 else line) ts k
      (fun j hj => by
        have := hno (j + 1) (by simp; omega)
        simpa using this)
      (by simp at hf; omega)
    simp only [List.append_assoc, List.singleton_append, List.length_append,
      List.length_singleton] at this
    rw [this]
    have hcount : List.count NL (c :: body) = body.count NL + (if c == NL then 1 else 0) := by
      rw [List.count_cons]
    have hline : (if c == NL then line + 1 else line) + body.count NL =
        line + List.count NL (c :: body) := by
      rw [hcount]
      split <;> omega
    rw [hline]
    simp only [List.length_cons]
    have e1 : pre.length + 1 + body.length = pre.length + (body.length + 1) := by omega
    rw [e1]

theorem slice_mid (pre body post : List Char) :
    slice (pre ++ (body ++ post)) pre.length body.length = String.mk body := by
  have := slice_body pre body post
  rw [List.append_assoc] at this
  exact this

/-- The body of `case '['` at the start of a source that opens with a long bracket of level `n`
whose closing delimiter does not occur in the body: the cursor stops after the delimiter, the
line counter has counted the newlines of the body and the STRING token is pushed. -/
theorem lexBracket_long (n : Nat) (body post : List Char)
    (hno : ∀ k, k < body.length → ¬ closer n <+: (body ++ (closer n ++ post)).drop k) :
    lexBracket (opener n ++ (body ++ (closer n ++ post))) (LexState.mk 0 1 []) =
      Except.ok (LexState.mk (n + 2 + body.length + (n + 2)) (1 + body.count NL)
        [Token.mk TokenType.STRING (String.mk body) (1 + body.count NL) (n + 2)]) := by
  have hlen : (opener n ++ (body ++ (closer n ++ post))).length =
      n + 2 + body.length + (n + 2) + post.length := by
    simp [opener_length, closer_length]; omega
  have hdata1 : opener n ++ (body ++ (closer n ++ post)) =
      ['['] ++ (List.replicate n '=' ++ '[' :: (body ++ (closer n ++ post))) := by
    simp [opener]
  have hpeek : (peek (opener n ++ (body ++ (closer n ++ post))) 0 1 == '[' ||
      peek (opener n ++ (body ++ (closer n ++ post))) 0 1 == '=') = true := by
    unfold peek
    rw [if_pos (by rw [hlen]; omega)]
    cases n with
    | zero => rfl
    | succ m => rfl
  have hce : countEquals (opener n ++ (body ++ (closer n ++ post))) (0 + 1) 0 =
      Except.ok (n + 1, n) := by
    have := countEquals_run ['['] ('[' :: (body ++ (closer n ++ post))) n 0 (by simp)
    rw [← hdata1] at this
    simpa [Nat.add_comm] using this
  have hget1 : (opener n ++ (body ++ (closer n ++ post))).getD (n + 1) NUL = '[' := by
    have := getD_append_cons ('[' :: List.replicate n '=') (body ++ (closer n ++ post)) '['
    have e1 : ('[' :: List.replicate n '=') ++ '[' :: (body ++ (closer n ++ post)) =
        opener n ++ (body ++ (closer n ++ post)) := by simp [opener]
    have e2 : ('[' :: List.replicate n '=').length = n + 1 := by simp
    rw [e1, e2] at this
    exact this
  have hscan := long_scan_post n (n + 1 + 1) post body (opener n) 1 []
    (n + 2 + body.length + (n + 2) + post.length + 1) hno (by omega)
  have htext : slice (opener n ++ (body ++ (closer n ++ post))) (n + 1 + 1)
      ((opener n).length + body.length - (n + 1 + 1)) = String.mk body := by
    have := slice_mid (opener n) body (closer n ++ post)
    rw [opener_length] at this
    rw [opener_length]
    have e : n + 2 + body.length - (n + 1 + 1) = body.length := by omega
    rw [e]
    exact this
  rw [htext, opener_length] at hscan
  unfold lexBracket
  dsimp only
  rw [if_pos hpeek, hce]
  simp only [res_bind_ok]
  rw [if_pos (by
    simp only [Bool.and_eq_true, decide_eq_true_eq, beq_iff_eq]
    exact ⟨by rw [hlen]; omega, hget1⟩)]
  rw [hlen]
  have hc : (decide (0 ≥ 2) &&
      (opener n ++ (body ++ (closer n ++ post))).getD (0 - 2) NUL == '-' &&
      (opener n ++ (body ++ (closer n ++ post))).getD (0 - 1) NUL == '-') = false := rfl
  rw [hc, hscan]
  rfl


theorem no_closer_of_no_bracket (n : Nat) (body post : List Char)
    (hbody : ∀ c ∈ body, c ≠ ']') :
    ∀ k, k < body.length → ¬ closer n <+: (body ++ (closer n ++ post)).drop k := by
  intro k hk hpre
  rw [List.drop_append_of_le_length (by omega), List.drop_eq_getElem_cons hk] at hpre
  have h := (List.cons_prefix_cons.mp hpre).1
  exact hbody _ (List.getElem_mem hk) h.symm

/-- A long string of level 0 whose body holds no `]`, then a blank and a word: the STRING
token, then the token of the word on the line reached after the newlines of the body. -/
theorem Lexer_long_then_word (body : List Char) (c : Char) (rest : List Char)
    (hbody : ∀ x ∈ body, x ≠ ']') (hc : is_alpha c = true)
    (hrest : ∀ x ∈ rest, is_alnum x = true) :
    Lexer (String.mk (opener 0 ++ (body ++ (closer 0 ++ ' ' :: c :: rest)))) = Except.ok
      [Token.mk TokenType.STRING (String.mk body) (1 + body.count NL) 2,
       Token.mk (keywordTypeFast (String.mk (c :: rest))) (String.mk (c :: rest))
         (1 + body.count NL) (body.length + 5),
       Token.mk TokenType.END_OF_FILE "" (1 + body.count NL) 0] := by
  have hlen : (opener 0 ++ (body ++ (closer 0 ++ ' ' :: c :: rest))).length =
      body.length + rest.length + 6 := by
    simp [opener_length, closer_length]; omega
  have e1 : opener 0 ++ (body ++ (closer 0 ++ ' ' :: c :: rest)) =
      (opener 0 ++ (body ++ closer 0)) ++ ' ' :: (c :: rest) := by simp
  have l1 : (opener 0 ++ (body ++ closer 0)).length = body.length + 4 := by
    simp [opener_length, closer_length]; omega
  have e2 : opener 0 ++ (body ++ (closer 0 ++ ' ' :: c :: rest)) =
      (opener 0 ++ (body ++ (closer 0 ++ [' ']))) ++ c :: rest := by simp
  have l2 : (opener 0 ++ (body ++ (closer 0 ++ [' ']))).length = body.length + 5 := by
    simp [opener_length, closer_length]; omega
  have e3 : opener 0 ++ (body ++ (closer 0 ++ ' ' :: c :: rest)) =
      (opener 0 ++ (body ++ (closer 0 ++ [' ', c]))) ++ rest := by simp
  have l3 : (opener 0 ++ (body ++ (closer 0 ++ [' ', c]))).length = body.length + 6 := by
    simp [opener_length, closer_length]; omega
  have hget0 : (opener 0 ++ (body ++ (closer 0 ++ ' ' :: c :: rest))).getD 0 NUL = '[' := rfl
  have hget1 : (opener 0 ++ (body ++ (closer 0 ++ ' ' :: c :: rest))).getD (body.length + 4)
      NUL = ' ' := by
    have := getD_append_cons (opener 0 ++ (body ++ closer 0)) (c :: rest) ' '
    rw [← e1, l1] at this
    exact this
  have hget2 : (opener 0 ++ (body ++ (closer 0 ++ ' ' :: c :: rest))).getD (body.length + 5)
      NUL = c := by
    have := getD_append_cons (opener 0 ++ (body ++ (closer 0 ++ [' ']))) rest c
    rw [← e2, l2] at this
    exact this
  have hbracket := lexBracket_long 0 body (' ' :: c :: rest)
    (no_closer_of_no_bracket 0 body _ hbody)
  have e4 : 0 + 2 + body.length + (0 + 2) = body.length + 4 := by omega
  rw [e4] at hbracket
  have hstep1 : lexStep (opener 0 ++ (body ++ (closer 0 ++ ' ' :: c :: rest)))
      (LexState.mk 0 1 []) =
      Except.ok (Step.next (LexState.mk (body.length + 4) (1 + body.count NL)
        [Token.mk TokenType.STRING (String.mk body) (1 + body.count NL) 2])) := by
    rw [lexStep_bracket _ (LexState.mk 0 1 []) (by rw [hlen]; dsimp only; omega) hget0,
      hbracket]
    rfl
  have hstep2 : lexStep (opener 0 ++ (body ++ (closer 0 ++ ' ' :: c :: rest)))
      (LexState.mk (body.length + 4) (1 + body.count NL)
        [Token.mk TokenType.STRING (String.mk body) (1 + body.count NL) 2]) =
      Except.ok (Step.next (LexState.mk (body.length + 5) (1 + body.count NL)
        [Token.mk TokenType.STRING (String.mk body) (1 + body.count NL) 2])) := by
    rw [lexStep_space _ _ (by rw [hlen]; dsimp only; omega)
      (by dsimp only; rw [hget1]; decide) (by dsimp only; rw [hget1]; decide)]
  have hscan : scanWhile (opener 0 ++ (body ++ (closer 0 ++ ' ' :: c :: rest))) is_alnum
      (body.length + 5 + 1) = Except.ok (body.length + rest.length + 6) := by
    refine scanWhile_stop _ _ _ _ (by omega) ?_ (by rw [hlen]; omega)
    intro m h1 h2
    refine ⟨by rw [hlen]; exact h2, ?_⟩
    obtain ⟨k, rfl⟩ : ∃ k, m = body.length + 6 + k := ⟨m - (body.length + 6), by omega⟩
    have := getD_append_at (opener 0 ++ (body ++ (closer 0 ++ [' ', c]))) rest k
    rw [← e3, l3] at this
    rw [this]
    exact hrest _ (getD_mem rest k (by omega))
  have htext : slice (opener 0 ++ (body ++ (closer 0 ++ ' ' :: c :: rest))) (body.length + 5)
      (body.length + rest.length + 6 - (body.length + 5)) = String.mk (c :: rest) := by
    have := slice_body (opener 0 ++ (body ++ (closer 0 ++ [' ']))) (c :: rest) []
    rw [List.append_nil, ← e2, l2] at this
    have e : body.length + rest.length + 6 - (body.length + 5) = (c :: rest).length := by
      simp; omega
    rw [e]
    exact this
  have hstep3 : lexStep (opener 0 ++ (body ++ (closer 0 ++ ' ' :: c :: rest)))
      (LexState.mk (body.length + 5) (1 + body.count NL)
        [Token.mk TokenType.STRING (String.mk body) (1 + body.count NL) 2]) =
      Except.ok (Step.next (LexState.mk (body.length + rest.length + 6) (1 + body.count NL)
        [Token.mk TokenType.STRING (String.mk body) (1 + body.count NL) 2,
         Token.mk (keywordTypeFast (String.mk (c :: rest))) (String.mk (c :: rest))
           (1 + body.count NL) (body.length + 5)])) := by
    rw [lexStep_alpha _ _ (by rw [hlen]; dsimp only; omega) (by dsimp only; rw [hget2]; exact hc)]
    dsimp only
    rw [hscan]
    simp only [res_map_ok, pushTok, htext, List.singleton_append]
  have hstep4 := lexStep_end (opener 0 ++ (body ++ (closer 0 ++ ' ' :: c :: rest)))
    (LexState.mk (body.length + rest.length + 6) (1 + body.count NL)
        [Token.mk TokenType.STRING (String.mk body) (1 + body.count NL) 2,
         Token.mk (keywordTypeFast (String.mk (c :: rest))) (String.mk (c :: rest))
           (1 + body.count NL) (body.length + 5)]) (by rw [hlen])
  unfold Lexer
  dsimp only
  have hfuel : body.length + rest.length + 6 + 1 =
      (body.length + rest.length + 3) + 1 + 1 + 1 + 1 := by omega
  rw [hlen, hfuel, loop_next _ _ _ _ hstep1, loop_next _ _ _ _ hstep2,
    loop_next _ _ _ _ hstep3, loop_done _ _ _ _ hstep4]
  rfl

/-! ## The node of an `if` statement -/

theorem holds_and_keeps {β : Type} {P Q : β → Prop} {r : Res β} (h : Holds P r)
    (k : Keeps Q r) : Holds (fun b => P b ∧ Q b) r := by
  obtain ⟨b, hb, hp⟩ := h
  exact ⟨b, hb, hp, k b hb⟩

theorem assignNonEmpty_type (a : AST) (k : String) (v : List AST) :
    (a.assignNonEmpty k v).type = a.type := by
  unfold AST.assignNonEmpty
  split
  · rfl
  · cases a; rfl

theorem elseifStep_head (Tokens : List Token) (cl : AST) (s : List AST × Nat)
    (hs : ∃ more, s.1 = cl :: more) :
    Keeps (fun r => ∃ more, r.state.1 = cl :: more) (elseifStep Tokens s) := by
  obtain ⟨more, hmore⟩ := hs
  unfold elseifStep
  refine keeps_bind (keeps_true _) ?_
  intro b _
  refine keeps_ite (fun _ => ?_) (fun _ => keeps_pure ⟨more, hmore⟩)
  refine keeps_bind (keeps_true _) ?_
  intro t _
  refine keeps_bind (keeps_true _) ?_
  rintro ⟨elifCond, i1⟩ _
  refine keeps_bind (keeps_true _) ?_
  intro i2 _
  refine keeps_bind (keeps_true _) ?_
  rintro ⟨elifBlock, i3⟩ _
  intro r hr
  cases hr
  exact ⟨_, congrArg (fun l => l ++ [_]) hmore⟩

theorem elseClause_head (Tokens : List Token) (cl : AST) (clauses : List AST) (Index : Nat)
    (hs : ∃ more, clauses = cl :: more) :
    Keeps (fun r => ∃ more, r.1 = cl :: more) (elseClause Tokens clauses Index) := by
  obtain ⟨more, hmore⟩ := hs
  unfold elseClause
  refine keeps_bind (keeps_true _) ?_
  intro b _
  refine keeps_ite (fun _ => ?_) (fun _ => keeps_pure ⟨more, hmore⟩)
  refine keeps_bind (keeps_true _) ?_
  intro te _
  refine keeps_bind (keeps_true _) ?_
  rintro ⟨elseBlock, i1⟩ _
  intro r hr
  cases hr
  exact ⟨_, congrArg (fun l => l ++ [_]) hmore⟩

/-- Whenever `parseIf` returns, its node has the shape of an `if` statement. -/
theorem parseIf_shape (Tokens : List Token) (Index : Nat) :
    Keeps (fun p => IfShape p.1) (parseIf Tokens Index) := by
  unfold parseIf
  refine keeps_bind (keeps_true _) ?_
  intro t _
  refine keeps_bind (keeps_true _) ?_
  rintro ⟨cond, i1⟩ _
  refine keeps_bind (keeps_true _) ?_
  intro i2 _
  refine keeps_bind (keeps_true _) ?_
  rintro ⟨thenBlock, i3⟩ _
  refine keeps_bind (keeps_loop (elseifStep Tokens) (fun s => ∃ more, s.1 = _ :: more)
    (fun s hs => elseifStep_head Tokens _ s hs) _ _ ⟨[], rfl⟩) ?_
  rintro ⟨clauses1, i4⟩ h1
  refine keeps_bind (elseClause_head Tokens _ clauses1 i4 h1) ?_
  rintro ⟨clauses2, i5⟩ ⟨more, h2⟩
  dsimp only at h2
  refine keeps_bind (keeps_true _) ?_
  intro i7 _
  subst h2
  intro r hr
  cases hr
  exact ⟨rfl,
    ((makeLeaf ASTType.IfClause "if" t.line).push "condition" cond).push "body"
      ((makeLeaf ASTType.Block "then" t.line).assignNonEmpty "statements" thenBlock),
    more, cond, (makeLeaf ASTType.Block "then" t.line).assignNonEmpty "statements" thenBlock,
    rfl, rfl, rfl, rfl,
    assignNonEmpty_type (makeLeaf ASTType.Block "then" t.line) "statements" thenBlock⟩

/-- A round of the main loop of `Parse` only appends to the chunk. -/
theorem parseStep_chunk (Tokens : List Token) (s : ParseState) :
    Keeps (fun r => ∃ more, r.state.Chunk = s.Chunk ++ more) (parseStep Tokens s) := by
  unfold parseStep
  refine keeps_ite (fun _ => ?_) (fun _ => keeps_pure ⟨[], (List.append_nil _).symm⟩)
  refine keeps_bind (keeps_true _) ?_
  intro t _
  have key : ∀ r : Res (AST × Nat), Keeps (fun r => ∃ more, r.state.Chunk = s.Chunk ++ more)
      (r.map (fun p => Step.next { s with Index := p.2, Chunk := s.Chunk ++ [p.1] })) := by
    intro r
    refine keeps_map ?_
    intro p _
    exact ⟨[p.1], rfl⟩
  split
  · exact keeps_pure ⟨[], (List.append_nil _).symm⟩
  · exact keeps_pure ⟨[], (List.append_nil _).symm⟩
  · exact key _
  · exact key _
  · exact key _
  · exact key _
  · exact key _
  · exact key _

/-- The first round of `Parse` on a token vector that starts with `if`: the node of `parseIf`
is the first of the chunk, and the cursor has moved on. -/
theorem parseStep_if (t : Token) (rest : List Token) (ht : t.type = TokenType.IF) :
    ∃ node j, parseStep (t :: rest) (ParseState.mk true 0 []) =
        Except.ok (Step.next (ParseState.mk true j [node])) ∧
      0 < j ∧ j ≤ (t :: rest).length ∧ IfShape node := by
  obtain ⟨⟨node, j⟩, hp, ⟨h1, h2⟩, h3⟩ :=
    holds_and_keeps (parseIf_fwd (t :: rest) 0 (by simp)) (parseIf_shape (t :: rest) 0)
  dsimp only at h1 h2 h3
  refine ⟨node, j, ?_, ?_, h2, h3⟩
  · unfold parseStep
    rw [if_pos (by simp)]
    have htok : tokAt (t :: rest) 0 = Except.ok t := rfl
    dsimp only
    rw [htok]
    simp only [res_bind_ok, ht, hp]
    rfl
  · have : 1 ≤ (t :: rest).length := by simp
    omega

/-- From a state whose chunk starts with `node`, the main loop of `Parse` returns a chunk that
starts with `node`. -/
theorem parseLoop_head (Tokens : List Token) (node : AST) (n : Nat) (s : ParseState)
    (hi : s.Index ≤ Tokens.length) (hc : ∃ more, s.Chunk = node :: more)
    (hn : (if s.Running then Tokens.length - s.Index else 0) < n) :
    ∃ r more, loop n (parseStep Tokens) s = Except.ok r ∧ r.Chunk = node :: more := by
  obtain ⟨r, hr, more, hmore⟩ := loop_total (parseStep Tokens)
    (fun s => if s.Running then Tokens.length - s.Index else 0)
    (fun s => s.Index ≤ Tokens.length ∧ ∃ more, s.Chunk = node :: more)
    (fun s => ∃ more, s.Chunk = node :: more)
    (by
      intro s hs
      obtain ⟨hs, more, hmore⟩ := hs
      have hk := parseStep_chunk Tokens s
      rcases parseStep_post Tokens s hs with ⟨s', h, _⟩ | ⟨s', h, h1, h2, h3, h4⟩
      · obtain ⟨m, hm⟩ := hk _ h
        exact Or.inl ⟨s', h, more ++ m, by
          change s'.Chunk = _ at hm
          rw [hm, hmore]; rfl⟩
      · obtain ⟨m, hm⟩ := hk _ h
        refine Or.inr ⟨s', h, ⟨h1, more ++ m, by
          change s'.Chunk = _ at hm
          rw [hm, hmore]; rfl⟩, ?_⟩
        beta_reduce
        rw [h2]
        rcases h4 with h4 | h4
        · rw [h4]; simp only [if_true]; simp; omega
        · split <;> simp only [if_true] <;> omega)
    n s ⟨hi, hc⟩ hn
  exact ⟨r, more, hr, hmore⟩

/-! ## The line of an expression node -/

theorem peek_eq (data : List Char) (i off : Nat) :
    peek data i off = data.getD (i + off) NUL := by
  unfold peek
  split
  · rfl
  · rw [List.getD_eq_default _ _ (by omega)]

theorem peek_zero (data : List Char) (i : Nat) : peek data i 0 = data.getD i NUL :=
  peek_eq data i 0

theorem slice_clean (data : List Char) (a len : Nat) (h : Clean data a (a + len)) :
    NL ∉ (slice data a len).data := by
  unfold slice
  intro hmem
  obtain ⟨k, hk, hget⟩ := List.mem_iff_getElem.mp hmem
  simp only [List.length_take, List.length_drop, List.length_append, List.length_singleton]
    at hk
  simp only [List.getElem_take, List.getElem_drop] at hget
  by_cases hlt : a + k < data.length
  · rw [List.getElem_append_left hlt] at hget
    refine h (a + k) (by omega) (by omega) ?_
    rw [List.getD_eq_getElem _ _ hlt]
    exact hget
  · have hk' : a + k = data.length := by omega
    have : (data ++ [NUL]).getD (a + k) NUL = NL := by
      rw [List.getD_eq_getElem _ _ (by simp; omega)]
      exact hget
    rw [hk', getD_append_cons data [] NUL] at this
    exact absurd this (by decide)

theorem clean_sub (data : List Char) (a b : Nat) (h : Clean data a b) :
    Clean data a (a + (b - a)) := by
  intro m h1 h2
  exact h m h1 (by omega)

theorem clean_snoc (data : List Char) (a i : Nat) (h : Clean data a i)
    (hx : data.getD i NUL ≠ NL) : Clean data a (i + 1) := by
  intro m h1 h2
  by_cases hm : m < i
  · exact h m h1 hm
  · have : m = i := by omega
    rw [this]
    exact hx

theorem clean_empty (data : List Char) (a : Nat) : Clean data a a := by
  intro m h1 h2
  omega

theorem ne_nl_of_not_beq (c : Char) (h : ¬ (c == NL) = true) : c ≠ NL := by
  intro e
  exact h (by rw [e]; exact beq_self_eq_true _)

theorem clean_one (data : List Char) (i : Nat) (h : ¬ (data.getD i NUL == NL) = true) :
    Clean data i (i + 1) :=
  clean_snoc data i i (clean_empty data i) (ne_nl_of_not_beq _ h)

theorem clean_two (data : List Char) (i : Nat) (x : Char)
    (h0 : ¬ (data.getD i NUL == NL) = true) (h1 : (peek data i 1 == x) = true)
    (hx : x ≠ NL) : Clean data i (i + 2) := by
  refine clean_snoc data i (i + 1) (clean_one data i h0) ?_
  rw [← peek_eq, eq_of_beq h1]
  exact hx

theorem clean_three (data : List Char) (i : Nat)
    (h0 : ¬ (data.getD i NUL == NL) = true)
    (h12 : (peek data i 1 == '.' && peek data i 2 == '.') = true) :
    Clean data i (i + 3) := by
  simp only [Bool.and_eq_true] at h12
  refine clean_snoc data i (i + 2) (clean_two data i '.' h0 h12.1 (by decide)) ?_
  rw [← peek_eq, eq_of_beq h12.2]
  decide

theorem pushTok_textOK (data : List Char) (st : LexState) (ty : TokenType) (start len : Nat)
    (hty : ty = TokenType.STRING ∨ Clean data start (start + len)) (h : TextOK st.tokens) :
    TextOK (pushTok data st ty start len).tokens := by
  intro t ht hne
  simp only [pushTok, List.mem_append, List.mem_singleton] at ht
  rcases ht with ht | ht
  · exact h t ht hne
  · rw [ht] at hne ⊢
    rcases hty with hty | hty
    · exact absurd hty hne
    · exact slice_clean data start len hty

theorem is_digit_ne_nl (d : Char) (h : is_digit d = true) : d ≠ NL := by
  rintro rfl
  exact absurd h (by decide)

theorem is_alpha_ne_nl (d : Char) (h : is_alpha d = true) : d ≠ NL := by
  rintro rfl
  exact absurd h (by decide)

theorem is_alnum_ne_nl (d : Char) (h : is_alnum d = true) : d ≠ NL := by
  rintro rfl
  exact absurd h (by decide)

theorem xdigit_ne_nl (d : Char) (h : (isxdigit d || d == '.') = true) : d ≠ NL := by
  rintro rfl
  exact absurd h (by decide)

theorem scanWhile_clean (data : List Char) (p : Char → Bool) (a i : Nat)
    (hp : ∀ d, p d = true → d ≠ NL) (h : Clean data a i) :
    Keeps (fun j => Clean data a j) (scanWhile data p i) := by
  obtain ⟨j, hj, hij, hall, -⟩ := scanWhile_spec data p i
  intro j' hj'
  rw [hj] at hj'
  cases hj'
  intro m h1 h2
  by_cases hm : m < i
  · exact h m h1 hm
  · exact hp _ (hall m (by omega) h2).2

theorem skipSign_clean (data : List Char) (a i : Nat) (h : Clean data a i) :
    Clean data a (skipSign data i) := by
  unfold skipSign
  split
  · rename_i hc
    refine clean_snoc data a i h ?_
    rw [peek_zero] at hc
    simp only [Bool.or_eq_true] at hc
    rcases hc with hc | hc
    · rw [eq_of_beq hc]; decide
    · rw [eq_of_beq hc]; decide
  · exact h

theorem hexExponent_clean (data : List Char) (a i : Nat) (h : Clean data a i) :
    Keeps (fun j => Clean data a j) (hexExponent data i) := by
  unfold hexExponent
  refine keeps_ite (fun hc => ?_) (fun _ => keeps_pure h)
  refine scanWhile_clean data is_digit a _ is_digit_ne_nl (skipSign_clean data a (i + 1) ?_)
  refine clean_snoc data a i h ?_
  simp only [Bool.and_eq_true, Bool.or_eq_true, decide_eq_true_eq] at hc
  rcases hc.2 with hc | hc
  · rw [eq_of_beq hc]; decide
  · rw [eq_of_beq hc]; decide

theorem decExponent_clean (data : List Char) (a i : Nat) (h : Clean data a i) :
    Keeps (fun j => Clean data a j) (decExponent data i) := by
  unfold decExponent
  refine keeps_ite (fun hc => ?_) (fun _ => keeps_pure h)
  refine scanWhile_clean data is_digit a _ is_digit_ne_nl (skipSign_clean data a (i + 1) ?_)
  refine clean_snoc data a i h ?_
  rw [peek_zero] at hc
  simp only [Bool.or_eq_true] at hc
  rcases hc with hc | hc
  · rw [eq_of_beq hc]; decide
  · rw [eq_of_beq hc]; decide

theorem lexFraction_clean (data : List Char) (a i : Nat) (h : Clean data a i) :
    Keeps (fun j => Clean data a j) (lexFraction data i) := by
  unfold lexFraction
  refine keeps_ite (fun hc => ?_) (fun _ => keeps_pure h)
  refine scanWhile_clean data is_digit a _ is_digit_ne_nl (clean_snoc data a i h ?_)
  rw [peek_zero] at hc
  rw [eq_of_beq hc]
  decide

theorem lexNumber_textOK (data : List Char) (st : LexState) (h : TextOK st.tokens) :
    Keeps (fun s => TextOK s.tokens) (lexNumber data st (data.getD st.idx NUL)) := by
  unfold lexNumber
  refine keeps_bind (Q := fun last => Clean data st.idx last) ?_ ?_
  · refine keeps_ite (fun hc => ?_) (fun _ => ?_)
    · simp only [Bool.and_eq_true, Bool.or_eq_true] at hc
      have h0 : Clean data st.idx (st.idx + 1) :=
        clean_snoc data st.idx st.idx (clean_empty data st.idx)
          (by rw [eq_of_beq hc.1]; decide)
      have h1 : Clean data st.idx (st.idx + 2) := by
        refine clean_snoc data st.idx (st.idx + 1) h0 ?_
        rw [← peek_eq]
        rcases hc.2 with hx | hx
        · rw [eq_of_beq hx]; decide
        · rw [eq_of_beq hx]; decide
      exact keeps_bind (scanWhile_clean data _ st.idx (st.idx + 2) xdigit_ne_nl h1)
        (fun i hi => hexExponent_clean data st.idx i hi)
    · exact keeps_bind
        (scanWhile_clean data is_digit st.idx st.idx is_digit_ne_nl (clean_empty data st.idx))
        (fun i hi => keeps_bind (lexFraction_clean data st.idx i hi)
          (fun j hj => decExponent_clean data st.idx j hj))
  · intro last hlast
    exact keeps_pure (pushTok_textOK _ _ _ _ _ (Or.inr (clean_sub _ _ _ hlast)) h)

theorem lexLess_textOK (data : List Char) (st : LexState)
    (hc : ¬ (data.getD st.idx NUL == NL) = true) (h : TextOK st.tokens) :
    TextOK (lexLess data st).tokens := by
  unfold lexLess
  split
  · rename_i hp
    exact pushTok_textOK _ _ _ _ _ (Or.inr (clean_two _ _ _ hc hp (by decide))) h
  · exact pushTok_textOK _ _ _ _ _ (Or.inr (clean_one _ _ hc)) h

theorem quotedStep_textOK (data : List Char) (q : Char) (s : LexState) (h : TextOK s.tokens) :
    Keeps (fun r => TextOK r.state.tokens) (quotedStep data q s) := by
  unfold quotedStep
  refine keeps_ite (fun _ => ?_) (fun _ => keeps_pure h)
  dsimp only
  exact keeps_ite (fun _ => keeps_pure h) (fun _ => keeps_pure h)

theorem lexQuoted_textOK (data : List Char) (st : LexState) (q : Char) (h : TextOK st.tokens) :
    Keeps (fun st' => TextOK st'.tokens) (lexQuoted data st q) := by
  unfold lexQuoted
  refine keeps_bind (keeps_loop _ (fun r => TextOK r.tokens)
    (fun s hs => quotedStep_textOK data q s hs) _ _ h) ?_
  intro s hs
  refine keeps_pure ?_
  unfold quotedEnd
  dsimp only
  split
  · exact pushTok_textOK _ _ _ _ _ (Or.inl rfl) hs
  · exact pushTok_textOK _ _ _ _ _ (Or.inl rfl) hs

theorem longBracketStep_textOK (data : List Char) (isComment : Bool) (start eqs : Nat)
    (s : LongState) (h : TextOK s.st.tokens) :
    Keeps (fun r => TextOK r.state.st.tokens) (longBracketStep data isComment start eqs s) := by
  unfold longBracketStep
  refine keeps_ite (fun _ => ?_) (fun _ => keeps_pure h)
  dsimp only
  refine keeps_ite (fun _ => ?_) (fun _ => keeps_pure h)
  refine keeps_bind (keeps_true _) ?_
  rintro ⟨closing, eqCount⟩ -
  dsimp only
  refine keeps_ite (fun _ => keeps_pure ?_) (fun _ => keeps_pure h)
  dsimp only [Step.state]
  split
  · exact pushTok_textOK _ _ _ _ _ (Or.inl rfl) h
  · exact h

theorem longBracketEnd_textOK (data : List Char) (isComment : Bool) (start : Nat)
    (s : LongState) (h : TextOK s.st.tokens) :
    TextOK (longBracketEnd data isComment start s).tokens := by
  unfold longBracketEnd
  split
  · split
    · exact pushTok_textOK _ _ _ _ _ (Or.inl rfl) h
    · exact h
  · exact h

theorem lexBracket_textOK (data : List Char) (st : LexState)
    (hc : ¬ (data.getD st.idx NUL == NL) = true) (h : TextOK st.tokens) :
    Keeps (fun st' => TextOK st'.tokens) (lexBracket data st) := by
  unfold lexBracket
  have hplain : Keeps (fun st' => TextOK st'.tokens)
      (pure { pushTok data st TokenType.LEFT_BRACKET st.idx 1 with idx := st.idx + 1 }) :=
    keeps_pure (pushTok_textOK _ _ _ _ _ (Or.inr (clean_one _ _ hc)) h)
  dsimp only
  refine keeps_ite (fun _ => ?_) (fun _ => hplain)
  refine keeps_bind (keeps_true _) ?_
  rintro ⟨check, eqs⟩ -
  dsimp only
  refine keeps_ite (fun _ => ?_) (fun _ => hplain)
  refine keeps_bind (keeps_loop _ (fun r => TextOK r.st.tokens)
    (fun s hs => longBracketStep_textOK data _ (check + 1) eqs s hs) _ _ h) ?_
  intro s hs
  exact keeps_pure (longBracketEnd_textOK _ _ _ _ hs)

theorem no_tilde_at (data : List Char) (i : Nat) (hno : '~' ∉ data) (hlt : i < data.length)
    (h : (data.getD i NUL == '~') = true) : False := by
  have hm := getD_mem data i hlt
  rw [eq_of_beq h] at hm
  exact hno hm

theorem lexText_ite {c : Prop} [Decidable c] {a b : Res (Step LexState)}
    (ha : c → LexText a) (hb : ¬ c → LexText b) : LexText (if c then a else b) :=
  keeps_ite ha hb

theorem lexText_next (s' : LexState) (h : TextOK s'.tokens) :
    LexText (Except.ok (Step.next s')) := keeps_ok h

theorem lexText_map (r : Res LexState) (h : Keeps (fun s => TextOK s.tokens) r) :
    LexText (r.map Step.next) := keeps_map h

theorem lexText_scan (data : List Char) (p : Char → Bool) (k : Nat) (st : LexState)
    (h : TextOK st.tokens) :
    LexText ((scanWhile data p k).map (fun i => Step.next { st with idx := i })) :=
  keeps_map (fun _ _ => h)

theorem lexText_word (data : List Char) (st : LexState)
    (hc : is_alpha (data.getD st.idx NUL) = true) (h : TextOK st.tokens) :
    LexText ((scanWhile data is_alnum (st.idx + 1)).map
      (fun i =>
        Step.next
          { pushTok data st (keywordTypeFast (slice data st.idx (i - st.idx))) st.idx
              (i - st.idx) with idx := i })) := by
  refine keeps_map ?_
  intro i hi
  have hclean := scanWhile_clean data is_alnum st.idx (st.idx + 1) is_alnum_ne_nl
    (clean_snoc data st.idx st.idx (clean_empty data st.idx) (is_alpha_ne_nl _ hc)) i hi
  exact pushTok_textOK _ _ _ _ _ (Or.inr (clean_sub _ _ _ hclean)) h

theorem lexStep_textOK (data : List Char) (st : LexState) (hno : '~' ∉ data)
    (h : TextOK st.tokens) :
    Keeps (fun r => TextOK r.state.tokens) (lexStep data st) := by
  unfold lexStep
  refine keeps_ite (fun hidx => ?_) (fun _ => keeps_pure h)
  dsimp only
  show LexText _
  repeat' first
    | apply lexText_ite <;> intro _
    | apply lexText_next
    | apply lexText_map
    | apply lexText_word
    | apply lexText_scan
  all_goals first
    | exact h
    | assumption
    | exact False.elim (no_tilde_at data st.idx hno hidx (by assumption))
    | exact pushTok_textOK _ _ _ _ _ (Or.inr (clean_one _ _ (by assumption))) h
    | exact pushTok_textOK _ _ _ _ _ (Or.inr (clean_three _ _ (by assumption) (by assumption))) h
    | exact pushTok_textOK _ _ _ _ _
        (Or.inr (clean_two _ _ _ (by assumption) (by assumption) (by decide))) h
    | exact lexLess_textOK _ _ (by assumption) h
    | exact lexBracket_textOK _ _ (by assumption) h
    | exact lexQuoted_textOK _ _ _ h
    | exact lexNumber_textOK _ _ h

/-- On a source without `~`, no token of `Lexer` other than a STRING token has a newline in
its text. -/
theorem Lexer_textOK (Code : String) (hno : '~' ∉ Code.data) :
    ∃ toks, Lexer Code = Except.ok toks ∧ TextOK toks := by
  obtain ⟨toks, htoks⟩ := Lexer_total Code
  refine ⟨toks, htoks, ?_⟩
  unfold Lexer at htoks
  have hk := keeps_loop (lexStep Code.data) (fun s => TextOK s.tokens)
    (fun s hs => lexStep_textOK Code.data s hno hs) (Code.data.length + 1)
    { idx := 0, line := 1, tokens := [] } (fun t ht => by cases ht)
  cases hl : loop (Code.data.length + 1) (lexStep Code.data)
      { idx := 0, line := 1, tokens := [] } with
  | error e => rw [hl] at htoks; cases htoks
  | ok st =>
    rw [hl] at htoks
    cases htoks
    intro t ht hne
    simp only [List.mem_append, List.mem_singleton] at ht
    rcases ht with ht | ht
    · exact hk st hl t ht hne
    · rw [ht]
      simp

/-! ## The reserved words -/

theorem keywordTypeFast_of_reserved :
    ∀ w ∈ reservedWords, keywordTypeFast w ≠ TokenType.IDENTIFIER := by
  decide

/-- The words that `keywordTypeFast` gives a kind other than IDENTIFIER are the words of
`reservedWords`. -/
theorem keywordTypeFast_ne_identifier_iff (w : String) :
    keywordTypeFast w ≠ TokenType.IDENTIFIER ↔ w ∈ reservedWords := by
  constructor
  · intro h
    by_contra hc
    exact h (keywordTypeFast_of_not_reserved w hc)
  · exact keywordTypeFast_of_reserved w

theorem reservedWords_nodup : reservedWords.Nodup := by
  decide

/-! ## Statements that start with an identifier, and suffixes -/

theorem typeIs_true (Tokens : List Token) (i : Nat) (u : Token) (ty : TokenType)
    (hu : Tokens.get? i = some u) (h : u.type = ty) : typeIs Tokens i ty = Except.ok true := by
  unfold typeIs
  rw [if_pos (get_lt Tokens i u hu), tokAt_eq Tokens i u hu]
  subst h
  simp

theorem typeIs_false (Tokens : List Token) (i : Nat) (ty : TokenType)
    (h : ∀ u, Tokens.get? i = some u → u.type ≠ ty) : typeIs Tokens i ty = Except.ok false := by
  unfold typeIs
  by_cases hlt : i < Tokens.length
  · rw [if_pos hlt]
    obtain ⟨u, hu, hg⟩ := holds_tokAt Tokens i hlt
    rw [hu]
    have := h u hg
    simp [this]
  · rw [if_neg hlt]

theorem defaultNode_call (Tokens : List Token) (i : Nat) (t u : Token) (call : AST) (j : Nat)
    (ht : t.type = TokenType.IDENTIFIER) (hu : Tokens.get? (i + 1) = some u)
    (hp : u.type = TokenType.LEFT_PAREN)
    (hs : parseSuffixed (parseExpressionForwardDecl Tokens) Tokens i = Except.ok (call, j)) :
    defaultNode Tokens i t =
      Except.ok (AST.mk ASTType.CallStatement "call_stmt" t.line [("expression", [call])], j) := by
  unfold defaultNode
  rw [if_pos (by rw [ht]; rfl),
    typeIs_false Tokens (i + 1) TokenType.EQUAL
      (fun v hv => by rw [hu] at hv; cases hv; rw [hp]; decide),
    typeIs_false Tokens (i + 1) TokenType.COMMA
      (fun v hv => by rw [hu] at hv; cases hv; rw [hp]; decide),
    typeIs_true Tokens (i + 1) u TokenType.LEFT_PAREN hu hp]
  simp only [res_bind_ok, Bool.or_self, Bool.false_eq_true, if_false, if_true, hs]
  rfl

theorem defaultNode_expr (Tokens : List Token) (i : Nat) (t : Token) (expr : AST) (j : Nat)
    (ht : t.type = TokenType.IDENTIFIER)
    (hnext : ∀ u, Tokens.get? (i + 1) = some u →
      u.type ≠ TokenType.EQUAL ∧ u.type ≠ TokenType.COMMA ∧ u.type ≠ TokenType.LEFT_PAREN)
    (he : parseExpressionForwardDecl Tokens i = Except.ok (expr, j)) :
    defaultNode Tokens i t =
      Except.ok (AST.mk ASTType.Chunk "expr" expr.line [("statements", [expr])], j) := by
  unfold defaultNode
  rw [if_pos (by rw [ht]; rfl),
    typeIs_false Tokens (i + 1) TokenType.EQUAL (fun v hv => (hnext v hv).1),
    typeIs_false Tokens (i + 1) TokenType.COMMA (fun v hv => (hnext v hv).2.1),
    typeIs_false Tokens (i + 1) TokenType.LEFT_PAREN (fun v hv => (hnext v hv).2.2)]
  simp only [res_bind_ok, Bool.or_self, Bool.false_eq_true, if_false, exprStatement, he]
  rfl

/-- A round of `Parse` at a token of a kind that has no case of its own in the `switch`:
the node of `defaultNode` is pushed on the chunk. -/
theorem parseStep_default (Tokens : List Token) (s : ParseState) (t : Token) (node : AST)
    (j j' : Nat) (hrun : s.Running = true) (ht : Tokens.get? s.Index = some t)
    (hid : t.type = TokenType.IDENTIFIER)
    (hnode : defaultNode Tokens s.Index t = Except.ok (node, j))
    (hacc : accept Tokens j TokenType.SEMICOLON = Except.ok j') :
    parseStep Tokens s =
      Except.ok (Step.next (ParseState.mk true j' (s.Chunk ++ [node]))) := by
  have hlt := get_lt Tokens s.Index t ht
  have hp : parseDefault Tokens s.Index = Except.ok (node, j') := by
    unfold parseDefault
    rw [tokAt_eq Tokens s.Index t ht]
    simp only [res_bind_ok, hnode, hacc]
    rfl
  unfold parseStep
  rw [if_pos (by simp [hrun, hlt])]
  dsimp only
  rw [tokAt_eq Tokens s.Index t ht]
  simp only [res_bind_ok, hid, hp, hrun]
  rfl

theorem suffixStep_goes_on (pe : PE) (Tokens : List Token) (s : AST × Nat) (t : Token)
    (ht : Tokens.get? s.2 = some t)
    (hsuf : t.type = TokenType.LEFT_BRACKET ∨ t.type = TokenType.LEFT_PAREN ∨
      (t.type = TokenType.DOT ∧
        ∃ m, Tokens.get? (s.2 + 1) = some m ∧ m.type = TokenType.IDENTIFIER)) :
    Keeps (fun r => ∃ r', r = Step.next r') (suffixStep pe Tokens s) := by
  unfold suffixStep
  rw [if_pos (get_lt Tokens s.2 t ht), tokAt_eq Tokens s.2 t ht]
  rcases hsuf with h | h | ⟨h, m, hm, hmt⟩
  · simp only [res_bind_ok, h]
    rw [if_neg (by decide), if_pos (by decide)]
    refine keeps_bind (keeps_true _) ?_
    rintro ⟨key, i1⟩ _
    refine keeps_bind (keeps_true _) ?_
    intro i2 _
    intro r hr
    cases hr
    exact ⟨_, rfl⟩
  · simp only [res_bind_ok, h]
    rw [if_neg (by decide), if_neg (by decide), if_pos (by decide)]
    refine keeps_bind (keeps_true _) ?_
    rintro ⟨args, i1⟩ _
    refine keeps_bind (keeps_true _) ?_
    intro i2 _
    intro r hr
    cases hr
    exact ⟨_, rfl⟩
  · simp only [res_bind_ok, h]
    rw [if_pos (by decide), typeIs_true Tokens (s.2 + 1) m _ hm hmt]
    simp only [res_bind_ok, if_true]
    refine keeps_bind (keeps_true _) ?_
    intro m' _
    intro r hr
    cases hr
    exact ⟨_, rfl⟩

theorem suffixStep_wraps (pe : PE) (Tokens : List Token) (s : AST × Nat) :
    Keeps (fun r => ∀ r', r = Step.next r' →
      (r'.1.type = ASTType.MemberExpression ∧ r'.1.slot "object" = some [s.1]) ∨
      (r'.1.type = ASTType.IndexExpression ∧ r'.1.slot "object" = some [s.1]) ∨
      (r'.1.type = ASTType.CallExpression ∧ r'.1.slot "callee" = some [s.1]))
      (suffixStep pe Tokens s) := by
  have hdone : ∀ x : AST × Nat, ∀ r', Step.done x = Step.next r' →
      (r'.1.type = ASTType.MemberExpression ∧ r'.1.slot "object" = some [s.1]) ∨
      (r'.1.type = ASTType.IndexExpression ∧ r'.1.slot "object" = some [s.1]) ∨
      (r'.1.type = ASTType.CallExpression ∧ r'.1.slot "callee" = some [s.1]) := by
    intro x r' h
    cases h
  unfold suffixStep
  refine keeps_ite (fun _ => ?_) (fun _ => keeps_pure (hdone _))
  refine keeps_bind (keeps_true _) ?_
  intro t _
  refine keeps_ite (fun _ => ?_) (fun _ => ?_)
  · refine keeps_bind (keeps_true _) ?_
    intro b _
    refine keeps_ite (fun _ => ?_) (fun _ => keeps_pure (hdone _))
    refine keeps_bind (keeps_true _) ?_
    intro m _
    intro r hr
    cases hr
    intro r' hr'
    cases hr'
    exact Or.inl ⟨rfl, rfl⟩
  · refine keeps_ite (fun _ => ?_) (fun _ => ?_)
    · refine keeps_bind (keeps_true _) ?_
      rintro ⟨key, i1⟩ _
      refine keeps_bind (keeps_true _) ?_
      intro i2 _
      intro r hr
      cases hr
      intro r' hr'
      cases hr'
      exact Or.inr (Or.inl ⟨rfl, rfl⟩)
    · refine keeps_ite (fun _ => ?_) (fun _ => keeps_pure (hdone _))
      refine keeps_bind (keeps_true _) ?_
      rintro ⟨args, i1⟩ _
      refine keeps_bind (keeps_true _) ?_
      intro i2 _
      intro r hr
      cases hr
      intro r' hr'
      cases hr'
      refine Or.inr (Or.inr ⟨assignNonEmpty_type _ _ _, ?_⟩)
      show AST.slot (AST.assignNonEmpty _ _ args) "callee" = _
      unfold AST.assignNonEmpty
      split
      · rfl
      · rfl

/-! ## Decimal literals -/

theorem lexStep_digit (data : List Char) (st : LexState)
    (hlt : st.idx < data.length) (ha : is_digit (data.getD st.idx NUL) = true) :
    lexStep data st = (lexNumber data st (data.getD st.idx NUL)).map Step.next := by
  unfold lexStep
  rw [if_pos hlt]
  dsimp only
  generalize data.getD st.idx NUL = c at ha
  have hn := (is_digit_iff c).mp ha
  have key : ∀ ch : Char, is_digit ch = false → ¬ (c == ch) = true := by
    intro ch hch h
    rw [eq_of_beq h, hch] at ha
    cases ha
  rw [if_neg (key NL (by decide)), if_neg (by omega),
    if_neg (key '(' (by decide)), if_neg (key ')' (by decide)),
    if_neg (key LBRACE (by decide)), if_neg (key RBRACE (by decide)),
    if_neg (key '[' (by decide)), if_neg (key ']' (by decide)),
    if_neg (key ',' (by decide)), if_neg (key ';' (by decide)),
    if_neg (key '+' (by decide)), if_neg (key '*' (by decide)),
    if_neg (key '/' (by decide)), if_neg (key ':' (by decide)),
    if_neg (key '%' (by decide)), if_neg (key '^' (by decide)),
    if_neg (key '#' (by decide)), if_neg (key '.' (by decide)),
    if_neg (key '-' (by decide)), if_neg (key '=' (by decide)),
    if_neg (key '~' (by decide)), if_neg (key '<' (by decide)),
    if_neg (key '>' (by decide)),
    if_neg (by
      simp only [Bool.or_eq_true, not_or]
      exact ⟨key DQUOTE (by decide), key SQUOTE (by decide)⟩),
    if_pos (by simp only [ha, Bool.true_or])]

theorem getD_append_lt (l post : List Char) (k : Nat) (hk : k < l.length) :
    (l ++ post).getD k NUL = l.getD k NUL := by
  rw [List.getD_eq_getElem _ _ (by simp; omega), List.getD_eq_getElem _ _ hk,
    List.getElem_append_left hk]

theorem getD_append_length (l post : List Char) :
    (l ++ post).getD l.length NUL = post.getD 0 NUL := by
  have := getD_append_at l post 0
  simpa using this

/-- A run of digits `ds` after `pre`, followed by `post` whose first character is not a digit:
the digit scan from the start of the run stops at its end. -/
theorem scan_digits (pre ds post : List Char) (hds : ∀ x ∈ ds, is_digit x = true)
    (hpost : is_digit (post.getD 0 NUL) = false) :
    scanWhile (pre ++ (ds ++ post)) is_digit pre.length = Except.ok (pre.length + ds.length) := by
  refine scanWhile_stop _ _ _ _ (by omega) ?_ ?_
  · intro m h1 h2
    obtain ⟨k, rfl⟩ : ∃ k, m = pre.length + k := ⟨m - pre.length, by omega⟩
    refine ⟨by simp; omega, ?_⟩
    rw [getD_append_at, getD_append_lt ds post k (by omega)]
    exact hds _ (getD_mem ds k (by omega))
  · rintro ⟨-, h⟩
    rw [getD_append_at, getD_append_length, hpost] at h
    cases h

theorem exponent_head (ex : List Char) (hex : isExponent ex) :
    is_digit (ex.getD 0 NUL) = false ∧ ex.getD 0 NUL ≠ '.' := by
  rcases hex with rfl | ⟨e, sg, ds, rfl, he | he, -, -⟩
  · exact ⟨by decide, by decide⟩
  · subst he
    exact ⟨by show is_digit 'e' = false; decide, by show 'e' ≠ '.'; decide⟩
  · subst he
    exact ⟨by show is_digit 'E' = false; decide, by show 'E' ≠ '.'; decide⟩

theorem fraction_head (fr ex : List Char) (hfr : isFraction fr) (hex : isExponent ex) :
    is_digit ((fr ++ ex).getD 0 NUL) = false := by
  rcases hfr with rfl | ⟨ds, rfl, -⟩
  · exact (exponent_head ex hex).1
  · show is_digit '.' = false
    decide

theorem lexFraction_run (pre fr post : List Char) (hfr : isFraction fr)
    (hpost : is_digit (post.getD 0 NUL) = false ∧ post.getD 0 NUL ≠ '.') :
    lexFraction (pre ++ (fr ++ post)) pre.length = Except.ok (pre.length + fr.length) := by
  unfold lexFraction
  rw [peek_zero]
  rcases hfr with rfl | ⟨ds, rfl, hds⟩
  · rw [List.nil_append, getD_append_length, if_neg (by simpa using hpost.2)]
    rfl
  · have e1 : pre ++ ('.' :: ds ++ post) = (pre ++ ['.']) ++ (ds ++ post) := by simp
    have hget : (pre ++ ('.' :: ds ++ post)).getD pre.length NUL = '.' := by
      rw [getD_append_length]; rfl
    rw [hget, if_pos (by decide)]
    have hL : (pre ++ ['.']).length = pre.length + 1 := by simp
    have := scan_digits (pre ++ ['.']) ds post hds hpost.1
    rw [← e1, hL] at this
    rw [this]
    congr 1
    simp only [List.length_cons]
    omega

theorem skipSign_run (pre sg ds : List Char) (hsg : sg = [] ∨ sg = ['+'] ∨ sg = ['-'])
    (hds : ∀ x ∈ ds, is_digit x = true) :
    skipSign (pre ++ (sg ++ ds)) pre.length = pre.length + sg.length := by
  unfold skipSign
  rw [peek_zero, getD_append_length]
  rcases hsg with rfl | rfl | rfl
  · have hd : is_digit (([] ++ ds).getD 0 NUL) = true ∨ ([] ++ ds).getD 0 NUL = NUL := by
      cases ds with
      | nil => exact Or.inr rfl
      | cons d ds => exact Or.inl (hds d (List.mem_cons_self _ _))
    rw [if_neg]
    · rfl
    · rcases hd with hd | hd
      · intro h
        simp only [Bool.or_eq_true] at h
        rcases h with h | h
        · rw [eq_of_beq h] at hd; exact absurd hd (by decide)
        · rw [eq_of_beq h] at hd; exact absurd hd (by decide)
      · rw [hd]; decide
  · rw [if_pos (by show ('+' == '+' || '+' == '-') = true; decide)]; rfl
  · rw [if_pos (by show ('-' == '+' || '-' == '-') = true; decide)]; rfl

theorem decExponent_run (pre ex : List Char) (hex : isExponent ex) :
    decExponent (pre ++ ex) pre.length = Except.ok (pre.length + ex.length) := by
  unfold decExponent
  rw [peek_zero, getD_append_length]
  rcases hex with rfl | ⟨e, sg, ds, rfl, he, hsg, hds⟩
  · rw [if_neg (by decide)]
    rfl
  · have hget : (e :: (sg ++ ds)).getD 0 NUL = e := rfl
    rw [hget, if_pos (by rcases he with rfl | rfl <;> decide)]
    have e1 : pre ++ e :: (sg ++ ds) = (pre ++ [e]) ++ (sg ++ ds) := by simp
    have e2 : pre ++ e :: (sg ++ ds) = (pre ++ [e] ++ sg) ++ (ds ++ []) := by simp
    have hL1 : (pre ++ [e]).length = pre.length + 1 := by simp
    have hL2 : (pre ++ [e] ++ sg).length = pre.length + 1 + sg.length := by
      simp only [List.length_append, List.length_singleton]
    have hskip := skipSign_run (pre ++ [e]) sg ds hsg hds
    rw [← e1, hL1] at hskip
    rw [hskip]
    have hscan := scan_digits (pre ++ [e] ++ sg) ds [] hds (by decide)
    rw [← e2, hL2] at hscan
    rw [hscan]
    congr 1
    simp only [List.length_cons, List.length_append]
    omega

theorem second_char_not_x (ip fr ex : List Char) (hdig : ∀ x ∈ ip, is_digit x = true)
    (hfr : isFraction fr) (hex : isExponent ex) :
    ¬ ((ip ++ (fr ++ ex)).getD 1 NUL == 'x' || (ip ++ (fr ++ ex)).getD 1 NUL == 'X') = true := by
  have hall : ∀ x ∈ ip ++ (fr ++ ex), x ≠ 'x' ∧ x ≠ 'X' := by
    intro x hx
    have hd : ∀ y, is_digit y = true → y ≠ 'x' ∧ y ≠ 'X' := by
      intro y hy
      constructor <;> (rintro rfl; exact absurd hy (by decide))
    simp only [List.mem_append] at hx
    rcases hx with hx | hx | hx
    · exact hd x (hdig x hx)
    · rcases hfr with rfl | ⟨ds, rfl, hds⟩
      · cases hx
      · rcases List.mem_cons.mp hx with rfl | hx
        · exact ⟨by decide, by decide⟩
        · exact hd x (hds x hx)
    · rcases hex with rfl | ⟨e, sg, ds, rfl, he, hsg, hds⟩
      · cases hx
      · rcases List.mem_cons.mp hx with rfl | hx
        · rcases he with rfl | rfl <;> exact ⟨by decide, by decide⟩
        · rcases List.mem_append.mp hx with hx | hx
          · rcases hsg with rfl | rfl | rfl
            · cases hx
            · rw [List.mem_singleton.mp hx]; exact ⟨by decide, by decide⟩
            · rw [List.mem_singleton.mp hx]; exact ⟨by decide, by decide⟩
          · exact hd x (hds x hx)
  by_cases h1 : 1 < (ip ++ (fr ++ ex)).length
  · have := hall _ (getD_mem _ 1 h1)
    simp only [Bool.or_eq_true, beq_iff_eq, not_or]
    exact this
  · rw [List.getD_eq_default _ _ (by omega)]
    decide

/-- The number rule on a decimal literal at the start of the buffer takes the whole of it. -/
theorem lexNumber_decimal (ip fr ex : List Char) (c : Char)
    (hdig : ∀ x ∈ ip, is_digit x = true) (hfr : isFraction fr) (hex : isExponent ex) :
    lexNumber (ip ++ (fr ++ ex)) (LexState.mk 0 1 []) c =
      Except.ok (LexState.mk (ip ++ (fr ++ ex)).length 1
        [Token.mk TokenType.NUMBER (String.mk (ip ++ (fr ++ ex))) 1 0]) := by
  have h1 : scanWhile (ip ++ (fr ++ ex)) is_digit 0 = Except.ok ip.length := by
    have := scan_digits [] ip (fr ++ ex) hdig (fraction_head fr ex hfr hex)
    simpa using this
  have h2 : lexFraction (ip ++ (fr ++ ex)) ip.length = Except.ok (ip.length + fr.length) :=
    lexFraction_run ip fr ex hfr (exponent_head ex hex)
  have h3 : decExponent (ip ++ (fr ++ ex)) (ip.length + fr.length) =
      Except.ok (ip ++ (fr ++ ex)).length := by
    have := decExponent_run (ip ++ fr) ex hex
    simp only [List.append_assoc, List.length_append] at this ⊢
    rw [this]
    congr 1
    omega
  unfold lexNumber
  dsimp only
  rw [if_neg (by
    rw [peek_eq]
    simp only [Bool.and_eq_true, not_and]
    intro _
    simpa using second_char_not_x ip fr ex hdig hfr hex)]
  simp only [h1, h2, h3, res_bind_ok, res_pure, pushTok, Nat.sub_zero, slice_all,
    List.nil_append]

/-! ## Assignments of literals -/

theorem get?_of_drop (l : List Token) (i : Nat) (t : Token) (rest : List Token)
    (h : l.drop i = t :: rest) : l.get? i = some t := by
  induction l generalizing i with
  | nil => simp at h
  | cons x l ih =>
    cases i with
    | zero =>
      simp only [List.drop_zero, List.cons.injEq] at h
      simp [h.1]
    | succ i =>
      simp only [List.drop_succ_cons] at h
      simpa using ih i h

theorem drop_succ_of_drop (l : List Token) (i : Nat) (t : Token) (rest : List Token)
    (h : l.drop i = t :: rest) : l.drop (i + 1) = rest := by
  induction l generalizing i with
  | nil => simp at h
  | cons x l ih =>
    cases i with
    | zero =>
      simp only [List.drop_zero, List.cons.injEq] at h
      simp [h.2]
    | succ i =>
      simp only [List.drop_succ_cons] at h
      simpa using ih i h

theorem two_step_induction {motive : List Token → Prop} (h0 : motive [])
    (h1 : ∀ t, motive [t]) (h2 : ∀ t c rest, motive rest → motive (t :: c :: rest)) :
    ∀ l, motive l := by
  have key : ∀ l, motive l ∧ ∀ x, motive (x :: l) := by
    intro l
    induction l with
    | nil => exact ⟨h0, h1⟩
    | cons y l ih => exact ⟨ih.2 y, fun x => h2 x y l ih.1⟩
  exact fun l => (key l).1

theorem nonSuffix_of_comma (u : Token) (h : u.type = TokenType.COMMA) : nonSuffix u := by
  simp [nonSuffix, h]

theorem prec_comma (u : Token) (h : u.type = TokenType.COMMA) : precedenceOf u = 0 := by
  simp [precedenceOf, h]

theorem isLiteralTok_iff (t : Token) :
    isLiteralTok t = true ↔ t.type = TokenType.NUMBER ∨ t.type = TokenType.STRING := by
  simp [isLiteralTok]

theorem parsePrimary_literal (pe : PE) (Tokens : List Token) (i : Nat) (t : Token)
    (h : Tokens.get? i = some t) (ht : isLiteralTok t = true) :
    parsePrimary pe Tokens i = Except.ok (literalLeaf t, i + 1) := by
  have hlt := get_lt Tokens i t h
  unfold parsePrimary
  rw [if_neg (by omega), tokAt_eq Tokens i t h]
  rcases (isLiteralTok_iff t).mp ht with ht | ht <;> simp [ht, literalLeaf, makeLeaf]

/-- A literal token followed by a token that starts no suffix and is no operator: the
expression is the leaf of the literal. -/
theorem parseExpression_literal (Tokens : List Token) (i : Nat) (t u : Token)
    (h : Tokens.get? i = some t) (ht : isLiteralTok t = true)
    (h' : Tokens.get? (i + 1) = some u) (hu : nonSuffix u) (hp : precedenceOf u = 0) :
    parseExpressionForwardDecl Tokens i = Except.ok (literalLeaf t, i + 1) := by
  have hlt := get_lt Tokens i t h
  unfold parseExpressionForwardDecl
  rw [parseBinary]
  rw [if_neg (by omega), tokAt_eq Tokens i t h]
  simp only [res_bind_ok]
  rw [if_neg]
  · unfold parseSuffixed
    rw [parsePrimary_literal _ Tokens i t h ht]
    simp only [res_bind_ok]
    rw [loop_done _ _ _ _ (suffixStep_stop _ Tokens _ (i + 1) u h' hu)]
    simp only [res_bind_ok]
    exact loop_done _ _ _ _ (binaryStep_stop _ Tokens 1 _ (i + 1) u h' (Or.inl hp))
  · rcases (isLiteralTok_iff t).mp ht with ht | ht <;> simp [ht]

theorem varStep_next (Tokens : List Token) (acc : List AST) (i : Nat) (t c : Token)
    (h : Tokens.get? i = some t) (ht : t.type = TokenType.IDENTIFIER)
    (h' : Tokens.get? (i + 1) = some c) (hc : c.type = TokenType.COMMA) :
    varStep Tokens (acc, i) = Except.ok (Step.next (acc ++ [identLeaf t], i + 2)) := by
  unfold varStep
  dsimp only
  rw [typeIs_true Tokens i t _ h ht]
  simp only [res_bind_ok, if_true]
  rw [tokAt_eq Tokens i t h, typeIs_true Tokens (i + 1) c _ h' hc]
  rfl

theorem varStep_last (Tokens : List Token) (acc : List AST) (i : Nat) (t : Token)
    (h : Tokens.get? i = some t) (ht : t.type = TokenType.IDENTIFIER)
    (h' : ∀ u, Tokens.get? (i + 1) = some u → u.type ≠ TokenType.COMMA) :
    varStep Tokens (acc, i) = Except.ok (Step.done (acc ++ [identLeaf t], i + 1)) := by
  unfold varStep
  dsimp only
  rw [typeIs_true Tokens i t _ h ht]
  simp only [res_bind_ok, if_true]
  rw [tokAt_eq Tokens i t h, typeIs_false Tokens (i + 1) _ h']
  rfl

/-- The variable loop over a comma-separated list of identifiers that is followed by a token
other than a comma: the leaves of the identifiers, in order. -/
theorem var_loop (Tokens : List Token) (e : Token) (he : e.type ≠ TokenType.COMMA) :
    ∀ vs, commaSeparated isIdentTok vs = true → ∀ (i : Nat) (acc : List AST) (fuel : Nat)
      (post : List Token), Tokens.drop i = vs ++ e :: post → vs.length < fuel →
      loop fuel (varStep Tokens) (acc, i) =
        Except.ok (acc ++ (items vs).map identLeaf, i + vs.length) := by
  refine two_step_induction ?_ ?_ ?_
  · intro h
    cases h
  · intro t ht i acc fuel post hdrop hfuel
    obtain ⟨f, rfl⟩ : ∃ f, fuel = f + 1 := ⟨fuel - 1, by simp at hfuel; omega⟩
    have h0 := get?_of_drop Tokens i t _ hdrop
    have h1 := get?_of_drop Tokens (i + 1) e _ (drop_succ_of_drop Tokens i t _ hdrop)
    have hty : t.type = TokenType.IDENTIFIER := by simpa [commaSeparated, isIdentTok] using ht
    exact loop_done _ _ _ _ (varStep_last Tokens acc i t h0 hty
      (fun u hu => by rw [h1] at hu; cases hu; exact he))
  · intro t c rest ih ht i acc fuel post hdrop hfuel
    obtain ⟨f, rfl⟩ : ∃ f, fuel = f + 1 := ⟨fuel - 1, by simp at hfuel; omega⟩
    simp only [commaSeparated, isIdentTok, Bool.and_eq_true, beq_iff_eq] at ht
    obtain ⟨hty, hc, hrest⟩ := ht
    have h0 := get?_of_drop Tokens i t _ hdrop
    have hd1 := drop_succ_of_drop Tokens i t _ hdrop
    have h1 := get?_of_drop Tokens (i + 1) c _ hd1
    have hd2 := drop_succ_of_drop Tokens (i + 1) c _ hd1
    rw [loop_next _ _ _ _ (varStep_next Tokens acc i t c h0 hty h1 hc),
      ih hrest (i + 2) (acc ++ [identLeaf t]) f post hd2
        (by simp only [List.length_cons] at hfuel; omega)]
    simp only [items, List.map_cons, List.append_assoc, List.singleton_append,
      List.length_cons]
    congr 2
    omega

theorem exprListStep_next (Tokens : List Token) (acc : List AST) (i : Nat) (c : Token)
    (e : AST) (i1 : Nat) (h : Tokens.get? i = some c) (hc : c.type = TokenType.COMMA)
    (he : parseExpressionForwardDecl Tokens (i + 1) = Except.ok (e, i1)) :
    exprListStep Tokens (acc, i) = Except.ok (Step.next (acc ++ [e], i1)) := by
  unfold exprListStep
  dsimp only
  rw [typeIs_true Tokens i c _ h hc]
  simp only [res_bind_ok, if_true, he]
  rfl

theorem exprListStep_stop (Tokens : List Token) (acc : List AST) (i : Nat)
    (h : ∀ u, Tokens.get? i = some u → u.type ≠ TokenType.COMMA) :
    exprListStep Tokens (acc, i) = Except.ok (Step.done (acc, i)) := by
  unfold exprListStep
  dsimp only
  rw [typeIs_false Tokens i _ h]
  rfl

/-- The loop of `parseExpressionList` at a comma followed by a comma-separated list of
literals and END_OF_FILE: the leaves of the literals, in order. -/
theorem exprList_loop (Tokens : List Token) (eof : Token)
    (heof : eof.type = TokenType.END_OF_FILE) :
    ∀ es, commaSeparated isLiteralTok es = true → ∀ (i : Nat) (acc : List AST) (fuel : Nat)
      (c : Token) (post : List Token), Tokens.drop i = c :: (es ++ eof :: post) →
      c.type = TokenType.COMMA → es.length < fuel →
      loop fuel (exprListStep Tokens) (acc, i) =
        Except.ok (acc ++ (items es).map literalLeaf, i + 1 + es.length) := by
  refine two_step_induction ?_ ?_ ?_
  · intro h
    cases h
  · intro t ht i acc fuel c post hdrop hc hfuel
    obtain ⟨f, rfl⟩ : ∃ f, fuel = f + 1 + 1 := ⟨fuel - 2, by simp at hfuel; omega⟩
    have h0 := get?_of_drop Tokens i c _ hdrop
    have hd1 := drop_succ_of_drop Tokens i c _ hdrop
    have h1 := get?_of_drop Tokens (i + 1) t _ hd1
    have hd2 := drop_succ_of_drop Tokens (i + 1) t _ hd1
    have h2 := get?_of_drop Tokens (i + 1 + 1) eof _ hd2
    have hlit : isLiteralTok t = true := by simpa [commaSeparated] using ht
    have hexpr := parseExpression_literal Tokens (i + 1) t eof h1 hlit h2
      (nonSuffix_of_eof eof heof) (prec_eof eof heof)
    rw [loop_next _ _ _ _ (exprListStep_next Tokens acc i c _ _ h0 hc hexpr)]
    exact loop_done _ _ _ _ (exprListStep_stop Tokens _ _
      (fun u hu => by rw [h2] at hu; cases hu; rw [heof]; decide))
  · intro t c' rest ih ht i acc fuel c post hdrop hc hfuel
    obtain ⟨f, rfl⟩ : ∃ f, fuel = f + 1 := ⟨fuel - 1, by simp at hfuel; omega⟩
    simp only [commaSeparated, Bool.and_eq_true, beq_iff_eq] at ht
    obtain ⟨hlit, hc', hrest⟩ := ht
    have h0 := get?_of_drop Tokens i c _ hdrop
    have hd1 := drop_succ_of_drop Tokens i c _ hdrop
    have h1 := get?_of_drop Tokens (i + 1) t _ hd1
    have hd2 := drop_succ_of_drop Tokens (i + 1) t _ hd1
    have h2 := get?_of_drop Tokens (i + 1 + 1) c' _ hd2
    have hexpr := parseExpression_literal Tokens (i + 1) t c' h1 hlit h2
      (nonSuffix_of_comma c' hc') (prec_comma c' hc')
    rw [loop_next _ _ _ _ (exprListStep_next Tokens acc i c _ _ h0 hc hexpr),
      ih hrest (i + 1 + 1) (acc ++ [literalLeaf t]) f c' post hd2 hc'
        (by simp only [List.length_cons] at hfuel; omega)]
    simp only [items, List.map_cons, List.append_assoc, List.singleton_append,
      List.length_cons]
    congr 2
    omega

/-- The function `parseExpressionList` at a comma-separated list of literals followed by
END_OF_FILE. -/
theorem parseExpressionList_literals (Tokens : List Token) (eof : Token)
    (heof : eof.type = TokenType.END_OF_FILE) (es : List Token)
    (hes : commaSeparated isLiteralTok es = true) (i : Nat) (post : List Token)
    (hdrop : Tokens.drop i = es ++ eof :: post) :
    parseExpressionList Tokens i =
      Except.ok ((items es).map literalLeaf, i + es.length) := by
  cases es with
  | nil => cases hes
  | cons t es =>
    have h0 := get?_of_drop Tokens i t _ hdrop
    have hlt := get_lt Tokens i t h0
    have hd1 := drop_succ_of_drop Tokens i t _ hdrop
    unfold parseExpressionList
    rw [if_neg (by omega)]
    cases es with
    | nil =>
      have h1 := get?_of_drop Tokens (i + 1) eof _ hd1
      have hlit : isLiteralTok t = true := by simpa [commaSeparated] using hes
      rw [parseExpression_literal Tokens i t eof h0 hlit h1 (nonSuffix_of_eof eof heof)
        (prec_eof eof heof)]
      simp only [res_bind_ok]
      exact loop_done _ _ _ _ (exprListStep_stop Tokens _ _
        (fun u hu => by rw [h1] at hu; cases hu; rw [heof]; decide))
    | cons c rest =>
      simp only [commaSeparated, Bool.and_eq_true, beq_iff_eq] at hes
      obtain ⟨hlit, hc, hrest⟩ := hes
      have h1 := get?_of_drop Tokens (i + 1) c _ hd1
      rw [parseExpression_literal Tokens i t c h0 hlit h1 (nonSuffix_of_comma c hc)
        (prec_comma c hc)]
      simp only [res_bind_ok]
      have hlen : rest.length < Tokens.length + 1 := by
        have := congrArg List.length hdrop
        simp only [List.length_drop, List.length_cons, List.length_append] at this
        omega
      rw [exprList_loop Tokens eof heof rest hrest (i + 1) [literalLeaf t] _ c post hd1 hc hlen]
      simp only [items, List.map_cons, List.singleton_append, List.length_cons]
      congr 2
      omega

theorem items_ne_nil (p : Token → Bool) (l : List Token) (h : commaSeparated p l = true) :
    items l ≠ [] := by
  cases l with
  | nil => cases h
  | cons t l =>
    cases l with
    | nil => simp [items]
    | cons c rest => simp [items]

theorem assign_two (ty : ASTType) (txt : String) (line : Nat) (vars vals : List AST)
    (h1 : vars ≠ []) (h2 : vals ≠ []) :
    ((makeLeaf ty txt line).assignNonEmpty "variables" vars).assignNonEmpty "values" vals =
      AST.mk ty txt line [("variables", vars), ("values", vals)] := by
  cases vars with
  | nil => exact absurd rfl h1
  | cons x xs =>
    cases vals with
    | nil => exact absurd rfl h2
    | cons y ys => rfl

/-- The statement built in `default:` at an identifier followed by `=` or `,`, when the
variable loop ends in front of `=`: an assignment of the value list. -/
theorem defaultNode_assign (Tokens : List Token) (i : Nat) (t u eq : Token)
    (vars vals : List AST) (j1 j2 : Nat) (ht : t.type = TokenType.IDENTIFIER)
    (hu : Tokens.get? (i + 1) = some u)
    (hut : u.type = TokenType.EQUAL ∨ u.type = TokenType.COMMA)
    (hvars : loop (Tokens.length + 1) (varStep Tokens) ([], i) = Except.ok (vars, j1))
    (heq : Tokens.get? j1 = some eq) (heqt : eq.type = TokenType.EQUAL)
    (hvals : parseExpressionList Tokens (j1 + 1) = Except.ok (vals, j2)) :
    defaultNode Tokens i t =
      Except.ok (((makeLeaf ASTType.AssignmentStatement "assign" t.line).assignNonEmpty
        "variables" vars).assignNonEmpty "values" vals, j2) := by
  unfold defaultNode
  rw [if_pos (by rw [ht]; rfl)]
  have hor : ∃ b1 b2, typeIs Tokens (i + 1) TokenType.EQUAL = Except.ok b1 ∧
      typeIs Tokens (i + 1) TokenType.COMMA = Except.ok b2 ∧ (b1 || b2) = true := by
    rcases hut with h | h
    · exact ⟨true, false, typeIs_true Tokens (i + 1) u _ hu h,
        typeIs_false Tokens (i + 1) _
          (fun v hv => by rw [hu] at hv; cases hv; rw [h]; decide), rfl⟩
    · exact ⟨false, true,
        typeIs_false Tokens (i + 1) _
          (fun v hv => by rw [hu] at hv; cases hv; rw [h]; decide),
        typeIs_true Tokens (i + 1) u _ hu h, rfl⟩
  obtain ⟨b1, b2, hb1, hb2, hb⟩ := hor
  rw [hb1, hb2]
  simp only [res_bind_ok, hb, if_true, hvars, typeIs_true Tokens j1 eq _ heq heqt, hvals]
  rfl

theorem parseStep_eof (Tokens : List Token) (s : ParseState) (t : Token)
    (hrun : s.Running = true) (ht : Tokens.get? s.Index = some t)
    (heof : t.type = TokenType.END_OF_FILE) :
    parseStep Tokens s = Except.ok (Step.next (ParseState.mk false s.Index s.Chunk)) := by
  have hlt := get_lt Tokens s.Index t ht
  unfold parseStep
  rw [if_pos (by simp [hrun, hlt])]
  dsimp only
  rw [tokAt_eq Tokens s.Index t ht]
  simp only [res_bind_ok, heof]
  rfl

theorem parseStep_stopped (Tokens : List Token) (s : ParseState) (hrun : s.Running = false) :
    parseStep Tokens s = Except.ok (Step.done s) := by
  unfold parseStep
  rw [if_neg (by simp [hrun])]
  rfl

/-! ## The clauses of an `if` statement -/

theorem inside_mk (n : AST) (ty : ASTType) (txt : String) (line : Nat)
    (cs : List (String × List AST)) (h : Inside n (AST.mk ty txt line cs)) :
    n = AST.mk ty txt line cs ∨ ∃ k v c, (k, v) ∈ cs ∧ c ∈ v ∧ Inside n c := by
  cases h with
  | self => exact Or.inl rfl
  | child _ c k v hk hc hn => exact Or.inr ⟨k, v, c, hk, hc, hn⟩

theorem inside_cases (n a : AST) (h : Inside n a) :
    n = a ∨ ∃ k v c, (k, v) ∈ a.children ∧ c ∈ v ∧ Inside n c := by
  cases h with
  | self => exact Or.inl rfl
  | child _ c k v hk hc hn => exact Or.inr ⟨k, v, c, hk, hc, hn⟩

theorem mem_slotPush (cs : List (String × List AST)) (k : String) (x : AST) (k' : String)
    (v' : List AST) (c : AST) (h : (k', v') ∈ slotPush cs k x) (hc : c ∈ v') :
    c = x ∨ ∃ k'' v'', (k'', v'') ∈ cs ∧ c ∈ v'' := by
  induction cs with
  | nil =>
    simp only [slotPush, List.mem_singleton, Prod.mk.injEq] at h
    rw [h.2] at hc
    exact Or.inl (List.mem_singleton.mp hc)
  | cons p cs ih =>
    obtain ⟨k0, v0⟩ := p
    simp only [slotPush] at h
    split at h
    · rcases List.mem_cons.mp h with h | h
      · simp only [Prod.mk.injEq] at h
        rw [h.2] at hc
        rcases List.mem_append.mp hc with hc | hc
        · exact Or.inr ⟨k0, v0, List.mem_cons_self _ _, hc⟩
        · exact Or.inl (List.mem_singleton.mp hc)
      · exact Or.inr ⟨k', v', List.mem_cons_of_mem _ h, hc⟩
    · rcases List.mem_cons.mp h with h | h
      · simp only [Prod.mk.injEq] at h
        obtain ⟨-, h2⟩ := h
        rw [h2] at hc
        exact Or.inr ⟨k0, v0, List.mem_cons_self _ _, hc⟩
      · rcases ih h with h' | ⟨k'', v'', h1, h2⟩
        · exact Or.inl h'
        · exact Or.inr ⟨k'', v'', List.mem_cons_of_mem _ h1, h2⟩

theorem mem_slotSet (cs : List (String × List AST)) (k : String) (v : List AST) (k' : String)
    (v' : List AST) (c : AST) (h : (k', v') ∈ slotSet cs k v) (hc : c ∈ v') :
    c ∈ v ∨ ∃ k'' v'', (k'', v'') ∈ cs ∧ c ∈ v'' := by
  induction cs with
  | nil =>
    simp only [slotSet, List.mem_singleton, Prod.mk.injEq] at h
    rw [h.2] at hc
    exact Or.inl hc
  | cons p cs ih =>
    obtain ⟨k0, v0⟩ := p
    simp only [slotSet] at h
    split at h
    · rcases List.mem_cons.mp h with h | h
      · simp only [Prod.mk.injEq] at h
        rw [h.2] at hc
        exact Or.inl hc
      · exact Or.inr ⟨k', v', List.mem_cons_of_mem _ h, hc⟩
    · rcases List.mem_cons.mp h with h | h
      · simp only [Prod.mk.injEq] at h
        obtain ⟨-, h2⟩ := h
        rw [h2] at hc
        exact Or.inr ⟨k0, v0, List.mem_cons_self _ _, hc⟩
      · rcases ih h with h' | ⟨k'', v'', h1, h2⟩
        · exact Or.inl h'
        · exact Or.inr ⟨k'', v'', List.mem_cons_of_mem _ h1, h2⟩

theorem noIf_of_children (a : AST) (hty : a.type ≠ ASTType.IfStatement)
    (h : ∀ k v c, (k, v) ∈ a.children → c ∈ v → NoIf c) : NoIf a := by
  intro n hn
  rcases inside_cases n a hn with rfl | ⟨k, v, c, hk, hc, hin⟩
  · exact hty
  · exact h k v c hk hc n hin

theorem noIf_child (a : AST) (h : NoIf a) (k : String) (v : List AST) (c : AST)
    (hk : (k, v) ∈ a.children) (hc : c ∈ v) : NoIf c :=
  fun n hn => h n (Inside.child n a c k v hk hc hn)

theorem noIf_leaf (ty : ASTType) (txt : String) (line : Nat)
    (hty : ty ≠ ASTType.IfStatement) : NoIf (makeLeaf ty txt line) := by
  refine noIf_of_children _ hty ?_
  intro k v c hk
  cases hk

theorem noIf_push (a : AST) (k : String) (x : AST) (ha : NoIf a) (hx : NoIf x) :
    NoIf (a.push k x) := by
  cases a with
  | mk ty txt line cs =>
    refine noIf_of_children _
      (show (AST.mk ty txt line cs).type ≠ ASTType.IfStatement from ha _ (Inside.self _)) ?_
    intro k' v' c hk hc
    rcases mem_slotPush cs k x k' v' c hk hc with rfl | ⟨k'', v'', h1, h2⟩
    · exact hx
    · exact noIf_child _ ha k'' v'' c h1 h2

theorem noIf_assign (a : AST) (k : String) (v : List AST) (ha : NoIf a) (hv : AllNoIf v) :
    NoIf (a.assign k v) := by
  cases a with
  | mk ty txt line cs =>
    refine noIf_of_children _
      (show (AST.mk ty txt line cs).type ≠ ASTType.IfStatement from ha _ (Inside.self _)) ?_
    intro k' v' c hk hc
    rcases mem_slotSet cs k v k' v' c hk hc with h | ⟨k'', v'', h1, h2⟩
    · exact hv c h
    · exact noIf_child _ ha k'' v'' c h1 h2

theorem noIf_assignNonEmpty (a : AST) (k : String) (v : List AST) (ha : NoIf a)
    (hv : AllNoIf v) : NoIf (a.assignNonEmpty k v) := by
  unfold AST.assignNonEmpty
  split
  · exact ha
  · exact noIf_assign a k v ha hv

theorem allNoIf_nil : AllNoIf [] := fun x hx => by cases hx

theorem allNoIf_snoc (l : List AST) (x : AST) (hl : AllNoIf l) (hx : NoIf x) :
    AllNoIf (l ++ [x]) := by
  intro y hy
  rcases List.mem_append.mp hy with hy | hy
  · exact hl y hy
  · rw [List.mem_singleton.mp hy]; exact hx


theorem keeps_error {β : Type} {P : β → Prop} (e : Fault) : Keeps P (Except.error e) := by
  intro b hb
  cases hb

theorem paramStep_noIf (Tokens : List Token) (s : List AST × Nat) (h : AllNoIf s.1) :
    Keeps (fun r => AllNoIf r.state.1) (paramStep Tokens s) := by
  unfold paramStep
  refine keeps_bind (keeps_true _) ?_
  intro b _
  refine keeps_ite (fun _ => ?_) (fun _ => keeps_pure h)
  refine keeps_bind (keeps_true _) ?_
  intro t _
  refine keeps_ite (fun _ => ?_) (fun _ => keeps_pure h)
  refine keeps_bind (keeps_true _) ?_
  intro i _
  exact keeps_pure (allNoIf_snoc _ _ h (noIf_leaf _ _ _ (by decide)))

theorem fnExprBodyStep_noIf (pe : PE) (hpe : ∀ i, Keeps (fun p => NoIf p.1) (pe i))
    (Tokens : List Token) (s : List AST × Nat) (h : AllNoIf s.1) :
    Keeps (fun r => AllNoIf r.state.1) (fnExprBodyStep pe Tokens s) := by
  unfold fnExprBodyStep
  refine keeps_bind (keeps_true _) ?_
  intro b _
  refine keeps_ite (fun _ => ?_) (fun _ => keeps_pure h)
  refine keeps_bind (keeps_true _) ?_
  intro t _
  refine keeps_ite (fun _ => ?_) (fun _ => ?_)
  · refine keeps_bind (hpe _) ?_
    rintro ⟨ev, i1⟩ hev
    refine keeps_bind (keeps_true _) ?_
    intro i2 _
    intro r hr
    cases hr
    exact allNoIf_snoc _ _ h (noIf_push _ _ _ (noIf_leaf _ _ _ (by decide)) hev)
  · refine keeps_bind (hpe _) ?_
    rintro ⟨ev, i1⟩ hev
    refine keeps_bind (keeps_true _) ?_
    intro i2 _
    intro r hr
    cases hr
    exact allNoIf_snoc _ _ h hev

theorem tableStep_noIf (pe : PE) (hpe : ∀ i, Keeps (fun p => NoIf p.1) (pe i))
    (Tokens : List Token) (s : List AST × Nat) (h : AllNoIf s.1) :
    Keeps (fun r => AllNoIf r.state.1) (tableStep pe Tokens s) := by
  unfold tableStep
  refine keeps_bind (keeps_true _) ?_
  intro b _
  refine keeps_ite (fun _ => ?_) (fun _ => keeps_pure h)
  refine keeps_bind (hpe _) ?_
  rintro ⟨val, i1⟩ hval
  have htv : AllNoIf (s.1 ++ [(makeLeaf ASTType.TableValue "" val.line).push "value" val]) :=
    allNoIf_snoc _ _ h (noIf_push _ _ _ (noIf_leaf _ _ _ (by decide)) hval)
  refine keeps_bind (keeps_true _) ?_
  intro c _
  refine keeps_ite (fun _ => ?_) (fun _ => ?_)
  · intro r hr
    cases hr
    exact htv
  · intro r hr
    cases hr
    exact htv

theorem argStep_noIf (pe : PE) (hpe : ∀ i, Keeps (fun p => NoIf p.1) (pe i))
    (Tokens : List Token) (s : List AST × Nat) (h : AllNoIf s.1) :
    Keeps (fun r => AllNoIf r.state.1) (argStep pe Tokens s) := by
  unfold argStep
  refine keeps_bind (keeps_true _) ?_
  intro b _
  refine keeps_ite (fun _ => ?_) (fun _ => keeps_pure h)
  refine keeps_bind (hpe _) ?_
  rintro ⟨a, i1⟩ ha
  have hacc : AllNoIf (s.1 ++ [a]) := allNoIf_snoc _ _ h ha
  refine keeps_bind (keeps_true _) ?_
  intro c _
  refine keeps_ite (fun _ => ?_) (fun _ => ?_)
  · intro r hr
    cases hr
    exact hacc
  · intro r hr
    cases hr
    exact hacc

theorem parsePrimary_noIf (pe : PE) (hpe : ∀ i, Keeps (fun p => NoIf p.1) (pe i))
    (Tokens : List Token) (Index : Nat) :
    Keeps (fun p => NoIf p.1) (parsePrimary pe Tokens Index) := by
  unfold parsePrimary
  refine keeps_ite (fun _ => keeps_pure (noIf_leaf _ _ _ (by decide))) (fun _ => ?_)
  refine keeps_bind (keeps_true _) ?_
  intro tk _
  split
  · exact keeps_pure (noIf_leaf _ _ _ (by decide))
  · exact keeps_pure (noIf_leaf _ _ _ (by decide))
  · exact keeps_pure (noIf_leaf _ _ _ (by decide))
  · exact keeps_pure (noIf_leaf _ _ _ (by decide))
  · exact keeps_pure (noIf_leaf _ _ _ (by decide))
  · exact keeps_pure (noIf_leaf _ _ _ (by decide))
  · exact keeps_pure (noIf_leaf _ _ _ (by decide))
  · refine keeps_bind (hpe _) ?_
    rintro ⟨inner, i1⟩ hin
    refine keeps_bind (keeps_true _) ?_
    intro i2 _
    intro r hr
    cases hr
    exact hin
  · refine keeps_bind (keeps_loop _ (fun s => AllNoIf s.1)
      (fun s hs => tableStep_noIf pe hpe Tokens s hs) _ _ allNoIf_nil) ?_
    rintro ⟨elements, i1⟩ hel
    refine keeps_bind (keeps_true _) ?_
    intro i2 _
    intro r hr
    cases hr
    exact noIf_assign _ _ _ (noIf_leaf _ _ _ (by decide)) hel
  · refine keeps_bind (keeps_true _) ?_
    intro b _
    refine keeps_ite (fun _ => ?_) (fun _ => keeps_pure (noIf_leaf _ _ _ (by decide)))
    refine keeps_bind (keeps_loop _ (fun s => AllNoIf s.1)
      (fun s hs => paramStep_noIf Tokens s hs) _ _ allNoIf_nil) ?_
    rintro ⟨params, i1⟩ hparams
    refine keeps_bind (keeps_true _) ?_
    intro i2 _
    refine keeps_bind (keeps_loop _ (fun s => AllNoIf s.1)
      (fun s hs => fnExprBodyStep_noIf pe hpe Tokens s hs) _ _ allNoIf_nil) ?_
    rintro ⟨body, i3⟩ hbody
    refine keeps_bind (keeps_true _) ?_
    intro i4 _
    intro r hr
    cases hr
    exact noIf_assignNonEmpty _ _ _
      (noIf_push _ _ _ (noIf_leaf _ _ _ (by decide))
        (noIf_assign _ _ _ (noIf_leaf _ _ _ (by decide)) hbody)) hparams
  · exact keeps_pure (noIf_leaf _ _ _ (by decide))

theorem suffixStep_noIf (pe : PE) (hpe : ∀ i, Keeps (fun p => NoIf p.1) (pe i))
    (Tokens : List Token) (s : AST × Nat) (h : NoIf s.1) :
    Keeps (fun r => NoIf r.state.1) (suffixStep pe Tokens s) := by
  unfold suffixStep
  refine keeps_ite (fun _ => ?_) (fun _ => keeps_pure h)
  refine keeps_bind (keeps_true _) ?_
  intro t _
  refine keeps_ite (fun _ => ?_) (fun _ => ?_)
  · refine keeps_bind (keeps_true _) ?_
    intro b _
    refine keeps_ite (fun _ => ?_) (fun _ => keeps_pure h)
    refine keeps_bind (keeps_true _) ?_
    intro m _
    exact keeps_pure (noIf_push _ _ _ (noIf_push _ _ _ (noIf_leaf _ _ _ (by decide)) h)
      (noIf_leaf _ _ _ (by decide)))
  · refine keeps_ite (fun _ => ?_) (fun _ => ?_)
    · refine keeps_bind (hpe _) ?_
      rintro ⟨key, i1⟩ hkey
      refine keeps_bind (keeps_true _) ?_
      intro i2 _
      intro r hr
      cases hr
      exact noIf_push _ _ _ (noIf_push _ _ _ (noIf_leaf _ _ _ (by decide)) h) hkey
    · refine keeps_ite (fun _ => ?_) (fun _ => keeps_pure h)
      refine keeps_bind (keeps_loop _ (fun s => AllNoIf s.1)
        (fun s hs => argStep_noIf pe hpe Tokens s hs) _ _ allNoIf_nil) ?_
      rintro ⟨args, i1⟩ hargs
      refine keeps_bind (keeps_true _) ?_
      intro i2 _
      intro r hr
      cases hr
      exact noIf_assignNonEmpty _ _ _
        (noIf_push _ _ _ (noIf_leaf _ _ _ (by decide)) h) hargs

theorem parseSuffixed_noIf (pe : PE) (hpe : ∀ i, Keeps (fun p => NoIf p.1) (pe i))
    (Tokens : List Token) (Index : Nat) :
    Keeps (fun p => NoIf p.1) (parseSuffixed pe Tokens Index) := by
  unfold parseSuffixed
  refine keeps_bind (parsePrimary_noIf pe hpe Tokens Index) ?_
  intro r hr
  exact keeps_loop _ (fun s => NoIf s.1) (fun s hs => suffixStep_noIf pe hpe Tokens s hs) _ _ hr

theorem binaryStep_noIf (rhs : Nat → Nat → Res (AST × Nat))
    (hrhs : ∀ i m, Keeps (fun p => NoIf p.1) (rhs i m)) (Tokens : List Token) (minPrec : Nat)
    (s : AST × Nat) (h : NoIf s.1) :
    Keeps (fun r => NoIf r.state.1) (binaryStep rhs Tokens minPrec s) := by
  unfold binaryStep
  refine keeps_ite (fun _ => ?_) (fun _ => keeps_pure h)
  refine keeps_bind (keeps_true _) ?_
  intro op _
  refine keeps_ite (fun _ => keeps_pure h) (fun _ => ?_)
  refine keeps_bind (hrhs _ _) ?_
  rintro ⟨right, i1⟩ hright
  intro r hr
  cases hr
  exact noIf_push _ _ _ (noIf_push _ _ _ (noIf_leaf _ _ _ (by decide)) h) hright

theorem parseBinary_noIf (Tokens : List Token) (fuel : Nat) :
    ∀ Index minPrec, Keeps (fun p => NoIf p.1) (parseBinary fuel Tokens Index minPrec) := by
  induction fuel with
  | zero =>
    intro Index minPrec
    exact keeps_error _
  | succ fuel ih =>
    intro Index minPrec
    unfold parseBinary
    refine keeps_ite (fun _ => keeps_pure (noIf_leaf _ _ _ (by decide))) (fun _ => ?_)
    refine keeps_bind (keeps_true _) ?_
    intro t _
    refine keeps_ite (fun _ => ?_) (fun _ => ?_)
    · refine keeps_bind (ih _ _) ?_
      rintro ⟨right, i1⟩ hright
      intro r hr
      cases hr
      exact noIf_push _ _ _ (noIf_leaf _ _ _ (by decide)) hright
    · refine keeps_bind (parseSuffixed_noIf _ (fun i => ih i 1) Tokens Index) ?_
      intro r hr
      exact keeps_loop _ (fun s => NoIf s.1)
        (fun s hs => binaryStep_noIf _ (fun i m => ih i m) Tokens minPrec s hs) _ _ hr

theorem parseExpression_noIf (Tokens : List Token) (Index : Nat) :
    Keeps (fun p => NoIf p.1) (parseExpressionForwardDecl Tokens Index) :=
  parseBinary_noIf Tokens _ Index 1


theorem exprListStep_noIf (Tokens : List Token) (s : List AST × Nat) (h : AllNoIf s.1) :
    Keeps (fun r => AllNoIf r.state.1) (exprListStep Tokens s) := by
  unfold exprListStep
  refine keeps_bind (keeps_true _) ?_
  intro b _
  refine keeps_ite (fun _ => ?_) (fun _ => keeps_pure h)
  refine keeps_bind (parseExpression_noIf Tokens _) ?_
  rintro ⟨e, i1⟩ he
  intro r hr
  cases hr
  exact allNoIf_snoc _ _ h he

theorem parseExpressionList_noIf (Tokens : List Token) (Index : Nat) :
    Keeps (fun p => AllNoIf p.1) (parseExpressionList Tokens Index) := by
  unfold parseExpressionList
  refine keeps_ite (fun _ => keeps_pure allNoIf_nil) (fun _ => ?_)
  refine keeps_bind (parseExpression_noIf Tokens _) ?_
  rintro ⟨e, i1⟩ he
  exact keeps_loop _ (fun s => AllNoIf s.1) (fun s hs => exprListStep_noIf Tokens s hs) _
    ([e], i1) (allNoIf_snoc [] e allNoIf_nil he)

theorem varStep_noIf (Tokens : List Token) (s : List AST × Nat) (h : AllNoIf s.1) :
    Keeps (fun r => AllNoIf r.state.1) (varStep Tokens s) := by
  unfold varStep
  refine keeps_bind (keeps_true _) ?_
  intro b _
  refine keeps_ite (fun _ => ?_) (fun _ => keeps_pure h)
  refine keeps_bind (keeps_true _) ?_
  intro t _
  have hv : AllNoIf (s.1 ++ [makeLeaf ASTType.Identifier t.text t.line]) :=
    allNoIf_snoc _ _ h (noIf_leaf _ _ _ (by decide))
  refine keeps_bind (keeps_true _) ?_
  intro c _
  exact keeps_ite (fun _ => keeps_pure hv) (fun _ => keeps_pure hv)

theorem localValues_noIf (Tokens : List Token) (Index : Nat) :
    Keeps (fun p => AllNoIf p.1) (localValues Tokens Index) := by
  unfold localValues
  refine keeps_bind (keeps_true _) ?_
  intro b _
  exact keeps_ite (fun _ => parseExpressionList_noIf Tokens _) (fun _ => keeps_pure allNoIf_nil)

theorem parseLocal_noIf (Tokens : List Token) (Index : Nat) :
    Keeps (fun p => NoIf p.1) (parseLocal Tokens Index) := by
  unfold parseLocal
  refine keeps_bind (keeps_true _) ?_
  intro t _
  refine keeps_bind (keeps_loop _ (fun s => AllNoIf s.1)
    (fun s hs => varStep_noIf Tokens s hs) _ _ allNoIf_nil) ?_
  rintro ⟨vars, i1⟩ hvars
  refine keeps_bind (localValues_noIf Tokens _) ?_
  rintro ⟨vals, i2⟩ hvals
  intro r hr
  cases hr
  exact noIf_assignNonEmpty _ _ _
    (noIf_assignNonEmpty _ _ _ (noIf_leaf _ _ _ (by decide)) hvars) hvals

theorem returnValues_noIf (Tokens : List Token) (Index : Nat) :
    Keeps (fun p => AllNoIf p.1) (returnValues Tokens Index) := by
  unfold returnValues
  refine keeps_bind (keeps_true _) ?_
  intro b _
  exact keeps_ite (fun _ => parseExpressionList_noIf Tokens _) (fun _ => keeps_pure allNoIf_nil)

theorem parseReturn_noIf (Tokens : List Token) (Index : Nat) :
    Keeps (fun p => NoIf p.1) (parseReturn Tokens Index) := by
  unfold parseReturn
  refine keeps_bind (keeps_true _) ?_
  intro t _
  refine keeps_bind (returnValues_noIf Tokens _) ?_
  rintro ⟨vals, i1⟩ hvals
  refine keeps_bind (keeps_true _) ?_
  intro i2 _
  intro r hr
  cases hr
  exact noIf_assignNonEmpty _ _ _ (noIf_leaf _ _ _ (by decide)) hvals

theorem blockStep_noIf (Tokens : List Token) (stop : List TokenType) (s : List AST × Nat)
    (h : AllNoIf s.1) : Keeps (fun r => AllNoIf r.state.1) (blockStep Tokens stop s) := by
  unfold blockStep
  refine keeps_bind (keeps_true _) ?_
  intro b _
  refine keeps_ite (fun _ => ?_) (fun _ => keeps_pure h)
  refine keeps_bind (parseExpression_noIf Tokens _) ?_
  rintro ⟨node, i1⟩ hnode
  have hacc : AllNoIf (s.1 ++ [node]) := allNoIf_snoc _ _ h hnode
  refine keeps_bind (keeps_true _) ?_
  intro i2 _
  refine keeps_ite (fun _ => ?_) (fun _ => ?_)
  · intro r hr
    cases hr
    exact hacc
  · intro r hr
    cases hr
    exact hacc

theorem whileBodyStep_noIf (Tokens : List Token) (s : List AST × Nat) (h : AllNoIf s.1) :
    Keeps (fun r => AllNoIf r.state.1) (whileBodyStep Tokens s) := by
  unfold whileBodyStep
  refine keeps_bind (keeps_true _) ?_
  intro b _
  refine keeps_ite (fun _ => ?_) (fun _ => keeps_pure h)
  refine keeps_bind (parseExpression_noIf Tokens _) ?_
  rintro ⟨node, i1⟩ hnode
  refine keeps_bind (keeps_true _) ?_
  intro i2 _
  intro r hr
  cases hr
  exact allNoIf_snoc _ _ h hnode

theorem parseWhile_noIf (Tokens : List Token) (Index : Nat) :
    Keeps (fun p => NoIf p.1) (parseWhile Tokens Index) := by
  unfold parseWhile
  refine keeps_bind (keeps_true _) ?_
  intro t _
  refine keeps_bind (parseExpression_noIf Tokens _) ?_
  rintro ⟨cond, i1⟩ hcond
  refine keeps_bind (keeps_true _) ?_
  intro i2 _
  refine keeps_bind (keeps_loop _ (fun s => AllNoIf s.1)
    (fun s hs => whileBodyStep_noIf Tokens s hs) _ _ allNoIf_nil) ?_
  rintro ⟨body, i3⟩ hbody
  refine keeps_bind (keeps_true _) ?_
  intro i4 _
  intro r hr
  cases hr
  exact noIf_push _ _ _ (noIf_push _ _ _ (noIf_leaf _ _ _ (by decide)) hcond)
    (noIf_assignNonEmpty _ _ _ (noIf_leaf _ _ _ (by decide)) hbody)

theorem fnDeclBodyStep_noIf (Tokens : List Token) (s : List AST × Nat) (h : AllNoIf s.1) :
    Keeps (fun r => AllNoIf r.state.1) (fnDeclBodyStep Tokens s) := by
  unfold fnDeclBodyStep
  refine keeps_bind (keeps_true _) ?_
  intro b _
  refine keeps_ite (fun _ => ?_) (fun _ => keeps_pure h)
  refine keeps_bind (keeps_true _) ?_
  intro t _
  refine keeps_ite (fun _ => ?_) (fun _ => ?_)
  · refine keeps_bind (returnValues_noIf Tokens _) ?_
    rintro ⟨retvals, i1⟩ hret
    refine keeps_bind (keeps_true _) ?_
    intro i2 _
    intro r hr
    cases hr
    exact allNoIf_snoc _ _ h (noIf_assignNonEmpty _ _ _ (noIf_leaf _ _ _ (by decide)) hret)
  · refine keeps_bind (parseExpression_noIf Tokens _) ?_
    rintro ⟨node, i1⟩ hnode
    refine keeps_bind (keeps_true _) ?_
    intro i2 _
    intro r hr
    cases hr
    exact allNoIf_snoc _ _ h hnode

theorem functionParams_noIf (Tokens : List Token) (Index : Nat) :
    Keeps (fun p => AllNoIf p.1) (functionParams Tokens Index) := by
  unfold functionParams
  refine keeps_bind (keeps_true _) ?_
  intro b _
  refine keeps_ite (fun _ => ?_) (fun _ => keeps_pure allNoIf_nil)
  refine keeps_bind (keeps_loop _ (fun s => AllNoIf s.1)
    (fun s hs => paramStep_noIf Tokens s hs) _ _ allNoIf_nil) ?_
  rintro ⟨ps, j⟩ hps
  refine keeps_bind (keeps_true _) ?_
  intro j' _
  intro r hr
  cases hr
  exact hps

theorem parseFunction_noIf (Tokens : List Token) (Index : Nat) :
    Keeps (fun p => NoIf p.1) (parseFunction Tokens Index) := by
  unfold parseFunction
  refine keeps_bind (keeps_true _) ?_
  intro t _
  refine keeps_bind (keeps_true _) ?_
  rintro ⟨funcName, i1⟩ _
  refine keeps_bind (functionParams_noIf Tokens _) ?_
  rintro ⟨params, i2⟩ hparams
  refine keeps_bind (keeps_loop _ (fun s => AllNoIf s.1)
    (fun s hs => fnDeclBodyStep_noIf Tokens s hs) _ _ allNoIf_nil) ?_
  rintro ⟨body, i3⟩ hbody
  refine keeps_bind (keeps_true _) ?_
  intro i4 _
  intro r hr
  cases hr
  exact noIf_assignNonEmpty _ _ _
    (noIf_push _ _ _
      (noIf_push _ _ _ (noIf_leaf _ _ _ (by decide)) (noIf_leaf _ _ _ (by decide)))
      (noIf_assignNonEmpty _ _ _ (noIf_leaf _ _ _ (by decide)) hbody)) hparams

theorem exprStatement_noIf (Tokens : List Token) (Index : Nat) :
    Keeps (fun p => NoIf p.1) (exprStatement Tokens Index) := by
  unfold exprStatement
  refine keeps_bind (parseExpression_noIf Tokens _) ?_
  rintro ⟨expr, i1⟩ hexpr
  intro r hr
  cases hr
  exact noIf_push _ _ _ (noIf_leaf _ _ _ (by decide)) hexpr

theorem defaultNode_noIf (Tokens : List Token) (Index : Nat) (t : Token) :
    Keeps (fun p => NoIf p.1) (defaultNode Tokens Index t) := by
  unfold defaultNode
  refine keeps_ite (fun _ => ?_) (fun _ => exprStatement_noIf Tokens _)
  refine keeps_bind (keeps_true _) ?_
  intro b1 _
  refine keeps_bind (keeps_true _) ?_
  intro b2 _
  refine keeps_ite (fun _ => ?_) (fun _ => ?_)
  · refine keeps_bind (keeps_loop _ (fun s => AllNoIf s.1)
      (fun s hs => varStep_noIf Tokens s hs) _ _ allNoIf_nil) ?_
    rintro ⟨vars, j1⟩ hvars
    refine keeps_bind (keeps_true _) ?_
    intro b3 _
    refine keeps_ite (fun _ => ?_) (fun _ => exprStatement_noIf Tokens _)
    refine keeps_bind (parseExpressionList_noIf Tokens _) ?_
    rintro ⟨vals, j2⟩ hvals
    intro r hr
    cases hr
    exact noIf_assignNonEmpty _ _ _
      (noIf_assignNonEmpty _ _ _ (noIf_leaf _ _ _ (by decide)) hvars) hvals
  · refine keeps_bind (keeps_true _) ?_
    intro b3 _
    refine keeps_ite (fun _ => ?_) (fun _ => exprStatement_noIf Tokens _)
    refine keeps_bind (parseSuffixed_noIf _ (parseExpression_noIf Tokens) Tokens _) ?_
    rintro ⟨call, j1⟩ hcall
    intro r hr
    cases hr
    exact noIf_push _ _ _ (noIf_leaf _ _ _ (by decide)) hcall

theorem parseDefault_noIf (Tokens : List Token) (Index : Nat) :
    Keeps (fun p => NoIf p.1) (parseDefault Tokens Index) := by
  unfold parseDefault
  refine keeps_bind (keeps_true _) ?_
  intro t _
  refine keeps_bind (defaultNode_noIf Tokens Index t) ?_
  rintro ⟨node, i1⟩ hnode
  refine keeps_bind (keeps_true _) ?_
  intro i2 _
  intro r hr
  cases hr
  exact hnode


theorem condClauses_snoc (cl : List AST) (e : AST) (h : CondClauses cl)
    (he : isCondClause ASTType.ElseifClause e) : CondClauses (cl ++ [e]) := by
  obtain ⟨ic, elifs, rfl, hic, helifs⟩ := h
  refine ⟨ic, elifs ++ [e], rfl, hic, ?_⟩
  intro x hx
  rcases List.mem_append.mp hx with hx | hx
  · exact helifs x hx
  · rw [List.mem_singleton.mp hx]
    exact he

theorem clausesOK_of_cond (cl : List AST) (h : CondClauses cl) : ClausesOK cl := by
  obtain ⟨ic, elifs, rfl, hic, helifs⟩ := h
  exact ⟨ic, elifs, [], by rw [List.append_nil], hic, helifs, Or.inl rfl⟩

theorem clausesOK_snoc_else (cl : List AST) (e : AST) (h : CondClauses cl)
    (he : isElseClause e) : ClausesOK (cl ++ [e]) := by
  obtain ⟨ic, elifs, rfl, hic, helifs⟩ := h
  exact ⟨ic, elifs, [e], rfl, hic, helifs, Or.inr ⟨e, rfl, he⟩⟩

theorem isCondClause_mk (ty : ASTType) (txt : String) (line : Nat) (cond blk : AST)
    (hb : blk.type = ASTType.Block) :
    isCondClause ty (((makeLeaf ty txt line).push "condition" cond).push "body" blk) :=
  ⟨rfl, cond, blk, rfl, hb⟩

theorem isElseClause_mk (txt : String) (line : Nat) (blk : AST)
    (hb : blk.type = ASTType.Block) :
    isElseClause ((makeLeaf ASTType.ElseClause txt line).push "body" blk) :=
  ⟨rfl, blk, rfl, hb⟩

theorem elseifStep_clauses (Tokens : List Token) (s : List AST × Nat)
    (h : CondClauses s.1 ∧ AllNoIf s.1) :
    Keeps (fun r => CondClauses r.state.1 ∧ AllNoIf r.state.1) (elseifStep Tokens s) := by
  unfold elseifStep
  refine keeps_bind (keeps_true _) ?_
  intro b _
  refine keeps_ite (fun _ => ?_) (fun _ => keeps_pure h)
  refine keeps_bind (keeps_true _) ?_
  intro t _
  refine keeps_bind (parseExpression_noIf Tokens _) ?_
  rintro ⟨elifCond, i1⟩ hcond
  refine keeps_bind (keeps_true _) ?_
  intro i2 _
  refine keeps_bind (keeps_loop _ (fun s => AllNoIf s.1)
    (fun s hs => blockStep_noIf Tokens _ s hs) _ _ allNoIf_nil) ?_
  rintro ⟨elifBlock, i3⟩ hblock
  intro r hr
  cases hr
  exact ⟨condClauses_snoc _ _ h.1 (isCondClause_mk _ _ _ _ _ (assignNonEmpty_type _ _ _)),
    allNoIf_snoc _ _ h.2
      (noIf_push _ _ _ (noIf_push _ _ _ (noIf_leaf _ _ _ (by decide)) hcond)
        (noIf_assignNonEmpty _ _ _ (noIf_leaf _ _ _ (by decide)) hblock))⟩

theorem elseClause_clauses (Tokens : List Token) (clauses : List AST) (Index : Nat)
    (h : CondClauses clauses ∧ AllNoIf clauses) :
    Keeps (fun r => ClausesOK r.1 ∧ AllNoIf r.1) (elseClause Tokens clauses Index) := by
  unfold elseClause
  refine keeps_bind (keeps_true _) ?_
  intro b _
  refine keeps_ite (fun _ => ?_) (fun _ => keeps_pure ⟨clausesOK_of_cond _ h.1, h.2⟩)
  refine keeps_bind (keeps_true _) ?_
  intro te _
  refine keeps_bind (keeps_loop _ (fun s => AllNoIf s.1)
    (fun s hs => blockStep_noIf Tokens _ s hs) _ _ allNoIf_nil) ?_
  rintro ⟨elseBlock, i1⟩ hblock
  intro r hr
  cases hr
  exact ⟨clausesOK_snoc_else _ _ h.1 (isElseClause_mk _ _ _ (assignNonEmpty_type _ _ _)),
    allNoIf_snoc _ _ h.2
      (noIf_push _ _ _ (noIf_leaf _ _ _ (by decide))
        (noIf_assignNonEmpty _ _ _ (noIf_leaf _ _ _ (by decide)) hblock))⟩

/-- Whenever `parseIf` returns, its node is an `IfStatement` with its clause sequence and no
`IfStatement` below it. -/
theorem parseIf_good (Tokens : List Token) (Index : Nat) :
    Keeps (fun p => GoodStmt p.1) (parseIf Tokens Index) := by
  unfold parseIf
  refine keeps_bind (keeps_true _) ?_
  intro t _
  refine keeps_bind (parseExpression_noIf Tokens _) ?_
  rintro ⟨cond, i1⟩ hcond
  refine keeps_bind (keeps_true _) ?_
  intro i2 _
  refine keeps_bind (keeps_loop _ (fun s => AllNoIf s.1)
    (fun s hs => blockStep_noIf Tokens _ s hs) _ _ allNoIf_nil) ?_
  rintro ⟨thenBlock, i3⟩ hthen
  have hifcl : NoIf (((makeLeaf ASTType.IfClause "if" t.line).push "condition" cond).push "body"
      ((makeLeaf ASTType.Block "then" t.line).assignNonEmpty "statements" thenBlock)) :=
    noIf_push _ _ _ (noIf_push _ _ _ (noIf_leaf _ _ _ (by decide)) hcond)
      (noIf_assignNonEmpty _ _ _ (noIf_leaf _ _ _ (by decide)) hthen)
  refine keeps_bind (keeps_loop (elseifStep Tokens)
    (fun s => CondClauses s.1 ∧ AllNoIf s.1)
    (fun s hs => elseifStep_clauses Tokens s hs) _
    ([((makeLeaf ASTType.IfClause "if" t.line).push "condition" cond).push "body"
      ((makeLeaf ASTType.Block "then" t.line).assignNonEmpty "statements" thenBlock)], i3)
    ⟨⟨_, [], rfl, isCondClause_mk _ _ _ _ _ (assignNonEmpty_type _ _ _),
      fun e he => by cases he⟩, allNoIf_snoc [] _ allNoIf_nil hifcl⟩) ?_
  rintro ⟨clauses1, i4⟩ h1
  refine keeps_bind (elseClause_clauses Tokens clauses1 i4 h1) ?_
  rintro ⟨clauses2, i5⟩ ⟨hok, hno⟩
  dsimp only at hok hno
  refine keeps_bind (keeps_true _) ?_
  intro i7 _
  intro r hr
  cases hr
  obtain ⟨ic, elifs, els, hcl, hrest⟩ := hok
  have hnode : (makeLeaf ASTType.IfStatement "if" t.line).assignNonEmpty "clauses" clauses2 =
      AST.mk ASTType.IfStatement "if" t.line [("clauses", clauses2)] := by
    rw [hcl]
    rfl
  refine Or.inr ?_
  show (AST.assignNonEmpty _ _ clauses2).type = _ ∧ IfNodeOK (AST.assignNonEmpty _ _ clauses2) ∧
    ∀ k v c, (k, v) ∈ (AST.assignNonEmpty _ _ clauses2).children → c ∈ v → NoIf c
  rw [hnode]
  refine ⟨rfl, ⟨clauses2, rfl, ic, elifs, els, hcl, hrest⟩, ?_⟩
  intro k v c hk hc
  have hk' : (k, v) = ("clauses", clauses2) := List.mem_singleton.mp hk
  simp only [Prod.mk.injEq] at hk'
  rw [hk'.2] at hc
  exact hno c hc

/-- A round of the main loop of `Parse` keeps every node of the chunk a good statement. -/
theorem parseStep_good (Tokens : List Token) (s : ParseState)
    (h : ∀ x ∈ s.Chunk, GoodStmt x) :
    Keeps (fun r => ∀ x ∈ r.state.Chunk, GoodStmt x) (parseStep Tokens s) := by
  unfold parseStep
  refine keeps_ite (fun _ => ?_) (fun _ => keeps_pure h)
  refine keeps_bind (keeps_true _) ?_
  intro t _
  have key : ∀ r : Res (AST × Nat), Keeps (fun p => GoodStmt p.1) r →
      Keeps (fun r => ∀ x ∈ r.state.Chunk, GoodStmt x)
        (r.map (fun p => Step.next { s with Index := p.2, Chunk := s.Chunk ++ [p.1] })) := by
    intro r hr
    refine keeps_map ?_
    intro p hp x hx
    rcases List.mem_append.mp hx with hx | hx
    · exact h x hx
    · rw [List.mem_singleton.mp hx]
      exact hr p hp
  have weak : ∀ r : Res (AST × Nat), Keeps (fun p => NoIf p.1) r →
      Keeps (fun p => GoodStmt p.1) r := fun r hr p hp => Or.inl (hr p hp)
  split
  · exact keeps_pure h
  · exact keeps_pure h
  · exact key _ (weak _ (parseLocal_noIf Tokens _))
  · exact key _ (weak _ (parseReturn_noIf Tokens _))
  · exact key _ (parseIf_good Tokens _)
  · exact key _ (weak _ (parseWhile_noIf Tokens _))
  · exact key _ (weak _ (parseFunction_noIf Tokens _))
  · exact key _ (weak _ (parseDefault_noIf Tokens _))

theorem Parse_good (Tokens : List Token) :
    ∃ chunk, Parse Tokens = Except.ok chunk ∧ ∀ x ∈ chunk, GoodStmt x := by
  obtain ⟨chunk, hchunk⟩ := Parse_total Tokens
  refine ⟨chunk, hchunk, ?_⟩
  unfold Parse at hchunk
  have hk := keeps_loop (parseStep Tokens) (fun s => ∀ x ∈ s.Chunk, GoodStmt x)
    (fun s hs => parseStep_good Tokens s hs) (Tokens.length + 1)
    { Running := true, Index := 0, Chunk := [] } (fun x hx => by cases hx)
  cases hl : loop (Tokens.length + 1) (parseStep Tokens)
      { Running := true, Index := 0, Chunk := [] } with
  | error e => rw [hl] at hchunk; cases hchunk
  | ok st =>
    rw [hl] at hchunk
    cases hchunk
    exact hk st hl

theorem ifNode_of_good (top : AST) (h : GoodStmt top) (n : AST) (hn : Inside n top)
    (hty : n.type = ASTType.IfStatement) : IfNodeOK n := by
  rcases h with h | ⟨-, hok, hchildren⟩
  · exact absurd hty (h n hn)
  · rcases inside_cases n top hn with rfl | ⟨k, v, c, hk, hc, hin⟩
    · exact hok
    · exact absurd hty (hchildren k v c hk hc n hin)

/-! ## Two dashes in front of a bracket -/

theorem lexStep_dash (data : List Char) (st : LexState)
    (hlt : st.idx < data.length) (hc : data.getD st.idx NUL = '-') :
    lexStep data st =
      (if peek data st.idx 1 == '-' then
        if peek data (st.idx + 2) 0 == '[' then
          Except.ok (Step.next { st with idx := st.idx + 2 })
        else
          (scanWhile data (fun d => d != NL) (st.idx + 2)).map
            (fun i => Step.next { st with idx := i })
      else
        Except.ok (Step.next
          { pushTok data st TokenType.MINUS st.idx 1 with idx := st.idx + 1 })) := by
  unfold lexStep
  rw [if_pos hlt]
  dsimp only
  rw [hc]
  rfl

theorem slice_one (data : List Char) (i : Nat) (hlt : i < data.length) :
    slice data i 1 = String.mk [data.getD i NUL] := by
  unfold slice
  have h : i < (data ++ [NUL]).length := by simp; omega
  rw [List.drop_eq_getElem_cons h]
  simp only [List.take_succ_cons, List.take_zero]
  rw [List.getElem_append_left hlt, List.getD_eq_getElem _ _ hlt]

/-- The body of `case '['` at a `[` that is followed by neither `[` nor `=`: the LEFT_BRACKET
token. -/
theorem lexBracket_plain (data : List Char) (st : LexState) (hlt : st.idx < data.length)
    (hc : data.getD st.idx NUL = '[')
    (h1 : data.getD (st.idx + 1) NUL ≠ '[') (h2 : data.getD (st.idx + 1) NUL ≠ '=') :
    lexBracket data st =
      Except.ok (LexState.mk (st.idx + 1) st.line
        (st.tokens ++ [Token.mk TokenType.LEFT_BRACKET "[" st.line st.idx])) := by
  unfold lexBracket
  dsimp only
  rw [if_neg (by
    rw [peek_eq]
    simp only [Bool.or_eq_true, beq_iff_eq, not_or]
    exact ⟨h1, h2⟩)]
  simp only [res_pure, pushTok, slice_one data st.idx hlt, hc]

/-! ## The first character of a number -/

theorem slice_head (data : List Char) (i len : Nat) (hlt : i < data.length) (hlen : 0 < len) :
    ∃ rest, (slice data i len).data = data.getD i NUL :: rest := by
  unfold slice
  have h : i < (data ++ [NUL]).length := by simp; omega
  obtain ⟨k, rfl⟩ : ∃ k, len = k + 1 := ⟨len - 1, by omega⟩
  rw [List.drop_eq_getElem_cons h]
  simp only [List.take_succ_cons]
  rw [List.getElem_append_left hlt, List.getD_eq_getElem _ _ hlt]
  exact ⟨_, rfl⟩

theorem pushTok_numOK_other (data : List Char) (st : LexState) (ty : TokenType)
    (start len : Nat) (hty : ty ≠ TokenType.NUMBER) (h : NumOK st.tokens) :
    NumOK (pushTok data st ty start len).tokens := by
  intro t ht hnum
  simp only [pushTok, List.mem_append, List.mem_singleton] at ht
  rcases ht with ht | ht
  · exact h t ht hnum
  · rw [ht] at hnum
    exact absurd hnum hty

theorem pushTok_numOK_number (data : List Char) (st : LexState) (start len : Nat)
    (hlt : start < data.length) (hd : is_digit (data.getD start NUL) = true) (hlen : 0 < len)
    (h : NumOK st.tokens) : NumOK (pushTok data st TokenType.NUMBER start len).tokens := by
  intro t ht hnum
  simp only [pushTok, List.mem_append, List.mem_singleton] at ht
  rcases ht with ht | ht
  · exact h t ht hnum
  · rw [ht]
    obtain ⟨rest, hrest⟩ := slice_head data start len hlt hlen
    exact ⟨_, rest, hrest, hd⟩

theorem ne_number_ite {c : Prop} [Decidable c] {a b : TokenType}
    (ha : a ≠ TokenType.NUMBER) (hb : b ≠ TokenType.NUMBER) :
    (if c then a else b) ≠ TokenType.NUMBER := by
  by_cases h : c
  · rw [if_pos h]; exact ha
  · rw [if_neg h]; exact hb

theorem keywordTypeFast_ne_number (w : String) : keywordTypeFast w ≠ TokenType.NUMBER := by
  unfold keywordTypeFast
  split
  · decide
  · repeat' first
      | apply ne_number_ite
      | decide

theorem lexNumber_shape (data : List Char) (st : LexState) (c : Char) :
    Keeps (fun s => s.tokens = (pushTok data st TokenType.NUMBER st.idx
      (s.idx - st.idx)).tokens) (lexNumber data st c) := by
  unfold lexNumber
  refine keeps_bind (keeps_true _) ?_
  intro last _
  exact keeps_pure rfl

theorem lexNumber_numOK (data : List Char) (st : LexState) (hidx : st.idx < data.length)
    (hd : is_digit (data.getD st.idx NUL) = true) (h : NumOK st.tokens) :
    Keeps (fun s => NumOK s.tokens) (lexNumber data st (data.getD st.idx NUL)) := by
  obtain ⟨s', hs', hadv⟩ := lexNumber_adv data st _ hidx rfl (Or.inl hd)
  intro s hs
  have hshape := lexNumber_shape data st _ s hs
  rw [hs'] at hs
  cases hs
  rw [hshape]
  exact pushTok_numOK_number data st st.idx _ hidx hd (by omega) h

theorem digit_of_number_rule (c : Char) (b : Bool) (h1 : ¬ (c == '.') = true)
    (h2 : (is_digit c || (c == '.' && b)) = true) : is_digit c = true := by
  simp only [Bool.or_eq_true, Bool.and_eq_true] at h2
  rcases h2 with h2 | h2
  · exact h2
  · exact absurd h2.1 h1

theorem lexLess_numOK (data : List Char) (st : LexState) (h : NumOK st.tokens) :
    NumOK (lexLess data st).tokens := by
  unfold lexLess
  split
  · exact pushTok_numOK_other _ _ _ _ _ (by decide) h
  · exact pushTok_numOK_other _ _ _ _ _ (by decide) h

theorem quotedStep_numOK (data : List Char) (q : Char) (s : LexState) (h : NumOK s.tokens) :
    Keeps (fun r => NumOK r.state.tokens) (quotedStep data q s) := by
  unfold quotedStep
  refine keeps_ite (fun _ => ?_) (fun _ => keeps_pure h)
  dsimp only
  exact keeps_ite (fun _ => keeps_pure h) (fun _ => keeps_pure h)

theorem lexQuoted_numOK (data : List Char) (st : LexState) (q : Char) (h : NumOK st.tokens) :
    Keeps (fun st' => NumOK st'.tokens) (lexQuoted data st q) := by
  unfold lexQuoted
  refine keeps_bind (keeps_loop _ (fun r => NumOK r.tokens)
    (fun s hs => quotedStep_numOK data q s hs) _ _ h) ?_
  intro s hs
  refine keeps_pure ?_
  unfold quotedEnd
  dsimp only
  split
  · exact pushTok_numOK_other _ _ _ _ _ (by decide) hs
  · exact pushTok_numOK_other _ _ _ _ _ (by decide) hs

theorem longBracketStep_numOK (data : List Char) (isComment : Bool) (start eqs : Nat)
    (s : LongState) (h : NumOK s.st.tokens) :
    Keeps (fun r => NumOK r.state.st.tokens) (longBracketStep data isComment start eqs s) := by
  unfold longBracketStep
  refine keeps_ite (fun _ => ?_) (fun _ => keeps_pure h)
  dsimp only
  refine keeps_ite (fun _ => ?_) (fun _ => keeps_pure h)
  refine keeps_bind (keeps_true _) ?_
  rintro ⟨closing, eqCount⟩ -
  dsimp only
  refine keeps_ite (fun _ => keeps_pure ?_) (fun _ => keeps_pure h)
  dsimp only [Step.state]
  split
  · exact pushTok_numOK_other _ _ _ _ _ (by decide) h
  · exact h

theorem longBracketEnd_numOK (data : List Char) (isComment : Bool) (start : Nat)
    (s : LongState) (h : NumOK s.st.tokens) :
    NumOK (longBracketEnd data isComment start s).tokens := by
  unfold longBracketEnd
  split
  · split
    · exact pushTok_numOK_other _ _ _ _ _ (by decide) h
    · exact h
  · exact h

theorem lexBracket_numOK (data : List Char) (st : LexState) (h : NumOK st.tokens) :
    Keeps (fun st' => NumOK st'.tokens) (lexBracket data st) := by
  unfold lexBracket
  have hplain : Keeps (fun st' => NumOK st'.tokens)
      (pure { pushTok data st TokenType.LEFT_BRACKET st.idx 1 with idx := st.idx + 1 }) :=
    keeps_pure (pushTok_numOK_other _ _ _ _ _ (by decide) h)
  dsimp only
  refine keeps_ite (fun _ => ?_) (fun _ => hplain)
  refine keeps_bind (keeps_true _) ?_
  rintro ⟨check, eqs⟩ -
  dsimp only
  refine keeps_ite (fun _ => ?_) (fun _ => hplain)
  refine keeps_bind (keeps_loop _ (fun r => NumOK r.st.tokens)
    (fun s hs => longBracketStep_numOK data _ (check + 1) eqs s hs) _ _ h) ?_
  intro s hs
  exact keeps_pure (longBracketEnd_numOK _ _ _ _ hs)

theorem lexNum_ite {c : Prop} [Decidable c] {a b : Res (Step LexState)}
    (ha : c → LexNum a) (hb : ¬ c → LexNum b) : LexNum (if c then a else b) :=
  keeps_ite ha hb

theorem lexNum_next (s' : LexState) (h : NumOK s'.tokens) :
    LexNum (Except.ok (Step.next s')) := keeps_ok h

theorem lexNum_map (r : Res LexState) (h : Keeps (fun s => NumOK s.tokens) r) :
    LexNum (r.map Step.next) := keeps_map h

theorem lexNum_scan (data : List Char) (p : Char → Bool) (k : Nat) (g : Nat → LexState)
    (hg : ∀ i, NumOK (g i).tokens) :
    LexNum ((scanWhile data p k).map (fun i => Step.next (g i))) :=
  keeps_map (fun i _ => hg i)

theorem lexStep_numOK (data : List Char) (st : LexState) (h : NumOK st.tokens) :
    Keeps (fun r => NumOK r.state.tokens) (lexStep data st) := by
  unfold lexStep
  refine keeps_ite (fun hidx => ?_) (fun _ => keeps_pure h)
  dsimp only
  show LexNum _
  repeat' first
    | apply lexNum_ite <;> intro _
    | apply lexNum_next
    | apply lexNum_map
    | apply lexNum_scan
  all_goals first
    | exact h
    | exact pushTok_numOK_other _ _ _ _ _ (by decide) h
    | exact lexLess_numOK _ _ h
    | exact lexLess_numOK _ _ (pushTok_numOK_other _ _ _ _ _ (by decide) h)
    | exact lexBracket_numOK _ _ h
    | exact lexQuoted_numOK _ _ _ h
    | exact lexNumber_numOK _ _ hidx
        (digit_of_number_rule _ _ (by assumption) (by assumption)) h
    | (intro i; exact h)
    | (intro i; exact pushTok_numOK_other _ _ _ _ _ (keywordTypeFast_ne_number _) h)

theorem Lexer_numOK (Code : String) : ∃ toks, Lexer Code = Except.ok toks ∧ NumOK toks := by
  obtain ⟨toks, htoks⟩ := Lexer_total Code
  refine ⟨toks, htoks, ?_⟩
  unfold Lexer at htoks
  have hk := keeps_loop (lexStep Code.data) (fun s => NumOK s.tokens)
    (fun s hs => lexStep_numOK Code.data s hs) (Code.data.length + 1)
    { idx := 0, line := 1, tokens := [] } (fun t ht => by cases ht)
  cases hl : loop (Code.data.length + 1) (lexStep Code.data)
      { idx := 0, line := 1, tokens := [] } with
  | error e => rw [hl] at htoks; cases htoks
  | ok st =>
    rw [hl] at htoks
    cases htoks
    intro t ht hnum
    simp only [List.mem_append, List.mem_singleton] at ht
    rcases ht with ht | ht
    · exact hk st hl t ht hnum
    · rw [ht] at hnum
      cases hnum

/-! ## Statement kinds below the top level -/

theorem noStmt_of_children (a : AST) (hty : isStmtKind a.type = false)
    (h : ∀ k v c, (k, v) ∈ a.children → c ∈ v → NoStmt c) : NoStmt a := by
  intro n hn
  rcases inside_cases n a hn with rfl | ⟨k, v, c, hk, hc, hin⟩
  · exact hty
  · exact h k v c hk hc n hin

theorem noStmt_child (a : AST) (h : NoStmt a) (k : String) (v : List AST) (c : AST)
    (hk : (k, v) ∈ a.children) (hc : c ∈ v) : NoStmt c :=
  fun n hn => h n (Inside.child n a c k v hk hc hn)

theorem noStmt_leaf (ty : ASTType) (txt : String) (line : Nat)
    (hty : isStmtKind ty = false) : NoStmt (makeLeaf ty txt line) := by
  refine noStmt_of_children _ hty ?_
  intro k v c hk
  cases hk

theorem noStmt_push (a : AST) (k : String) (x : AST) (ha : NoStmt a) (hx : NoStmt x) :
    NoStmt (a.push k x) := by
  cases a with
  | mk ty txt line cs =>
    refine noStmt_of_children _
      (show isStmtKind (AST.mk ty txt line cs).type = false from ha _ (Inside.self _)) ?_
    intro k' v' c hk hc
    rcases mem_slotPush cs k x k' v' c hk hc with rfl | ⟨k'', v'', h1, h2⟩
    · exact hx
    · exact noStmt_child _ ha k'' v'' c h1 h2

theorem noStmt_assign (a : AST) (k : String) (v : List AST) (ha : NoStmt a) (hv : AllNoStmt v) :
    NoStmt (a.assign k v) := by
  cases a with
  | mk ty txt line cs =>
    refine noStmt_of_children _
      (show isStmtKind (AST.mk ty txt line cs).type = false from ha _ (Inside.self _)) ?_
    intro k' v' c hk hc
    rcases mem_slotSet cs k v k' v' c hk hc with h | ⟨k'', v'', h1, h2⟩
    · exact hv c h
    · exact noStmt_child _ ha k'' v'' c h1 h2

theorem noStmt_assignNonEmpty (a : AST) (k : String) (v : List AST) (ha : NoStmt a)
    (hv : AllNoStmt v) : NoStmt (a.assignNonEmpty k v) := by
  unfold AST.assignNonEmpty
  split
  · exact ha
  · exact noStmt_assign a k v ha hv

theorem allNoStmt_nil : AllNoStmt [] := fun x hx => by cases hx

theorem allNoStmt_snoc (l : List AST) (x : AST) (hl : AllNoStmt l) (hx : NoStmt x) :
    AllNoStmt (l ++ [x]) := by
  intro y hy
  rcases List.mem_append.mp hy with hy | hy
  · exact hl y hy
  · rw [List.mem_singleton.mp hy]; exact hx

theorem paramStep_noStmt (Tokens : List Token) (s : List AST × Nat) (h : AllNoStmt s.1) :
    Keeps (fun r => AllNoStmt r.state.1) (paramStep Tokens s) := by
  unfold paramStep
  refine keeps_bind (keeps_true _) ?_
  intro b _
  refine keeps_ite (fun _ => ?_) (fun _ => keeps_pure h)
  refine keeps_bind (keeps_true _) ?_
  intro t _
  refine keeps_ite (fun _ => ?_) (fun _ => keeps_pure h)
  refine keeps_bind (keeps_true _) ?_
  intro i _
  exact keeps_pure (allNoStmt_snoc _ _ h (noStmt_leaf _ _ _ (by decide)))

theorem fnExprBodyStep_noStmt (pe : PE) (hpe : ∀ i, Keeps (fun p => NoStmt p.1) (pe i))
    (Tokens : List Token) (s : List AST × Nat) (h : AllNoStmt s.1) :
    Keeps (fun r => AllNoStmt r.state.1) (fnExprBodyStep pe Tokens s) := by
  unfold fnExprBodyStep
  refine keeps_bind (keeps_true _) ?_
  intro b _
  refine keeps_ite (fun _ => ?_) (fun _ => keeps_pure h)
  refine keeps_bind (keeps_true _) ?_
  intro t _
  refine keeps_ite (fun _ => ?_) (fun _ => ?_)
  · refine keeps_bind (hpe _) ?_
    rintro ⟨ev, i1⟩ hev
    refine keeps_bind (keeps_true _) ?_
    intro i2 _
    intro r hr
    cases hr
    exact allNoStmt_snoc _ _ h (noStmt_push _ _ _ (noStmt_leaf _ _ _ (by decide)) hev)
  · refine keeps_bind (hpe _) ?_
    rintro ⟨ev, i1⟩ hev
    refine keeps_bind (keeps_true _) ?_
    intro i2 _
    intro r hr
    cases hr
    exact allNoStmt_snoc _ _ h hev

theorem tableStep_noStmt (pe : PE) (hpe : ∀ i, Keeps (fun p => NoStmt p.1) (pe i))
    (Tokens : List Token) (s : List AST × Nat) (h : AllNoStmt s.1) :
    Keeps (fun r => AllNoStmt r.state.1) (tableStep pe Tokens s) := by
  unfold tableStep
  refine keeps_bind (keeps_true _) ?_
  intro b _
  refine keeps_ite (fun _ => ?_) (fun _ => keeps_pure h)
  refine keeps_bind (hpe _) ?_
  rintro ⟨val, i1⟩ hval
  have htv : AllNoStmt (s.1 ++ [(makeLeaf ASTType.TableValue "" val.line).push "value" val]) :=
    allNoStmt_snoc _ _ h (noStmt_push _ _ _ (noStmt_leaf _ _ _ (by decide)) hval)
  refine keeps_bind (keeps_true _) ?_
  intro c _
  refine keeps_ite (fun _ => ?_) (fun _ => ?_)
  · intro r hr
    cases hr
    exact htv
  · intro r hr
    cases hr
    exact htv

theorem argStep_noStmt (pe : PE) (hpe : ∀ i, Keeps (fun p => NoStmt p.1) (pe i))
    (Tokens : List Token) (s : List AST × Nat) (h : AllNoStmt s.1) :
    Keeps (fun r => AllNoStmt r.state.1) (argStep pe Tokens s) := by
  unfold argStep
  refine keeps_bind (keeps_true _) ?_
  intro b _
  refine keeps_ite (fun _ => ?_) (fun _ => keeps_pure h)
  refine keeps_bind (hpe _) ?_
  rintro ⟨a, i1⟩ ha
  have hacc : AllNoStmt (s.1 ++ [a]) := allNoStmt_snoc _ _ h ha
  refine keeps_bind (keeps_true _) ?_
  intro c _
  refine keeps_ite (fun _ => ?_) (fun _ => ?_)
  · intro r hr
    cases hr
    exact hacc
  · intro r hr
    cases hr
    exact hacc

theorem parsePrimary_noStmt (pe : PE) (hpe : ∀ i, Keeps (fun p => NoStmt p.1) (pe i))
    (Tokens : List Token) (Index : Nat) :
    Keeps (fun p => NoStmt p.1) (parsePrimary pe Tokens Index) := by
  unfold parsePrimary
  refine keeps_ite (fun _ => keeps_pure (noStmt_leaf _ _ _ (by decide))) (fun _ => ?_)
  refine keeps_bind (keeps_true _) ?_
  intro tk _
  split
  · exact keeps_pure (noStmt_leaf _ _ _ (by decide))
  · exact keeps_pure (noStmt_leaf _ _ _ (by decide))
  · exact keeps_pure (noStmt_leaf _ _ _ (by decide))
  · exact keeps_pure (noStmt_leaf _ _ _ (by decide))
  · exact keeps_pure (noStmt_leaf _ _ _ (by decide))
  · exact keeps_pure (noStmt_leaf _ _ _ (by decide))
  · exact keeps_pure (noStmt_leaf _ _ _ (by decide))
  · refine keeps_bind (hpe _) ?_
    rintro ⟨inner, i1⟩ hin
    refine keeps_bind (keeps_true _) ?_
    intro i2 _
    intro r hr
    cases hr
    exact hin
  · refine keeps_bind (keeps_loop _ (fun s => AllNoStmt s.1)
      (fun s hs => tableStep_noStmt pe hpe Tokens s hs) _ _ allNoStmt_nil) ?_
    rintro ⟨elements, i1⟩ hel
    refine keeps_bind (keeps_true _) ?_
    intro i2 _
    intro r hr
    cases hr
    exact noStmt_assign _ _ _ (noStmt_leaf _ _ _ (by decide)) hel
  · refine keeps_bind (keeps_true _) ?_
    intro b _
    refine keeps_ite (fun _ => ?_) (fun _ => keeps_pure (noStmt_leaf _ _ _ (by decide)))
    refine keeps_bind (keeps_loop _ (fun s => AllNoStmt s.1)
      (fun s hs => paramStep_noStmt Tokens s hs) _ _ allNoStmt_nil) ?_
    rintro ⟨params, i1⟩ hparams
    refine keeps_bind (keeps_true _) ?_
    intro i2 _
    refine keeps_bind (keeps_loop _ (fun s => AllNoStmt s.1)
      (fun s hs => fnExprBodyStep_noStmt pe hpe Tokens s hs) _ _ allNoStmt_nil) ?_
    rintro ⟨body, i3⟩ hbody
    refine keeps_bind (keeps_true _) ?_
    intro i4 _
    intro r hr
    cases hr
    exact noStmt_assignNonEmpty _ _ _
      (noStmt_push _ _ _ (noStmt_leaf _ _ _ (by decide))
        (noStmt_assign _ _ _ (noStmt_leaf _ _ _ (by decide)) hbody)) hparams
  · exact keeps_pure (noStmt_leaf _ _ _ (by decide))

theorem suffixStep_noStmt (pe : PE) (hpe : ∀ i, Keeps (fun p => NoStmt p.1) (pe i))
    (Tokens : List Token) (s : AST × Nat) (h : NoStmt s.1) :
    Keeps (fun r => NoStmt r.state.1) (suffixStep pe Tokens s) := by
  unfold suffixStep
  refine keeps_ite (fun _ => ?_) (fun _ => keeps_pure h)
  refine keeps_bind (keeps_true _) ?_
  intro t _
  refine keeps_ite (fun _ => ?_) (fun _ => ?_)
  · refine keeps_bind (keeps_true _) ?_
    intro b _
    refine keeps_ite (fun _ => ?_) (fun _ => keeps_pure h)
    refine keeps_bind (keeps_true _) ?_
    intro m _
    exact keeps_pure (noStmt_push _ _ _ (noStmt_push _ _ _ (noStmt_leaf _ _ _ (by decide)) h)
      (noStmt_leaf _ _ _ (by decide)))
  · refine keeps_ite (fun _ => ?_) (fun _ => ?_)
    · refine keeps_bind (hpe _) ?_
      rintro ⟨key, i1⟩ hkey
      refine keeps_bind (keeps_true _) ?_
      intro i2 _
      intro r hr
      cases hr
      exact noStmt_push _ _ _ (noStmt_push _ _ _ (noStmt_leaf _ _ _ (by decide)) h) hkey
    · refine keeps_ite (fun _ => ?_) (fun _ => keeps_pure h)
      refine keeps_bind (keeps_loop _ (fun s => AllNoStmt s.1)
        (fun s hs => argStep_noStmt pe hpe Tokens s hs) _ _ allNoStmt_nil) ?_
      rintro ⟨args, i1⟩ hargs
      refine keeps_bind (keeps_true _) ?_
      intro i2 _
      intro r hr
      cases hr
      exact noStmt_assignNonEmpty _ _ _
        (noStmt_push _ _ _ (noStmt_leaf _ _ _ (by decide)) h) hargs

theorem parseSuffixed_noStmt (pe : PE) (hpe : ∀ i, Keeps (fun p => NoStmt p.1) (pe i))
    (Tokens : List Token) (Index : Nat) :
    Keeps (fun p => NoStmt p.1) (parseSuffixed pe Tokens Index) := by
  unfold parseSuffixed
  refine keeps_bind (parsePrimary_noStmt pe hpe Tokens Index) ?_
  intro r hr
  exact keeps_loop _ (fun s => NoStmt s.1) (fun s hs => suffixStep_noStmt pe hpe Tokens s hs) _ _ hr

theorem binaryStep_noStmt (rhs : Nat → Nat → Res (AST × Nat))
    (hrhs : ∀ i m, Keeps (fun p => NoStmt p.1) (rhs i m)) (Tokens : List Token) (minPrec : Nat)
    (s : AST × Nat) (h : NoStmt s.1) :
    Keeps (fun r => NoStmt r.state.1) (binaryStep rhs Tokens minPrec s) := by
  unfold binaryStep
  refine keeps_ite (fun _ => ?_) (fun _ => keeps_pure h)
  refine keeps_bind (keeps_true _) ?_
  intro op _
  refine keeps_ite (fun _ => keeps_pure h) (fun _ => ?_)
  refine keeps_bind (hrhs _ _) ?_
  rintro ⟨right, i1⟩ hright
  intro r hr
  cases hr
  exact noStmt_push _ _ _ (noStmt_push _ _ _ (noStmt_leaf _ _ _ (by decide)) h) hright

theorem parseBinary_noStmt (Tokens : List Token) (fuel : Nat) :
    ∀ Index minPrec, Keeps (fun p => NoStmt p.1) (parseBinary fuel Tokens Index minPrec) := by
  induction fuel with
  | zero =>
    intro Index minPrec
    exact keeps_error _
  | succ fuel ih =>
    intro Index minPrec
    unfold parseBinary
    refine keeps_ite (fun _ => keeps_pure (noStmt_leaf _ _ _ (by decide))) (fun _ => ?_)
    refine keeps_bind (keeps_true _) ?_
    intro t _
    refine keeps_ite (fun _ => ?_) (fun _ => ?_)
    · refine keeps_bind (ih _ _) ?_
      rintro ⟨right, i1⟩ hright
      intro r hr
      cases hr
      exact noStmt_push _ _ _ (noStmt_leaf _ _ _ (by decide)) hright
    · refine keeps_bind (parseSuffixed_noStmt _ (fun i => ih i 1) Tokens Index) ?_
      intro r hr
      exact keeps_loop _ (fun s => NoStmt s.1)
        (fun s hs => binaryStep_noStmt _ (fun i m => ih i m) Tokens minPrec s hs) _ _ hr

theorem parseExpression_noStmt (Tokens : List Token) (Index : Nat) :
    Keeps (fun p => NoStmt p.1) (parseExpressionForwardDecl Tokens Index) :=
  parseBinary_noStmt Tokens _ Index 1

theorem exprListStep_noStmt (Tokens : List Token) (s : List AST × Nat) (h : AllNoStmt s.1) :
    Keeps (fun r => AllNoStmt r.state.1) (exprListStep Tokens s) := by
  unfold exprListStep
  refine keeps_bind (keeps_true _) ?_
  intro b _
  refine keeps_ite (fun _ => ?_) (fun _ => keeps_pure h)
  refine keeps_bind (parseExpression_noStmt Tokens _) ?_
  rintro ⟨e, i1⟩ he
  intro r hr
  cases hr
  exact allNoStmt_snoc _ _ h he

theorem parseExpressionList_noStmt (Tokens : List Token) (Index : Nat) :
    Keeps (fun p => AllNoStmt p.1) (parseExpressionList Tokens Index) := by
  unfold parseExpressionList
  refine keeps_ite (fun _ => keeps_pure allNoStmt_nil) (fun _ => ?_)
  refine keeps_bind (parseExpression_noStmt Tokens _) ?_
  rintro ⟨e, i1⟩ he
  exact keeps_loop _ (fun s => AllNoStmt s.1) (fun s hs => exprListStep_noStmt Tokens s hs) _
    ([e], i1) (allNoStmt_snoc [] e allNoStmt_nil he)

theorem varStep_noStmt (Tokens : List Token) (s : List AST × Nat) (h : AllNoStmt s.1) :
    Keeps (fun r => AllNoStmt r.state.1) (varStep Tokens s) := by
  unfold varStep
  refine keeps_bind (keeps_true _) ?_
  intro b _
  refine keeps_ite (fun _ => ?_) (fun _ => keeps_pure h)
  refine keeps_bind (keeps_true _) ?_
  intro t _
  have hv : AllNoStmt (s.1 ++ [makeLeaf ASTType.Identifier t.text t.line]) :=
    allNoStmt_snoc _ _ h (noStmt_leaf _ _ _ (by decide))
  refine keeps_bind (keeps_true _) ?_
  intro c _
  exact keeps_ite (fun _ => keeps_pure hv) (fun _ => keeps_pure hv)

theorem localValues_noStmt (Tokens : List Token) (Index : Nat) :
    Keeps (fun p => AllNoStmt p.1) (localValues Tokens Index) := by
  unfold localValues
  refine keeps_bind (keeps_true _) ?_
  intro b _
  exact keeps_ite (fun _ => parseExpressionList_noStmt Tokens _) (fun _ => keeps_pure allNoStmt_nil)

theorem returnValues_noStmt (Tokens : List Token) (Index : Nat) :
    Keeps (fun p => AllNoStmt p.1) (returnValues Tokens Index) := by
  unfold returnValues
  refine keeps_bind (keeps_true _) ?_
  intro b _
  exact keeps_ite (fun _ => parseExpressionList_noStmt Tokens _) (fun _ => keeps_pure allNoStmt_nil)

theorem blockStep_noStmt (Tokens : List Token) (stop : List TokenType) (s : List AST × Nat)
    (h : AllNoStmt s.1) : Keeps (fun r => AllNoStmt r.state.1) (blockStep Tokens stop s) := by
  unfold blockStep
  refine keeps_bind (keeps_true _) ?_
  intro b _
  refine keeps_ite (fun _ => ?_) (fun _ => keeps_pure h)
  refine keeps_bind (parseExpression_noStmt Tokens _) ?_
  rintro ⟨node, i1⟩ hnode
  have hacc : AllNoStmt (s.1 ++ [node]) := allNoStmt_snoc _ _ h hnode
  refine keeps_bind (keeps_true _) ?_
  intro i2 _
  refine keeps_ite (fun _ => ?_) (fun _ => ?_)
  · intro r hr
    cases hr
    exact hacc
  · intro r hr
    cases hr
    exact hacc

theorem whileBodyStep_noStmt (Tokens : List Token) (s : List AST × Nat) (h : AllNoStmt s.1) :
    Keeps (fun r => AllNoStmt r.state.1) (whileBodyStep Tokens s) := by
  unfold whileBodyStep
  refine keeps_bind (keeps_true _) ?_
  intro b _
  refine keeps_ite (fun _ => ?_) (fun _ => keeps_pure h)
  refine keeps_bind (parseExpression_noStmt Tokens _) ?_
  rintro ⟨node, i1⟩ hnode
  refine keeps_bind (keeps_true _) ?_
  intro i2 _
  intro r hr
  cases hr
  exact allNoStmt_snoc _ _ h hnode

theorem fnDeclBodyStep_noStmt (Tokens : List Token) (s : List AST × Nat) (h : AllNoStmt s.1) :
    Keeps (fun r => AllNoStmt r.state.1) (fnDeclBodyStep Tokens s) := by
  unfold fnDeclBodyStep
  refine keeps_bind (keeps_true _) ?_
  intro b _
  refine keeps_ite (fun _ => ?_) (fun _ => keeps_pure h)
  refine keeps_bind (keeps_true _) ?_
  intro t _
  refine keeps_ite (fun _ => ?_) (fun _ => ?_)
  · refine keeps_bind (returnValues_noStmt Tokens _) ?_
    rintro ⟨retvals, i1⟩ hret
    refine keeps_bind (keeps_true _) ?_
    intro i2 _
    intro r hr
    cases hr
    exact allNoStmt_snoc _ _ h (noStmt_assignNonEmpty _ _ _ (noStmt_leaf _ _ _ (by decide)) hret)
  · refine keeps_bind (parseExpression_noStmt Tokens _) ?_
    rintro ⟨node, i1⟩ hnode
    refine keeps_bind (keeps_true _) ?_
    intro i2 _
    intro r hr
    cases hr
    exact allNoStmt_snoc _ _ h hnode

theorem functionParams_noStmt (Tokens : List Token) (Index : Nat) :
    Keeps (fun p => AllNoStmt p.1) (functionParams Tokens Index) := by
  unfold functionParams
  refine keeps_bind (keeps_true _) ?_
  intro b _
  refine keeps_ite (fun _ => ?_) (fun _ => keeps_pure allNoStmt_nil)
  refine keeps_bind (keeps_loop _ (fun s => AllNoStmt s.1)
    (fun s hs => paramStep_noStmt Tokens s hs) _ _ allNoStmt_nil) ?_
  rintro ⟨ps, j⟩ hps
  refine keeps_bind (keeps_true _) ?_
  intro j' _
  intro r hr
  cases hr
  exact hps

theorem stmtFree_of_noStmt (a : AST) (h : NoStmt a) : StmtFree a :=
  fun k v c hk hc => noStmt_child a h k v c hk hc

theorem stmtFree_leaf (ty : ASTType) (txt : String) (line : Nat) :
    StmtFree (makeLeaf ty txt line) := by
  intro k v c hk
  cases hk

theorem stmtFree_push (a : AST) (k : String) (x : AST) (ha : StmtFree a) (hx : NoStmt x) :
    StmtFree (a.push k x) := by
  cases a with
  | mk ty txt line cs =>
    intro k' v' c hk hc
    rcases mem_slotPush cs k x k' v' c hk hc with rfl | ⟨k'', v'', h1, h2⟩
    · exact hx
    · exact ha k'' v'' c h1 h2

theorem stmtFree_assign (a : AST) (k : String) (v : List AST) (ha : StmtFree a)
    (hv : AllNoStmt v) : StmtFree (a.assign k v) := by
  cases a with
  | mk ty txt line cs =>
    intro k' v' c hk hc
    rcases mem_slotSet cs k v k' v' c hk hc with h | ⟨k'', v'', h1, h2⟩
    · exact hv c h
    · exact ha k'' v'' c h1 h2

theorem stmtFree_assignNonEmpty (a : AST) (k : String) (v : List AST) (ha : StmtFree a)
    (hv : AllNoStmt v) : StmtFree (a.assignNonEmpty k v) := by
  unfold AST.assignNonEmpty
  split
  · exact ha
  · exact stmtFree_assign a k v ha hv

theorem parseLocal_stmtFree (Tokens : List Token) (Index : Nat) :
    Keeps (fun p => StmtFree p.1) (parseLocal Tokens Index) := by
  unfold parseLocal
  refine keeps_bind (keeps_true _) ?_
  intro t _
  refine keeps_bind (keeps_loop _ (fun s => AllNoStmt s.1)
    (fun s hs => varStep_noStmt Tokens s hs) _ _ allNoStmt_nil) ?_
  rintro ⟨vars, i1⟩ hvars
  refine keeps_bind (localValues_noStmt Tokens _) ?_
  rintro ⟨vals, i2⟩ hvals
  intro r hr
  cases hr
  exact stmtFree_assignNonEmpty _ _ _
    (stmtFree_assignNonEmpty _ _ _ (stmtFree_leaf _ _ _) hvars) hvals

theorem parseReturn_stmtFree (Tokens : List Token) (Index : Nat) :
    Keeps (fun p => StmtFree p.1) (parseReturn Tokens Index) := by
  unfold parseReturn
  refine keeps_bind (keeps_true _) ?_
  intro t _
  refine keeps_bind (returnValues_noStmt Tokens _) ?_
  rintro ⟨vals, i1⟩ hvals
  refine keeps_bind (keeps_true _) ?_
  intro i2 _
  intro r hr
  cases hr
  exact stmtFree_assignNonEmpty _ _ _ (stmtFree_leaf _ _ _) hvals

theorem parseWhile_stmtFree (Tokens : List Token) (Index : Nat) :
    Keeps (fun p => StmtFree p.1) (parseWhile Tokens Index) := by
  unfold parseWhile
  refine keeps_bind (keeps_true _) ?_
  intro t _
  refine keeps_bind (parseExpression_noStmt Tokens _) ?_
  rintro ⟨cond, i1⟩ hcond
  refine keeps_bind (keeps_true _) ?_
  intro i2 _
  refine keeps_bind (keeps_loop _ (fun s => AllNoStmt s.1)
    (fun s hs => whileBodyStep_noStmt Tokens s hs) _ _ allNoStmt_nil) ?_
  rintro ⟨body, i3⟩ hbody
  refine keeps_bind (keeps_true _) ?_
  intro i4 _
  intro r hr
  cases hr
  exact stmtFree_push _ _ _ (stmtFree_push _ _ _ (stmtFree_leaf _ _ _) hcond)
    (noStmt_assignNonEmpty _ _ _ (noStmt_leaf _ _ _ (by decide)) hbody)

theorem parseFunction_stmtFree (Tokens : List Token) (Index : Nat) :
    Keeps (fun p => StmtFree p.1) (parseFunction Tokens Index) := by
  unfold parseFunction
  refine keeps_bind (keeps_true _) ?_
  intro t _
  refine keeps_bind (keeps_true _) ?_
  rintro ⟨funcName, i1⟩ _
  refine keeps_bind (functionParams_noStmt Tokens _) ?_
  rintro ⟨params, i2⟩ hparams
  refine keeps_bind (keeps_loop _ (fun s => AllNoStmt s.1)
    (fun s hs => fnDeclBodyStep_noStmt Tokens s hs) _ _ allNoStmt_nil) ?_
  rintro ⟨body, i3⟩ hbody
  refine keeps_bind (keeps_true _) ?_
  intro i4 _
  intro r hr
  cases hr
  exact stmtFree_assignNonEmpty _ _ _
    (stmtFree_push _ _ _
      (stmtFree_push _ _ _ (stmtFree_leaf _ _ _) (noStmt_leaf _ _ _ (by decide)))
      (noStmt_assignNonEmpty _ _ _ (noStmt_leaf _ _ _ (by decide)) hbody)) hparams

theorem exprStatement_stmtFree (Tokens : List Token) (Index : Nat) :
    Keeps (fun p => StmtFree p.1) (exprStatement Tokens Index) := by
  unfold exprStatement
  refine keeps_bind (parseExpression_noStmt Tokens _) ?_
  rintro ⟨expr, i1⟩ hexpr
  intro r hr
  cases hr
  exact stmtFree_push _ _ _ (stmtFree_leaf _ _ _) hexpr

theorem defaultNode_stmtFree (Tokens : List Token) (Index : Nat) (t : Token) :
    Keeps (fun p => StmtFree p.1) (defaultNode Tokens Index t) := by
  unfold defaultNode
  refine keeps_ite (fun _ => ?_) (fun _ => exprStatement_stmtFree Tokens _)
  refine keeps_bind (keeps_true _) ?_
  intro b1 _
  refine keeps_bind (keeps_true _) ?_
  intro b2 _
  refine keeps_ite (fun _ => ?_) (fun _ => ?_)
  · refine keeps_bind (keeps_loop _ (fun s => AllNoStmt s.1)
      (fun s hs => varStep_noStmt Tokens s hs) _ _ allNoStmt_nil) ?_
    rintro ⟨vars, j1⟩ hvars
    refine keeps_bind (keeps_true _) ?_
    intro b3 _
    refine keeps_ite (fun _ => ?_) (fun _ => exprStatement_stmtFree Tokens _)
    refine keeps_bind (parseExpressionList_noStmt Tokens _) ?_
    rintro ⟨vals, j2⟩ hvals
    intro r hr
    cases hr
    exact stmtFree_assignNonEmpty _ _ _
      (stmtFree_assignNonEmpty _ _ _ (stmtFree_leaf _ _ _) hvars) hvals
  · refine keeps_bind (keeps_true _) ?_
    intro b3 _
    refine keeps_ite (fun _ => ?_) (fun _ => exprStatement_stmtFree Tokens _)
    refine keeps_bind (parseSuffixed_noStmt _ (parseExpression_noStmt Tokens) Tokens _) ?_
    rintro ⟨call, j1⟩ hcall
    intro r hr
    cases hr
    exact stmtFree_push _ _ _ (stmtFree_leaf _ _ _) hcall

theorem parseDefault_stmtFree (Tokens : List Token) (Index : Nat) :
    Keeps (fun p => StmtFree p.1) (parseDefault Tokens Index) := by
  unfold parseDefault
  refine keeps_bind (keeps_true _) ?_
  intro t _
  refine keeps_bind (defaultNode_stmtFree Tokens Index t) ?_
  rintro ⟨node, i1⟩ hnode
  refine keeps_bind (keeps_true _) ?_
  intro i2 _
  intro r hr
  cases hr
  exact hnode

theorem elseifStep_noStmt (Tokens : List Token) (s : List AST × Nat) (h : AllNoStmt s.1) :
    Keeps (fun r => AllNoStmt r.state.1) (elseifStep Tokens s) := by
  unfold elseifStep
  refine keeps_bind (keeps_true _) ?_
  intro b _
  refine keeps_ite (fun _ => ?_) (fun _ => keeps_pure h)
  refine keeps_bind (keeps_true _) ?_
  intro t _
  refine keeps_bind (parseExpression_noStmt Tokens _) ?_
  rintro ⟨elifCond, i1⟩ hcond
  refine keeps_bind (keeps_true _) ?_
  intro i2 _
  refine keeps_bind (keeps_loop _ (fun s => AllNoStmt s.1)
    (fun s hs => blockStep_noStmt Tokens _ s hs) _ _ allNoStmt_nil) ?_
  rintro ⟨elifBlock, i3⟩ hblock
  intro r hr
  cases hr
  exact allNoStmt_snoc _ _ h
    (noStmt_push _ _ _ (noStmt_push _ _ _ (noStmt_leaf _ _ _ (by decide)) hcond)
      (noStmt_assignNonEmpty _ _ _ (noStmt_leaf _ _ _ (by decide)) hblock))

theorem elseClause_noStmt (Tokens : List Token) (clauses : List AST) (Index : Nat)
    (h : AllNoStmt clauses) :
    Keeps (fun r => AllNoStmt r.1) (elseClause Tokens clauses Index) := by
  unfold elseClause
  refine keeps_bind (keeps_true _) ?_
  intro b _
  refine keeps_ite (fun _ => ?_) (fun _ => keeps_pure h)
  refine keeps_bind (keeps_true _) ?_
  intro te _
  refine keeps_bind (keeps_loop _ (fun s => AllNoStmt s.1)
    (fun s hs => blockStep_noStmt Tokens _ s hs) _ _ allNoStmt_nil) ?_
  rintro ⟨elseBlock, i1⟩ hblock
  intro r hr
  cases hr
  exact allNoStmt_snoc _ _ h
    (noStmt_push _ _ _ (noStmt_leaf _ _ _ (by decide))
      (noStmt_assignNonEmpty _ _ _ (noStmt_leaf _ _ _ (by decide)) hblock))

theorem parseIf_stmtFree (Tokens : List Token) (Index : Nat) :
    Keeps (fun p => StmtFree p.1) (parseIf Tokens Index) := by
  unfold parseIf
  refine keeps_bind (keeps_true _) ?_
  intro t _
  refine keeps_bind (parseExpression_noStmt Tokens _) ?_
  rintro ⟨cond, i1⟩ hcond
  refine keeps_bind (keeps_true _) ?_
  intro i2 _
  refine keeps_bind (keeps_loop _ (fun s => AllNoStmt s.1)
    (fun s hs => blockStep_noStmt Tokens _ s hs) _ _ allNoStmt_nil) ?_
  rintro ⟨thenBlock, i3⟩ hthen
  have hifcl : NoStmt (((makeLeaf ASTType.IfClause "if" t.line).push "condition" cond).push
      "body" ((makeLeaf ASTType.Block "then" t.line).assignNonEmpty "statements" thenBlock)) :=
    noStmt_push _ _ _ (noStmt_push _ _ _ (noStmt_leaf _ _ _ (by decide)) hcond)
      (noStmt_assignNonEmpty _ _ _ (noStmt_leaf _ _ _ (by decide)) hthen)
  refine keeps_bind (keeps_loop (elseifStep Tokens) (fun s => AllNoStmt s.1)
    (fun s hs => elseifStep_noStmt Tokens s hs) _
    ([((makeLeaf ASTType.IfClause "if" t.line).push "condition" cond).push "body"
      ((makeLeaf ASTType.Block "then" t.line).assignNonEmpty "statements" thenBlock)], i3)
    (allNoStmt_snoc [] _ allNoStmt_nil hifcl)) ?_
  rintro ⟨clauses1, i4⟩ h1
  refine keeps_bind (elseClause_noStmt Tokens clauses1 i4 h1) ?_
  rintro ⟨clauses2, i5⟩ hno
  refine keeps_bind (keeps_true _) ?_
  intro i7 _
  intro r hr
  cases hr
  exact stmtFree_assignNonEmpty _ _ _ (stmtFree_leaf _ _ _) hno

/-- A round of the main loop of `Parse` keeps the six statement kinds out of what is below the
nodes of the chunk. -/
theorem parseStep_stmtFree (Tokens : List Token) (s : ParseState)
    (h : ∀ x ∈ s.Chunk, StmtFree x) :
    Keeps (fun r => ∀ x ∈ r.state.Chunk, StmtFree x) (parseStep Tokens s) := by
  unfold parseStep
  refine keeps_ite (fun _ => ?_) (fun _ => keeps_pure h)
  refine keeps_bind (keeps_true _) ?_
  intro t _
  have key : ∀ r : Res (AST × Nat), Keeps (fun p => StmtFree p.1) r →
      Keeps (fun r => ∀ x ∈ r.state.Chunk, StmtFree x)
        (r.map (fun p => Step.next { s with Index := p.2, Chunk := s.Chunk ++ [p.1] })) := by
    intro r hr
    refine keeps_map ?_
    intro p hp x hx
    rcases List.mem_append.mp hx with hx | hx
    · exact h x hx
    · rw [List.mem_singleton.mp hx]
      exact hr p hp
  split
  · exact keeps_pure h
  · exact keeps_pure h
  · exact key _ (parseLocal_stmtFree Tokens _)
  · exact key _ (parseReturn_stmtFree Tokens _)
  · exact key _ (parseIf_stmtFree Tokens _)
  · exact key _ (parseWhile_stmtFree Tokens _)
  · exact key _ (parseFunction_stmtFree Tokens _)
  · exact key _ (parseDefault_stmtFree Tokens _)

theorem Parse_stmtFree (Tokens : List Token) :
    ∃ chunk, Parse Tokens = Except.ok chunk ∧ ∀ x ∈ chunk, StmtFree x := by
  obtain ⟨chunk, hchunk⟩ := Parse_total Tokens
  refine ⟨chunk, hchunk, ?_⟩
  unfold Parse at hchunk
  have hk := keeps_loop (parseStep Tokens) (fun s => ∀ x ∈ s.Chunk, StmtFree x)
    (fun s hs => parseStep_stmtFree Tokens s hs) (Tokens.length + 1)
    { Running := true, Index := 0, Chunk := [] } (fun x hx => by cases hx)
  cases hl : loop (Tokens.length + 1) (parseStep Tokens)
      { Running := true, Index := 0, Chunk := [] } with
  | error e => rw [hl] at hchunk; cases hchunk
  | ok st =>
    rw [hl] at hchunk
    cases hchunk
    exact hk st hl

/-! ## Quoted strings with backslash pairs -/

theorem quotedStep_plain (data : List Char) (q c : Char) (s : LexState)
    (hlt : s.idx < data.length) (hget : data.getD s.idx NUL = c) (hq : c ≠ q)
    (hb : c ≠ BACKSLASH) :
    quotedStep data q s = Except.ok (Step.next
      (LexState.mk (s.idx + 1) (if c == NL then s.line + 1 else s.line) s.tokens)) := by
  unfold quotedStep
  rw [hget]
  have h1 : (decide (s.idx < data.length) && c != q) = true := by simp [hlt, hq]
  have h2 : (c == BACKSLASH && decide (s.idx + 1 < data.length)) = false := by simp [hb]
  rw [if_pos h1]
  dsimp only
  rw [h2]
  rfl

theorem quotedStep_escaped (data : List Char) (q : Char) (s : LexState)
    (hlt : s.idx + 1 < data.length) (hget : data.getD s.idx NUL = BACKSLASH)
    (hq : q = DQUOTE ∨ q = SQUOTE) :
    quotedStep data q s = Except.ok (Step.next (LexState.mk (s.idx + 2) s.line s.tokens)) := by
  unfold quotedStep
  rw [hget]
  have hne : (BACKSLASH != q) = true := by rcases hq with rfl | rfl <;> decide
  have h1 : (decide (s.idx < data.length) && BACKSLASH != q) = true := by
    rw [hne]; simp; omega
  have h2 : (BACKSLASH == BACKSLASH && decide (s.idx + 1 < data.length)) = true := by
    simp [hlt]
  have h3 : (BACKSLASH == NL) = false := by decide
  rw [if_pos h1]
  dsimp only
  rw [if_pos h2, h3]
  rfl

theorem quotedStep_close (data : List Char) (q : Char) (s : LexState)
    (hget : data.getD s.idx NUL = q) :
    quotedStep data q s = Except.ok (Step.done s) := by
  unfold quotedStep
  rw [hget]
  rw [if_neg (by simp)]
  rfl

/-- The scan of a quoted string over plain characters and backslash pairs stops at the closing
quote and has counted the plain newlines. -/
theorem quoted_pieces (q : Char) (hq : q = DQUOTE ∨ q = SQUOTE) (post : List Char)
    (ps : List Piece) :
    ∀ (pre : List Char) (line : Nat) (ts : List Token) (fuel : Nat),
      (∀ p ∈ ps, p.ok q) → (bodyOf ps).length < fuel →
      loop fuel (quotedStep (pre ++ (bodyOf ps ++ q :: post)) q)
          (LexState.mk pre.length line ts) =
        Except.ok (LexState.mk (pre.length + (bodyOf ps).length) (line + plainNewlines ps)
          ts) := by
  induction ps with
  | nil =>
    intro pre line ts fuel _ hf
    obtain ⟨n, rfl⟩ : ∃ n, fuel = n + 1 := ⟨fuel - 1, by omega⟩
    exact loop_done _ _ _ _ (quotedStep_close _ q _ (getD_append_cons pre post q))
  | cons p ps ih =>
    intro pre line ts fuel hall hf
    obtain ⟨n, rfl⟩ : ∃ n, fuel = n + 1 := ⟨fuel - 1, by omega⟩
    have hrest : ∀ p ∈ ps, p.ok q := fun x hx => hall x (List.mem_cons_of_mem _ hx)
    cases p with
    | plain c =>
      have hc : c ≠ q ∧ c ≠ BACKSLASH := hall _ (List.mem_cons_self _ _)
      have hdata : pre ++ (bodyOf (Piece.plain c :: ps) ++ q :: post) =
          pre ++ c :: (bodyOf ps ++ q :: post) := rfl
      have hdata' : pre ++ (bodyOf (Piece.plain c :: ps) ++ q :: post) =
          (pre ++ [c]) ++ (bodyOf ps ++ q :: post) := by
        rw [hdata, List.append_assoc]; rfl
      have hstep := quotedStep_plain (pre ++ (bodyOf (Piece.plain c :: ps) ++ q :: post)) q c
        (LexState.mk pre.length line ts) (by rw [hdata]; simp)
        (by rw [hdata]; exact getD_append_cons pre _ c) hc.1 hc.2
      rw [loop_next _ _ _ _ hstep]
      have hlen : (bodyOf (Piece.plain c :: ps)).length = (bodyOf ps).length + 1 := by
        show ([c] ++ bodyOf ps).length = _
        simp only [List.length_append, List.length_singleton]; omega
      have h := ih (pre ++ [c]) (if c == NL then line + 1 else line) ts n hrest
        (by rw [hlen] at hf; omega)
      have hL : (pre ++ [c]).length = pre.length + 1 := by
        simp only [List.length_append, List.length_singleton]
      rw [hL, ← hdata'] at h
      rw [h, hlen]
      show Except.ok (LexState.mk _ _ ts) = Except.ok (LexState.mk _ _ ts)
      have e1 : pre.length + 1 + (bodyOf ps).length = pre.length + ((bodyOf ps).length + 1) := by
        omega
      have e2 : (if c == NL then line + 1 else line) + plainNewlines ps =
          line + plainNewlines (Piece.plain c :: ps) := by
        show _ = line + ((if c == NL then 1 else 0) + plainNewlines ps)
        by_cases hnl : (c == NL) = true
        · rw [if_pos hnl, if_pos hnl]; omega
        · rw [if_neg hnl, if_neg hnl]; omega
      rw [e1, e2]
    | escaped c =>
      have hdata : pre ++ (bodyOf (Piece.escaped c :: ps) ++ q :: post) =
          pre ++ BACKSLASH :: (c :: (bodyOf ps ++ q :: post)) := rfl
      have hdata' : pre ++ (bodyOf (Piece.escaped c :: ps) ++ q :: post) =
          (pre ++ [BACKSLASH, c]) ++ (bodyOf ps ++ q :: post) := by
        rw [hdata, List.append_assoc]; rfl
      have hstep := quotedStep_escaped (pre ++ (bodyOf (Piece.escaped c :: ps) ++ q :: post)) q
        (LexState.mk pre.length line ts) (by rw [hdata]; simp)
        (by rw [hdata]; exact getD_append_cons pre _ BACKSLASH) hq
      rw [loop_next _ _ _ _ hstep]
      have hlen : (bodyOf (Piece.escaped c :: ps)).length = (bodyOf ps).length + 2 := by
        show ([BACKSLASH, c] ++ bodyOf ps).length = _
        simp only [List.length_append, List.length_cons, List.length_nil]; omega
      have h := ih (pre ++ [BACKSLASH, c]) line ts n hrest (by rw [hlen] at hf; omega)
      have hL : (pre ++ [BACKSLASH, c]).length = pre.length + 2 := by
        simp only [List.length_append, List.length_cons, List.length_nil]
      rw [hL, ← hdata'] at h
      rw [h, hlen]
      show Except.ok (LexState.mk _ _ ts) = Except.ok (LexState.mk _ _ ts)
      have e1 : pre.length + 2 + (bodyOf ps).length = pre.length + ((bodyOf ps).length + 2) := by
        omega
      rw [e1]
      rfl

/-- The body of the quote case on `q ++ body ++ q`: the STRING token holds the body as it
stands, and the cursor is after the closing quote. -/
theorem lexQuoted_pieces (q : Char) (hq : q = DQUOTE ∨ q = SQUOTE) (ps : List Piece)
    (hps : ∀ p ∈ ps, p.ok q) :
    lexQuoted (q :: (bodyOf ps ++ [q])) (LexState.mk 0 1 []) q =
      Except.ok (LexState.mk ((bodyOf ps).length + 2) (1 + plainNewlines ps)
        [Token.mk TokenType.STRING (String.mk (bodyOf ps)) (1 + plainNewlines ps) 1]) := by
  have hscan := quoted_pieces q hq [] ps [q] 1 []
    ((q :: (bodyOf ps ++ [q])).length + 1) hps
    (by simp only [List.length_cons, List.length_append, List.length_nil]; omega)
  have hs : slice (q :: (bodyOf ps ++ [q])) 1 (bodyOf ps).length = String.mk (bodyOf ps) :=
    slice_mid [q] (bodyOf ps) [q]
  have hget : (q :: (bodyOf ps ++ [q])).getD (1 + (bodyOf ps).length) NUL = q := by
    have := getD_append_cons (q :: bodyOf ps) [] q
    simp only [List.length_cons] at this
    rw [Nat.add_comm]
    exact this
  have hlen : (q :: (bodyOf ps ++ [q])).length = (bodyOf ps).length + 2 := by
    simp only [List.length_cons, List.length_append, List.length_nil]
  unfold lexQuoted
  show (loop ((q :: (bodyOf ps ++ [q])).length + 1) (quotedStep ([q] ++ (bodyOf ps ++ [q])) q)
    (LexState.mk ([q] : List Char).length 1 []) >>= _) = _
  rw [hscan]
  simp only [res_bind_ok, res_pure, quotedEnd, pushTok, List.length_singleton, List.nil_append]
  have hsub : 1 + (bodyOf ps).length - (0 + 1) = (bodyOf ps).length := by omega
  rw [hsub, hs, hget, hlen]
  have hcond : (decide (1 + (bodyOf ps).length < (bodyOf ps).length + 2) && q == q) = true := by
    simp
    omega
  rw [if_pos hcond]
  show Except.ok (LexState.mk _ _ _) = Except.ok (LexState.mk _ _ _)
  have e : 1 + (bodyOf ps).length + 1 = (bodyOf ps).length + 2 := by omega
  rw [e]

/-! ## Long comments -/

theorem long_step_skip_comment (n start line : Nat) (ts : List Token) (pre rest : List Char)
    (c : Char) (hno : ¬ closer n <+: c :: rest) :
    longBracketStep (pre ++ c :: rest) true start n
        (LongState.mk (LexState.mk pre.length line ts) false) =
      Except.ok (Step.next (LongState.mk
        (LexState.mk (pre.length + 1) (if c == NL then line + 1 else line) ts) false)) := by
  have hget := getD_append_cons pre rest c
  have hlt : pre.length < (pre ++ c :: rest).length := by simp
  unfold longBracketStep
  dsimp only
  rw [if_pos hlt, hget]
  by_cases hc : c = ']'
  · subst hc
    obtain ⟨m, R', hR, hhead⟩ := exists_run rest
    have hdata : pre ++ ']' :: rest = (pre ++ [']']) ++ (List.replicate m '=' ++ R') := by
      rw [hR]; simp
    have hce : countEquals (pre ++ ']' :: rest) (pre.length + 1) 0 =
        Except.ok (pre.length + 1 + m, m) := by
      have := countEquals_run (pre ++ [']']) R' m 0 hhead
      rw [← hdata] at this
      simpa using this
    rw [if_pos (beq_self_eq_true _), hce]
    simp only [res_bind_ok]
    rw [if_neg]
    · rfl
    · intro hcond
      simp only [Bool.and_eq_true, decide_eq_true_eq, beq_iff_eq] at hcond
      obtain ⟨⟨hlen, hch⟩, hmn⟩ := hcond
      cases R' with
      | nil =>
        rw [hR] at hlen
        simp at hlen
        omega
      | cons y R'' =>
        have hy : (pre ++ ']' :: rest).getD (pre.length + 1 + m) NUL = y := by
          have := getD_append_cons (pre ++ ']' :: List.replicate m '=') R'' y
          have e1 : (pre ++ ']' :: List.replicate m '=') ++ y :: R'' = pre ++ ']' :: rest := by
            rw [hR]; simp
          have e2 : (pre ++ ']' :: List.replicate m '=').length = pre.length + 1 + m := by
            simp; omega
          rw [e1, e2] at this
          exact this
        rw [hy] at hch
        apply hno
        refine ⟨R'', ?_⟩
        rw [hR, hch, hmn]
        simp [closer]
  · rw [if_neg (by simpa using hc)]
    rfl

theorem long_step_close_comment (n start line : Nat) (ts : List Token)
    (pre post : List Char) :
    longBracketStep (pre ++ (closer n ++ post)) true start n
        (LongState.mk (LexState.mk pre.length line ts) false) =
      Except.ok (Step.done (LongState.mk (LexState.mk (pre.length + (n + 2)) line ts)
        true)) := by
  have hget : (pre ++ (closer n ++ post)).getD pre.length NUL = ']' :=
    getD_append_cons pre (List.replicate n '=' ++ [']'] ++ post) ']'
  have hlt : pre.length < (pre ++ (closer n ++ post)).length := by simp [closer]
  have hdata : pre ++ (closer n ++ post) =
      (pre ++ [']']) ++ (List.replicate n '=' ++ ']' :: post) := by
    simp [closer]
  have hce : countEquals (pre ++ (closer n ++ post)) (pre.length + 1) 0 =
      Except.ok (pre.length + 1 + n, n) := by
    have := countEquals_run (pre ++ [']']) (']' :: post) n 0 (by simp)
    rw [← hdata] at this
    simpa using this
  have hlast : (pre ++ (closer n ++ post)).getD (pre.length + 1 + n) NUL = ']' := by
    have := getD_append_cons (pre ++ ']' :: List.replicate n '=') post ']'
    have e1 : (pre ++ ']' :: List.replicate n '=') ++ ']' :: post =
        pre ++ (closer n ++ post) := by
      simp [closer]
    have e2 : (pre ++ ']' :: List.replicate n '=').length = pre.length + 1 + n := by
      simp; omega
    rw [e1, e2] at this
    exact this
  unfold longBracketStep
  dsimp only
  rw [if_pos hlt, hget, if_pos (beq_self_eq_true _), hce]
  simp only [res_bind_ok]
  rw [if_pos]
  · show Except.ok (Step.done (LongState.mk (LexState.mk (pre.length + 1 + n + 1) line ts)
      true)) = _
    have e : pre.length + 1 + n + 1 = pre.length + (n + 2) := by omega
    rw [e]
  · simp only [Bool.and_eq_true, decide_eq_true_eq, beq_iff_eq]
    refine ⟨⟨?_, hlast⟩, trivial⟩
    simp [closer]
    omega

/-- The scan of a long comment over a body in which the closing delimiter does not occur before
the end of the body: it stops after the delimiter, counts the newlines of the body and pushes
no token. -/
theorem long_scan_comment (n start : Nat) (post body : List Char) :
    ∀ (pre : List Char) (line : Nat) (ts : List Token) (fuel : Nat),
      (∀ k, k < body.length → ¬ closer n <+: (body ++ (closer n ++ post)).drop k) →
      body.length < fuel →
      loop fuel (longBracketStep (pre ++ (body ++ (closer n ++ post))) true start n)
          (LongState.mk (LexState.mk pre.length line ts) false) =
        Except.ok (LongState.mk
          (LexState.mk (pre.length + body.length + (n + 2)) (line + body.count NL) ts)
          true) := by
  induction body with
  | nil =>
    intro pre line ts fuel _ hf
    obtain ⟨k, rfl⟩ : ∃ k, fuel = k + 1 := ⟨fuel - 1, by simp at hf; omega⟩
    simp only [List.nil_append, List.length_nil, Nat.add_zero, List.count_nil]
    exact loop_done _ _ _ _ (long_step_close_comment n start line ts pre post)
  | cons c body ih =>
    intro pre line ts fuel hno hf
    obtain ⟨k, rfl⟩ : ∃ k, fuel = k + 1 := ⟨fuel - 1, by simp at hf; omega⟩
    have h0 : ¬ closer n <+: c :: (body ++ (closer n ++ post)) := by
      have := hno 0 (by simp)
      simpa using this
    have hstep := long_step_skip_comment n start line ts pre (body ++ (closer n ++ post)) c h0
    simp only [List.cons_append]
    rw [loop_next _ _ _ _ hstep]
    have := ih (pre ++ [c]) (if c == NL then line + 1 else line) ts k
      (fun j hj => by
        have := hno (j + 1) (by simp; omega)
        simpa using this)
      (by simp at hf; omega)
    simp only [List.append_assoc, List.singleton_append, List.length_append,
      List.length_singleton] at this
    rw [this]
    have hcount : List.count NL (c :: body) = body.count NL + (if c == NL then 1 else 0) := by
      rw [List.count_cons]
    have hline : (if c == NL then line + 1 else line) + body.count NL =
        line + List.count NL (c :: body) := by
      rw [hcount]
      split <;> omega
    rw [hline]
    simp only [List.length_cons]
    have e1 : pre.length + 1 + body.length = pre.length + (body.length + 1) := by omega
    rw [e1]

/-- The scan of a long comment whose closing delimiter is missing: it runs to the end of the
source, counts the newlines and leaves `closed` unset. -/
theorem long_scan_open (n start : Nat) (body : List Char) :
    ∀ (pre : List Char) (line : Nat) (ts : List Token) (fuel : Nat),
      (∀ k, ¬ closer n <+: body.drop k) → body.length < fuel →
      loop fuel (longBracketStep (pre ++ body) true start n)
          (LongState.mk (LexState.mk pre.length line ts) false) =
        Except.ok (LongState.mk
          (LexState.mk (pre.length + body.length) (line + body.count NL) ts) false) := by
  induction body with
  | nil =>
    intro pre line ts fuel _ hf
    obtain ⟨k, rfl⟩ : ∃ k, fuel = k + 1 := ⟨fuel - 1, by simp at hf; omega⟩
    refine loop_done _ _ _ _ ?_
    unfold longBracketStep
    rw [if_neg (by simp)]
    rfl
  | cons c body ih =>
    intro pre line ts fuel hno hf
    obtain ⟨k, rfl⟩ : ∃ k, fuel = k + 1 := ⟨fuel - 1, by simp at hf; omega⟩
    have h0 : ¬ closer n <+: c :: body := hno 0
    have hstep := long_step_skip_comment n start line ts pre body c h0
    rw [loop_next _ _ _ _ hstep]
    have := ih (pre ++ [c]) (if c == NL then line + 1 else line) ts k
      (fun j => hno (j + 1)) (by simp at hf; omega)
    simp only [List.append_assoc, List.singleton_append, List.length_append,
      List.length_singleton] at this
    rw [this]
    have hcount : List.count NL (c :: body) = body.count NL + (if c == NL then 1 else 0) := by
      rw [List.count_cons]
    have hline : (if c == NL then line + 1 else line) + body.count NL =
        line + List.count NL (c :: body) := by
      rw [hcount]
      split <;> omega
    rw [hline]
    simp only [List.length_cons]
    have e1 : pre.length + 1 + body.length = pre.length + (body.length + 1) := by omega
    rw [e1]

/-- The body of `case '['` at the opening delimiter of level `n` that stands after `--`: the
long bracket is a comment, and its scan starts after the delimiter. -/
theorem lexBracket_comment_head (n : Nat) (tail : List Char) :
    lexBracket ('-' :: '-' :: (opener n ++ tail)) (LexState.mk 2 1 []) =
      (loop (('-' :: '-' :: (opener n ++ tail)).length + 1)
          (longBracketStep ('-' :: '-' :: (opener n ++ tail)) true (n + 4) n)
          (LongState.mk (LexState.mk (n + 4) 1 []) false) >>= fun s =>
        pure (longBracketEnd ('-' :: '-' :: (opener n ++ tail)) true (n + 4) s)) := by
  have hlen : ('-' :: '-' :: (opener n ++ tail)).length = n + 4 + tail.length := by
    simp [opener_length]; omega
  have hdata1 : '-' :: '-' :: (opener n ++ tail) =
      ['-', '-', '['] ++ (List.replicate n '=' ++ '[' :: tail) := by
    simp [opener]
  have hpeek : (peek ('-' :: '-' :: (opener n ++ tail)) 2 1 == '[' ||
      peek ('-' :: '-' :: (opener n ++ tail)) 2 1 == '=') = true := by
    unfold peek
    rw [if_pos (by rw [hlen]; omega)]
    cases n with
    | zero => rfl
    | succ m => rfl
  have hce : countEquals ('-' :: '-' :: (opener n ++ tail)) (2 + 1) 0 =
      Except.ok (n + 3, n) := by
    have := countEquals_run ['-', '-', '['] ('[' :: tail) n 0 (by simp)
    rw [← hdata1] at this
    simpa [Nat.add_comm] using this
  have hget1 : ('-' :: '-' :: (opener n ++ tail)).getD (n + 3) NUL = '[' := by
    have := getD_append_cons ('-' :: '-' :: '[' :: List.replicate n '=') tail '['
    have e1 : ('-' :: '-' :: '[' :: List.replicate n '=') ++ '[' :: tail =
        '-' :: '-' :: (opener n ++ tail) := by simp [opener]
    have e2 : ('-' :: '-' :: '[' :: List.replicate n '=').length = n + 3 := by simp
    rw [e1, e2] at this
    exact this
  unfold lexBracket
  dsimp only
  rw [if_pos hpeek, hce]
  simp only [res_bind_ok]
  rw [if_pos (by
    simp only [Bool.and_eq_true, decide_eq_true_eq, beq_iff_eq]
    exact ⟨by rw [hlen]; omega, hget1⟩)]
  rfl

theorem lexStep_comment_open (n : Nat) (tail : List Char) :
    lexStep ('-' :: '-' :: (opener n ++ tail)) (LexState.mk 0 1 []) =
      Except.ok (Step.next (LexState.mk 2 1 [])) := by
  rw [lexStep_dash ('-' :: '-' :: (opener n ++ tail)) (LexState.mk 0 1 []) (by simp) rfl,
    if_pos (by rw [peek_eq]; rfl), if_pos (by rw [peek_zero]; rfl)]

/-- The source of a long comment of level `n`, a blank and a word gives the token of the word
and END_OF_FILE; the source of a long comment without closing delimiter gives END_OF_FILE
alone. -/
theorem Lexer_long_comment (n : Nat) (body : List Char) (c : Char)
    (rest : List Char) (hc : is_alpha c = true) (hrest : ∀ x ∈ rest, is_alnum x = true)
    (hname : keywordTypeFast (String.mk (c :: rest)) = TokenType.IDENTIFIER) :
    ((∀ k, k < body.length → ¬ closer n <+: (body ++ (closer n ++ ' ' :: c :: rest)).drop k) →
      Lexer (String.mk ('-' :: '-' :: (opener n ++ (body ++ (closer n ++ ' ' :: c :: rest)))))
        = Except.ok
          [Token.mk TokenType.IDENTIFIER (String.mk (c :: rest)) (1 + body.count NL)
             (n + 4 + body.length + (n + 2) + 1),
           Token.mk TokenType.END_OF_FILE "" (1 + body.count NL) 0]) ∧
    ((∀ k, ¬ closer n <+: body.drop k) →
      Lexer (String.mk ('-' :: '-' :: (opener n ++ body))) = Except.ok
        [Token.mk TokenType.END_OF_FILE "" (1 + body.count NL) 0]) := by
  constructor
  · intro hno
    generalize hD : '-' :: '-' :: (opener n ++ (body ++ (closer n ++ ' ' :: c :: rest))) = D
    have hpre : ('-' :: '-' :: opener n).length = n + 4 := by simp [opener_length]
    have hlen : D.length = n + 4 + body.length + (n + 2) + 1 + 1 + rest.length := by
      rw [← hD]; simp [opener_length, closer_length]; omega
    have e1 : D = ('-' :: '-' :: (opener n ++ (body ++ closer n))) ++ ' ' :: (c :: rest) := by
      rw [← hD]; simp
    have l1 : ('-' :: '-' :: (opener n ++ (body ++ closer n))).length =
        n + 4 + body.length + (n + 2) := by
      simp [opener_length, closer_length]; omega
    have e2 : D = ('-' :: '-' :: (opener n ++ (body ++ (closer n ++ [' '])))) ++ c :: rest := by
      rw [← hD]; simp
    have l2 : ('-' :: '-' :: (opener n ++ (body ++ (closer n ++ [' '])))).length =
        n + 4 + body.length + (n + 2) + 1 := by
      simp [opener_length, closer_length]; omega
    have e3 : D = ('-' :: '-' :: (opener n ++ (body ++ (closer n ++ [' ', c])))) ++ rest := by
      rw [← hD]; simp
    have l3 : ('-' :: '-' :: (opener n ++ (body ++ (closer n ++ [' ', c])))).length =
        n + 4 + body.length + (n + 2) + 1 + 1 := by
      simp [opener_length, closer_length]; omega
    have hget1 : D.getD (n + 4 + body.length + (n + 2)) NUL = ' ' := by
      have := getD_append_cons ('-' :: '-' :: (opener n ++ (body ++ closer n))) (c :: rest) ' '
      rw [← e1, l1] at this
      exact this
    have hget2 : D.getD (n + 4 + body.length + (n + 2) + 1) NUL = c := by
      have := getD_append_cons ('-' :: '-' :: (opener n ++ (body ++ (closer n ++ [' '])))) rest c
      rw [← e2, l2] at this
      exact this
    have hstep1 : lexStep D (LexState.mk 0 1 []) = Except.ok (Step.next (LexState.mk 2 1 [])) := by
      rw [← hD]; exact lexStep_comment_open n _
    have hscan := long_scan_comment n (n + 4) (' ' :: c :: rest) body ('-' :: '-' :: opener n)
      1 [] (D.length + 1) hno (by rw [hlen]; omega)
    rw [hpre] at hscan
    have hD' : ('-' :: '-' :: opener n) ++ (body ++ (closer n ++ ' ' :: c :: rest)) = D := hD
    rw [hD'] at hscan
    have hbracket : lexBracket D (LexState.mk 2 1 []) =
        Except.ok (LexState.mk (n + 4 + body.length + (n + 2)) (1 + body.count NL) []) := by
      have := lexBracket_comment_head n (body ++ (closer n ++ ' ' :: c :: rest))
      rw [hD] at this
      rw [this, hscan]
      rfl
    have hstep2 : lexStep D (LexState.mk 2 1 []) =
        Except.ok (Step.next (LexState.mk (n + 4 + body.length + (n + 2))
          (1 + body.count NL) [])) := by
      rw [lexStep_bracket D (LexState.mk 2 1 []) (by rw [hlen]; dsimp only; omega)
        (by rw [← hD]; rfl), hbracket]
      rfl
    have hstep3 : lexStep D (LexState.mk (n + 4 + body.length + (n + 2)) (1 + body.count NL) [])
        = Except.ok (Step.next (LexState.mk (n + 4 + body.length + (n + 2) + 1)
          (1 + body.count NL) [])) := by
      rw [lexStep_space _ _ (by rw [hlen]; dsimp only; omega)
        (by dsimp only; rw [hget1]; decide) (by dsimp only; rw [hget1]; decide)]
    have hscanw : scanWhile D is_alnum (n + 4 + body.length + (n + 2) + 1 + 1) =
        Except.ok (n + 4 + body.length + (n + 2) + 1 + 1 + rest.length) := by
      refine scanWhile_stop _ _ _ _ (by omega) ?_ (by rw [hlen]; omega)
      intro m h1 h2
      refine ⟨by rw [hlen]; exact h2, ?_⟩
      obtain ⟨k, rfl⟩ : ∃ k, m = n + 4 + body.length + (n + 2) + 1 + 1 + k :=
        ⟨m - (n + 4 + body.length + (n + 2) + 1 + 1), by omega⟩
      have := getD_append_at ('-' :: '-' :: (opener n ++ (body ++ (closer n ++ [' ', c]))))
        rest k
      rw [← e3, l3] at this
      rw [this]
      exact hrest _ (getD_mem rest k (by omega))
    have htext : slice D (n + 4 + body.length + (n + 2) + 1)
        (n + 4 + body.length + (n + 2) + 1 + 1 + rest.length -
          (n + 4 + body.length + (n + 2) + 1)) = String.mk (c :: rest) := by
      have := slice_body ('-' :: '-' :: (opener n ++ (body ++ (closer n ++ [' '])))) (c :: rest)
        []
      rw [List.append_nil, ← e2, l2] at this
      have e : n + 4 + body.length + (n + 2) + 1 + 1 + rest.length -
          (n + 4 + body.length + (n + 2) + 1) = (c :: rest).length := by
        simp; omega
      rw [e]
      exact this
    have hstep4 : lexStep D (LexState.mk (n + 4 + body.length + (n + 2) + 1)
          (1 + body.count NL) []) =
        Except.ok (Step.next (LexState.mk (n + 4 + body.length + (n + 2) + 1 + 1 + rest.length)
          (1 + body.count NL)
          [Token.mk TokenType.IDENTIFIER (String.mk (c :: rest)) (1 + body.count NL)
            (n + 4 + body.length + (n + 2) + 1)])) := by
      rw [lexStep_alpha _ _ (by rw [hlen]; dsimp only; omega)
        (by dsimp only; rw [hget2]; exact hc)]
      dsimp only
      rw [hscanw]
      simp only [res_map_ok, pushTok, htext, hname, List.nil_append]
    have hstep5 := lexStep_end D
      (LexState.mk (n + 4 + body.length + (n + 2) + 1 + 1 + rest.length) (1 + body.count NL)
        [Token.mk TokenType.IDENTIFIER (String.mk (c :: rest)) (1 + body.count NL)
          (n + 4 + body.length + (n + 2) + 1)]) (by rw [hlen])
    unfold Lexer
    dsimp only
    have hfuel : n + 4 + body.length + (n + 2) + 1 + 1 + rest.length + 1 =
        (n + 4 + body.length + (n + 2) + rest.length - 2) + 1 + 1 + 1 + 1 + 1 := by omega
    rw [hlen, hfuel, loop_next _ _ _ _ hstep1, loop_next _ _ _ _ hstep2,
      loop_next _ _ _ _ hstep3, loop_next _ _ _ _ hstep4, loop_done _ _ _ _ hstep5]
    rfl
  · intro hno
    generalize hD : '-' :: '-' :: (opener n ++ body) = D
    have hpre : ('-' :: '-' :: opener n).length = n + 4 := by simp [opener_length]
    have hlen : D.length = n + 4 + body.length := by
      rw [← hD]; simp [opener_length]; omega
    have hstep1 : lexStep D (LexState.mk 0 1 []) = Except.ok (Step.next (LexState.mk 2 1 [])) := by
      rw [← hD]; exact lexStep_comment_open n _
    have hscan := long_scan_open n (n + 4) body ('-' :: '-' :: opener n) 1 [] (D.length + 1) hno
      (by rw [hlen]; omega)
    rw [hpre] at hscan
    have hD' : ('-' :: '-' :: opener n) ++ body = D := hD
    rw [hD'] at hscan
    have hbracket : lexBracket D (LexState.mk 2 1 []) =
        Except.ok (LexState.mk (n + 4 + body.length) (1 + body.count NL) []) := by
      have := lexBracket_comment_head n body
      rw [hD] at this
      rw [this, hscan]
      rfl
    have hstep2 : lexStep D (LexState.mk 2 1 []) =
        Except.ok (Step.next (LexState.mk (n + 4 + body.length) (1 + body.count NL) [])) := by
      rw [lexStep_bracket D (LexState.mk 2 1 []) (by rw [hlen]; dsimp only; omega)
        (by rw [← hD]; rfl), hbracket]
      rfl
    have hstep3 := lexStep_end D (LexState.mk (n + 4 + body.length) (1 + body.count NL) [])
      (by rw [hlen])
    unfold Lexer
    dsimp only
    have hfuel : n + 4 + body.length + 1 = (n + 2 + body.length) + 1 + 1 + 1 := by omega
    rw [hlen, hfuel, loop_next _ _ _ _ hstep1, loop_next _ _ _ _ hstep2,
      loop_done _ _ _ _ hstep3]
    rfl

/-! ## The line of an expression behind opening parentheses -/

/-- C1: for every source string `Lexer` returns a token list, and for every token list (the
empty list, lists without END_OF_FILE and arbitrary lists included) `Parse` returns a chunk: no
loop and no recursion of the embedding uses up its bound, and no read leaves the token
vector. -/
theorem C1_lexer_and_parser_return :
    (∀ Code : String, ∃ toks, Lexer Code = Except.ok toks) ∧
    (∀ Tokens : List Token, ∃ chunk, Parse Tokens = Except.ok chunk) :=
  ⟨Lexer_total, Parse_total⟩

/-- C2: for operand tokens `a b c` (identifier or number), binary operators `lo` and `hi` with
`precedenceOf lo < precedenceOf hi` and a closing END_OF_FILE token, `a lo b hi c` parses to
the node `lo` with left child `a` and right child the node `b hi c`, and `a hi b lo c` parses
to the node `lo` with left child the node `a hi b` and right child `c`; the cursor stops at
END_OF_FILE. -/
theorem C2_higher_precedence_groups_first (a lo b hi c e : Token)
    (ha : isOperand a) (hb : isOperand b) (hc : isOperand c)
    (hlo : 0 < precedenceOf lo) (hlt : precedenceOf lo < precedenceOf hi)
    (he : e.type = TokenType.END_OF_FILE) :
    parseExpressionForwardDecl [a, lo, b, hi, c, e] 0 =
      Except.ok (binaryNode lo (operandLeaf a)
        (binaryNode hi (operandLeaf b) (operandLeaf c)), 5) ∧
    parseExpressionForwardDecl [a, hi, b, lo, c, e] 0 =
      Except.ok (binaryNode lo (binaryNode hi (operandLeaf a) (operandLeaf b))
        (operandLeaf c), 5) := by
  constructor
  · refine chain_right a lo b hi c e ha hb hc hlo (by omega) ?_ he
    unfold nextMinOf
    split <;> omega
  · refine chain_left a hi b lo c e ha hb hc (by omega) hlo ?_ he
    unfold nextMinOf
    split <;> omega

/-- C2, at the tokens of `1+2*3`: a `+` node whose left child is the NumericLiteral `1` and
whose right child is the `*` node of `2` and `3`. -/
theorem C2_witness :
    Lexer "1+2*3" = Except.ok
      [⟨TokenType.NUMBER, "1", 1, 0⟩, ⟨TokenType.PLUS, "+", 1, 1⟩, ⟨TokenType.NUMBER, "2", 1, 2⟩,
       ⟨TokenType.STAR, "*", 1, 3⟩, ⟨TokenType.NUMBER, "3", 1, 4⟩,
       ⟨TokenType.END_OF_FILE, "", 1, 0⟩] ∧
    parseExpressionForwardDecl
      [⟨TokenType.NUMBER, "1", 1, 0⟩, ⟨TokenType.PLUS, "+", 1, 1⟩, ⟨TokenType.NUMBER, "2", 1, 2⟩,
       ⟨TokenType.STAR, "*", 1, 3⟩, ⟨TokenType.NUMBER, "3", 1, 4⟩,
       ⟨TokenType.END_OF_FILE, "", 1, 0⟩] 0 =
      Except.ok (AST.mk ASTType.BinaryExpression "+" 1
        [("left", [AST.mk ASTType.NumericLiteral "1" 1 []]),
         ("right", [AST.mk ASTType.BinaryExpression "*" 1
            [("left", [AST.mk ASTType.NumericLiteral "2" 1 []]),
             ("right", [AST.mk ASTType.NumericLiteral "3" 1 []])]])], 5) :=
  ⟨rfl, (C2_higher_precedence_groups_first ⟨TokenType.NUMBER, "1", 1, 0⟩
    ⟨TokenType.PLUS, "+", 1, 1⟩ ⟨TokenType.NUMBER, "2", 1, 2⟩ ⟨TokenType.STAR, "*", 1, 3⟩
    ⟨TokenType.NUMBER, "3", 1, 4⟩ ⟨TokenType.END_OF_FILE, "", 1, 0⟩
    (Or.inr rfl) (Or.inr rfl) (Or.inr rfl) (by decide) (by decide) rfl).1⟩

/-- C3: for operand tokens `a b c` and two operator tokens of the same kind `^` or `..`,
`a op b op c` followed by END_OF_FILE parses to the node `op` with left child `a` and right
child the node `b op c`. -/
theorem C3_caret_and_concat_nest_to_the_right (a o1 b o2 c e : Token)
    (ha : isOperand a) (hb : isOperand b) (hc : isOperand c)
    (hop : o1.type = TokenType.CARET ∨ o1.type = TokenType.DOT_DOT)
    (hsame : o2.type = o1.type) (he : e.type = TokenType.END_OF_FILE) :
    parseExpressionForwardDecl [a, o1, b, o2, c, e] 0 =
      Except.ok (binaryNode o1 (operandLeaf a)
        (binaryNode o2 (operandLeaf b) (operandLeaf c)), 5) := by
  have hp : 0 < precedenceOf o1 ∧ precedenceOf o2 = precedenceOf o1 ∧
      nextMinOf o1 = precedenceOf o1 := by
    rcases hop with h | h <;>
      simp [precedenceOf, nextMinOf, isRightAssociative, hsame, h]
  exact chain_right a o1 b o2 c e ha hb hc hp.1 (by omega) (by omega) he

/-- C3, at the tokens of `2^3^2`: the right child of the outer `^` node is the `^` node of `3`
and `2`. -/
theorem C3_witness :
    Lexer "2^3^2" = Except.ok
      [⟨TokenType.NUMBER, "2", 1, 0⟩, ⟨TokenType.CARET, "^", 1, 1⟩, ⟨TokenType.NUMBER, "3", 1, 2⟩,
       ⟨TokenType.CARET, "^", 1, 3⟩, ⟨TokenType.NUMBER, "2", 1, 4⟩,
       ⟨TokenType.END_OF_FILE, "", 1, 0⟩] ∧
    parseExpressionForwardDecl
      [⟨TokenType.NUMBER, "2", 1, 0⟩, ⟨TokenType.CARET, "^", 1, 1⟩, ⟨TokenType.NUMBER, "3", 1, 2⟩,
       ⟨TokenType.CARET, "^", 1, 3⟩, ⟨TokenType.NUMBER, "2", 1, 4⟩,
       ⟨TokenType.END_OF_FILE, "", 1, 0⟩] 0 =
      Except.ok (AST.mk ASTType.BinaryExpression "^" 1
        [("left", [AST.mk ASTType.NumericLiteral "2" 1 []]),
         ("right", [AST.mk ASTType.BinaryExpression "^" 1
            [("left", [AST.mk ASTType.NumericLiteral "3" 1 []]),
             ("right", [AST.mk ASTType.NumericLiteral "2" 1 []])]])], 5) :=
  ⟨rfl, C3_caret_and_concat_nest_to_the_right ⟨TokenType.NUMBER, "2", 1, 0⟩
    ⟨TokenType.CARET, "^", 1, 1⟩ ⟨TokenType.NUMBER, "3", 1, 2⟩ ⟨TokenType.CARET, "^", 1, 3⟩
    ⟨TokenType.NUMBER, "2", 1, 4⟩ ⟨TokenType.END_OF_FILE, "", 1, 0⟩
    (Or.inr rfl) (Or.inr rfl) (Or.inr rfl) (Or.inl rfl) rfl rfl⟩

/-- C4: for operand tokens `a b c` and binary operators `o1`, `o2` of equal precedence, `o1`
neither `^` nor `..`, `a o1 b o2 c` followed by END_OF_FILE parses to the node `o2` with left
child the node `a o1 b` and right child `c`. -/
theorem C4_equal_precedence_nests_to_the_left (a o1 b o2 c e : Token)
    (ha : isOperand a) (hb : isOperand b) (hc : isOperand c)
    (h1 : 0 < precedenceOf o1) (heq : precedenceOf o1 = precedenceOf o2)
    (hcaret : o1.type ≠ TokenType.CARET) (hconcat : o1.type ≠ TokenType.DOT_DOT)
    (he : e.type = TokenType.END_OF_FILE) :
    parseExpressionForwardDecl [a, o1, b, o2, c, e] 0 =
      Except.ok (binaryNode o2 (binaryNode o1 (operandLeaf a) (operandLeaf b))
        (operandLeaf c), 5) := by
  have hn : nextMinOf o1 = precedenceOf o1 + 1 := by
    simp [nextMinOf, isRightAssociative, hcaret, hconcat]
  exact chain_left a o1 b o2 c e ha hb hc h1 (by omega) (by omega) he

/-- C4, at the tokens of `a-b+c`: the `+` node has the `-` node of `a` and `b` as its left
child. -/
theorem C4_witness :
    Lexer "a-b+c" = Except.ok
      [⟨TokenType.IDENTIFIER, "a", 1, 0⟩, ⟨TokenType.MINUS, "-", 1, 1⟩,
       ⟨TokenType.IDENTIFIER, "b", 1, 2⟩, ⟨TokenType.PLUS, "+", 1, 3⟩,
       ⟨TokenType.IDENTIFIER, "c", 1, 4⟩, ⟨TokenType.END_OF_FILE, "", 1, 0⟩] ∧
    parseExpressionForwardDecl
      [⟨TokenType.IDENTIFIER, "a", 1, 0⟩, ⟨TokenType.MINUS, "-", 1, 1⟩,
       ⟨TokenType.IDENTIFIER, "b", 1, 2⟩, ⟨TokenType.PLUS, "+", 1, 3⟩,
       ⟨TokenType.IDENTIFIER, "c", 1, 4⟩, ⟨TokenType.END_OF_FILE, "", 1, 0⟩] 0 =
      Except.ok (AST.mk ASTType.BinaryExpression "+" 1
        [("left", [AST.mk ASTType.BinaryExpression "-" 1
            [("left", [AST.mk ASTType.Identifier "a" 1 []]),
             ("right", [AST.mk ASTType.Identifier "b" 1 []])]]),
         ("right", [AST.mk ASTType.Identifier "c" 1 []])], 5) :=
  ⟨rfl, C4_equal_precedence_nests_to_the_left ⟨TokenType.IDENTIFIER, "a", 1, 0⟩
    ⟨TokenType.MINUS, "-", 1, 1⟩ ⟨TokenType.IDENTIFIER, "b", 1, 2⟩ ⟨TokenType.PLUS, "+", 1, 3⟩
    ⟨TokenType.IDENTIFIER, "c", 1, 4⟩ ⟨TokenType.END_OF_FILE, "", 1, 0⟩
    (Or.inl rfl) (Or.inl rfl) (Or.inl rfl) (by decide) rfl (by decide) (by decide) rfl⟩

/-- C5, the code at `-a+b`, `not a == b` and `#t * 2`: `parseBinary` returns from its unary
branch without entering the operator loop, so the result is the `UnaryExpression` alone and
the cursor stops at index 2, in front of the binary operator, not at END_OF_FILE (index 4). -/
theorem C5_unary_branch_returns_before_the_operator_loop :
    (Lexer "-a+b" >>= fun toks => parseExpressionForwardDecl toks 0) =
      Except.ok (AST.mk ASTType.UnaryExpression "-" 1
        [("argument", [AST.mk ASTType.Identifier "a" 1 []])], 2) ∧
    (Lexer "not a == b" >>= fun toks => parseExpressionForwardDecl toks 0) =
      Except.ok (AST.mk ASTType.UnaryExpression "not" 1
        [("argument", [AST.mk ASTType.Identifier "a" 1 []])], 2) ∧
    (Lexer "#t * 2" >>= fun toks => parseExpressionForwardDecl toks 0) =
      Except.ok (AST.mk ASTType.UnaryExpression "#" 1
        [("argument", [AST.mk ASTType.Identifier "t" 1 []])], 2) ∧
    (Lexer "-a+b").map List.length = Except.ok 5 :=
  ⟨rfl, rfl, rfl, rfl⟩

/-- C6: `Lexer` on `function foo(a,b) end` returns exactly the nine tokens FUNCTION,
IDENTIFIER `foo`, LEFT_PAREN, IDENTIFIER `a`, COMMA, IDENTIFIER `b`, RIGHT_PAREN, END,
END_OF_FILE, all on line 1. -/
theorem C6_function_header_tokens :
    Lexer "function foo(a,b) end" = Except.ok
      [⟨TokenType.FUNCTION, "function", 1, 0⟩, ⟨TokenType.IDENTIFIER, "foo", 1, 9⟩,
       ⟨TokenType.LEFT_PAREN, "(", 1, 12⟩, ⟨TokenType.IDENTIFIER, "a", 1, 13⟩,
       ⟨TokenType.COMMA, ",", 1, 14⟩, ⟨TokenType.IDENTIFIER, "b", 1, 15⟩,
       ⟨TokenType.RIGHT_PAREN, ")", 1, 16⟩, ⟨TokenType.END, "end", 1, 18⟩,
       ⟨TokenType.END_OF_FILE, "", 1, 0⟩] := rfl

/-- C7: for every source string the token list returned by `Lexer` is non-empty, its last
token has kind END_OF_FILE and empty text, and no token before the last has kind
END_OF_FILE. -/
theorem C7_token_list_ends_with_the_only_eof (Code : String) :
    ∃ toks, Lexer Code = Except.ok toks ∧ toks ≠ [] ∧
      (∃ last, toks.getLast? = some last ∧ last.type = TokenType.END_OF_FILE ∧ last.text = "") ∧
      ∀ t ∈ toks.dropLast, t.type ≠ TokenType.END_OF_FILE := by
  obtain ⟨toks, h⟩ := Lexer_total Code
  obtain ⟨init, line, rfl, hno⟩ := Lexer_noEOF Code toks h
  refine ⟨_, h, by simp, ⟨_, List.getLast?_concat _, rfl, rfl⟩, ?_⟩
  rw [List.dropLast_concat]
  exact hno

/-- C8, the code at `a~=b`: after the BANG_EQUAL token control falls through into the case of
`<`, which makes a LESS token out of the next character `b`, so the identifier `b` is lost and
the operator is followed by a token that is not in the source. -/
theorem C8_bang_equal_falls_through :
    Lexer "a~=b" = Except.ok
      [⟨TokenType.IDENTIFIER, "a", 1, 0⟩, ⟨TokenType.BANG_EQUAL, "~=", 1, 1⟩,
       ⟨TokenType.LESS, "b", 1, 3⟩, ⟨TokenType.END_OF_FILE, "", 1, 0⟩] := rfl

/-- C9: for every level `n` and every body in which the closing delimiter `]`, `n` times `=`,
`]` does not occur in `body ++ delimiter` before the very end, `Lexer` on `[`, `n` times `=`,
`[`, `body`, `]`, `n` times `=`, `]` returns exactly the STRING token with text `body`, then
END_OF_FILE. -/
theorem C9_long_bracket_closes_at_its_own_level (n : Nat) (body : List Char)
    (hfirst : ∀ k, k < body.length → ¬ closer n <+: (body ++ closer n).drop k) :
    Lexer (String.mk (opener n ++ (body ++ closer n))) = Except.ok
      [Token.mk TokenType.STRING (String.mk body) (1 + body.count NL) (n + 2),
       Token.mk TokenType.END_OF_FILE "" (1 + body.count NL) 0] :=
  Lexer_long_bracket n body hfirst

/-- C9, at `[==[ hi ]=] still ]==]`: the `]=]` inside does not close the level 2 region, and the
one STRING token has the text ` hi ]=] still `. -/
theorem C9_witness :
    (∀ k, k < " hi ]=] still ".data.length →
      ¬ closer 2 <+: (" hi ]=] still ".data ++ closer 2).drop k) ∧
    Lexer "[==[ hi ]=] still ]==]" = Except.ok
      [Token.mk TokenType.STRING " hi ]=] still " 1 4, Token.mk TokenType.END_OF_FILE "" 1 0] :=
  ⟨by decide, C9_long_bracket_closes_at_its_own_level 2 " hi ]=] still ".data (by decide)⟩

/-- C10: for a quote character `q` (single or double) and every body that holds neither `q`
nor a backslash, `Lexer` on `q ++ body`, where no closing quote comes before the end of input,
returns exactly the STRING token with text `body`, then END_OF_FILE, and meets no fault. -/
theorem C10_unterminated_quote_gives_string (q : Char) (body : List Char)
    (hq : q = SQUOTE ∨ q = DQUOTE) (hbody : ∀ c ∈ body, c ≠ q ∧ c ≠ BACKSLASH) :
    Lexer (String.mk (q :: body)) = Except.ok
      [Token.mk TokenType.STRING (String.mk body) (1 + body.count NL) 1,
       Token.mk TokenType.END_OF_FILE "" (1 + body.count NL) 0] :=
  Lexer_unterminated q body hq.symm hbody

/-- C10, at `'unterminated`: one STRING token with the text `unterminated`. -/
theorem C10_witness :
    (∀ c ∈ "unterminated".data, c ≠ SQUOTE ∧ c ≠ BACKSLASH) ∧
    Lexer "'unterminated" = Except.ok
      [Token.mk TokenType.STRING "unterminated" 1 1, Token.mk TokenType.END_OF_FILE "" 1 0] :=
  ⟨by decide, C10_unterminated_quote_gives_string SQUOTE "unterminated".data (Or.inl rfl)
    (by decide)⟩

/-- C14, the code at a quoted string and at a long bracket string that hold a newline, and at an
identifier after an escaped newline: `pushTok` is called after the scan with the line counter
reached at the end of the string, so the STRING token of a string opened on line 1 carries line
2; and the pair `backslash, newline` is skipped without a count, so the identifier `x` on line
2 carries line 1. -/
theorem C14_string_tokens_carry_their_last_line :
    Lexer "\"a\nb\"" = Except.ok
      [Token.mk TokenType.STRING "a\nb" 2 1, Token.mk TokenType.END_OF_FILE "" 2 0] ∧
    Lexer "[[\n]] x" = Except.ok
      [Token.mk TokenType.STRING "\n" 2 2, Token.mk TokenType.IDENTIFIER "x" 2 6,
       Token.mk TokenType.END_OF_FILE "" 2 0] ∧
    Lexer "'\\\n' x" = Except.ok
      [Token.mk TokenType.STRING "\\\n" 1 1, Token.mk TokenType.IDENTIFIER "x" 1 5,
       Token.mk TokenType.END_OF_FILE "" 1 0] :=
  ⟨rfl, rfl, rfl⟩

/-- C16, the code at the tokens of an empty table constructor and of a function expression with
an empty body: `parsePrimary` assigns the slots `fields` and `statements` without the test
`!empty()` that every other slot assignment has, so both nodes carry a slot that is present and
holds no child. -/
theorem C16_empty_slots_in_table_and_function_expression :
    (Lexer ("x = " ++ String.mk [LBRACE, RBRACE]) >>= Parse) = Except.ok
      [AST.mk ASTType.AssignmentStatement "assign" 1
        [("variables", [AST.mk ASTType.Identifier "x" 1 []]),
         ("values", [AST.mk ASTType.TableConstructorExpression "" 1 [("fields", [])]])]] ∧
    (Lexer "function() end" >>= fun toks => parseExpressionForwardDecl toks 0) = Except.ok
      (AST.mk ASTType.FunctionExpression "" 1
        [("body", [AST.mk ASTType.Block "body" 1 [("statements", [])]])], 4) :=
  ⟨rfl, rfl⟩

/-- C17: for every token list, every cursor and every threshold, `parsePrimary`,
`parseSuffixed`, `parseBinary`, `parseExpressionList` and `Parse` return a result: the fault
`range`, which stands for a read of the token vector at an index outside it, is never met (nor
is the fault `fuel`). -/
theorem C17_token_reads_stay_in_range (Tokens : List Token) (Index minPrec : Nat) :
    (∃ r, parsePrimary (parseExpressionForwardDecl Tokens) Tokens Index = Except.ok r) ∧
    (∃ r, parseSuffixed (parseExpressionForwardDecl Tokens) Tokens Index = Except.ok r) ∧
    (∃ r, parseBinary (Tokens.length + 1) Tokens Index minPrec = Except.ok r) ∧
    (∃ r, parseExpressionList Tokens Index = Except.ok r) ∧
    (∃ r, Parse Tokens = Except.ok r) := by
  by_cases h : Index ≤ Tokens.length
  · obtain ⟨r1, h1, -⟩ := parsePrimary_fwd (parseExpressionForwardDecl Tokens) Tokens Index h
      (parseExpression_PEok Tokens _)
    obtain ⟨r2, h2, -⟩ := parseSuffixed_fwd (parseExpressionForwardDecl Tokens) Tokens Index h
      (parseExpression_PEok Tokens _)
    obtain ⟨r3, h3, -⟩ := parseBinary_fwd Tokens (Tokens.length + 1) Index minPrec h (by omega)
    obtain ⟨r4, h4, -⟩ := parseExpressionList_fwd Tokens Index h
    exact ⟨⟨r1, h1⟩, ⟨r2, h2⟩, ⟨r3, h3⟩, ⟨r4, h4⟩, Parse_total Tokens⟩
  · have h' : Tokens.length ≤ Index := by omega
    exact ⟨⟨_, parsePrimary_end _ Tokens Index h'⟩, ⟨_, parseSuffixed_end _ Tokens Index h'⟩,
      ⟨_, parseBinary_end _ Tokens Index minPrec h'⟩,
      ⟨_, parseExpressionList_end Tokens Index h'⟩, Parse_total Tokens⟩

/-- C19, the code at `a~=`: after the BANG_EQUAL token control falls through into the case of
`<` with the cursor at the end of the buffer, and a LESS token of length 1 is made at offset 3
of a source of length 3; its text is the terminating NUL after the buffer, not a part of the
source. -/
theorem C19_less_token_past_the_end :
    Lexer "a~=" = Except.ok
      [Token.mk TokenType.IDENTIFIER "a" 1 0, Token.mk TokenType.BANG_EQUAL "~=" 1 1,
       Token.mk TokenType.LESS (String.mk [NUL]) 1 3, Token.mk TokenType.END_OF_FILE "" 1 0] ∧
    "a~=".length = 3 ∧ (String.mk [NUL]).length = 1 :=
  ⟨rfl, rfl, rfl⟩

/-- C11: for every reserved word `k` and every suffix `s` of letters, digits and underscores
such that `k ++ s` is not a reserved word (so `s` is not empty), `Lexer` on `k ++ s` returns
exactly the IDENTIFIER token with text `k ++ s`, then END_OF_FILE. -/
theorem C11_keyword_with_suffix_is_one_identifier (k : String) (s : List Char)
    (hk : k ∈ reservedWords) (hs : ∀ x ∈ s, is_alnum x = true)
    (hnot : k ++ String.mk s ∉ reservedWords) :
    Lexer (k ++ String.mk s) = Except.ok
      [Token.mk TokenType.IDENTIFIER (k ++ String.mk s) 1 0,
       Token.mk TokenType.END_OF_FILE "" 1 0] := by
  obtain ⟨c, rest, hdata, hc, hrest⟩ := reserved_shape k hk
  have hw : k ++ String.mk s = String.mk (c :: (rest ++ s)) := by
    apply String.ext
    simp [hdata]
  have hkind := keywordTypeFast_of_not_reserved _ hnot
  rw [hw] at hkind ⊢
  rw [← hkind]
  refine Lexer_word c (rest ++ s) hc ?_
  intro x hx
  rcases List.mem_append.mp hx with hx | hx
  · exact hrest x hx
  · exact hs x hx

/-- C11, at `functionX`: one IDENTIFIER token, not FUNCTION followed by `X`. -/
theorem C11_witness :
    ("function" ∈ reservedWords ∧ (∀ x ∈ ['X'], is_alnum x = true) ∧
      "functionX" ∉ reservedWords) ∧
    Lexer "functionX" = Except.ok
      [Token.mk TokenType.IDENTIFIER "functionX" 1 0, Token.mk TokenType.END_OF_FILE "" 1 0] :=
  ⟨⟨by decide, by decide, by decide⟩,
   C11_keyword_with_suffix_is_one_identifier "function" ['X'] (by decide) (by decide)
     (by decide)⟩

/-- C13: for every body without `]` and every identifier `name` (a letter or underscore `c`
followed by letters, digits and underscores `rest`, not a reserved word), `Lexer` on `[[`,
`body`, `]]`, a blank, `name` puts the IDENTIFIER token on line 1 + the number of newlines in
`body`. -/
theorem C13_identifier_line_after_long_string (body : List Char) (c : Char) (rest : List Char)
    (hbody : ∀ x ∈ body, x ≠ ']') (hc : is_alpha c = true)
    (hrest : ∀ x ∈ rest, is_alnum x = true)
    (hname : String.mk (c :: rest) ∉ reservedWords) :
    Lexer (String.mk ("[[".data ++ body ++ "]] ".data ++ c :: rest)) = Except.ok
      [Token.mk TokenType.STRING (String.mk body) (1 + body.count NL) 2,
       Token.mk TokenType.IDENTIFIER (String.mk (c :: rest)) (1 + body.count NL)
         (body.length + 5),
       Token.mk TokenType.END_OF_FILE "" (1 + body.count NL) 0] := by
  have h := Lexer_long_then_word body c rest hbody hc hrest
  rw [keywordTypeFast_of_not_reserved _ hname] at h
  have e : "[[".data ++ body ++ "]] ".data ++ c :: rest =
      opener 0 ++ (body ++ (closer 0 ++ ' ' :: c :: rest)) := by
    simp [opener, closer]
  rw [e]
  exact h

/-- C13, with three newlines in the body: the identifier `name` is on line 4. -/
theorem C13_witness :
    ((∀ x ∈ "a\nb\nc\nd".data, x ≠ ']') ∧ is_alpha 'n' = true ∧
      (∀ x ∈ "ame".data, is_alnum x = true) ∧ "name" ∉ reservedWords) ∧
    Lexer "[[a\nb\nc\nd]] name" = Except.ok
      [Token.mk TokenType.STRING "a\nb\nc\nd" 4 2, Token.mk TokenType.IDENTIFIER "name" 4 12,
       Token.mk TokenType.END_OF_FILE "" 4 0] :=
  ⟨⟨by decide, by decide, by decide, by decide⟩,
   C13_identifier_line_after_long_string "a\nb\nc\nd".data 'n' "ame".data (by decide)
     (by decide) (by decide) (by decide)⟩

/-- C12: for every token list whose first token is IF, `Parse` returns a chunk whose first
node is an `IfStatement` with a `clauses` slot that starts with an `IfClause` holding one
`condition` child and one `body` child of kind `Block`; nothing is asked of the tokens after
the IF, so the list may end before any END. -/
theorem C12_dangling_if_still_gives_if_statement (t : Token) (rest : List Token)
    (ht : t.type = TokenType.IF) :
    ∃ node more cl clauses cond body,
      Parse (t :: rest) = Except.ok (node :: more) ∧ node.type = ASTType.IfStatement ∧
      node.slot "clauses" = some (cl :: clauses) ∧ cl.type = ASTType.IfClause ∧
      cl.slot "condition" = some [cond] ∧ cl.slot "body" = some [body] ∧
      body.type = ASTType.Block := by
  obtain ⟨node, j, hstep, hj, hjn, hty, cl, clauses, cond, body, h1, h2, h3, h4, h5⟩ :=
    parseStep_if t rest ht
  obtain ⟨r, more, hr, hmore⟩ := parseLoop_head (t :: rest) node (t :: rest).length
    (ParseState.mk true j [node]) hjn ⟨[], rfl⟩ (by simp only [if_true]; omega)
  refine ⟨node, more, cl, clauses, cond, body, ?_, hty, h1, h2, h3, h4, h5⟩
  unfold Parse
  rw [loop_next _ _ _ _ hstep, hr]
  exact congrArg Except.ok hmore

/-- C12 on the tokens of `if x then y`, where the input runs out with no END. -/
theorem C12_witness :
    Lexer "if x then y" = Except.ok
      [Token.mk TokenType.IF "if" 1 0, Token.mk TokenType.IDENTIFIER "x" 1 3,
       Token.mk TokenType.THEN "then" 1 5, Token.mk TokenType.IDENTIFIER "y" 1 10,
       Token.mk TokenType.END_OF_FILE "" 1 0] ∧
    (Token.mk TokenType.IF "if" 1 0).type = TokenType.IF ∧
    ∃ node more cl clauses cond body,
      Parse [Token.mk TokenType.IF "if" 1 0, Token.mk TokenType.IDENTIFIER "x" 1 3,
        Token.mk TokenType.THEN "then" 1 5, Token.mk TokenType.IDENTIFIER "y" 1 10,
        Token.mk TokenType.END_OF_FILE "" 1 0] = Except.ok (node :: more) ∧
      node.type = ASTType.IfStatement ∧
      node.slot "clauses" = some (cl :: clauses) ∧ cl.type = ASTType.IfClause ∧
      cl.slot "condition" = some [cond] ∧ cl.slot "body" = some [body] ∧
      body.type = ASTType.Block :=
  ⟨rfl, rfl, C12_dangling_if_still_gives_if_statement (Token.mk TokenType.IF "if" 1 0)
    [Token.mk TokenType.IDENTIFIER "x" 1 3, Token.mk TokenType.THEN "then" 1 5,
     Token.mk TokenType.IDENTIFIER "y" 1 10, Token.mk TokenType.END_OF_FILE "" 1 0] rfl⟩

/-- C20, as stated, fails: the source `"a`, newline, `b"` has no `[`, and `Lexer` gives it one
STRING token whose text holds the newline. -/
theorem C20_counterexample :
    '[' ∉ "\"a\nb\"".data ∧
    Lexer "\"a\nb\"" = Except.ok
      [Token.mk TokenType.STRING "a\nb" 2 1, Token.mk TokenType.END_OF_FILE "" 2 0] ∧
    NL ∈ "a\nb".data ∧
    ¬ (∀ (Code : String) (toks : List Token), '[' ∉ Code.data → Lexer Code = Except.ok toks →
        ∀ t ∈ toks, NL ∉ t.text.data) := by
  refine ⟨by decide, rfl, by decide, ?_⟩
  intro hall
  have h := hall "\"a\nb\"" _ (by decide) rfl (Token.mk TokenType.STRING "a\nb" 2 1)
    (List.mem_cons_self _ _)
  exact absurd h (by decide)

/-- C20, amended: for every source string without a `~` byte, with or without `[`, `Lexer`
returns, and no token other than a STRING token has a text containing a newline byte. -/
theorem C20_only_string_tokens_hold_newlines (Code : String) (hno : '~' ∉ Code.data) :
    ∃ toks, Lexer Code = Except.ok toks ∧
      ∀ t ∈ toks, t.type ≠ TokenType.STRING → NL ∉ t.text.data :=
  Lexer_textOK Code hno

/-- C20, amended, on a source of three lines with a quoted string over two of them. -/
theorem C20_witness :
    '~' ∉ "x = \"a\nb\"\ny = 1.5e3".data ∧
    ∃ toks, Lexer "x = \"a\nb\"\ny = 1.5e3" = Except.ok toks ∧
      ∀ t ∈ toks, t.type ≠ TokenType.STRING → NL ∉ t.text.data :=
  ⟨by decide, C20_only_string_tokens_hold_newlines "x = \"a\nb\"\ny = 1.5e3" (by decide)⟩

/-- C21, the code at a quoted string that holds a backslash followed by a newline, and at `~=`
followed by a newline: the quoted scan skips the pair `backslash, newline` with `idx += 2`
without a count, and the fall-through of `case '~'` into `case '<'` takes the newline as the
text of a LESS token; in both sources there is one newline and the END_OF_FILE token is on
line 1. -/
theorem C21_newline_skipped_without_a_count :
    Lexer "'\\\n'" = Except.ok
      [Token.mk TokenType.STRING "\\\n" 1 1, Token.mk TokenType.END_OF_FILE "" 1 0] ∧
    "'\\\n'".data.count NL = 1 ∧
    Lexer "~=\n" = Except.ok
      [Token.mk TokenType.BANG_EQUAL "~=" 1 0, Token.mk TokenType.LESS "\n" 1 2,
       Token.mk TokenType.END_OF_FILE "" 1 0] ∧
    "~=\n".data.count NL = 1 :=
  ⟨rfl, by decide, rfl, by decide⟩

/-- C23, the code at the tokens of `return` alone, of `return end` and of
`function f() return end`: the value list is read whenever the next token is not `;`, so
END_OF_FILE and END are taken by `parsePrimary` as the value `Identifier "?"`; in the function
the `end` is consumed as that value and the body runs on over END_OF_FILE.  Only before `;` is
the slot `values` absent. -/
theorem C23_return_takes_the_terminator_as_a_value :
    (Lexer "return" >>= Parse) = Except.ok
      [AST.mk ASTType.ReturnStatement "return" 1
        [("values", [AST.mk ASTType.Identifier "?" 1 []])]] ∧
    (Lexer "return end" >>= Parse) = Except.ok
      [AST.mk ASTType.ReturnStatement "return" 1
        [("values", [AST.mk ASTType.Identifier "?" 1 []])]] ∧
    (Lexer "function f() return end" >>= Parse) = Except.ok
      [AST.mk ASTType.FunctionDeclaration "function" 1
        [("name", [AST.mk ASTType.Identifier "f" 1 []]),
         ("body", [AST.mk ASTType.Block "body" 1
           [("statements",
             [AST.mk ASTType.ReturnStatement "return" 1
               [("values", [AST.mk ASTType.Identifier "?" 1 []])],
              AST.mk ASTType.Identifier "?" 1 []])]])]] ∧
    (Lexer "return;" >>= Parse) = Except.ok [AST.mk ASTType.ReturnStatement "return" 1 []] :=
  ⟨rfl, rfl, rfl, rfl⟩

set_option maxRecDepth 100000 in
/-- C24, the code at the benchmark program: the body loop of a function declaration reads
expressions until the first END, so `local`, `=`, `if`, `then` and `else` become placeholders
`Identifier "?"`, the `end` of the `if` closes the function, and the `end` of the function is
left over as a statement of its own: the chunk has two nodes, and four for two copies of the
program. -/
theorem C24_function_closes_at_the_first_end :
    (Lexer benchmarkProgram >>= Parse) = Except.ok
      [AST.mk ASTType.FunctionDeclaration "function" 2
        [("name", [AST.mk ASTType.Identifier "foo" 2 []]),
         ("body", [AST.mk ASTType.Block "body" 2
           [("statements",
             [AST.mk ASTType.Identifier "?" 3 [],
              AST.mk ASTType.Identifier "x" 3 [],
              AST.mk ASTType.Identifier "?" 3 [],
              AST.mk ASTType.BinaryExpression "+" 3
                [("left", [AST.mk ASTType.Identifier "a" 3 []]),
                 ("right", [AST.mk ASTType.BinaryExpression "*" 3
                   [("left", [AST.mk ASTType.Identifier "b" 3 []]),
                    ("right", [AST.mk ASTType.NumericLiteral "123.456" 3 []])]])],
              AST.mk ASTType.Identifier "?" 4 [],
              AST.mk ASTType.BinaryExpression ">" 4
                [("left", [AST.mk ASTType.Identifier "x" 4 []]),
                 ("right", [AST.mk ASTType.NumericLiteral "100" 4 []])],
              AST.mk ASTType.Identifier "?" 4 [],
              AST.mk ASTType.ReturnStatement "return" 5
                [("values", [AST.mk ASTType.StringLiteral "big" 5 [],
                             AST.mk ASTType.Identifier "x" 5 []])],
              AST.mk ASTType.Identifier "?" 6 [],
              AST.mk ASTType.ReturnStatement "return" 7
                [("values", [AST.mk ASTType.StringLiteral "small" 7 [],
                             AST.mk ASTType.Identifier "x" 7 []])]])]]),
         ("params", [AST.mk ASTType.Identifier "a" 2 [], AST.mk ASTType.Identifier "b" 2 []])],
       AST.mk ASTType.Chunk "expr" 9
        [("statements", [AST.mk ASTType.Identifier "?" 9 []])]] ∧
    ((Lexer (benchmarkProgram ++ benchmarkProgram) >>= Parse).map List.length) =
      Except.ok 4 :=
  ⟨rfl, rfl⟩

/-- C25, the code at `function(a,b) return a, b end` read as an expression and at
`function f(a,b) return a, b end` read as a statement: in a function expression a `return`
takes one expression (`parseExpressionForwardDecl`), in a function declaration a list
(`parseExpressionList`), so the body of the expression holds `return a`, a placeholder for the
comma and `b`, and the body of the declaration holds `return a, b`. -/
theorem C25_return_in_a_function_expression_takes_one_value :
    (Lexer "function(a,b) return a, b end" >>= fun toks =>
        parseExpressionForwardDecl toks 0) = Except.ok
      (AST.mk ASTType.FunctionExpression "" 1
        [("body", [AST.mk ASTType.Block "body" 1
           [("statements",
             [AST.mk ASTType.ReturnStatement "return" 1
               [("values", [AST.mk ASTType.Identifier "a" 1 []])],
              AST.mk ASTType.Identifier "?" 1 [],
              AST.mk ASTType.Identifier "b" 1 []])]]),
         ("params", [AST.mk ASTType.Identifier "a" 1 [], AST.mk ASTType.Identifier "b" 1 []])],
       11) ∧
    (Lexer "function f(a,b) return a, b end" >>= Parse) = Except.ok
      [AST.mk ASTType.FunctionDeclaration "function" 1
        [("name", [AST.mk ASTType.Identifier "f" 1 []]),
         ("body", [AST.mk ASTType.Block "body" 1
           [("statements",
             [AST.mk ASTType.ReturnStatement "return" 1
               [("values", [AST.mk ASTType.Identifier "a" 1 [],
                            AST.mk ASTType.Identifier "b" 1 []])]])]]),
         ("params", [AST.mk ASTType.Identifier "a" 1 [], AST.mk ASTType.Identifier "b" 1 []])]] :=
  ⟨rfl, rfl⟩

/-- C22, as stated, fails: no set of 21 strings is the set of the words that
`keywordTypeFast` gives a kind other than IDENTIFIER. -/
theorem C22_counterexample :
    ¬ ∃ l : List String, l.Nodup ∧ l.length = 21 ∧
      ∀ w, w ∈ l ↔ keywordTypeFast w ≠ TokenType.IDENTIFIER := by
  rintro ⟨l, hnd, hlen, hmem⟩
  have hperm : l.Perm reservedWords :=
    (List.perm_ext_iff_of_nodup hnd reservedWords_nodup).mpr
      (fun w => (hmem w).trans (keywordTypeFast_ne_identifier_iff w))
  have := hperm.length_eq
  rw [hlen] at this
  exact absurd this (by decide)

/-- C22, amended: the reserved-word set has exactly 22 members: the 22 distinct words of
`reservedWords` are the strings to which `keywordTypeFast`
gives a kind other than IDENTIFIER. -/
theorem C22_twenty_two_reserved_words :
    reservedWords.Nodup ∧ reservedWords.length = 22 ∧
    ∀ w, keywordTypeFast w ≠ TokenType.IDENTIFIER ↔ w ∈ reservedWords :=
  ⟨reservedWords_nodup, rfl, keywordTypeFast_ne_identifier_iff⟩

/-- C28: in a round of `Parse` at an IDENTIFIER token `t`, when the next token is LEFT_PAREN
the node pushed on the chunk is a `CallStatement` on the line of `t` whose slot `expression`
holds the node of `parseSuffixed` from `t`; when there is no next token or it is none of EQUAL,
COMMA, LEFT_PAREN, the node pushed is a `Chunk` node with text `expr` whose slot `statements`
holds the node of `parseExpressionForwardDecl` from `t`, on the line of that node.  In both
cases the cursor goes to the end of the expression, past a `;` that follows it. -/
theorem C28_statement_kind_after_an_identifier (Tokens : List Token) (s : ParseState)
    (t : Token) (hrun : s.Running = true) (ht : Tokens.get? s.Index = some t)
    (hid : t.type = TokenType.IDENTIFIER) :
    (∀ u, Tokens.get? (s.Index + 1) = some u → u.type = TokenType.LEFT_PAREN →
      ∃ call j j',
        parseSuffixed (parseExpressionForwardDecl Tokens) Tokens s.Index =
          Except.ok (call, j) ∧
        accept Tokens j TokenType.SEMICOLON = Except.ok j' ∧
        parseStep Tokens s = Except.ok (Step.next (ParseState.mk true j'
          (s.Chunk ++
            [AST.mk ASTType.CallStatement "call_stmt" t.line [("expression", [call])]])))) ∧
    ((∀ u, Tokens.get? (s.Index + 1) = some u →
        u.type ≠ TokenType.EQUAL ∧ u.type ≠ TokenType.COMMA ∧
          u.type ≠ TokenType.LEFT_PAREN) →
      ∃ expr j j',
        parseExpressionForwardDecl Tokens s.Index = Except.ok (expr, j) ∧
        accept Tokens j TokenType.SEMICOLON = Except.ok j' ∧
        parseStep Tokens s = Except.ok (Step.next (ParseState.mk true j'
          (s.Chunk ++
            [AST.mk ASTType.Chunk "expr" expr.line [("statements", [expr])]])))) := by
  have hlt := get_lt Tokens s.Index t ht
  constructor
  · intro u hu hp
    obtain ⟨⟨call, j⟩, hs, -⟩ := parseSuffixed_fwd (parseExpressionForwardDecl Tokens) Tokens
      s.Index (by omega) (parseExpression_PEok Tokens _)
    obtain ⟨j', hj', -⟩ := holds_accept Tokens j TokenType.SEMICOLON
    exact ⟨call, j, j', hs, hj', parseStep_default Tokens s t _ j j' hrun ht hid
      (defaultNode_call Tokens s.Index t u call j hid hu hp hs) hj'⟩
  · intro hnext
    obtain ⟨⟨expr, j⟩, he, -⟩ := parseExpression_fwd Tokens s.Index (by omega)
    obtain ⟨j', hj', -⟩ := holds_accept Tokens j TokenType.SEMICOLON
    exact ⟨expr, j, j', he, hj', parseStep_default Tokens s t _ j j' hrun ht hid
      (defaultNode_expr Tokens s.Index t expr j hid hnext he) hj'⟩

/-- C28 on the tokens of `f(x)` and of `a.b`: a `CallStatement` around the `CallExpression`
with callee `f` and arguments `[x]`, and a `Chunk` node `expr` around the
`MemberExpression`. -/
theorem C28_witness :
    (Lexer "f(x)" >>= Parse) = Except.ok
      [AST.mk ASTType.CallStatement "call_stmt" 1
        [("expression", [AST.mk ASTType.CallExpression "call" 1
          [("callee", [AST.mk ASTType.Identifier "f" 1 []]),
           ("arguments", [AST.mk ASTType.Identifier "x" 1 []])]])]] ∧
    (Lexer "a.b" >>= Parse) = Except.ok
      [AST.mk ASTType.Chunk "expr" 1
        [("statements", [AST.mk ASTType.MemberExpression "." 1
          [("object", [AST.mk ASTType.Identifier "a" 1 []]),
           ("property", [AST.mk ASTType.Identifier "b" 1 []])]])]] ∧
    (∃ call j j',
      parseSuffixed
        (parseExpressionForwardDecl
          [Token.mk TokenType.IDENTIFIER "f" 1 0, Token.mk TokenType.LEFT_PAREN "(" 1 1,
           Token.mk TokenType.IDENTIFIER "x" 1 2, Token.mk TokenType.RIGHT_PAREN ")" 1 3,
           Token.mk TokenType.END_OF_FILE "" 1 0])
        [Token.mk TokenType.IDENTIFIER "f" 1 0, Token.mk TokenType.LEFT_PAREN "(" 1 1,
         Token.mk TokenType.IDENTIFIER "x" 1 2, Token.mk TokenType.RIGHT_PAREN ")" 1 3,
         Token.mk TokenType.END_OF_FILE "" 1 0] 0 = Except.ok (call, j) ∧
      accept
        [Token.mk TokenType.IDENTIFIER "f" 1 0, Token.mk TokenType.LEFT_PAREN "(" 1 1,
         Token.mk TokenType.IDENTIFIER "x" 1 2, Token.mk TokenType.RIGHT_PAREN ")" 1 3,
         Token.mk TokenType.END_OF_FILE "" 1 0] j TokenType.SEMICOLON = Except.ok j' ∧
      parseStep
        [Token.mk TokenType.IDENTIFIER "f" 1 0, Token.mk TokenType.LEFT_PAREN "(" 1 1,
         Token.mk TokenType.IDENTIFIER "x" 1 2, Token.mk TokenType.RIGHT_PAREN ")" 1 3,
         Token.mk TokenType.END_OF_FILE "" 1 0] (ParseState.mk true 0 []) =
        Except.ok (Step.next (ParseState.mk true j'
          ([] ++ [AST.mk ASTType.CallStatement "call_stmt" 1 [("expression", [call])]])))) ∧
    (∃ expr j j',
      parseExpressionForwardDecl
        [Token.mk TokenType.IDENTIFIER "a" 1 0, Token.mk TokenType.DOT "." 1 1,
         Token.mk TokenType.IDENTIFIER "b" 1 2, Token.mk TokenType.END_OF_FILE "" 1 0] 0 =
        Except.ok (expr, j) ∧
      accept
        [Token.mk TokenType.IDENTIFIER "a" 1 0, Token.mk TokenType.DOT "." 1 1,
         Token.mk TokenType.IDENTIFIER "b" 1 2, Token.mk TokenType.END_OF_FILE "" 1 0] j
        TokenType.SEMICOLON = Except.ok j' ∧
      parseStep
        [Token.mk TokenType.IDENTIFIER "a" 1 0, Token.mk TokenType.DOT "." 1 1,
         Token.mk TokenType.IDENTIFIER "b" 1 2, Token.mk TokenType.END_OF_FILE "" 1 0]
        (ParseState.mk true 0 []) =
        Except.ok (Step.next (ParseState.mk true j'
          ([] ++ [AST.mk ASTType.Chunk "expr" expr.line [("statements", [expr])]])))) :=
  ⟨rfl, rfl,
   (C28_statement_kind_after_an_identifier
      [Token.mk TokenType.IDENTIFIER "f" 1 0, Token.mk TokenType.LEFT_PAREN "(" 1 1,
       Token.mk TokenType.IDENTIFIER "x" 1 2, Token.mk TokenType.RIGHT_PAREN ")" 1 3,
       Token.mk TokenType.END_OF_FILE "" 1 0] (ParseState.mk true 0 [])
      (Token.mk TokenType.IDENTIFIER "f" 1 0) rfl rfl rfl).1
      (Token.mk TokenType.LEFT_PAREN "(" 1 1) rfl rfl,
   (C28_statement_kind_after_an_identifier
      [Token.mk TokenType.IDENTIFIER "a" 1 0, Token.mk TokenType.DOT "." 1 1,
       Token.mk TokenType.IDENTIFIER "b" 1 2, Token.mk TokenType.END_OF_FILE "" 1 0]
      (ParseState.mk true 0 []) (Token.mk TokenType.IDENTIFIER "a" 1 0) rfl rfl rfl).2
      (fun u hu => by cases hu; decide)⟩

/-- C29: on the tokens of `a.b[c](d)` `parseExpressionForwardDecl` returns the
`CallExpression` whose callee is the `IndexExpression` whose object is the `MemberExpression`
of `a` and `b`, with the cursor on END_OF_FILE; and in general a round of the suffix loop at a
`[`, at a `(` or at a `.` followed by an identifier goes on with the cursor moved on, and every
round that goes on returns a `MemberExpression` or `IndexExpression` whose slot `object`, or a
`CallExpression` whose slot `callee`, holds exactly the expression built so far. -/
theorem C29_suffixes_wrap_the_expression_built_so_far :
    (Lexer "a.b[c](d)" >>= fun toks => parseExpressionForwardDecl toks 0) = Except.ok
      (AST.mk ASTType.CallExpression "call" 1
        [("callee", [AST.mk ASTType.IndexExpression "[]" 1
          [("object", [AST.mk ASTType.MemberExpression "." 1
            [("object", [AST.mk ASTType.Identifier "a" 1 []]),
             ("property", [AST.mk ASTType.Identifier "b" 1 []])]]),
           ("index", [AST.mk ASTType.Identifier "c" 1 []])]]),
         ("arguments", [AST.mk ASTType.Identifier "d" 1 []])], 9) ∧
    (Lexer "a.b[c](d)").map List.length = Except.ok 10 ∧
    (∀ (Tokens : List Token) (s : AST × Nat) (t : Token), Tokens.get? s.2 = some t →
      (t.type = TokenType.LEFT_BRACKET ∨ t.type = TokenType.LEFT_PAREN ∨
        (t.type = TokenType.DOT ∧
          ∃ m, Tokens.get? (s.2 + 1) = some m ∧ m.type = TokenType.IDENTIFIER)) →
      ∃ r, suffixStep (parseExpressionForwardDecl Tokens) Tokens s =
          Except.ok (Step.next r) ∧ s.2 < r.2) ∧
    (∀ (pe : PE) (Tokens : List Token) (s r : AST × Nat),
      suffixStep pe Tokens s = Except.ok (Step.next r) →
      (r.1.type = ASTType.MemberExpression ∧ r.1.slot "object" = some [s.1]) ∨
      (r.1.type = ASTType.IndexExpression ∧ r.1.slot "object" = some [s.1]) ∨
      (r.1.type = ASTType.CallExpression ∧ r.1.slot "callee" = some [s.1])) := by
  refine ⟨rfl, rfl, ?_, ?_⟩
  · intro Tokens s t ht hsuf
    have hlt := get_lt Tokens s.2 t ht
    obtain ⟨b, hb, hpost⟩ := suffixStep_post (parseExpressionForwardDecl Tokens) Tokens s
      (by omega) (parseExpression_PEok Tokens _)
    obtain ⟨r, hr⟩ := suffixStep_goes_on _ Tokens s t ht hsuf b hb
    subst hr
    exact ⟨r, hb, hpost.1⟩
  · intro pe Tokens s r h
    exact suffixStep_wraps pe Tokens s _ h r rfl

/-- C29, at the first suffix of `a.b[c](d)`: the round of the suffix loop on the `.` gives the
`MemberExpression` around `a`. -/
theorem C29_witness :
    [Token.mk TokenType.IDENTIFIER "a" 1 0, Token.mk TokenType.DOT "." 1 1,
      Token.mk TokenType.IDENTIFIER "b" 1 2, Token.mk TokenType.END_OF_FILE "" 1 0].get? 1 =
      some (Token.mk TokenType.DOT "." 1 1) ∧
    ∃ r, suffixStep
        (parseExpressionForwardDecl
          [Token.mk TokenType.IDENTIFIER "a" 1 0, Token.mk TokenType.DOT "." 1 1,
           Token.mk TokenType.IDENTIFIER "b" 1 2, Token.mk TokenType.END_OF_FILE "" 1 0])
        [Token.mk TokenType.IDENTIFIER "a" 1 0, Token.mk TokenType.DOT "." 1 1,
         Token.mk TokenType.IDENTIFIER "b" 1 2, Token.mk TokenType.END_OF_FILE "" 1 0]
        (AST.mk ASTType.Identifier "a" 1 [], 1) = Except.ok (Step.next r) ∧ 1 < r.2 :=
  ⟨rfl, C29_suffixes_wrap_the_expression_built_so_far.2.2.1
    [Token.mk TokenType.IDENTIFIER "a" 1 0, Token.mk TokenType.DOT "." 1 1,
     Token.mk TokenType.IDENTIFIER "b" 1 2, Token.mk TokenType.END_OF_FILE "" 1 0]
    (AST.mk ASTType.Identifier "a" 1 [], 1) (Token.mk TokenType.DOT "." 1 1) rfl
    (Or.inr (Or.inr ⟨rfl, Token.mk TokenType.IDENTIFIER "b" 1 2, rfl, rfl⟩))⟩

/-- C30: for every source made of one or more digits `ip`, a fraction `fr` (nothing, or `.`
and digits) and an exponent `ex` (nothing, or `e` or `E`, an optional `+` or `-`, and digits),
`Lexer` returns exactly the NUMBER token whose text is the whole source, then END_OF_FILE.  The
digits after `.` and in the exponent may be one or more as in the claim, or none. -/
theorem C30_decimal_literal_is_one_number (ip fr ex : List Char) (hip : ip ≠ [])
    (hdig : ∀ x ∈ ip, is_digit x = true) (hfr : isFraction fr) (hex : isExponent ex) :
    Lexer (String.mk (ip ++ fr ++ ex)) = Except.ok
      [Token.mk TokenType.NUMBER (String.mk (ip ++ fr ++ ex)) 1 0,
       Token.mk TokenType.END_OF_FILE "" 1 0] := by
  rw [List.append_assoc]
  obtain ⟨c, ip', rfl⟩ := List.exists_cons_of_ne_nil hip
  have hlen : (c :: ip' ++ (fr ++ ex)).length = (ip' ++ (fr ++ ex)).length + 1 := rfl
  have hfirst : lexStep (c :: ip' ++ (fr ++ ex)) (LexState.mk 0 1 []) =
      Except.ok (Step.next (LexState.mk (c :: ip' ++ (fr ++ ex)).length 1
        [Token.mk TokenType.NUMBER (String.mk (c :: ip' ++ (fr ++ ex))) 1 0])) := by
    rw [lexStep_digit (c :: ip' ++ (fr ++ ex)) (LexState.mk 0 1 [])
      (by rw [hlen]; exact Nat.succ_pos _) (hdig c (List.mem_cons_self _ _)),
      lexNumber_decimal _ fr ex _ hdig hfr hex]
    rfl
  have hlast := lexStep_end (c :: ip' ++ (fr ++ ex))
    (LexState.mk (c :: ip' ++ (fr ++ ex)).length 1
      [Token.mk TokenType.NUMBER (String.mk (c :: ip' ++ (fr ++ ex))) 1 0]) (le_refl _)
  unfold Lexer
  dsimp only
  rw [hlen, loop_next _ _ _ _ hfirst, loop_done _ _ _ _ hlast]
  rfl

/-- C30 at `123.456`, at `1e-5` and at `10`. -/
theorem C30_witness :
    (("123".data ≠ [] ∧ (∀ x ∈ "123".data, is_digit x = true) ∧ isFraction ".456".data ∧
        isExponent []) ∧
      Lexer "123.456" = Except.ok
        [Token.mk TokenType.NUMBER "123.456" 1 0, Token.mk TokenType.END_OF_FILE "" 1 0]) ∧
    Lexer "1e-5" = Except.ok
      [Token.mk TokenType.NUMBER "1e-5" 1 0, Token.mk TokenType.END_OF_FILE "" 1 0] ∧
    Lexer "10" = Except.ok
      [Token.mk TokenType.NUMBER "10" 1 0, Token.mk TokenType.END_OF_FILE "" 1 0] :=
  ⟨⟨⟨by decide, by decide, Or.inr ⟨"456".data, rfl, by decide⟩, Or.inl rfl⟩,
    C30_decimal_literal_is_one_number "123".data ".456".data [] (by decide) (by decide)
      (Or.inr ⟨"456".data, rfl, by decide⟩) (Or.inl rfl)⟩,
   C30_decimal_literal_is_one_number "1".data [] "e-5".data (by decide) (by decide)
      (Or.inl rfl) (Or.inr ⟨'e', ['-'], ['5'], rfl, Or.inl rfl, Or.inr (Or.inr rfl), by decide⟩),
   C30_decimal_literal_is_one_number "10".data [] [] (by decide) (by decide)
      (Or.inl rfl) (Or.inl rfl)⟩

/-- C27: for a comma-separated list of one or more IDENTIFIER tokens (`v :: vs`), an EQUAL
token, a comma-separated list of one or more NUMBER or STRING tokens (`es`) and an END_OF_FILE
token, `Parse` returns a chunk of exactly one `AssignmentStatement`, on the line of the first
identifier, whose slot `variables` holds the `Identifier` leaves of the identifiers in order
and whose slot `values` holds the leaves of the literals in order. -/
theorem C27_assignment_of_literals (v : Token) (vs es : List Token) (eq eof : Token)
    (hvs : commaSeparated isIdentTok (v :: vs) = true)
    (hes : commaSeparated isLiteralTok es = true)
    (heq : eq.type = TokenType.EQUAL) (heof : eof.type = TokenType.END_OF_FILE) :
    Parse (v :: vs ++ eq :: (es ++ [eof])) = Except.ok
      [AST.mk ASTType.AssignmentStatement "assign" v.line
        [("variables", (items (v :: vs)).map identLeaf),
         ("values", (items es).map literalLeaf)]] := by
  generalize hT : v :: vs ++ eq :: (es ++ [eof]) = Tokens
  have hlen : Tokens.length = (v :: vs).length + 1 + es.length + 1 := by
    rw [← hT]
    simp only [List.length_append, List.length_cons, List.length_nil]
    omega
  have hd0 : Tokens.drop 0 = (v :: vs) ++ eq :: (es ++ [eof]) := by
    rw [← hT]; rfl
  have hvt : v.type = TokenType.IDENTIFIER := by
    cases vs with
    | nil => simpa [commaSeparated, isIdentTok] using hvs
    | cons c rest =>
      simp only [commaSeparated, isIdentTok, Bool.and_eq_true, beq_iff_eq] at hvs
      exact hvs.1
  have h0 : Tokens.get? 0 = some v := get?_of_drop Tokens 0 v _ hd0
  -- the token after the first identifier is `=` or a comma
  have h1 : ∃ u, Tokens.get? (0 + 1) = some u ∧
      (u.type = TokenType.EQUAL ∨ u.type = TokenType.COMMA) := by
    have hd1 := drop_succ_of_drop Tokens 0 v _ hd0
    cases vs with
    | nil => exact ⟨eq, get?_of_drop Tokens 1 eq _ hd1, Or.inl heq⟩
    | cons c rest =>
      simp only [commaSeparated, isIdentTok, Bool.and_eq_true, beq_iff_eq] at hvs
      exact ⟨c, get?_of_drop Tokens 1 c _ hd1, Or.inr hvs.2.1⟩
  obtain ⟨u, hu, hut⟩ := h1
  have hvars := var_loop Tokens eq (by rw [heq]; decide) (v :: vs) hvs 0 [] (Tokens.length + 1)
    (es ++ [eof]) hd0 (by omega)
  rw [List.nil_append, Nat.zero_add] at hvars
  -- the cursor after the variables is on `=`
  have hdeq : Tokens.drop (v :: vs).length = eq :: (es ++ [eof]) := by
    rw [← hT]
    exact List.drop_left _ _
  have hgeq := get?_of_drop Tokens _ eq _ hdeq
  have hdes := drop_succ_of_drop Tokens _ eq _ hdeq
  have hvals := parseExpressionList_literals Tokens eof heof es hes ((v :: vs).length + 1) []
    hdes
  have hnode := defaultNode_assign Tokens 0 v u eq _ _ _ _ hvt hu hut hvars hgeq heq hvals
  rw [assign_two _ _ _ _ _
    (by simpa using items_ne_nil isIdentTok (v :: vs) hvs)
    (by simpa using items_ne_nil isLiteralTok es hes)] at hnode
  -- the cursor after the values is on END_OF_FILE
  have hdeof : Tokens.drop ((v :: vs).length + 1 + es.length) = [eof] := by
    rw [← hT]
    have : v :: vs ++ eq :: (es ++ [eof]) = (v :: vs ++ eq :: es) ++ [eof] := by simp
    rw [this]
    have hl : (v :: vs).length + 1 + es.length = (v :: vs ++ eq :: es).length := by
      simp only [List.length_append, List.length_cons]
      omega
    rw [hl]
    exact List.drop_left _ _
  have hgeof := get?_of_drop Tokens _ eof _ hdeof
  have hacc : accept Tokens ((v :: vs).length + 1 + es.length) TokenType.SEMICOLON =
      Except.ok ((v :: vs).length + 1 + es.length) := by
    unfold accept
    rw [typeIs_false Tokens _ _ (fun w hw => by rw [hgeof] at hw; cases hw; rw [heof]; decide)]
    rfl
  have hstep1 := parseStep_default Tokens (ParseState.mk true 0 []) v _ _ _ rfl h0 hvt hnode
    hacc
  have hstep2 := parseStep_eof Tokens (ParseState.mk true ((v :: vs).length + 1 + es.length)
    ([] ++ [AST.mk ASTType.AssignmentStatement "assign" v.line
      [("variables", (items (v :: vs)).map identLeaf),
       ("values", (items es).map literalLeaf)]])) eof rfl hgeof heof
  have hstep3 := parseStep_stopped Tokens (ParseState.mk false
    ((v :: vs).length + 1 + es.length)
    ([] ++ [AST.mk ASTType.AssignmentStatement "assign" v.line
      [("variables", (items (v :: vs)).map identLeaf),
       ("values", (items es).map literalLeaf)]])) rfl
  unfold Parse
  have hfuel : Tokens.length + 1 = ((v :: vs).length + es.length) + 1 + 1 + 1 := by omega
  rw [hfuel, loop_next _ _ _ _ hstep1, loop_next _ _ _ _ hstep2, loop_done _ _ _ _ hstep3]
  rfl

/-- C27 on the tokens of `a, b = 1, 2`. -/
theorem C27_witness :
    Lexer "a, b = 1, 2" = Except.ok
      ([Token.mk TokenType.IDENTIFIER "a" 1 0, Token.mk TokenType.COMMA "," 1 1,
        Token.mk TokenType.IDENTIFIER "b" 1 3] ++ Token.mk TokenType.EQUAL "=" 1 5 ::
       ([Token.mk TokenType.NUMBER "1" 1 7, Token.mk TokenType.COMMA "," 1 8,
         Token.mk TokenType.NUMBER "2" 1 10] ++ [Token.mk TokenType.END_OF_FILE "" 1 0])) ∧
    (commaSeparated isIdentTok
        [Token.mk TokenType.IDENTIFIER "a" 1 0, Token.mk TokenType.COMMA "," 1 1,
         Token.mk TokenType.IDENTIFIER "b" 1 3] = true ∧
      commaSeparated isLiteralTok
        [Token.mk TokenType.NUMBER "1" 1 7, Token.mk TokenType.COMMA "," 1 8,
         Token.mk TokenType.NUMBER "2" 1 10] = true) ∧
    Parse ([Token.mk TokenType.IDENTIFIER "a" 1 0, Token.mk TokenType.COMMA "," 1 1,
        Token.mk TokenType.IDENTIFIER "b" 1 3] ++ Token.mk TokenType.EQUAL "=" 1 5 ::
       ([Token.mk TokenType.NUMBER "1" 1 7, Token.mk TokenType.COMMA "," 1 8,
         Token.mk TokenType.NUMBER "2" 1 10] ++ [Token.mk TokenType.END_OF_FILE "" 1 0])) =
      Except.ok
        [AST.mk ASTType.AssignmentStatement "assign" 1
          [("variables", [AST.mk ASTType.Identifier "a" 1 [], AST.mk ASTType.Identifier "b" 1 []]),
           ("values", [AST.mk ASTType.NumericLiteral "1" 1 [],
                       AST.mk ASTType.NumericLiteral "2" 1 []])]] :=
  ⟨rfl, ⟨rfl, rfl⟩,
   C27_assignment_of_literals (Token.mk TokenType.IDENTIFIER "a" 1 0)
     [Token.mk TokenType.COMMA "," 1 1, Token.mk TokenType.IDENTIFIER "b" 1 3]
     [Token.mk TokenType.NUMBER "1" 1 7, Token.mk TokenType.COMMA "," 1 8,
      Token.mk TokenType.NUMBER "2" 1 10]
     (Token.mk TokenType.EQUAL "=" 1 5) (Token.mk TokenType.END_OF_FILE "" 1 0) rfl rfl rfl rfl⟩

/-- C26: for every token list `Parse` returns a chunk, and every `IfStatement` node in it, at
the top or below, has the one slot `clauses`, whose sequence is one `IfClause`, then
`ElseifClause` nodes, then at most one `ElseClause`; an `IfClause` and an `ElseifClause` have
exactly the slots `condition` with one child and `body` with one child of kind `Block`, and an
`ElseClause` exactly the slot `body` with one child of kind `Block`. -/
theorem C26_if_statement_clause_sequence (Tokens : List Token) :
    ∃ chunk, Parse Tokens = Except.ok chunk ∧
      ∀ top ∈ chunk, ∀ n, Inside n top → n.type = ASTType.IfStatement →
        ∃ cl ic elifs els, n.children = [("clauses", cl)] ∧ cl = ic :: (elifs ++ els) ∧
          isCondClause ASTType.IfClause ic ∧
          (∀ e ∈ elifs, isCondClause ASTType.ElseifClause e) ∧
          (els = [] ∨ ∃ e, els = [e] ∧ isElseClause e) := by
  obtain ⟨chunk, hchunk, hgood⟩ := Parse_good Tokens
  refine ⟨chunk, hchunk, ?_⟩
  intro top htop n hn hty
  obtain ⟨cl, hcl, ic, elifs, els, h⟩ := ifNode_of_good top (hgood top htop) n hn hty
  exact ⟨cl, ic, elifs, els, hcl, h⟩

/-- C26 on the tokens of `if a then b elseif c then d else e end`: the chunk is one
`IfStatement` with the clauses `IfClause`, `ElseifClause`, `ElseClause`. -/
theorem C26_witness :
    (Lexer "if a then b elseif c then d else e end" >>= Parse) = Except.ok
      [AST.mk ASTType.IfStatement "if" 1
        [("clauses",
          [AST.mk ASTType.IfClause "if" 1
            [("condition", [AST.mk ASTType.Identifier "a" 1 []]),
             ("body", [AST.mk ASTType.Block "then" 1
               [("statements", [AST.mk ASTType.Identifier "b" 1 []])]])],
           AST.mk ASTType.ElseifClause "elseif" 1
            [("condition", [AST.mk ASTType.Identifier "c" 1 []]),
             ("body", [AST.mk ASTType.Block "elseif" 1
               [("statements", [AST.mk ASTType.Identifier "d" 1 []])]])],
           AST.mk ASTType.ElseClause "else" 1
            [("body", [AST.mk ASTType.Block "else" 1
               [("statements", [AST.mk ASTType.Identifier "e" 1 []])]])]])]] ∧
    ∃ chunk, Parse [Token.mk TokenType.IF "if" 1 0, Token.mk TokenType.IDENTIFIER "a" 1 3,
        Token.mk TokenType.THEN "then" 1 5, Token.mk TokenType.IDENTIFIER "b" 1 10,
        Token.mk TokenType.END "end" 1 12, Token.mk TokenType.END_OF_FILE "" 1 0] =
        Except.ok chunk ∧
      ∀ top ∈ chunk, ∀ n, Inside n top → n.type = ASTType.IfStatement →
        ∃ cl ic elifs els, n.children = [("clauses", cl)] ∧ cl = ic :: (elifs ++ els) ∧
          isCondClause ASTType.IfClause ic ∧
          (∀ e ∈ elifs, isCondClause ASTType.ElseifClause e) ∧
          (els = [] ∨ ∃ e, els = [e] ∧ isElseClause e) :=
  ⟨rfl, C26_if_statement_clause_sequence
    [Token.mk TokenType.IF "if" 1 0, Token.mk TokenType.IDENTIFIER "a" 1 3,
     Token.mk TokenType.THEN "then" 1 5, Token.mk TokenType.IDENTIFIER "b" 1 10,
     Token.mk TokenType.END "end" 1 12, Token.mk TokenType.END_OF_FILE "" 1 0]⟩

/-- C34: `Lexer` on `--[x` returns LEFT_BRACKET, IDENTIFIER `x`, END_OF_FILE, and on `--x`
only END_OF_FILE; in general, at `--` followed by `[` a round of the main loop moves the cursor
by two without a token and without skipping the line, and at a `[` followed by neither `[` nor
`=` the next round pushes the LEFT_BRACKET token and goes on after it. -/
theorem C34_dashes_before_a_plain_bracket :
    Lexer "--[x" = Except.ok
      [Token.mk TokenType.LEFT_BRACKET "[" 1 2, Token.mk TokenType.IDENTIFIER "x" 1 3,
       Token.mk TokenType.END_OF_FILE "" 1 0] ∧
    Lexer "--x" = Except.ok [Token.mk TokenType.END_OF_FILE "" 1 0] ∧
    (∀ (data : List Char) (st : LexState), st.idx + 2 < data.length →
      data.getD st.idx NUL = '-' → data.getD (st.idx + 1) NUL = '-' →
      data.getD (st.idx + 2) NUL = '[' →
      lexStep data st = Except.ok (Step.next (LexState.mk (st.idx + 2) st.line st.tokens)) ∧
      (data.getD (st.idx + 3) NUL ≠ '[' → data.getD (st.idx + 3) NUL ≠ '=' →
        lexStep data (LexState.mk (st.idx + 2) st.line st.tokens) =
          Except.ok (Step.next (LexState.mk (st.idx + 3) st.line
            (st.tokens ++ [Token.mk TokenType.LEFT_BRACKET "[" st.line (st.idx + 2)]))))) := by
  refine ⟨rfl, rfl, ?_⟩
  intro data st hlt h0 h1 h2
  constructor
  · rw [lexStep_dash data st (by omega) h0, if_pos (by rw [peek_eq, h1]; rfl),
      if_pos (by rw [peek_zero, h2]; rfl)]
  · intro h3 h4
    rw [lexStep_bracket data (LexState.mk (st.idx + 2) st.line st.tokens) hlt h2,
      lexBracket_plain data (LexState.mk (st.idx + 2) st.line st.tokens) hlt h2 h3 h4]
    rfl

/-- C34, the two rounds at the start of `--[x`. -/
theorem C34_witness :
    (0 + 2 < "--[x".data.length ∧ "--[x".data.getD 0 NUL = '-' ∧
      "--[x".data.getD (0 + 1) NUL = '-' ∧ "--[x".data.getD (0 + 2) NUL = '[' ∧
      "--[x".data.getD (0 + 3) NUL ≠ '[' ∧ "--[x".data.getD (0 + 3) NUL ≠ '=') ∧
    lexStep "--[x".data (LexState.mk 0 1 []) = Except.ok (Step.next (LexState.mk 2 1 [])) ∧
    lexStep "--[x".data (LexState.mk 2 1 []) =
      Except.ok (Step.next (LexState.mk 3 1 [Token.mk TokenType.LEFT_BRACKET "[" 1 2])) :=
  ⟨⟨by decide, rfl, rfl, rfl, by decide, by decide⟩,
   (C34_dashes_before_a_plain_bracket.2.2 "--[x".data (LexState.mk 0 1 []) (by decide) rfl rfl
      rfl).1,
   (C34_dashes_before_a_plain_bracket.2.2 "--[x".data (LexState.mk 0 1 []) (by decide) rfl rfl
      rfl).2 (by decide) (by decide)⟩

/-- C35: for every source `Lexer` returns, and the text of every NUMBER token begins with a
decimal digit; on `.5` it returns DOT, NUMBER `5`, END_OF_FILE. -/
theorem C35_number_tokens_start_with_a_digit :
    (∀ Code : String, ∃ toks, Lexer Code = Except.ok toks ∧
      ∀ t ∈ toks, t.type = TokenType.NUMBER →
        ∃ d rest, t.text.data = d :: rest ∧ is_digit d = true) ∧
    Lexer ".5" = Except.ok
      [Token.mk TokenType.DOT "." 1 0, Token.mk TokenType.NUMBER "5" 1 1,
       Token.mk TokenType.END_OF_FILE "" 1 0] :=
  ⟨Lexer_numOK, rfl⟩

/-- C33: for every token list `Parse` returns a chunk in which no node strictly below a chunk
element has one of the kinds LocalStatement, AssignmentStatement, IfStatement, WhileStatement,
FunctionDeclaration, CallStatement; and for the tokens of `while x do y = 1 end` the chunk is
one WhileStatement whose body block holds the expression nodes `y`, `?`, `1` and no
AssignmentStatement. -/
theorem C33_statement_kinds_only_at_the_top (Tokens : List Token) :
    (∃ chunk, Parse Tokens = Except.ok chunk ∧
      ∀ top ∈ chunk, ∀ n, Below n top → isStmtKind n.type = false) ∧
    (Lexer "while x do y = 1 end" >>= Parse) = Except.ok
      [AST.mk ASTType.WhileStatement "while" 1
        [("condition", [AST.mk ASTType.Identifier "x" 1 []]),
         ("body", [AST.mk ASTType.Block "while_body" 1
           [("statements", [AST.mk ASTType.Identifier "y" 1 [],
              AST.mk ASTType.Identifier "?" 1 [],
              AST.mk ASTType.NumericLiteral "1" 1 []])]])]] := by
  refine ⟨?_, rfl⟩
  obtain ⟨chunk, hchunk, hfree⟩ := Parse_stmtFree Tokens
  refine ⟨chunk, hchunk, ?_⟩
  rintro top htop n ⟨k, v, c, hk, hc, hn⟩
  exact hfree top htop k v c hk hc n hn

/-- C33 on the tokens of `if a then local b = 1 end`: the chunk is one IfStatement, and no
node below it is a statement of the six kinds. -/
theorem C33_witness :
    (∃ chunk, Parse [Token.mk TokenType.IF "if" 1 0, Token.mk TokenType.IDENTIFIER "a" 1 3,
        Token.mk TokenType.THEN "then" 1 5, Token.mk TokenType.LOCAL "local" 1 10,
        Token.mk TokenType.IDENTIFIER "b" 1 16, Token.mk TokenType.EQUAL "=" 1 18,
        Token.mk TokenType.NUMBER "1" 1 20, Token.mk TokenType.END "end" 1 22,
        Token.mk TokenType.END_OF_FILE "" 1 0] = Except.ok chunk ∧
      ∀ top ∈ chunk, ∀ n, Below n top → isStmtKind n.type = false) :=
  (C33_statement_kinds_only_at_the_top
    [Token.mk TokenType.IF "if" 1 0, Token.mk TokenType.IDENTIFIER "a" 1 3,
     Token.mk TokenType.THEN "then" 1 5, Token.mk TokenType.LOCAL "local" 1 10,
     Token.mk TokenType.IDENTIFIER "b" 1 16, Token.mk TokenType.EQUAL "=" 1 18,
     Token.mk TokenType.NUMBER "1" 1 20, Token.mk TokenType.END "end" 1 22,
     Token.mk TokenType.END_OF_FILE "" 1 0]).1

/-- C31: for a quote `q` and a body made of plain characters other than `q` and the backslash
and of backslash pairs, `Lexer` on `q ++ body ++ q` returns one STRING token, whose text is the
body as it stands in the source, and END_OF_FILE. -/
theorem C31_quoted_string_keeps_backslash_pairs (q : Char) (hq : q = DQUOTE ∨ q = SQUOTE)
    (ps : List Piece) (hps : ∀ p ∈ ps, p.ok q) :
    Lexer (String.mk (q :: (bodyOf ps ++ [q]))) = Except.ok
      [Token.mk TokenType.STRING (String.mk (bodyOf ps)) (1 + plainNewlines ps) 1,
       Token.mk TokenType.END_OF_FILE "" (1 + plainNewlines ps) 0] := by
  have hlen : (q :: (bodyOf ps ++ [q])).length = (bodyOf ps).length + 2 := by
    simp only [List.length_cons, List.length_append, List.length_nil]
  have hfirst : lexStep (q :: (bodyOf ps ++ [q])) (LexState.mk 0 1 []) =
      Except.ok (Step.next (LexState.mk ((bodyOf ps).length + 2) (1 + plainNewlines ps)
        [Token.mk TokenType.STRING (String.mk (bodyOf ps)) (1 + plainNewlines ps) 1])) := by
    rw [lexStep_quote (q :: (bodyOf ps ++ [q])) (LexState.mk 0 1 []) q
      (by simp only [List.length_cons]; omega) rfl hq, lexQuoted_pieces q hq ps hps]
    rfl
  have hlast := lexStep_end (q :: (bodyOf ps ++ [q]))
    (LexState.mk ((bodyOf ps).length + 2) (1 + plainNewlines ps)
      [Token.mk TokenType.STRING (String.mk (bodyOf ps)) (1 + plainNewlines ps) 1])
    (by rw [hlen])
  unfold Lexer
  show (match loop ((q :: (bodyOf ps ++ [q])).length + 1) (lexStep (q :: (bodyOf ps ++ [q]))) _
    with
    | Except.error e => Except.error e
    | Except.ok st => _) = _
  rw [hlen, loop_next _ _ _ _ hfirst, loop_done _ _ _ _ hlast]
  rfl

/-- C31 on the source of `a`, backslash, double quote, `b`, backslash, `n` between double
quotes: the STRING text keeps both backslash pairs. -/
theorem C31_witness :
    (DQUOTE = DQUOTE ∨ DQUOTE = SQUOTE) ∧
    (∀ p ∈ [Piece.plain 'a', Piece.escaped DQUOTE, Piece.plain 'b', Piece.escaped 'n'],
      p.ok DQUOTE) ∧
    Lexer (String.mk [DQUOTE, 'a', BACKSLASH, DQUOTE, 'b', BACKSLASH, 'n', DQUOTE]) = Except.ok
      [Token.mk TokenType.STRING (String.mk ['a', BACKSLASH, DQUOTE, 'b', BACKSLASH, 'n']) 1 1,
       Token.mk TokenType.END_OF_FILE "" 1 0] :=
  ⟨Or.inl rfl,
   by
    intro p hp
    simp only [List.mem_cons, List.mem_singleton, List.not_mem_nil, or_false] at hp
    rcases hp with rfl | rfl | rfl | rfl
    · exact ⟨by decide, by decide⟩
    · trivial
    · exact ⟨by decide, by decide⟩
    · trivial,
   C31_quoted_string_keeps_backslash_pairs DQUOTE (Or.inl rfl)
    [Piece.plain 'a', Piece.escaped DQUOTE, Piece.plain 'b', Piece.escaped 'n']
    (by
      intro p hp
      simp only [List.mem_cons, List.mem_singleton, List.not_mem_nil, or_false] at hp
      rcases hp with rfl | rfl | rfl | rfl
      · exact ⟨by decide, by decide⟩
      · trivial
      · exact ⟨by decide, by decide⟩
      · trivial)⟩

/-- C32: for a level `n`, a body in which the closing delimiter of level `n` does not start
before the end of the body, and a name that is no reserved word, `Lexer` on `--[`, `n` times
`=`, `[`, body, `]`, `n` times `=`, `]`, a blank and the name returns the IDENTIFIER token of
the name, on line 1 + the number of newlines of the body, and END_OF_FILE; on `--[`, `n` times
`=`, `[` and a body that holds no closing delimiter of level `n` it returns END_OF_FILE
alone. -/
theorem C32_long_comment_emits_no_token (n : Nat) (body : List Char) (c : Char)
    (rest : List Char) (hc : is_alpha c = true) (hrest : ∀ x ∈ rest, is_alnum x = true)
    (hname : String.mk (c :: rest) ∉ reservedWords) :
    ((∀ k, k < body.length → ¬ closer n <+: (body ++ (closer n ++ ' ' :: c :: rest)).drop k) →
      Lexer (String.mk ('-' :: '-' :: (opener n ++ (body ++ (closer n ++ ' ' :: c :: rest)))))
        = Except.ok
          [Token.mk TokenType.IDENTIFIER (String.mk (c :: rest)) (1 + body.count NL)
             (n + 4 + body.length + (n + 2) + 1),
           Token.mk TokenType.END_OF_FILE "" (1 + body.count NL) 0]) ∧
    ((∀ k, ¬ closer n <+: body.drop k) →
      Lexer (String.mk ('-' :: '-' :: (opener n ++ body))) = Except.ok
        [Token.mk TokenType.END_OF_FILE "" (1 + body.count NL) 0]) :=
  Lexer_long_comment n body c rest hc hrest (keywordTypeFast_of_not_reserved _ hname)

/-- C32 at level 1, with a body that holds a newline and the delimiter of level 0: the name is
on line 2 and the comment gives no token; without the closing delimiter only END_OF_FILE is
left. -/
theorem C32_witness :
    (is_alpha 'x' = true ∧ (∀ x ∈ "y1".data, is_alnum x = true) ∧ "xy1" ∉ reservedWords ∧
      (∀ k, k < "a]]\nb".data.length →
        ¬ closer 1 <+: ("a]]\nb".data ++ (closer 1 ++ ' ' :: 'x' :: "y1".data)).drop k) ∧
      (∀ k, ¬ closer 1 <+: "a]]\nb".data.drop k)) ∧
    Lexer "--[=[a]]\nb]=] xy1" = Except.ok
      [Token.mk TokenType.IDENTIFIER "xy1" 2 14, Token.mk TokenType.END_OF_FILE "" 2 0] ∧
    Lexer "--[=[a]]\nb" = Except.ok [Token.mk TokenType.END_OF_FILE "" 2 0] := by
  have h1 : ∀ k, k < "a]]\nb".data.length →
      ¬ closer 1 <+: ("a]]\nb".data ++ (closer 1 ++ ' ' :: 'x' :: "y1".data)).drop k := by
    decide
  have h2 : ∀ k, ¬ closer 1 <+: "a]]\nb".data.drop k := by
    intro k
    by_cases hk : k < 5
    · interval_cases k <;> decide
    · rw [List.drop_eq_nil_of_le (by show 5 ≤ k; omega)]
      decide
  have h := C32_long_comment_emits_no_token 1 "a]]\nb".data 'x' "y1".data (by decide)
    (by decide) (by decide)
  exact ⟨⟨by decide, by decide, by decide, h1, h2⟩, h.1 h1, h.2 h2⟩

end LuaParser
